import Mathlib

/-!
Aniverse: cipher codec, title resolver, episode merge and playlist parser

A shallow embedding of

* `internal/extractor/gogocdn.go`: `pad`, `unpad`, `aesEncrypt`, `aesDecrypt`,
  with the calls they make into `encoding/base64`, `crypto/aes` and
  `crypto/cipher`; `parseAttributes`, `parseMasterM3U8` and
  `calculateIntroOutro` after the fetch; `resolveURL`; the two loops of
  `Extract` over the decoded payload;
* `internal/util/mapper.go`: `min`, `max`, `JaroWinkler`, `FindBestMatch`,
  `FindOriginalTitle`, `Sanitize`;
* `internal/types`: `Title`, `Quality`, `Source`, `Episode`;
* `internal/mapping/episode.go`: the merge of the sub and dub lists in
  `GetEpisodes`;
* `internal/provider/gogoanime/gogoanime.go`: the episode list of
  `FetchEpisodes`;
* `internal/controller/search.go`: `Search`, up to its call of AniList.

Go byte slices and strings are lists of bytes, a byte is a `Fin 256`, a Go
`int` is an `Int` or, where it cannot be negative, a `Nat`; a `float64` is a
rational number. Where the outcome hangs on the comparison of two `float64`
scores, in `FindBestMatch` and `FindOriginalTitle`, the score function is a
parameter with values in a linear order (namespace `util.scored`), the
rounding of `float64` arithmetic not being that of the rationals. The merge
of `GetEpisodes` is given twice: on values, and with the quality slices in a
memory that episodes may share (namespace `mapping.heap`); the two agree when
no two episodes share an element (`mapping.heap.mergedRecords_eq`).
A Go function returning `(T, error)` returns `Except` with a type of its
errors, a panic of the codec being a `Fault` of its own; in the title
resolver, whose functions return no error, `none` stands for a panic.
The functions of the standard library that depend on Unicode tables
(`strings.ToLower`, `strings.Fields`, `strings.TrimSpace`), `url.Parse` and
`strconv.ParseFloat` are parameters of the functions that call them, and so
is `resolveURL` in `parseMasterM3U8`.

The file has three parts: the definitions, the lemmas, and the theorems
settling the claims `C1` to `C30`.
-/

namespace Aniverse

/-- A Go `byte`. -/
abbrev Byte := Fin 256

/-- A Go `[]byte` or `string`: a sequence of bytes. -/
abbrev Bytes := List Byte

/-- The ways in which the codec functions fail: the errors they return and
the panics of the standard library calls they make. -/
inductive Fault where
  /-- The error `unpad: data is empty`. -/
  | unpadEmpty
  /-- The error `unpad: invalid padding`. -/
  | unpadInvalidPadding
  /-- The error `unpad: invalid padding bytes`. -/
  | unpadInvalidPaddingBytes
  /-- The error `base64.CorruptInputError` of `base64.StdEncoding.DecodeString`. -/
  | base64Corrupt
  /-- The error `aes.KeySizeError` of `aes.NewCipher`. -/
  | keySize
  /-- The error `aesDecrypt: ciphertext is not a multiple of the block size`. -/
  | notBlockMultiple
  /-- The panic of `cipher.NewCBCEncrypter` / `cipher.NewCBCDecrypter` when
  the IV length differs from the block size -/
  | panicIVLength
  /-- The panic of `CryptBlocks` when the input is not a whole number
  of blocks. -/
  | panicNotFullBlocks
  deriving DecidableEq, Repr

instance instDecidableEqExcept {ε α : Type} [DecidableEq ε] [DecidableEq α] :
    DecidableEq (Except ε α)
  | .ok a, .ok b => if h : a = b then isTrue (by rw [h]) else isFalse (by intro h2; cases h2; exact h rfl)
  | .error a, .error b => if h : a = b then isTrue (by rw [h]) else isFalse (by intro h2; cases h2; exact h rfl)
  | .ok _, .error _ => isFalse (by intro h; cases h)
  | .error _, .ok _ => isFalse (by intro h; cases h)

namespace extractor

/-! ## PKCS#7 padding (`gogocdn.go`, `pad` and `unpad`) -/

/-- Method `Gogocdn.pad`: `padding := 16 - (len(data) % 16)`, then `padding` bytes
of value `byte(padding)` are appended. -/
def pad (data : Bytes) : Bytes :=
  let padding := 16 - (data.length % 16)
  let padText : Bytes := List.replicate padding (Fin.ofNat padding)
  data ++ padText

/-- Method `Gogocdn.unpad`. The loop `for i := 0; i < padding; i++` returns the
error at the first `i` with `data[len(data)-1-i] != byte(padding)`; the two
guards before it keep every index within `data`. -/
def unpad (data : Bytes) : Except Fault Bytes :=
  if data.length = 0 then
    .error .unpadEmpty
  else
    let padding : Nat := (data.getD (data.length - 1) 0).val
    if padding = 0 ∨ padding > data.length then
      .error .unpadInvalidPadding
    else if (List.range padding).any
        (fun i => data.getD (data.length - 1 - i) 0 != Fin.ofNat padding) then
      .error .unpadInvalidPaddingBytes
    else
      .ok (data.take (data.length - padding))

end extractor

namespace util

/-! ## Jaro-Winkler similarity and best match (`mapper.go`)

`strings.ToLower` belongs to the Go standard library; the functions below
take it as the parameter `toLower`. `float64` arithmetic is carried out in
exact rationals. `none` stands for a run-time panic (index out of range). -/

/-- Helper `min` of `mapper.go`. -/
def min (a b : Int) : Int := if a < b then a else b

/-- Helper `max` of `mapper.go`. -/
def max (a b : Int) : Int := if a > b then a else b

/-- The values of `s1Matches`, `s2Matches` and `matches` in `JaroWinkler`. -/
structure MatchState where
  /-- The slice `s1Matches`. -/
  s1Matches : List Bool
  /-- The slice `s2Matches`. -/
  s2Matches : List Bool
  /-- The counter `matches` (a reserved word here). -/
  matchCount : Nat
  deriving DecidableEq, Repr

/-- Inner loop `for j := start; j <= end; j++` of the match search, with
`fuel` iterations left. `some (some j)`: the loop left by `break` at `j`;
`some none`: the loop ran to its end; `none`: an index was out of range. -/
def matchScan (s1 s2 : Bytes) (s2Matches : List Bool) (i : Nat) : Nat → Nat → Option (Option Nat)
  | _, 0 => some none
  | j, fuel + 1 =>
    match s2Matches[j]? with
    | none => none
    | some true => matchScan s1 s2 s2Matches i (j + 1) fuel
    | some false =>
      match s1[i]?, s2[j]? with
      | some a, some b =>
        if a ≠ b then matchScan s1 s2 s2Matches i (j + 1) fuel else some (some j)
      | _, _ => none

/-- Outer loop `for i := 0; i < m; i++` of the match search, with `fuel`
iterations left. -/
def matchLoop (s1 s2 : Bytes) (matchDistance : Int) : Nat → Nat → MatchState → Option MatchState
  | _, 0, st => some st
  | i, fuel + 1, st =>
    let start := max 0 ((i : Int) - matchDistance)
    let stop := min ((s2.length : Int) - 1) ((i : Int) + matchDistance)
    match matchScan s1 s2 st.s2Matches i start.toNat (stop + 1 - start).toNat with
    | none => none
    | some none => matchLoop s1 s2 matchDistance (i + 1) fuel st
    | some (some j) =>
      if i < st.s1Matches.length ∧ j < st.s2Matches.length then
        matchLoop s1 s2 matchDistance (i + 1) fuel
          ⟨st.s1Matches.set i true, st.s2Matches.set j true, st.matchCount + 1⟩
      else none

/-- Loop `for !s2Matches[k] { k++ }` on the part of `s2Matches` from index
`k` on: the first index at or after `k` holding `true`, `none` when the
reads run past the end of the slice. -/
def skipUnmatched : List Bool → Nat → Option Nat
  | [], _ => none
  | true :: _, k => some k
  | false :: rest, k => skipUnmatched rest (k + 1)

/-- Loop `for i := 0; i < m; i++` counting transpositions, with `fuel`
iterations left, `k` the index into `s2` and `t` the count so far. -/
def transLoop (s1 s2 : Bytes) (s1Matches s2Matches : List Bool) :
    Nat → Nat → Nat → Nat → Option Nat
  | _, 0, _, t => some t
  | i, fuel + 1, k, t =>
    match s1Matches[i]? with
    | none => none
    | some false => transLoop s1 s2 s1Matches s2Matches (i + 1) fuel k t
    | some true =>
      match skipUnmatched (s2Matches.drop k) k with
      | none => none
      | some k1 =>
        match s1[i]?, s2[k1]? with
        | some a, some b =>
          transLoop s1 s2 s1Matches s2Matches (i + 1) fuel (k1 + 1) (if a ≠ b then t + 1 else t)
        | _, _ => none

/-- Loop `for i := 0; i < min(4, min(m, n)); i++` counting the common
prefix, with `fuel` iterations left. -/
def prefixLoop (s1 s2 : Bytes) : Nat → Nat → Nat → Option Nat
  | _, 0, p => some p
  | i, fuel + 1, p =>
    match s1[i]?, s2[i]? with
    | some a, some b => if a = b then prefixLoop s1 s2 (i + 1) fuel (p + 1) else some p
    | _, _ => none

/-- Function `JaroWinkler`. The integer divisions have non-negative
operands, where Go and Lean round alike. -/
def JaroWinkler (toLower : Bytes → Bytes) (s1 s2 : Bytes) : Option ℚ :=
  let s1 := toLower s1
  let s2 := toLower s2
  let m := s1.length
  let n := s2.length
  if m = 0 ∧ n = 0 then some 1
  else if m = 0 ∨ n = 0 then some 0
  else
    let matchDistance : Int := max m n / 2 - 1
    match matchLoop s1 s2 matchDistance 0 m
        ⟨List.replicate m false, List.replicate n false, 0⟩ with
    | none => none
    | some st =>
      if st.matchCount = 0 then some 0
      else
        match transLoop s1 s2 st.s1Matches st.s2Matches 0 m 0 0 with
        | none => none
        | some transpositions =>
          let transpositions := transpositions / 2
          let matchScore : ℚ := (st.matchCount : ℚ) / (m : ℚ)
          let transpositionScore : ℚ :=
            (((st.matchCount : Int) - (transpositions : Int) : Int) : ℚ) / (st.matchCount : ℚ)
          let similarity : ℚ := (matchScore + (st.matchCount : ℚ) / (n : ℚ) + transpositionScore) / 3
          match prefixLoop s1 s2 0 (min 4 (min m n)).toNat 0 with
          | none => none
          | some prefixLength =>
            some (similarity + (prefixLength : ℚ) * (1 / 10) * (1 - similarity))

/-- Loop `for _, target := range targets[1:]` of `FindBestMatch`. -/
def bestLoop (toLower : Bytes → Bytes) (mainString : Bytes) :
    List Bytes → Bytes → ℚ → Option Bytes
  | [], bestMatch, _ => some bestMatch
  | target :: rest, bestMatch, highestScore =>
    match JaroWinkler toLower mainString target with
    | none => none
    | some score =>
      if score > highestScore then bestLoop toLower mainString rest target score
      else bestLoop toLower mainString rest bestMatch highestScore

/-- Function `FindBestMatch`. -/
def FindBestMatch (toLower : Bytes → Bytes) (mainString : Bytes) (targets : List Bytes) :
    Option Bytes :=
  match targets with
  | [] => some []
  | first :: rest =>
    match JaroWinkler toLower mainString first with
    | none => none
    | some highestScore => bestLoop toLower mainString rest first highestScore

/-- The ASCII part of `strings.ToLower`: the bytes `A` to `Z` are moved to
`a` to `z`, every other byte is kept. Go lower-cases an ASCII-only string
in just this way. -/
def toLowerASCII (s : Bytes) : Bytes :=
  s.map (fun c => if 65 ≤ c.val ∧ c.val ≤ 90 then c + 32 else c)

end util

namespace util

/-! ### Specification notions for the match search -/

/-- Positions `i` of `s1` and `j` of `s2` can be matched: both exist, they
hold the same byte and `j` lies in the window of `i`. -/
def Compat (s1 s2 : Bytes) (d : Int) (i j : Nat) : Prop :=
  i < s1.length ∧ j < s2.length ∧ s1[i]? = s2[j]? ∧ (i : Int) - d ≤ j ∧ (j : Int) ≤ i + d

/-- A matching `P` between positions of `s1` and of `s2` is greedy from both
sides: every pair is compatible, and no position was passed over for a
later one, whichever string is walked. -/
structure Greedy (s1 s2 : Bytes) (d : Int) (P : Nat → Nat → Prop) : Prop where
  /-- A position of `s1` has at most one partner. -/
  functional : ∀ a b b', P a b → P a b' → b = b'
  /-- A position of `s2` has at most one partner. -/
  injective : ∀ a a' b, P a b → P a' b → a = a'
  /-- Partners are compatible. -/
  compat : ∀ a b, P a b → Compat s1 s2 d a b
  /-- An earlier candidate in `s2` was taken by an earlier position of `s1`. -/
  left1 : ∀ a b b', P a b → b' < b → Compat s1 s2 d a b' → ∃ a', a' < a ∧ P a' b'
  /-- An earlier candidate in `s1` was given an earlier position of `s2`. -/
  left2 : ∀ a a' b, P a b → a' < a → Compat s1 s2 d a' b → ∃ b', b' < b ∧ P a' b'
  /-- A position of `s1` left alone lost each candidate to an earlier position. -/
  max1 : ∀ a b, Compat s1 s2 d a b → (¬ ∃ b', P a b') → ∃ a', a' < a ∧ P a' b
  /-- A position of `s2` left alone lost each candidate to an earlier position. -/
  max2 : ∀ a b, Compat s1 s2 d a b → (¬ ∃ a', P a' b) → ∃ b', b' < b ∧ P a b'

/-- The invariant of the match search before iteration `i`: the flags are
the two projections of a matching `P` between the positions below `i` of `s1`
and positions of `s2`, greedy so far. -/
structure MatchInv (s1 s2 : Bytes) (d : Int) (i : Nat) (st : MatchState)
    (P : Nat → Nat → Prop) : Prop where
  /-- The first flag slice is as long as `s1`. -/
  len1 : st.s1Matches.length = s1.length
  /-- The second flag slice is as long as `s2`. -/
  len2 : st.s2Matches.length = s2.length
  /-- The first flags mark the matched positions of `s1`. -/
  flag1 : ∀ a, st.s1Matches.getD a false = true ↔ ∃ b, P a b
  /-- The second flags mark the matched positions of `s2`. -/
  flag2 : ∀ b, st.s2Matches.getD b false = true ↔ ∃ a, P a b
  /-- A position of `s1` has at most one partner. -/
  functional : ∀ a b b', P a b → P a b' → b = b'
  /-- A position of `s2` has at most one partner. -/
  injective : ∀ a a' b, P a b → P a' b → a = a'
  /-- Partners are compatible and already visited. -/
  compat : ∀ a b, P a b → a < i ∧ Compat s1 s2 d a b
  /-- An earlier candidate in `s2` was taken by an earlier position of `s1`. -/
  left1 : ∀ a b b', P a b → b' < b → Compat s1 s2 d a b' → ∃ a', a' < a ∧ P a' b'
  /-- An earlier candidate in `s1` was given an earlier position of `s2`. -/
  left2 : ∀ a a' b, P a b → a' < a → Compat s1 s2 d a' b → ∃ b', b' < b ∧ P a' b'
  /-- A visited position of `s1` left alone lost each candidate. -/
  max1 : ∀ a b, a < i → Compat s1 s2 d a b → (¬ ∃ b', P a b') → ∃ a', a' < a ∧ P a' b
  /-- A position of `s2` still free lies after the partner of each visited candidate. -/
  max2 : ∀ a b, a < i → Compat s1 s2 d a b → (¬ ∃ a', P a' b) → ∃ b', b' < b ∧ P a b'
  /-- The counter is the number of flags set in the first slice. -/
  count1 : st.matchCount = st.s1Matches.count true
  /-- The counter is the number of flags set in the second slice. -/
  count2 : st.matchCount = st.s2Matches.count true

/-- The bytes of `s` at the flagged positions, in order. -/
def matchedChars : Bytes → List Bool → Bytes
  | c :: cs, true :: fs => c :: matchedChars cs fs
  | _ :: cs, false :: fs => matchedChars cs fs
  | _, _ => []

/-- The number of positions at which two byte lists differ. -/
def mismatches : Bytes → Bytes → Nat
  | a :: as, b :: bs => (if a ≠ b then 1 else 0) + mismatches as bs
  | _, _ => 0

/-- The value `JaroWinkler` returns for strings of lengths `m` and `n` with
`k` matches, `t` halved transpositions and a common prefix of length `p`. -/
def score (m n k t p : Nat) : ℚ :=
  ((k : ℚ) / (m : ℚ) + (k : ℚ) / (n : ℚ) + ((((k : Int) - (t : Int) : Int)) : ℚ) / (k : ℚ)) / 3 +
    (p : ℚ) * (1 / 10) *
      (1 - ((k : ℚ) / (m : ℚ) + (k : ℚ) / (n : ℚ) +
        ((((k : Int) - (t : Int) : Int)) : ℚ) / (k : ℚ)) / 3)

end util

/-! ## The Go standard library calls of the codec

`encoding/base64`, `crypto/aes` and `crypto/cipher` are not part of the
repository. They are written out here after their specifications (RFC 4648,
FIPS 197, NIST SP 800-38A), so that `aesEncrypt` and `aesDecrypt` can be
evaluated. -/

namespace base64

/-- The byte of the standard alphabet `A-Z a-z 0-9 + /` for a 6-bit value. -/
def encodeChar (v : Nat) : Byte :=
  if v < 26 then Fin.ofNat (65 + v)
  else if v < 52 then Fin.ofNat (97 + (v - 26))
  else if v < 62 then Fin.ofNat (48 + (v - 52))
  else if v = 62 then 43
  else 47

/-- The `decodeMap` of the standard encoding: the 6-bit value of an alphabet
byte, `none` (Go: `0xff`) for every other byte. -/
def decodeMap (c : Byte) : Option Nat :=
  if 65 ≤ c.val ∧ c.val ≤ 90 then some (c.val - 65)
  else if 97 ≤ c.val ∧ c.val ≤ 122 then some (c.val - 97 + 26)
  else if 48 ≤ c.val ∧ c.val ≤ 57 then some (c.val - 48 + 52)
  else if c.val = 43 then some 62
  else if c.val = 47 then some 63
  else none

/-- The padding character `=` of the standard encoding. -/
def padChar : Byte := 61

/-- Function `base64.StdEncoding.EncodeToString`: three bytes give four
alphabet bytes; a last group of one or two bytes is padded with `=`. -/
def EncodeToString : Bytes → Bytes
  | a :: b :: c :: rest =>
    let val := a.val * 65536 + b.val * 256 + c.val
    encodeChar (val / 262144 % 64) :: encodeChar (val / 4096 % 64) ::
      encodeChar (val / 64 % 64) :: encodeChar (val % 64) :: EncodeToString rest
  | [a, b] =>
    let val := a.val * 65536 + b.val * 256
    [encodeChar (val / 262144 % 64), encodeChar (val / 4096 % 64),
      encodeChar (val / 64 % 64), padChar]
  | [a] =>
    let val := a.val * 65536
    [encodeChar (val / 262144 % 64), encodeChar (val / 4096 % 64), padChar, padChar]
  | [] => []

/-- The quanta of `Decode`, on input without line breaks: four alphabet bytes
give three bytes; the last quantum may end in `=` or `==` and gives two bytes
or one; anything else is a `CorruptInputError`. -/
def decodeQuanta : Bytes → Except Fault Bytes
  | [] => .ok []
  | c0 :: c1 :: c2 :: c3 :: rest =>
    match decodeMap c0, decodeMap c1 with
    | some v0, some v1 =>
      if c2 = padChar then
        if c3 = padChar ∧ rest = [] then
          .ok [Fin.ofNat ((v0 * 262144 + v1 * 4096) / 65536)]
        else .error .base64Corrupt
      else
        match decodeMap c2 with
        | none => .error .base64Corrupt
        | some v2 =>
          if c3 = padChar then
            if rest = [] then
              .ok [Fin.ofNat ((v0 * 262144 + v1 * 4096 + v2 * 64) / 65536),
                Fin.ofNat ((v0 * 262144 + v1 * 4096 + v2 * 64) / 256)]
            else .error .base64Corrupt
          else
            match decodeMap c3 with
            | none => .error .base64Corrupt
            | some v3 =>
              match decodeQuanta rest with
              | .error e => .error e
              | .ok out =>
                .ok (Fin.ofNat ((v0 * 262144 + v1 * 4096 + v2 * 64 + v3) / 65536) ::
                  Fin.ofNat ((v0 * 262144 + v1 * 4096 + v2 * 64 + v3) / 256) ::
                  Fin.ofNat (v0 * 262144 + v1 * 4096 + v2 * 64 + v3) :: out)
    | _, _ => .error .base64Corrupt
  | _ => .error .base64Corrupt

/-- Function `base64.StdEncoding.DecodeString`: the bytes `\r` and `\n` are
skipped wherever they stand, the rest is decoded quantum by quantum. -/
def DecodeString (s : Bytes) : Except Fault Bytes :=
  decodeQuanta (s.filter (fun c => c ≠ 10 ∧ c ≠ 13))

end base64

namespace aes

/-- The S-box of FIPS 197, figure 7. -/
def sboxTable : List Byte :=
  [0x63, 0x7c, 0x77, 0x7b, 0xf2, 0x6b, 0x6f, 0xc5, 0x30, 0x01, 0x67, 0x2b, 0xfe, 0xd7, 0xab, 0x76,
   0xca, 0x82, 0xc9, 0x7d, 0xfa, 0x59, 0x47, 0xf0, 0xad, 0xd4, 0xa2, 0xaf, 0x9c, 0xa4, 0x72, 0xc0,
   0xb7, 0xfd, 0x93, 0x26, 0x36, 0x3f, 0xf7, 0xcc, 0x34, 0xa5, 0xe5, 0xf1, 0x71, 0xd8, 0x31, 0x15,
   0x04, 0xc7, 0x23, 0xc3, 0x18, 0x96, 0x05, 0x9a, 0x07, 0x12, 0x80, 0xe2, 0xeb, 0x27, 0xb2, 0x75,
   0x09, 0x83, 0x2c, 0x1a, 0x1b, 0x6e, 0x5a, 0xa0, 0x52, 0x3b, 0xd6, 0xb3, 0x29, 0xe3, 0x2f, 0x84,
   0x53, 0xd1, 0x00, 0xed, 0x20, 0xfc, 0xb1, 0x5b, 0x6a, 0xcb, 0xbe, 0x39, 0x4a, 0x4c, 0x58, 0xcf,
   0xd0, 0xef, 0xaa, 0xfb, 0x43, 0x4d, 0x33, 0x85, 0x45, 0xf9, 0x02, 0x7f, 0x50, 0x3c, 0x9f, 0xa8,
   0x51, 0xa3, 0x40, 0x8f, 0x92, 0x9d, 0x38, 0xf5, 0xbc, 0xb6, 0xda, 0x21, 0x10, 0xff, 0xf3, 0xd2,
   0xcd, 0x0c, 0x13, 0xec, 0x5f, 0x97, 0x44, 0x17, 0xc4, 0xa7, 0x7e, 0x3d, 0x64, 0x5d, 0x19, 0x73,
   0x60, 0x81, 0x4f, 0xdc, 0x22, 0x2a, 0x90, 0x88, 0x46, 0xee, 0xb8, 0x14, 0xde, 0x5e, 0x0b, 0xdb,
   0xe0, 0x32, 0x3a, 0x0a, 0x49, 0x06, 0x24, 0x5c, 0xc2, 0xd3, 0xac, 0x62, 0x91, 0x95, 0xe4, 0x79,
   0xe7, 0xc8, 0x37, 0x6d, 0x8d, 0xd5, 0x4e, 0xa9, 0x6c, 0x56, 0xf4, 0xea, 0x65, 0x7a, 0xae, 0x08,
   0xba, 0x78, 0x25, 0x2e, 0x1c, 0xa6, 0xb4, 0xc6, 0xe8, 0xdd, 0x74, 0x1f, 0x4b, 0xbd, 0x8b, 0x8a,
   0x70, 0x3e, 0xb5, 0x66, 0x48, 0x03, 0xf6, 0x0e, 0x61, 0x35, 0x57, 0xb9, 0x86, 0xc1, 0x1d, 0x9e,
   0xe1, 0xf8, 0x98, 0x11, 0x69, 0xd9, 0x8e, 0x94, 0x9b, 0x1e, 0x87, 0xe9, 0xce, 0x55, 0x28, 0xdf,
   0x8c, 0xa1, 0x89, 0x0d, 0xbf, 0xe6, 0x42, 0x68, 0x41, 0x99, 0x2d, 0x0f, 0xb0, 0x54, 0xbb, 0x16]

/-- The inverse S-box of FIPS 197, figure 14. -/
def invSboxTable : List Byte :=
  [0x52, 0x09, 0x6a, 0xd5, 0x30, 0x36, 0xa5, 0x38, 0xbf, 0x40, 0xa3, 0x9e, 0x81, 0xf3, 0xd7, 0xfb,
   0x7c, 0xe3, 0x39, 0x82, 0x9b, 0x2f, 0xff, 0x87, 0x34, 0x8e, 0x43, 0x44, 0xc4, 0xde, 0xe9, 0xcb,
   0x54, 0x7b, 0x94, 0x32, 0xa6, 0xc2, 0x23, 0x3d, 0xee, 0x4c, 0x95, 0x0b, 0x42, 0xfa, 0xc3, 0x4e,
   0x08, 0x2e, 0xa1, 0x66, 0x28, 0xd9, 0x24, 0xb2, 0x76, 0x5b, 0xa2, 0x49, 0x6d, 0x8b, 0xd1, 0x25,
   0x72, 0xf8, 0xf6, 0x64, 0x86, 0x68, 0x98, 0x16, 0xd4, 0xa4, 0x5c, 0xcc, 0x5d, 0x65, 0xb6, 0x92,
   0x6c, 0x70, 0x48, 0x50, 0xfd, 0xed, 0xb9, 0xda, 0x5e, 0x15, 0x46, 0x57, 0xa7, 0x8d, 0x9d, 0x84,
   0x90, 0xd8, 0xab, 0x00, 0x8c, 0xbc, 0xd3, 0x0a, 0xf7, 0xe4, 0x58, 0x05, 0xb8, 0xb3, 0x45, 0x06,
   0xd0, 0x2c, 0x1e, 0x8f, 0xca, 0x3f, 0x0f, 0x02, 0xc1, 0xaf, 0xbd, 0x03, 0x01, 0x13, 0x8a, 0x6b,
   0x3a, 0x91, 0x11, 0x41, 0x4f, 0x67, 0xdc, 0xea, 0x97, 0xf2, 0xcf, 0xce, 0xf0, 0xb4, 0xe6, 0x73,
   0x96, 0xac, 0x74, 0x22, 0xe7, 0xad, 0x35, 0x85, 0xe2, 0xf9, 0x37, 0xe8, 0x1c, 0x75, 0xdf, 0x6e,
   0x47, 0xf1, 0x1a, 0x71, 0x1d, 0x29, 0xc5, 0x89, 0x6f, 0xb7, 0x62, 0x0e, 0xaa, 0x18, 0xbe, 0x1b,
   0xfc, 0x56, 0x3e, 0x4b, 0xc6, 0xd2, 0x79, 0x20, 0x9a, 0xdb, 0xc0, 0xfe, 0x78, 0xcd, 0x5a, 0xf4,
   0x1f, 0xdd, 0xa8, 0x33, 0x88, 0x07, 0xc7, 0x31, 0xb1, 0x12, 0x10, 0x59, 0x27, 0x80, 0xec, 0x5f,
   0x60, 0x51, 0x7f, 0xa9, 0x19, 0xb5, 0x4a, 0x0d, 0x2d, 0xe5, 0x7a, 0x9f, 0x93, 0xc9, 0x9c, 0xef,
   0xa0, 0xe0, 0x3b, 0x4d, 0xae, 0x2a, 0xf5, 0xb0, 0xc8, 0xeb, 0xbb, 0x3c, 0x83, 0x53, 0x99, 0x61,
   0x17, 0x2b, 0x04, 0x7e, 0xba, 0x77, 0xd6, 0x26, 0xe1, 0x69, 0x14, 0x63, 0x55, 0x21, 0x0c, 0x7d]

/-- Substitution of one byte. -/
def sbox (b : Byte) : Byte := sboxTable.getD b.val 0

/-- Inverse substitution of one byte. -/
def invSbox (b : Byte) : Byte := invSboxTable.getD b.val 0

/-- Multiplication by `x` in GF(2^8) modulo `x^8 + x^4 + x^3 + x + 1`. -/
def xtime (b : Byte) : Byte :=
  if b.val < 128 then Fin.ofNat (2 * b.val) else Fin.ofNat (2 * b.val - 256) ^^^ 27

/-- Multiplication by 3 in GF(2^8). -/
def mul3 (b : Byte) : Byte := xtime b ^^^ b

/-- Multiplication by 9 in GF(2^8). -/
def mul9 (b : Byte) : Byte := xtime (xtime (xtime b)) ^^^ b

/-- Multiplication by 11 in GF(2^8). -/
def mul11 (b : Byte) : Byte := xtime (xtime (xtime b)) ^^^ xtime b ^^^ b

/-- Multiplication by 13 in GF(2^8). -/
def mul13 (b : Byte) : Byte := xtime (xtime (xtime b)) ^^^ xtime (xtime b) ^^^ b

/-- Multiplication by 14 in GF(2^8). -/
def mul14 (b : Byte) : Byte := xtime (xtime (xtime b)) ^^^ xtime (xtime b) ^^^ xtime b

/-- Transformation `SubBytes`. -/
def subBytes (s : Bytes) : Bytes := s.map sbox

/-- Transformation `InvSubBytes`. -/
def invSubBytes (s : Bytes) : Bytes := s.map invSbox

/-- Transformation `ShiftRows` on the 16 bytes of a state, stored column by
column: row `r` is rotated left by `r`. -/
def shiftRows : Bytes → Bytes
  | [s0, s1, s2, s3, s4, s5, s6, s7, s8, s9, s10, s11, s12, s13, s14, s15] =>
    [s0, s5, s10, s15, s4, s9, s14, s3, s8, s13, s2, s7, s12, s1, s6, s11]
  | s => s

/-- Transformation `InvShiftRows`: row `r` is rotated right by `r`. -/
def invShiftRows : Bytes → Bytes
  | [s0, s1, s2, s3, s4, s5, s6, s7, s8, s9, s10, s11, s12, s13, s14, s15] =>
    [s0, s13, s10, s7, s4, s1, s14, s11, s8, s5, s2, s15, s12, s9, s6, s3]
  | s => s

/-- One column of `MixColumns`: multiplication by the matrix with rows
`2 3 1 1`, `1 2 3 1`, `1 1 2 3`, `3 1 1 2`. -/
def mixColumn (a b c d : Byte) : Bytes :=
  [xtime a ^^^ mul3 b ^^^ c ^^^ d,
   a ^^^ xtime b ^^^ mul3 c ^^^ d,
   a ^^^ b ^^^ xtime c ^^^ mul3 d,
   mul3 a ^^^ b ^^^ c ^^^ xtime d]

/-- One column of `InvMixColumns`: multiplication by the matrix with rows
`14 11 13 9`, `9 14 11 13`, `13 9 14 11`, `11 13 9 14`. -/
def invMixColumn (a b c d : Byte) : Bytes :=
  [mul14 a ^^^ mul11 b ^^^ mul13 c ^^^ mul9 d,
   mul9 a ^^^ mul14 b ^^^ mul11 c ^^^ mul13 d,
   mul13 a ^^^ mul9 b ^^^ mul14 c ^^^ mul11 d,
   mul11 a ^^^ mul13 b ^^^ mul9 c ^^^ mul14 d]

/-- Transformation `MixColumns`. -/
def mixColumns : Bytes → Bytes
  | [s0, s1, s2, s3, s4, s5, s6, s7, s8, s9, s10, s11, s12, s13, s14, s15] =>
    mixColumn s0 s1 s2 s3 ++ mixColumn s4 s5 s6 s7 ++
      mixColumn s8 s9 s10 s11 ++ mixColumn s12 s13 s14 s15
  | s => s

/-- Transformation `InvMixColumns`. -/
def invMixColumns : Bytes → Bytes
  | [s0, s1, s2, s3, s4, s5, s6, s7, s8, s9, s10, s11, s12, s13, s14, s15] =>
    invMixColumn s0 s1 s2 s3 ++ invMixColumn s4 s5 s6 s7 ++
      invMixColumn s8 s9 s10 s11 ++ invMixColumn s12 s13 s14 s15
  | s => s

/-- Transformation `AddRoundKey`: byte-wise exclusive or. -/
def addRoundKey (s k : Bytes) : Bytes := List.zipWith (fun x y => x ^^^ y) s k

/-- A 32-bit word of the key schedule. -/
structure Word where
  /-- First byte. -/
  b0 : Byte
  /-- Second byte. -/
  b1 : Byte
  /-- Third byte. -/
  b2 : Byte
  /-- Fourth byte. -/
  b3 : Byte
  deriving DecidableEq, Repr

/-- The zero word. -/
def Word.zero : Word := ⟨0, 0, 0, 0⟩

/-- Function `SubWord` of the key expansion. -/
def subWord (w : Word) : Word := ⟨sbox w.b0, sbox w.b1, sbox w.b2, sbox w.b3⟩

/-- Function `RotWord` of the key expansion. -/
def rotWord (w : Word) : Word := ⟨w.b1, w.b2, w.b3, w.b0⟩

/-- Exclusive or of two words. -/
def xorWord (a b : Word) : Word := ⟨a.b0 ^^^ b.b0, a.b1 ^^^ b.b1, a.b2 ^^^ b.b2, a.b3 ^^^ b.b3⟩

/-- The round constant `Rcon[i]`, the power `x^(i-1)` in GF(2^8). -/
def rcon (i : Nat) : Byte := [1, 2, 4, 8, 16, 32, 64, 128, 27, 54].getD (i - 1) 0

/-- The key as a list of words. -/
def keyWords : Bytes → List Word
  | a :: b :: c :: d :: rest => ⟨a, b, c, d⟩ :: keyWords rest
  | _ => []

/-- The loop of `KeyExpansion` for a key of `nk` words: each of the `fuel`
iterations appends the next word `w[i]`. -/
def expandLoop (nk : Nat) : Nat → List Word → List Word
  | 0, w => w
  | fuel + 1, w =>
    let i := w.length
    let temp := w.getD (i - 1) Word.zero
    let temp :=
      if i % nk = 0 then xorWord (subWord (rotWord temp)) ⟨rcon (i / nk), 0, 0, 0⟩
      else if nk > 6 ∧ i % nk = 4 then subWord temp
      else temp
    expandLoop nk fuel (w ++ [xorWord (w.getD (i - nk) Word.zero) temp])

/-- Function `KeyExpansion`: the `4 * (nk + 7)` words of the schedule. -/
def expandKey (key : Bytes) : List Word :=
  let nk := key.length / 4
  expandLoop nk (4 * (nk + 7) - nk) (keyWords key)

/-- The 16 bytes of round key `r`. -/
def roundKey (w : List Word) (r : Nat) : Bytes :=
  [(w.getD (4 * r) Word.zero).b0, (w.getD (4 * r) Word.zero).b1,
   (w.getD (4 * r) Word.zero).b2, (w.getD (4 * r) Word.zero).b3,
   (w.getD (4 * r + 1) Word.zero).b0, (w.getD (4 * r + 1) Word.zero).b1,
   (w.getD (4 * r + 1) Word.zero).b2, (w.getD (4 * r + 1) Word.zero).b3,
   (w.getD (4 * r + 2) Word.zero).b0, (w.getD (4 * r + 2) Word.zero).b1,
   (w.getD (4 * r + 2) Word.zero).b2, (w.getD (4 * r + 2) Word.zero).b3,
   (w.getD (4 * r + 3) Word.zero).b0, (w.getD (4 * r + 3) Word.zero).b1,
   (w.getD (4 * r + 3) Word.zero).b2, (w.getD (4 * r + 3) Word.zero).b3]

/-- A `cipher.Block` of AES: its round keys, `nk + 7` of them. -/
structure Block where
  /-- The round keys, each of 16 bytes. -/
  roundKeys : List Bytes

/-- Function `aes.NewCipher`: a key of 16, 24 or 32 bytes gives a block
cipher, any other length the error `KeySizeError`. -/
def NewCipher (key : Bytes) : Except Fault Block :=
  if key.length = 16 ∨ key.length = 24 ∨ key.length = 32 then
    .ok ⟨(List.range (key.length / 4 + 7)).map (roundKey (expandKey key))⟩
  else .error .keySize

/-- The rounds 1 to `Nr` of `Cipher`, the last one without `MixColumns`. -/
def encRounds : List Bytes → Bytes → Bytes
  | [], s => s
  | [k], s => addRoundKey (shiftRows (subBytes s)) k
  | k :: k1 :: ks, s =>
    encRounds (k1 :: ks) (addRoundKey (mixColumns (shiftRows (subBytes s))) k)

/-- Method `Block.Encrypt`: the `Cipher` of FIPS 197 on one block. -/
def Block.Encrypt (c : Block) (src : Bytes) : Bytes :=
  match c.roundKeys with
  | [] => src
  | k0 :: ks => encRounds ks (addRoundKey src k0)

/-- The rounds `Nr` down to 1 of `InvCipher`. -/
def decRounds : List Bytes → Bytes → Bytes
  | [], s => s
  | [k], s => invSubBytes (invShiftRows (addRoundKey s k))
  | k :: k1 :: ks, s =>
    invSubBytes (invShiftRows (invMixColumns (addRoundKey (decRounds (k1 :: ks) s) k)))

/-- Method `Block.Decrypt`: the `InvCipher` of FIPS 197 on one block. -/
def Block.Decrypt (c : Block) (src : Bytes) : Bytes :=
  match c.roundKeys with
  | [] => src
  | k0 :: ks => addRoundKey (decRounds ks src) k0

end aes

namespace cipher

/-- A `cipher.BlockMode` in CBC mode: the block cipher and the IV. -/
structure CBC where
  /-- The block cipher. -/
  block : aes.Block
  /-- The initialization vector, of 16 bytes. -/
  iv : Bytes

/-- Functions `cipher.NewCBCEncrypter` and `cipher.NewCBCDecrypter`: both
panic when the IV is not one block long. -/
def NewCBC (block : aes.Block) (iv : Bytes) : Except Fault CBC :=
  if iv.length ≠ 16 then .error .panicIVLength else .ok ⟨block, iv⟩

/-- The blocks of CBC encryption: each plaintext block is xor-ed with the
previous ciphertext block, the first with the IV, and encrypted. -/
def encryptBlocks (block : aes.Block) : Nat → Bytes → Bytes → Bytes
  | 0, _, _ => []
  | k + 1, prev, src =>
    let c := block.Encrypt (aes.addRoundKey (src.take 16) prev)
    c ++ encryptBlocks block k c (src.drop 16)

/-- The blocks of CBC decryption: each ciphertext block is decrypted and
xor-ed with the previous ciphertext block, the first with the IV. -/
def decryptBlocks (block : aes.Block) : Nat → Bytes → Bytes → Bytes
  | 0, _, _ => []
  | k + 1, prev, src =>
    aes.addRoundKey (block.Decrypt (src.take 16)) prev ++
      decryptBlocks block k (src.take 16) (src.drop 16)

/-- Method `CryptBlocks` of a CBC encrypter; it panics on input that is not
a whole number of blocks. -/
def CBC.EncryptBlocks (mode : CBC) (src : Bytes) : Except Fault Bytes :=
  if src.length % 16 ≠ 0 then .error .panicNotFullBlocks
  else .ok (encryptBlocks mode.block (src.length / 16) mode.iv src)

/-- Method `CryptBlocks` of a CBC decrypter; it panics on input that is not
a whole number of blocks. -/
def CBC.DecryptBlocks (mode : CBC) (src : Bytes) : Except Fault Bytes :=
  if src.length % 16 ≠ 0 then .error .panicNotFullBlocks
  else .ok (decryptBlocks mode.block (src.length / 16) mode.iv src)

end cipher

namespace extractor

/-! ## AES in CBC mode (`gogocdn.go`, `aesEncrypt` and `aesDecrypt`) -/

/-- Method `Gogocdn.aesEncrypt`: the padded data, encrypted in CBC mode and
base64-encoded. -/
def aesEncrypt (data key iv : Bytes) : Except Fault Bytes :=
  match aes.NewCipher key with
  | .error e => .error e
  | .ok block =>
    let paddedData := pad data
    match cipher.NewCBC block iv with
    | .error e => .error e
    | .ok mode =>
      match mode.EncryptBlocks paddedData with
      | .error e => .error e
      | .ok ciphertext => .ok (base64.EncodeToString ciphertext)

/-- Method `Gogocdn.aesDecrypt`: base64 decoding, the key check, the length
check, CBC decryption and `unpad`, in this order. -/
def aesDecrypt (data key iv : Bytes) : Except Fault Bytes :=
  match base64.DecodeString data with
  | .error e => .error e
  | .ok ciphertext =>
    match aes.NewCipher key with
    | .error e => .error e
    | .ok block =>
      if ciphertext.length % 16 ≠ 0 then .error .notBlockMultiple
      else
        match cipher.NewCBC block iv with
        | .error e => .error e
        | .ok mode =>
          match mode.DecryptBlocks ciphertext with
          | .error e => .error e
          | .ok plaintext => unpad plaintext

end extractor

namespace aes

/-! ### The column transformations over an arbitrary exclusive or

The same formulas as `mixColumn` and `invMixColumn`, with the exclusive or
`op` and the doubling `T` as parameters; a notion of the proofs only. -/

/-- Formula of `mixColumn`. -/
def gMixColumn {α : Type} (op : α → α → α) (T : α → α) (a b c d : α) : List α :=
  [op (op (op (T a) (op (T b) b)) c) d,
   op (op (op a (T b)) (op (T c) c)) d,
   op (op (op a b) (T c)) (op (T d) d),
   op (op (op (op (T a) a) b) c) (T d)]

/-- Formula of `invMixColumn`. -/
def gInvMixColumn {α : Type} (op : α → α → α) (T : α → α) (a b c d : α) : List α :=
  [op (op (op (op (op (T (T (T a))) (T (T a))) (T a)) (op (op (T (T (T b))) (T b)) b))
      (op (op (T (T (T c))) (T (T c))) c)) (op (T (T (T d))) d),
   op (op (op (op (T (T (T a))) a) (op (op (T (T (T b))) (T (T b))) (T b)))
      (op (op (T (T (T c))) (T c)) c)) (op (op (T (T (T d))) (T (T d))) d),
   op (op (op (op (op (T (T (T a))) (T (T a))) a) (op (T (T (T b))) b))
      (op (op (T (T (T c))) (T (T c))) (T c))) (op (op (T (T (T d))) (T d)) d),
   op (op (op (op (op (T (T (T a))) (T a)) a) (op (op (T (T (T b))) (T (T b))) b))
      (op (T (T (T c))) c)) (op (op (T (T (T d))) (T (T d))) (T d))]

end aes

namespace aes

/-- A block cipher whose round keys all have 16 bytes. -/
def Block.WellFormed (c : Block) : Prop := ∀ k ∈ c.roundKeys, k.length = 16

end aes

namespace extractor

/-- Constant `encryptionKey`: the 32 bytes of `37911490979715163134003223491201`. -/
def encryptionKey : Bytes :=
  [51, 55, 57, 49, 49, 52, 57, 48, 57, 55, 57, 55, 49, 53, 49, 54,
   51, 49, 51, 52, 48, 48, 51, 50, 50, 51, 52, 57, 49, 50, 48, 49]

/-- Constant `initializationVector`: the 16 bytes of `3134003223491201`. -/
def initializationVector : Bytes :=
  [51, 49, 51, 52, 48, 48, 51, 50, 50, 51, 52, 57, 49, 50, 48, 49]

end extractor

namespace types

/-! ## The records of `internal/types` -/

/-- Struct `Title` of `types.go`. -/
structure Title where
  /-- Field `English`. -/
  English : Bytes
  /-- Field `Romaji`. -/
  Romaji : Bytes
  /-- Field `Native`. -/
  Native : Bytes
  deriving DecidableEq, Repr

/-- Struct `EpisodeTiming` of `episode.go`; a `float64` is a rational. -/
structure EpisodeTiming where
  /-- Field `Start`. -/
  Start : ℚ
  /-- Field `End`. -/
  End : ℚ
  deriving DecidableEq, Repr

/-- Struct `Quality` of `episode.go`. -/
structure Quality where
  /-- Field `Name`. -/
  Name : Bytes
  /-- Field `Bandwidth`. -/
  Bandwidth : Int
  /-- Field `Resolution`. -/
  Resolution : Bytes
  /-- Field `SubURL`. -/
  SubURL : Bytes
  /-- Field `DubURL`. -/
  DubURL : Bytes
  deriving DecidableEq, Repr

/-- Struct `Source` of `episode.go`; the map `Headers` is a list of pairs. -/
structure Source where
  /-- Field `Sources`. -/
  Sources : List Quality
  /-- Field `Subtitles`. -/
  Subtitles : List Bytes
  /-- Field `Audio`. -/
  Audio : List Bytes
  /-- Field `IsM3U8`. -/
  IsM3U8 : Bool
  /-- Field `Intro`. -/
  Intro : EpisodeTiming
  /-- Field `Outro`. -/
  Outro : EpisodeTiming
  /-- Field `Headers`. -/
  Headers : List (Bytes × Bytes)
  /-- Field `Thumbnail`. -/
  Thumbnail : Bytes
  /-- Field `ThumbnailType`. -/
  ThumbnailType : Bytes
  deriving DecidableEq, Repr

/-- Struct `Episode` of `episode.go`; a pointer field is an `Option`. -/
structure Episode where
  /-- Field `ID`. -/
  ID : Bytes
  /-- Field `Anime`. -/
  Anime : Title
  /-- Field `Number`. -/
  Number : Int
  /-- Field `EpisodeTitle`. -/
  EpisodeTitle : Bytes
  /-- Field `IsFiller`. -/
  IsFiller : Bool
  /-- Field `Img`. -/
  Img : Option Bytes
  /-- Field `HasDub`. -/
  HasDub : Bool
  /-- Field `Description`. -/
  Description : Option Bytes
  /-- Field `Rating`. -/
  Rating : Option ℚ
  /-- Field `Source`. -/
  Source : Source
  deriving DecidableEq, Repr

/-- The zero value of `Title`. -/
def Title.zero : Title := ⟨[], [], []⟩

/-- The zero value of `Source`. -/
def Source.zero : Source := ⟨[], [], [], false, ⟨0, 0⟩, ⟨0, 0⟩, [], [], []⟩

/-- The zero value of `Quality`. -/
def Quality.zero : Quality := ⟨[], 0, [], [], []⟩

/-- The zero value of `Episode`. -/
def Episode.zero : Episode := ⟨[], Title.zero, 0, [], false, none, false, none, none, Source.zero⟩

/-- An episode with a number and a quality list, every other field zero. -/
def Episode.ofSources (n : Int) (qs : List Quality) : Episode :=
  { Episode.zero with Number := n, Source := { Source.zero with Sources := qs } }

end types

/-! ## Go maps

A Go map is a list of key-value pairs with distinct keys, in the order of
first insertion; Go itself fixes no order. -/

/-- The read `m[k]` with the `ok` flag: `none` when the key is absent. -/
def mapGet {κ ν : Type} [DecidableEq κ] : List (κ × ν) → κ → Option ν
  | [], _ => none
  | (k', v) :: rest, k => if k' = k then some v else mapGet rest k

/-- The write `m[k] = v`. -/
def mapSet {κ ν : Type} [DecidableEq κ] : List (κ × ν) → κ → ν → List (κ × ν)
  | [], k, v => [(k, v)]
  | (k', v') :: rest, k, v => if k' = k then (k, v) :: rest else (k', v') :: mapSet rest k v

namespace mapping

open types

/-! ## The merge step of `GetEpisodes` (`mapping/episode.go`)

The three fetches of `GetEpisodes` are its inputs here: the sub list, the dub
list and the title map of MyAnimeList, a function on episode numbers (the
lookup `malEpisodes[n]` with its `ok` flag). Slices are values in this
section: no two episodes share the backing array of their quality lists. The
section on the merge in memory, further down, has the same loops on slices
that may share their elements. -/

/-- The record built from a sub episode, with the title of MyAnimeList
when there is one. -/
def subRecord (malEpisodes : Int → Option Bytes) (subEp : Episode) : Episode :=
  let ep : Episode :=
    { ID := subEp.ID
      Anime := Title.zero
      Number := subEp.Number
      EpisodeTitle := subEp.EpisodeTitle
      IsFiller := subEp.IsFiller
      Img := subEp.Img
      HasDub := false
      Description := none
      Rating := none
      Source := subEp.Source }
  match malEpisodes subEp.Number with
  | some title => { ep with EpisodeTitle := title }
  | none => ep

/-- The record built from a dub episode without sub counterpart. -/
def dubRecord (malEpisodes : Int → Option Bytes) (dubEp : Episode) : Episode :=
  let ep : Episode :=
    { ID := dubEp.ID
      Anime := Title.zero
      Number := dubEp.Number
      EpisodeTitle := dubEp.EpisodeTitle
      IsFiller := dubEp.IsFiller
      Img := dubEp.Img
      HasDub := true
      Description := none
      Rating := none
      Source := dubEp.Source }
  match malEpisodes dubEp.Number with
  | some title => { ep with EpisodeTitle := title }
  | none => ep

/-- Inner loop `for _, dubSource := range dubEp.Source.Sources` for one sub
quality: every dub quality of the same name writes its `SubURL` into the
`DubURL` of the entry. -/
def mergeDubURL (subSource : Quality) : List Quality → Quality → Quality
  | [], entry => entry
  | dubSource :: rest, entry =>
    if subSource.Name = dubSource.Name then
      mergeDubURL subSource rest { entry with DubURL := dubSource.SubURL }
    else mergeDubURL subSource rest entry

/-- Loop `for i, subSource := range ep.Source.Sources`: entry `i` is
rewritten by the inner loop. -/
def mergeSources (dubSources : List Quality) : List Quality → List Quality
  | [] => []
  | subSource :: rest => mergeDubURL subSource dubSources subSource :: mergeSources dubSources rest

/-- The record of a number present on both sides: the record in the map,
marked as dubbed, its qualities merged with those of the dub episode. -/
def mergeRecord (ep dubEp : Episode) : Episode :=
  { ep with
    HasDub := true
    Source := { ep.Source with Sources := mergeSources dubEp.Source.Sources ep.Source.Sources } }

/-- Loop `for _, subEp := range subEpisodes`. -/
def subLoop (malEpisodes : Int → Option Bytes) :
    List Episode → List (Int × Episode) → List (Int × Episode)
  | [], episodeMap => episodeMap
  | subEp :: rest, episodeMap =>
    subLoop malEpisodes rest (mapSet episodeMap subEp.Number (subRecord malEpisodes subEp))

/-- Loop `for _, dubEp := range dubEpisodes`. -/
def dubLoop (malEpisodes : Int → Option Bytes) :
    List Episode → List (Int × Episode) → List (Int × Episode)
  | [], episodeMap => episodeMap
  | dubEp :: rest, episodeMap =>
    match mapGet episodeMap dubEp.Number with
    | some ep =>
      dubLoop malEpisodes rest (mapSet episodeMap dubEp.Number (mergeRecord ep dubEp))
    | none =>
      dubLoop malEpisodes rest (mapSet episodeMap dubEp.Number (dubRecord malEpisodes dubEp))

/-- The map `episodeMap` of `GetEpisodes` after both loops. -/
def mergeEpisodes (subEpisodes dubEpisodes : List Episode)
    (malEpisodes : Int → Option Bytes) : List (Int × Episode) :=
  dubLoop malEpisodes dubEpisodes (subLoop malEpisodes subEpisodes [])

/-- The slice `combinedEpisodes`: the values of the map, in some order. -/
def combinedEpisodes (subEpisodes dubEpisodes : List Episode)
    (malEpisodes : Int → Option Bytes) : List Episode :=
  (mergeEpisodes subEpisodes dubEpisodes malEpisodes).map Prod.snd

end mapping

namespace mapping

open types

/-! ### Specification notions for the merge step -/

/-- What the sub loop leaves under the key `n`: the record of the last sub
episode numbered `n`, or what was there before. -/
def keySub (malEpisodes : Int → Option Bytes) (n : Int) :
    Option Episode → List Episode → Option Episode
  | acc, [] => acc
  | acc, subEp :: rest =>
    keySub malEpisodes n
      (if subEp.Number = n then some (subRecord malEpisodes subEp) else acc) rest

/-- What the dub loop leaves under the key `n`: every dub episode numbered
`n` is merged into the record there, the first one creating the record when
there is none. -/
def keyDub (malEpisodes : Int → Option Bytes) (n : Int) :
    Option Episode → List Episode → Option Episode
  | acc, [] => acc
  | acc, dubEp :: rest =>
    keyDub malEpisodes n
      (if dubEp.Number = n then
        some (match acc with
          | some ep => mergeRecord ep dubEp
          | none => dubRecord malEpisodes dubEp)
      else acc) rest

/-- Two records agree on every field but `HasDub` and `Source`. -/
def SameFields (a b : Episode) : Prop :=
  a.ID = b.ID ∧ a.Anime = b.Anime ∧ a.Number = b.Number ∧ a.EpisodeTitle = b.EpisodeTitle ∧
    a.IsFiller = b.IsFiller ∧ a.Img = b.Img ∧ a.Description = b.Description ∧
    a.Rating = b.Rating

/-- Every record of the map carries its key as its number. -/
def KeysOK (m : List (Int × Episode)) : Prop := ∀ kv ∈ m, kv.2.Number = kv.1

end mapping

namespace util

open types

/-! ## `FindOriginalTitle` and `Sanitize` (`mapper.go`)

`strings.ToLower` and `strings.Fields` of the Go standard library are the
parameters `toLower` and `fields`. -/

/-- Function `FindOriginalTitle`. -/
def FindOriginalTitle (toLower : Bytes → Bytes) (title : Title) (titles : List Bytes) :
    Option Bytes :=
  match FindBestMatch toLower title.Romaji titles,
      FindBestMatch toLower title.English titles,
      FindBestMatch toLower title.Native titles with
  | some romajiBestMatch, some englishBestMatch, some nativeBestMatch =>
    match JaroWinkler toLower title.Romaji romajiBestMatch,
        JaroWinkler toLower title.English englishBestMatch,
        JaroWinkler toLower title.Native nativeBestMatch with
    | some romajiScore, some englishScore, some nativeScore =>
      if romajiScore ≥ englishScore ∧ romajiScore ≥ nativeScore then some romajiBestMatch
      else if englishScore ≥ romajiScore ∧ englishScore ≥ nativeScore then
        some englishBestMatch
      else some nativeBestMatch
    | _, _, _ => none
  | _, _, _ => none

/-- Function `strings.ReplaceAll` for a non-empty `old`, with `fuel` bytes
of `s` left to look at: the occurrences of `old` are replaced from the left,
without overlap. -/
def replaceAllLoop (old new : Bytes) : Nat → Bytes → Bytes
  | 0, s => s
  | _ + 1, [] => []
  | fuel + 1, c :: cs =>
    if old.isPrefixOf (c :: cs) then
      new ++ replaceAllLoop old new fuel ((c :: cs).drop old.length)
    else c :: replaceAllLoop old new fuel cs

/-- Function `strings.ReplaceAll` for a non-empty `old`. -/
def ReplaceAll (s old new : Bytes) : Bytes := replaceAllLoop old new s.length s

/-- Function `strings.Join`. -/
def Join : List Bytes → Bytes → Bytes
  | [], _ => []
  | [w], _ => w
  | w :: w1 :: ws, sep => w ++ sep ++ Join (w1 :: ws) sep

/-- The first argument of `strings.ReplaceAll` in `Sanitize`: the 15 bytes
of `[^\p{L}\p{N}\s]`. -/
def sanitizePattern : Bytes :=
  [91, 94, 92, 112, 123, 76, 125, 92, 112, 123, 78, 125, 92, 115, 93]

/-- The slice `wordsToRemove` of `Sanitize`: `season`, `cour`, `part`. -/
def wordsToRemove : List Bytes :=
  [[115, 101, 97, 115, 111, 110], [99, 111, 117, 114], [112, 97, 114, 116]]

/-- Inner loop `for _, removeWord := range wordsToRemove` of `Sanitize`: the
value of `remove` at its end. -/
def removeLoop (word : Bytes) : List Bytes → Bool
  | [] => false
  | removeWord :: rest => if word = removeWord then true else removeLoop word rest

/-- Loop `for _, word := range words` of `Sanitize`. -/
def sanitizeLoop : List Bytes → List Bytes → List Bytes
  | [], sanitizedWords => sanitizedWords
  | word :: rest, sanitizedWords =>
    if removeLoop word wordsToRemove then sanitizeLoop rest sanitizedWords
    else sanitizeLoop rest (sanitizedWords ++ [word])

/-- Function `Sanitize`. -/
def Sanitize (toLower : Bytes → Bytes) (fields : Bytes → List Bytes) (title : Bytes) : Bytes :=
  let title := toLower title
  let title := ReplaceAll title sanitizePattern []
  let words := fields title
  Join (sanitizeLoop words []) [32]

/-- The ASCII part of `strings.Fields`, with the word in progress as second
argument: the words between runs of the bytes tab, line feed, vertical tab,
form feed, carriage return and space. -/
def fieldsLoop : Bytes → Bytes → List Bytes
  | [], word => if word = [] then [] else [word]
  | c :: cs, word =>
    if c = 9 ∨ c = 10 ∨ c = 11 ∨ c = 12 ∨ c = 13 ∨ c = 32 then
      if word = [] then fieldsLoop cs [] else word :: fieldsLoop cs []
    else fieldsLoop cs (word ++ [c])

/-- The ASCII part of `strings.Fields`. -/
def fieldsASCII (s : Bytes) : List Bytes := fieldsLoop s []

end util

/-! ## Functions of `strings` and `strconv`

Written out after the Go standard library. `strings.TrimSpace` is a
parameter `trimSpace` of the functions that call it; `trimSpaceASCII` is its
ASCII part. -/

namespace strings

/-- Function `strings.HasPrefix`. -/
def HasPrefix (s pre : Bytes) : Bool := pre.isPrefixOf s

/-- Function `strings.HasSuffix`. -/
def HasSuffix (s suffix : Bytes) : Bool := suffix.isSuffixOf s

/-- Function `strings.TrimPrefix`. -/
def TrimPrefix (s pre : Bytes) : Bytes := if pre.isPrefixOf s then s.drop pre.length else s

/-- Function `strings.Contains`, by a walk over the suffixes of `s`. -/
def Contains : Bytes → Bytes → Bool
  | [], substr => substr.isPrefixOf []
  | c :: cs, substr => substr.isPrefixOf (c :: cs) || Contains cs substr

/-- Function `strings.SplitN(s, sep, 2)` for a separator of one byte, with
the bytes before the cut as second argument: the text before and after the
first separator, or the text alone when it holds none. -/
def splitFirstLoop (sep : Byte) : Bytes → Bytes → List Bytes
  | [], before => [before]
  | c :: cs, before => if c = sep then [before, cs] else splitFirstLoop sep cs (before ++ [c])

/-- Function `strings.SplitN(s, sep, 2)` for a separator of one byte. -/
def SplitN2 (s : Bytes) (sep : Byte) : List Bytes := splitFirstLoop sep s []

/-- Function `strings.Split` for a separator of one byte, with the piece in
progress as second argument. -/
def splitLoop (sep : Byte) : Bytes → Bytes → List Bytes
  | [], piece => [piece]
  | c :: cs, piece => if c = sep then piece :: splitLoop sep cs [] else splitLoop sep cs (piece ++ [c])

/-- Function `strings.Split` for a separator of one byte. -/
def Split (s : Bytes) (sep : Byte) : List Bytes := splitLoop sep s []

/-- Function `strings.Trim` for a cutset of one byte: that byte is removed
from both ends. -/
def Trim (s : Bytes) (cut : Byte) : Bytes :=
  ((s.dropWhile (fun c => c = cut)).reverse.dropWhile (fun c => c = cut)).reverse

/-- The ASCII part of `strings.TrimSpace`: the bytes tab, line feed,
vertical tab, form feed, carriage return and space are removed from both
ends. -/
def trimSpaceASCII (s : Bytes) : Bytes :=
  ((s.dropWhile (fun c => c = 9 ∨ c = 10 ∨ c = 11 ∨ c = 12 ∨ c = 13 ∨ c = 32)).reverse.dropWhile
    (fun c => c = 9 ∨ c = 10 ∨ c = 11 ∨ c = 12 ∨ c = 13 ∨ c = 32)).reverse

end strings

namespace strconv

/-- The value of a string of decimal digits, `none` when a byte is no
digit. -/
def digitsValue : Bytes → Nat → Option Nat
  | [], n => some n
  | c :: cs, n => if 48 ≤ c.val ∧ c.val ≤ 57 then digitsValue cs (n * 10 + (c.val - 48)) else none

/-- Function `strconv.Atoi` for a 64-bit `int`: an optional sign and one or
more decimal digits, the value within the range of `int64`; `none` for the
errors `ErrSyntax` and `ErrRange`. -/
def Atoi (s : Bytes) : Option Int :=
  match s with
  | [] => none
  | c :: cs =>
    if c = 45 then
      match cs, digitsValue cs 0 with
      | [], _ => none
      | _ :: _, some v => if v ≤ 9223372036854775808 then some (-(v : Int)) else none
      | _ :: _, none => none
    else if c = 43 then
      match cs, digitsValue cs 0 with
      | [], _ => none
      | _ :: _, some v => if v < 9223372036854775808 then some (v : Int) else none
      | _ :: _, none => none
    else
      match digitsValue (c :: cs) 0 with
      | some v => if v < 9223372036854775808 then some (v : Int) else none
      | none => none

end strconv

namespace gogoanime

open types

/-! ## The episode list of `FetchEpisodes` (`provider/gogoanime/gogoanime.go`)

The two page fetches and the walk over `#episode_related li` are left out:
an `EpisodeItem` is what the callback reads from one list item. -/

/-- What the callback of `FetchEpisodes` reads from one list item: the
attribute `href` of its link, when there is one, and the text of its
`div.name`. -/
structure EpisodeItem where
  /-- The result of `s.Find("a").Attr("href")`. -/
  href : Option Bytes
  /-- The result of `s.Find("div.name").Text()`. -/
  name : Bytes
  deriving DecidableEq, Repr

/-- The callback of `FetchEpisodes` on one list item: `none` for the early
`return` of an item without `href`; a number that does not parse is 0. -/
def episodeOfItem (trimSpace : Bytes → Bytes) (id : Bytes) (item : EpisodeItem) :
    Option Episode :=
  match item.href with
  | none => none
  | some epID =>
    let epID := trimSpace epID
    let numberText := trimSpace item.name
    let numberText := strings.TrimPrefix numberText [69, 80, 32]
    let number : Int :=
      match strconv.Atoi numberText with
      | some n => n
      | none => 0
    some { Episode.zero with
      ID := epID
      Number := number
      HasDub := strings.Contains id [45, 100, 117, 98]
      IsFiller := false }

/-- The episode list of `FetchEpisodes`: the episodes of the items in page
order, reversed. -/
def FetchEpisodes (trimSpace : Bytes → Bytes) (id : Bytes) (items : List EpisodeItem) :
    List Episode :=
  let id := if ¬ strings.HasPrefix id [47] then [47, 99, 97, 116, 101, 103, 111, 114, 121, 47] ++ id
    else id
  (items.filterMap (episodeOfItem trimSpace id)).reverse

end gogoanime

namespace extractor

open types

/-! ## The master playlist of `parseMasterM3U8` (`extractor/gogocdn.go`)

The HTTP fetch is left out: the inputs are the lines the `bufio.Scanner`
yields before it stops and whether `scanner.Err()` is an error then.
`resolveURL` is a parameter here, as is `strings.TrimSpace`. -/

/-- The errors `parseMasterM3U8` returns after the fetch. -/
inductive ManifestError where
  /-- The error `invalid BANDWIDTH value`. -/
  | invalidBandwidth
  /-- The error `error reading master m3u8`. -/
  | readError
  /-- The error `no qualities found in master m3u8`. -/
  | noQualities
  deriving DecidableEq, Repr

/-- The read `m[k]` of a Go `map[string]string`: the empty string when the
key is absent. -/
def mapIndex (m : List (Bytes × Bytes)) (k : Bytes) : Bytes :=
  match mapGet m k with
  | some v => v
  | none => []

/-- The loop of `parseAttributes` over the pieces between commas. -/
def attrsLoop (trimSpace : Bytes → Bytes) :
    List Bytes → List (Bytes × Bytes) → List (Bytes × Bytes)
  | [], attributes => attributes
  | attr :: rest, attributes =>
    match strings.SplitN2 attr 61 with
    | [k, v] =>
      let key := trimSpace k
      let value := strings.Trim (trimSpace v) 34
      attrsLoop trimSpace rest (mapSet attributes key value)
    | _ => attrsLoop trimSpace rest attributes

/-- Function `parseAttributes`: the text after the first colon is cut
at every comma, each piece at its first `=`. -/
def parseAttributes (trimSpace : Bytes → Bytes) (line : Bytes) : List (Bytes × Bytes) :=
  match strings.SplitN2 line 58 with
  | [_, attrs] => attrsLoop trimSpace (strings.Split attrs 44) []
  | _ => []

/-- The text `#EXT-X-STREAM-INF`. -/
def streamInfTag : Bytes := [35, 69, 88, 84, 45, 88, 45, 83, 84, 82, 69, 65, 77, 45, 73, 78, 70]

/-- The text `.m3u8`. -/
def m3u8Suffix : Bytes := [46, 109, 51, 117, 56]

/-- The text `BANDWIDTH`. -/
def keyBandwidth : Bytes := [66, 65, 78, 68, 87, 73, 68, 84, 72]

/-- The text `NAME`. -/
def keyName : Bytes := [78, 65, 77, 69]

/-- The text `RESOLUTION`. -/
def keyResolution : Bytes := [82, 69, 83, 79, 76, 85, 84, 73, 79, 78]

/-- The scan loop of `parseMasterM3U8`: from the lines still to come, the
qualities so far and the current quality to the two at the end of the
loop, or the error that leaves it. -/
def scanLoop (trimSpace : Bytes → Bytes) (resolveURL : Bytes → Bytes → Bytes) (masterURL : Bytes) :
    List Bytes → List Quality → Quality → Except ManifestError (List Quality × Quality)
  | [], qualities, currentQuality => .ok (qualities, currentQuality)
  | text :: rest, qualities, currentQuality =>
    let line := trimSpace text
    if strings.HasPrefix line streamInfTag then
      let attributes := parseAttributes trimSpace line
      match strconv.Atoi (mapIndex attributes keyBandwidth) with
      | none => .error .invalidBandwidth
      | some bandwidth =>
        scanLoop trimSpace resolveURL masterURL rest qualities
          { Name := mapIndex attributes keyName
            Bandwidth := bandwidth
            Resolution := mapIndex attributes keyResolution
            SubURL := []
            DubURL := [] }
    else if strings.HasSuffix line m3u8Suffix ∧ currentQuality.Name ≠ [] then
      scanLoop trimSpace resolveURL masterURL rest
        (qualities ++ [{ currentQuality with SubURL := resolveURL masterURL line }]) Quality.zero
    else
      scanLoop trimSpace resolveURL masterURL rest qualities currentQuality

/-- Function `parseMasterM3U8` after the fetch, on the lines of the scanner
and the flag of `scanner.Err()`. -/
def parseMasterM3U8 (trimSpace : Bytes → Bytes) (resolveURL : Bytes → Bytes → Bytes)
    (masterURL : Bytes) (lines : List Bytes) (scanErr : Bool) :
    Except ManifestError (List Quality) :=
  match scanLoop trimSpace resolveURL masterURL lines [] Quality.zero with
  | .error e => .error e
  | .ok (qualities, _) =>
    if scanErr then .error .readError
    else if qualities.length = 0 then .error .noQualities
    else .ok qualities

end extractor

namespace strings

/-- Function `strings.TrimRight` for a cutset of one byte: that byte is
removed from the end. -/
def TrimRight (s : Bytes) (cut : Byte) : Bytes :=
  (s.reverse.dropWhile (fun c => c = cut)).reverse

end strings

namespace strconv

/-- The two errors of `strconv`: `ErrSyntax` and `ErrRange`. -/
inductive NumError where
  /-- The error `ErrSyntax`. -/
  | ErrSyntax
  /-- The error `ErrRange`. -/
  | ErrRange
  deriving DecidableEq, Repr

/-- The loop of `strconv.ParseUint` for base 10 and 64 bits: it stops at the
first byte that is no digit and at the first overflow, whichever comes
first. -/
def parseUintLoop : Bytes → Nat → Nat × Option NumError
  | [], n => (n, none)
  | c :: cs, n =>
    if 48 ≤ c.val ∧ c.val ≤ 57 then
      if n ≥ 1844674407370955162 then (18446744073709551615, some .ErrRange)
      else
        let n1 := n * 10 + (c.val - 48)
        if n1 > 18446744073709551615 then (18446744073709551615, some .ErrRange)
        else parseUintLoop cs n1
    else (0, some .ErrSyntax)

/-- Function `strconv.ParseUint(s, 10, 64)`. -/
def ParseUint (s : Bytes) : Nat × Option NumError :=
  if s = [] then (0, some .ErrSyntax) else parseUintLoop s 0

/-- Function `strconv.ParseInt(s, 10, 0)` for a 64-bit `int`. -/
def ParseInt (s : Bytes) : Int × Option NumError :=
  match s with
  | [] => (0, some .ErrSyntax)
  | c :: cs =>
    let neg : Bool := c = 45
    let digits := if c = 43 ∨ c = 45 then cs else c :: cs
    match ParseUint digits with
    | (_, some .ErrSyntax) => (0, some .ErrSyntax)
    | (un, _) =>
      if ¬ neg ∧ un ≥ 9223372036854775808 then (9223372036854775807, some .ErrRange)
      else if neg ∧ un > 9223372036854775808 then (-9223372036854775808, some .ErrRange)
      else (if neg then -(un : Int) else (un : Int), none)

/-- The loop of the fast path of `strconv.Atoi`: `none` for a byte that is
no digit. -/
def atoiFastLoop : Bytes → Int → Option Int
  | [], n => some n
  | ch :: rest, n =>
    if 48 ≤ ch.val ∧ ch.val ≤ 57 then atoiFastLoop rest (n * 10 + ((ch.val : Int) - 48))
    else none

/-- Function `strconv.Atoi` with both its results, the number and the error:
the fast path for a string of fewer than 19 bytes, `ParseInt` for the
others. -/
def AtoiResult (s : Bytes) : Int × Option NumError :=
  if 0 < s.length ∧ s.length < 19 then
    match s with
    | [] => (0, some .ErrSyntax)
    | c :: cs =>
      let digits := if c = 45 ∨ c = 43 then cs else c :: cs
      if digits.length < 1 then (0, some .ErrSyntax)
      else
        match atoiFastLoop digits 0 with
        | none => (0, some .ErrSyntax)
        | some n => (if c = 45 then -n else n, none)
  else ParseInt s

/-- The part of `strconv.ParseFloat` on plain decimal numerals, `400` or
`400.25`, as exact rationals; `none` for every other text. -/
def parseDecimal (s : Bytes) : Option ℚ :=
  match strings.SplitN2 s 46 with
  | [whole] =>
    if whole = [] then none
    else
      match digitsValue whole 0 with
      | some a => some (a : ℚ)
      | none => none
  | [whole, frac] =>
    if whole = [] then none
    else
      match digitsValue whole 0, digitsValue frac 0 with
      | some a, some b => some ((a : ℚ) + (b : ℚ) / (10 : ℚ) ^ frac.length)
      | _, _ => none
  | _ => none

end strconv

namespace extractor

open types

/-! ## The windows of `calculateIntroOutro` (`extractor/gogocdn.go`)

The HTTP fetch is left out: the inputs are the lines of the scanner and the
flag of `scanner.Err()`. `strconv.ParseFloat` is the parameter `parseFloat`,
a `float64` an exact rational. The variable `currentDuration`, written
and never read, is left out. -/

/-- The errors `calculateIntroOutro` returns after the fetch. -/
inductive TimingError where
  /-- The error `failed to parse EXTINF duration`. -/
  | parseDuration
  /-- The error `error reading m3u8`. -/
  | readError
  deriving DecidableEq, Repr

/-- The text `#EXTINF:`. -/
def extinfTag : Bytes := [35, 69, 88, 84, 73, 78, 70, 58]

/-- The scan loop of `calculateIntroOutro`: the value of `totalDuration`
at its end, or the error that leaves it. -/
def durationLoop (trimSpace : Bytes → Bytes) (parseFloat : Bytes → Option ℚ) :
    List Bytes → ℚ → Except TimingError ℚ
  | [], totalDuration => .ok totalDuration
  | text :: rest, totalDuration =>
    let line := trimSpace text
    if strings.HasPrefix line extinfTag then
      let durationStr := strings.TrimPrefix line extinfTag
      let durationStr := strings.TrimRight durationStr 44
      match parseFloat durationStr with
      | none => .error .parseDuration
      | some duration => durationLoop trimSpace parseFloat rest (totalDuration + duration)
    else durationLoop trimSpace parseFloat rest totalDuration

/-- Function `calculateIntroOutro` after the fetch. -/
def calculateIntroOutro (trimSpace : Bytes → Bytes) (parseFloat : Bytes → Option ℚ)
    (lines : List Bytes) (scanErr : Bool) :
    Except TimingError (EpisodeTiming × EpisodeTiming) :=
  let introDuration : ℚ := 90
  let outroDuration : ℚ := 60
  match durationLoop trimSpace parseFloat lines 0 with
  | .error e => .error e
  | .ok totalDuration =>
    if scanErr then .error .readError
    else
      let outroStart := totalDuration * (85 / 100)
      .ok (⟨0, introDuration⟩, ⟨outroStart, outroStart + outroDuration⟩)

end extractor

namespace path

/-! ## Functions of `path` and `net/url`

`path.Clean` is written by path elements, after the four rules of its
documentation. `url.Parse` is a parameter `urlParse` of `resolveURL`;
`url.ParsePlain` is its part on plain URLs. -/

/-- The loop of `path.Clean` over the path elements: the elements still to
come and the elements kept, the last one first. Empty elements and `.` are
dropped; `..` removes the element kept last, stays in a path that is not
rooted when there is none to remove, and is dropped at the root. -/
def cleanLoop (rooted : Bool) : List Bytes → List Bytes → List Bytes
  | [], kept => kept
  | e :: rest, kept =>
    if e = [] ∨ e = [46] then cleanLoop rooted rest kept
    else if e = [46, 46] then
      match kept with
      | top :: below =>
        if top ≠ [46, 46] then cleanLoop rooted rest below
        else cleanLoop rooted rest ([46, 46] :: kept)
      | [] => if rooted then cleanLoop rooted rest [] else cleanLoop rooted rest [[46, 46]]
    else cleanLoop rooted rest (e :: kept)

/-- Function `path.Clean`. -/
def Clean (p : Bytes) : Bytes :=
  match p with
  | [] => [46]
  | c :: _ =>
    let rooted : Bool := c = 47
    let kept := (cleanLoop rooted (strings.Split p 47) []).reverse
    if rooted then 47 :: List.intercalate [47] kept
    else if kept = [] then [46]
    else List.intercalate [47] kept

/-- The first result of `path.Split`: the text up to the last slash, the
slash included. -/
def dirPart (p : Bytes) : Bytes := (p.reverse.dropWhile (fun c => c ≠ 47)).reverse

/-- Function `path.Dir`. -/
def Dir (p : Bytes) : Bytes := Clean (dirPart p)

end path

namespace url

/-- The fields of `url.URL` that `url.Parse` fills from the scheme, the
authority without user information, the path and the query. -/
structure URL where
  /-- Field `Scheme`. -/
  Scheme : Bytes
  /-- Field `Host`. -/
  Host : Bytes
  /-- Field `Path`. -/
  Path : Bytes
  /-- Field `RawQuery`. -/
  RawQuery : Bytes
  deriving DecidableEq, Repr

/-- Function `getScheme` of `net/url`, with the bytes already read as second
argument: the scheme and the rest, `none` for the error `missing protocol
scheme`. -/
def getScheme : Bytes → Bytes → Option (Bytes × Bytes)
  | [], seen => some ([], seen)
  | c :: cs, seen =>
    if (97 ≤ c.val ∧ c.val ≤ 122) ∨ (65 ≤ c.val ∧ c.val ≤ 90) then getScheme cs (seen ++ [c])
    else if (48 ≤ c.val ∧ c.val ≤ 57) ∨ c = 43 ∨ c = 45 ∨ c = 46 then
      if seen = [] then some ([], c :: cs) else getScheme cs (seen ++ [c])
    else if c = 58 then
      if seen = [] then none else some (seen, cs)
    else some ([], seen ++ c :: cs)

/-- A host of letters, digits, `-`, `.`, `_` and `~`, with or without a port
of digits after a colon. -/
def plainHost (host : Bytes) : Bool :=
  match strings.SplitN2 host 58 with
  | [name] =>
    name.all (fun c => (97 ≤ c.val ∧ c.val ≤ 122) ∨ (65 ≤ c.val ∧ c.val ≤ 90) ∨
      (48 ≤ c.val ∧ c.val ≤ 57) ∨ c = 45 ∨ c = 46 ∨ c = 95 ∨ c = 126)
  | [name, port] =>
    name.all (fun c => (97 ≤ c.val ∧ c.val ≤ 122) ∨ (65 ≤ c.val ∧ c.val ≤ 90) ∨
      (48 ≤ c.val ∧ c.val ≤ 57) ∨ c = 45 ∨ c = 46 ∨ c = 95 ∨ c = 126) &&
    port.all (fun c => 48 ≤ c.val ∧ c.val ≤ 57)
  | _ => false

/-- The part of `url.Parse` on plain URLs: a fragment and a query are cut
off, the scheme is split off and lower-cased, an authority after `//` is the
host, the rest is the path. `none` for the errors of `url.Parse` on a control
byte, a missing scheme before a colon and a colon in the first element of a
relative path, and for every text outside this part: one with a percent
sign or with a host that is not a `plainHost`. -/
def ParsePlain (rawURL : Bytes) : Option URL :=
  if rawURL.any (fun c => c.val < 32 ∨ c = 127 ∨ c = 37) then none
  else
    let u := (strings.SplitN2 rawURL 35).headD []
    if u = [42] then some ⟨[], [], [42], []⟩
    else
      match getScheme u [] with
      | none => none
      | some (scheme, rest) =>
        let scheme := util.toLowerASCII scheme
        let cut := strings.SplitN2 rest 63
        let rest := cut.headD []
        let rawQuery := (cut.drop 1).headD []
        if ¬ strings.HasPrefix rest [47] ∧ scheme ≠ [] then some ⟨scheme, [], [], rawQuery⟩
        else if ¬ strings.HasPrefix rest [47] ∧
            strings.Contains ((strings.SplitN2 rest 47).headD []) [58] then none
        else if (scheme ≠ [] ∨ ¬ strings.HasPrefix rest [47, 47, 47]) ∧
            strings.HasPrefix rest [47, 47] then
          let authority := (strings.SplitN2 (rest.drop 2) 47).headD []
          let rest := (rest.drop 2).drop authority.length
          if plainHost authority then some ⟨scheme, authority, rest, rawQuery⟩ else none
        else some ⟨scheme, [], rest, rawQuery⟩

end url

namespace extractor

/-- Function `resolveURL`, with `url.Parse` as the parameter `urlParse`,
`none` being its error. -/
def resolveURL (urlParse : Bytes → Option url.URL) (masterURL relativeURL : Bytes) : Bytes :=
  match urlParse masterURL with
  | none => relativeURL
  | some u =>
    let base := u.Scheme ++ [58, 47, 47] ++ u.Host ++ path.Dir u.Path
    match urlParse relativeURL with
    | none => relativeURL
    | some resolvedURL => base ++ [47] ++ resolvedURL.Path

end extractor

namespace extractor

open types

/-! ## The source lists of `Extract` (`extractor/gogocdn.go`)

The part of `Extract` after the decoding of the payload, without the
handling of `track`, which writes `Thumbnail` and `ThumbnailType` only. The
methods `calculateIntroOutro` and `parseMasterM3U8`, which fetch the URL they
are given, are parameters here, functions of that URL. -/

/-- An entry of the fields `Source` and `Bkp` of `gogoCdn`. -/
structure SourceEntry where
  /-- Field `File`. -/
  File : Bytes
  /-- Field `Type` (a reserved word here). -/
  Kind : Bytes
  deriving DecidableEq, Repr

/-- The fields `Source` and `Bkp` of the struct `gogoCdn`. -/
structure gogoCdn where
  /-- Field `Source`. -/
  Source : List SourceEntry
  /-- Field `Bkp`. -/
  Bkp : List SourceEntry
  deriving DecidableEq, Repr

/-- The errors `Extract` returns from its loop over the primary sources. -/
inductive ExtractError (ε₁ ε₂ : Type) where
  /-- The error `failed to extract intro/outro`. -/
  | introOutro (e : ε₁)
  /-- The error `failed to parse master m3u8`. -/
  | masterM3U8 (e : ε₂)
  deriving DecidableEq, Repr

/-- The loop `for _, s := range dataFile.Source` of `Extract`. -/
def primaryLoop {ε₁ ε₂ : Type}
    (calculateIntroOutro : Bytes → Except ε₁ (EpisodeTiming × EpisodeTiming))
    (parseMasterM3U8 : Bytes → Except ε₂ (List Quality)) :
    List SourceEntry → Source → Except (ExtractError ε₁ ε₂) Source
  | [], sources => .ok sources
  | s :: rest, sources =>
    if s.File = [] then primaryLoop calculateIntroOutro parseMasterM3U8 rest sources
    else
      match calculateIntroOutro s.File with
      | .error e => .error (.introOutro e)
      | .ok (introEnd, outroStart) =>
        match parseMasterM3U8 s.File with
        | .error e => .error (.masterM3U8 e)
        | .ok qualities =>
          primaryLoop calculateIntroOutro parseMasterM3U8 rest
            { sources with
              Sources := sources.Sources ++ qualities
              IsM3U8 := true
              Intro := introEnd
              Outro := outroStart }

/-- The loop `for _, s := range dataFile.Bkp` of `Extract`. -/
def backupLoop (toLower : Bytes → Bytes) : List SourceEntry → Source → Source
  | [], sources => sources
  | s :: rest, sources =>
    if s.File = [] then backupLoop toLower rest sources
    else if strings.Contains (toLower s.Kind) [115, 117, 98, 116, 105, 116, 108, 101] then
      backupLoop toLower rest { sources with Subtitles := sources.Subtitles ++ [s.File] }
    else if strings.Contains (toLower s.Kind) [97, 117, 100, 105, 111] then
      backupLoop toLower rest { sources with Audio := sources.Audio ++ [s.File] }
    else backupLoop toLower rest sources

/-- Function `Extract` from the decoded payload on: the two loops on the
initial descriptor. -/
def Extract {ε₁ ε₂ : Type} (toLower : Bytes → Bytes)
    (calculateIntroOutro : Bytes → Except ε₁ (EpisodeTiming × EpisodeTiming))
    (parseMasterM3U8 : Bytes → Except ε₂ (List Quality)) (dataFile : gogoCdn) :
    Except (ExtractError ε₁ ε₂) Source :=
  let sources : Source :=
    { Sources := []
      Subtitles := []
      Audio := []
      IsM3U8 := false
      Intro := ⟨0, 0⟩
      Outro := ⟨0, 0⟩
      Headers := []
      Thumbnail := []
      ThumbnailType := [] }
  match primaryLoop calculateIntroOutro parseMasterM3U8 dataFile.Source sources with
  | .error e => .error e
  | .ok sources => .ok (backupLoop toLower dataFile.Bkp sources)

end extractor

namespace controller

/-! ## The handler `Search` (`controller/search.go`)

The handler up to its call of AniList: the inputs are the values of
`c.Query` for `q`, `page` and `per_page`, the empty string for a parameter
that is absent; the result is the call the handler makes. -/

/-- What `Search` does with a request. -/
inductive SearchCall where
  /-- The answer `Missing 'q' parameter.` with the status 400. -/
  | badRequest
  /-- The call `provider.anilist.GetMedia` with the decimal form of `id`. -/
  | getMedia (id : Int)
  /-- The call `provider.anilist.Search(query, ..., page, perPage)`. -/
  | search (query : Bytes) (page perPage : Int)
  deriving DecidableEq, Repr

/-- Function `Search`, up to the call of AniList. -/
def Search (query pageParam perPageParam : Bytes) : SearchCall :=
  if query = [] then .badRequest
  else
    let page : Int := 1
    let perPage : Int := 10
    let page :=
      if pageParam ≠ [] then
        match strconv.AtoiResult pageParam with
        | (p, some _) => p
        | (_, none) => page
      else page
    let perPage :=
      if perPageParam ≠ [] then
        match strconv.AtoiResult perPageParam with
        | (pp, none) => pp
        | (_, some _) => perPage
      else perPage
    match strconv.AtoiResult query with
    | (id, none) => .getMedia id
    | (_, some _) => .search query page perPage

end controller
namespace util

namespace scored

open types

/-! ## `FindBestMatch` and `FindOriginalTitle` over the scores of the program

`JaroWinkler` returns a `float64`, and `FindBestMatch` and
`FindOriginalTitle` only compare such values, with `>` and `>=`. The rounding
of `float64` arithmetic is not reproduced by the rational `JaroWinkler` above:
two scores that are equal as rationals may differ in their last bit as
`float64`. For what depends on the comparison of two scores, the score is
therefore a parameter here: any function `score` into a linear order. The
`float64` function of the program is one: its value is a finite number on
every input (the divisors `m`, `n` and `matches` are positive where the
divisions are reached), and on finite numbers `>` and `>=` are the
comparisons of a linear order. -/

/-- Loop `for _, target := range targets[1:]` of `FindBestMatch`: a target
replaces the best one so far when it scores strictly higher. -/
def bestLoop {F : Type} [LinearOrder F] (score : Bytes → Bytes → F) (mainString : Bytes) :
    List Bytes → Bytes → F → Bytes
  | [], bestMatch, _ => bestMatch
  | target :: rest, bestMatch, highestScore =>
    if score mainString target > highestScore then
      bestLoop score mainString rest target (score mainString target)
    else bestLoop score mainString rest bestMatch highestScore

/-- Function `FindBestMatch`, the function `JaroWinkler` being `score`. -/
def FindBestMatch {F : Type} [LinearOrder F] (score : Bytes → Bytes → F) (mainString : Bytes)
    (targets : List Bytes) : Bytes :=
  match targets with
  | [] => []
  | first :: rest => bestLoop score mainString rest first (score mainString first)

/-- Function `FindOriginalTitle`, the function `JaroWinkler` being `score`. -/
def FindOriginalTitle {F : Type} [LinearOrder F] (score : Bytes → Bytes → F) (title : Title)
    (titles : List Bytes) : Bytes :=
  let romajiBestMatch := FindBestMatch score title.Romaji titles
  let englishBestMatch := FindBestMatch score title.English titles
  let nativeBestMatch := FindBestMatch score title.Native titles
  let romajiScore := score title.Romaji romajiBestMatch
  let englishScore := score title.English englishBestMatch
  let nativeScore := score title.Native nativeBestMatch
  if romajiScore ≥ englishScore ∧ romajiScore ≥ nativeScore then romajiBestMatch
  else if englishScore ≥ romajiScore ∧ englishScore ≥ nativeScore then englishBestMatch
  else nativeBestMatch

/-- The rational `JaroWinkler` as a score, 0 standing for a panic (there is
none: lemma `JaroWinkler_total`). -/
def exactScore (toLower : Bytes → Bytes) (s1 s2 : Bytes) : ℚ :=
  (JaroWinkler toLower s1 s2).getD 0

end scored

end util

namespace types

namespace heap

/-! ## Quality slices in memory

A Go slice is a view of a backing array: copying a `Source` copies the
address and the length of its field `Sources`, not the elements, and a write
`ep.Source.Sources[i].DubURL = ...` is seen through every slice that holds
the element. In this section the elements of the quality slices live in a
memory, a function from addresses to `Quality` values, and a slice is the
address of its first element with its length; its capacity plays no part, the
merge appends nothing. The other fields of `Source` and `Episode` are never
written by the merge and stay values. -/

/-- A Go slice of `Quality` values: the address of its first element and its
length. A `nil` slice has length 0. -/
structure Slice where
  /-- The address of the first element. -/
  ptr : Nat
  /-- The length `len(s)`. -/
  len : Nat
  deriving DecidableEq, Repr

/-- Struct `Source` of `episode.go`, its field `Sources` a slice in memory. -/
structure Source where
  /-- Field `Sources`. -/
  Sources : Slice
  /-- Field `Subtitles`. -/
  Subtitles : List Bytes
  /-- Field `Audio`. -/
  Audio : List Bytes
  /-- Field `IsM3U8`. -/
  IsM3U8 : Bool
  /-- Field `Intro`. -/
  Intro : EpisodeTiming
  /-- Field `Outro`. -/
  Outro : EpisodeTiming
  /-- Field `Headers`. -/
  Headers : List (Bytes × Bytes)
  /-- Field `Thumbnail`. -/
  Thumbnail : Bytes
  /-- Field `ThumbnailType`. -/
  ThumbnailType : Bytes
  deriving DecidableEq, Repr

/-- Struct `Episode` of `episode.go`, the quality slice of its source in
memory. -/
structure Episode where
  /-- Field `ID`. -/
  ID : Bytes
  /-- Field `Anime`. -/
  Anime : Title
  /-- Field `Number`. -/
  Number : Int
  /-- Field `EpisodeTitle`. -/
  EpisodeTitle : Bytes
  /-- Field `IsFiller`. -/
  IsFiller : Bool
  /-- Field `Img`. -/
  Img : Option Bytes
  /-- Field `HasDub`. -/
  HasDub : Bool
  /-- Field `Description`. -/
  Description : Option Bytes
  /-- Field `Rating`. -/
  Rating : Option ℚ
  /-- Field `Source`. -/
  Source : Source
  deriving DecidableEq, Repr

/-- The memory of the quality slices: the element at each address. -/
abbrev Memory := Nat → Quality

/-- The zero value of `Source`: its slice is `nil`. -/
def Source.zero : Source := ⟨⟨0, 0⟩, [], [], false, ⟨0, 0⟩, ⟨0, 0⟩, [], [], []⟩

/-- The zero value of `Episode`. -/
def Episode.zero : Episode := ⟨[], Title.zero, 0, [], false, none, false, none, none, Source.zero⟩

/-- An episode with a number and a quality slice, every other field zero. -/
def Episode.ofSlice (n : Int) (ptr len : Nat) : Episode :=
  { Episode.zero with Number := n, Source := { Source.zero with Sources := ⟨ptr, len⟩ } }

/-- The elements of a slice, read from the memory. -/
def readSlice (m : Memory) (s : Slice) : List Quality :=
  (List.range s.len).map (fun i => m (s.ptr + i))

/-- A source with the elements of its quality slice read from the memory. -/
def Source.load (m : Memory) (s : Source) : types.Source :=
  { Sources := readSlice m s.Sources
    Subtitles := s.Subtitles
    Audio := s.Audio
    IsM3U8 := s.IsM3U8
    Intro := s.Intro
    Outro := s.Outro
    Headers := s.Headers
    Thumbnail := s.Thumbnail
    ThumbnailType := s.ThumbnailType }

/-- An episode with the elements of its quality slice read from the memory:
what a reader of the episode sees. -/
def Episode.load (m : Memory) (e : Episode) : types.Episode :=
  { ID := e.ID
    Anime := e.Anime
    Number := e.Number
    EpisodeTitle := e.EpisodeTitle
    IsFiller := e.IsFiller
    Img := e.Img
    HasDub := e.HasDub
    Description := e.Description
    Rating := e.Rating
    Source := e.Source.load m }

/-- Two slices have no element in common. -/
def Slice.Disjoint (a b : Slice) : Prop :=
  a.len = 0 ∨ b.len = 0 ∨ a.ptr + a.len ≤ b.ptr ∨ b.ptr + b.len ≤ a.ptr

instance (a b : Slice) : Decidable (Slice.Disjoint a b) := by
  unfold Slice.Disjoint
  infer_instance

/-- No two episodes of the list share an element of their quality slices. -/
def NoSharing (episodes : List Episode) : Prop :=
  (episodes.map (fun e => e.Source.Sources)).Pairwise Slice.Disjoint

instance (episodes : List Episode) : Decidable (NoSharing episodes) := by
  unfold NoSharing
  infer_instance

end heap

end types

namespace mapping

namespace heap

open types

/-! ## The merge step of `GetEpisodes` on slices in memory

The two loops of `GetEpisodes` once more, this time with the quality slices
in memory: the records of `episodeMap` hold the slices of the episodes they
were built from, and the dub loop writes the dub URLs into the memory. The
state of the dub loop is the map together with the memory. -/

/-- The record built from a sub episode, with the title of MyAnimeList
when there is one. -/
def subRecord (malEpisodes : Int → Option Bytes) (subEp : heap.Episode) : heap.Episode :=
  let ep : heap.Episode :=
    { ID := subEp.ID
      Anime := Title.zero
      Number := subEp.Number
      EpisodeTitle := subEp.EpisodeTitle
      IsFiller := subEp.IsFiller
      Img := subEp.Img
      HasDub := false
      Description := none
      Rating := none
      Source := subEp.Source }
  match malEpisodes subEp.Number with
  | some title => { ep with EpisodeTitle := title }
  | none => ep

/-- The record built from a dub episode without sub counterpart. -/
def dubRecord (malEpisodes : Int → Option Bytes) (dubEp : heap.Episode) : heap.Episode :=
  let ep : heap.Episode :=
    { ID := dubEp.ID
      Anime := Title.zero
      Number := dubEp.Number
      EpisodeTitle := dubEp.EpisodeTitle
      IsFiller := dubEp.IsFiller
      Img := dubEp.Img
      HasDub := true
      Description := none
      Rating := none
      Source := dubEp.Source }
  match malEpisodes dubEp.Number with
  | some title => { ep with EpisodeTitle := title }
  | none => ep

/-- The write `ep.Source.Sources[i].DubURL = url`, the element being at the
address `addr`. -/
def writeDubURL (m : heap.Memory) (addr : Nat) (url : Bytes) : heap.Memory :=
  fun x => if x = addr then { m x with DubURL := url } else m x

/-- Inner loop `for _, dubSource := range dubEp.Source.Sources` for the sub
quality `subSource` at the address `addr`, from the index `j` on, with `fuel`
iterations left: the element `dubSource` is read from the memory at each
iteration. -/
def dubSourcesLoop (subSource : Quality) (addr : Nat) (dubSources : heap.Slice) :
    Nat → Nat → heap.Memory → heap.Memory
  | _, 0, m => m
  | j, fuel + 1, m =>
    let dubSource := m (dubSources.ptr + j)
    if subSource.Name = dubSource.Name then
      dubSourcesLoop subSource addr dubSources (j + 1) fuel (writeDubURL m addr dubSource.SubURL)
    else dubSourcesLoop subSource addr dubSources (j + 1) fuel m

/-- Loop `for i, subSource := range ep.Source.Sources`, from the index `i`
on, with `fuel` iterations left: the element `subSource` is read from the
memory at each iteration. -/
def sourcesLoop (sources dubSources : heap.Slice) : Nat → Nat → heap.Memory → heap.Memory
  | _, 0, m => m
  | i, fuel + 1, m =>
    let subSource := m (sources.ptr + i)
    sourcesLoop sources dubSources (i + 1) fuel
      (dubSourcesLoop subSource (sources.ptr + i) dubSources 0 dubSources.len m)

/-- The two nested loops that merge the qualities of a dub episode into
those of the record in the map. -/
def mergeSources (m : heap.Memory) (sources dubSources : heap.Slice) : heap.Memory :=
  sourcesLoop sources dubSources 0 sources.len m

/-- Loop `for _, subEp := range subEpisodes`; it writes nothing to the
memory. -/
def subLoop (malEpisodes : Int → Option Bytes) :
    List heap.Episode → List (Int × heap.Episode) → List (Int × heap.Episode)
  | [], episodeMap => episodeMap
  | subEp :: rest, episodeMap =>
    subLoop malEpisodes rest (mapSet episodeMap subEp.Number (subRecord malEpisodes subEp))

/-- Loop `for _, dubEp := range dubEpisodes`. -/
def dubLoop (malEpisodes : Int → Option Bytes) :
    List heap.Episode → List (Int × heap.Episode) → heap.Memory →
      List (Int × heap.Episode) × heap.Memory
  | [], episodeMap, m => (episodeMap, m)
  | dubEp :: rest, episodeMap, m =>
    match mapGet episodeMap dubEp.Number with
    | some ep =>
      dubLoop malEpisodes rest (mapSet episodeMap dubEp.Number { ep with HasDub := true })
        (mergeSources m ep.Source.Sources dubEp.Source.Sources)
    | none =>
      dubLoop malEpisodes rest (mapSet episodeMap dubEp.Number (dubRecord malEpisodes dubEp)) m

/-- The map `episodeMap` of `GetEpisodes` and the memory after both loops,
from the memory `m` before them. -/
def mergeEpisodes (m : heap.Memory) (subEpisodes dubEpisodes : List heap.Episode)
    (malEpisodes : Int → Option Bytes) : List (Int × heap.Episode) × heap.Memory :=
  dubLoop malEpisodes dubEpisodes (subLoop malEpisodes subEpisodes []) m

/-- The slice `combinedEpisodes`: the values of the map, in some order. -/
def combinedEpisodes (m : heap.Memory) (subEpisodes dubEpisodes : List heap.Episode)
    (malEpisodes : Int → Option Bytes) : List heap.Episode :=
  (mergeEpisodes m subEpisodes dubEpisodes malEpisodes).1.map Prod.snd

/-- A map with every record read from the memory. -/
def loadMap (m : heap.Memory) (episodeMap : List (Int × heap.Episode)) : List (Int × Episode) :=
  episodeMap.map (fun kv => (kv.1, kv.2.load m))

/-- The map `episodeMap` as its reader sees it after both loops: every
record with the elements of its quality slice read from the memory the loops
leave. -/
def mergedRecords (m : heap.Memory) (subEpisodes dubEpisodes : List heap.Episode)
    (malEpisodes : Int → Option Bytes) : List (Int × Episode) :=
  loadMap (mergeEpisodes m subEpisodes dubEpisodes malEpisodes).2
    (mergeEpisodes m subEpisodes dubEpisodes malEpisodes).1

/-! ### Specification notions for the merge step in memory -/

/-- The quality slices of the records of a map. -/
def slices (episodeMap : List (Int × heap.Episode)) : List heap.Slice :=
  episodeMap.map (fun kv => kv.2.Source.Sources)

/-- No two of the quality slices of the records of the map and of the
episodes still to come share an element. -/
def Separate (episodeMap : List (Int × heap.Episode)) (todo : List heap.Episode) : Prop :=
  (slices episodeMap ++ todo.map (fun e => e.Source.Sources)).Pairwise heap.Slice.Disjoint

/-- The record `r` under the key `k` was built from an episode `e` numbered
`k`, of the sub list when that list holds the number and otherwise of the dub
list: it has the ID, filler flag, image and source of `e`, the title of
MyAnimeList for `k` or else the title of `e`, zero `Anime`, `Description` and
`Rating`, and it is marked as dubbed exactly when the dub list holds the
number. -/
def RecordOf (malEpisodes : Int → Option Bytes) (subs dubs : List heap.Episode) (k : Int)
    (r : heap.Episode) : Prop :=
  r.Number = k ∧ r.Anime = Title.zero ∧ r.Description = none ∧ r.Rating = none ∧
  (r.HasDub = true ↔ ∃ d ∈ dubs, d.Number = k) ∧
  ∃ e, ((e ∈ subs) ∨ ((∀ s ∈ subs, s.Number ≠ k) ∧ e ∈ dubs)) ∧ e.Number = k ∧ r.ID = e.ID ∧
    r.EpisodeTitle = (malEpisodes k).getD e.EpisodeTitle ∧ r.IsFiller = e.IsFiller ∧
    r.Img = e.Img ∧ r.Source = e.Source

/-- The map holds one record for each number of the two lists, built as
`RecordOf` says. -/
def MapOf (malEpisodes : Int → Option Bytes) (subs dubs : List heap.Episode)
    (episodeMap : List (Int × heap.Episode)) : Prop :=
  (episodeMap.map Prod.fst).Nodup ∧
  (∀ k, k ∈ episodeMap.map Prod.fst ↔ ∃ e ∈ subs ++ dubs, e.Number = k) ∧
  ∀ kv ∈ episodeMap, RecordOf malEpisodes subs dubs kv.1 kv.2

end heap

end mapping

namespace url

/-! ### Specification notions for `resolveURL` -/

/-- A letter of a scheme. -/
def letterByte (c : Byte) : Bool := (97 ≤ c.val ∧ c.val ≤ 122) ∨ (65 ≤ c.val ∧ c.val ≤ 90)

/-- A byte of a scheme: a letter, a digit, `+`, `-` or `.`. -/
def schemeByte (c : Byte) : Bool :=
  (97 ≤ c.val ∧ c.val ≤ 122) ∨ (65 ≤ c.val ∧ c.val ≤ 90) ∨ (48 ≤ c.val ∧ c.val ≤ 57) ∨
    c = 43 ∨ c = 45 ∨ c = 46

/-- A byte of a plain host name: a letter, a digit, `-`, `.`, `_` or `~`. -/
def hostByte (c : Byte) : Bool :=
  (97 ≤ c.val ∧ c.val ≤ 122) ∨ (65 ≤ c.val ∧ c.val ≤ 90) ∨ (48 ≤ c.val ∧ c.val ≤ 57) ∨
    c = 45 ∨ c = 46 ∨ c = 95 ∨ c = 126

/-- A byte that `url.Parse` leaves in a path as it is: no control byte and
none of `#`, `%` and `?`. -/
def plainByte (c : Byte) : Bool := 32 ≤ c.val ∧ c ≠ 127 ∧ c ≠ 35 ∧ c ≠ 37 ∧ c ≠ 63

/-- A plain path element: not empty, not `.`, not `..`, of plain bytes other
than the slash. -/
def plainElement (s : Bytes) : Bool :=
  s ≠ [] ∧ s ≠ [46] ∧ s ≠ [46, 46] ∧ s.all (fun c => plainByte c && decide (c ≠ 47))

/-- A scheme: a letter followed by scheme bytes. -/
def plainScheme (s : Bytes) : Bool :=
  match s with
  | [] => false
  | c :: cs => letterByte c && cs.all schemeByte

/-- A plain relative path: plain bytes, no slash at its start and no colon
before its first slash. -/
def plainRelative (r : Bytes) : Bool :=
  r.all plainByte && !strings.HasPrefix r [47] &&
    !(r.takeWhile (fun c => c ≠ 47)).contains 58

end url

/-! ### Lemmas on padding -/

namespace extractor

theorem pad_length (x : Bytes) : (pad x).length = x.length + (16 - x.length % 16) := by
  simp [pad]

theorem padByte_val (n : Nat) (h : n < 256) : ((Fin.ofNat n : Byte)).val = n := by
  simp [Fin.ofNat, Nat.mod_eq_of_lt h]

theorem ofNat_val (b : Byte) : (Fin.ofNat b.val : Byte) = b := by
  apply Fin.ext
  simp [Fin.ofNat, Nat.mod_eq_of_lt b.isLt]

/-- The check loop of `unpad` finds a bad byte exactly when one of the last
`n` bytes has a value other than `n`. -/
theorem unpad_loop_iff (d : Bytes) (n : Nat) (hn : n < 256) :
    (List.range n).any (fun i => d.getD (d.length - 1 - i) 0 != Fin.ofNat n) = true ↔
      ∃ i, i < n ∧ (d.getD (d.length - 1 - i) 0).val ≠ n := by
  simp only [List.any_eq_true, List.mem_range, bne_iff_ne, ne_eq]
  constructor
  · rintro ⟨i, hi, hne⟩
    refine ⟨i, hi, fun hv => hne ?_⟩
    apply Fin.ext
    rw [padByte_val n hn]
    exact hv
  · rintro ⟨i, hi, hne⟩
    refine ⟨i, hi, fun hv => hne ?_⟩
    rw [hv, padByte_val n hn]

/-- What `unpad` returns, by cases on its three guards. -/
theorem unpad_cases (d : Bytes) :
    (d = [] ∧ unpad d = .error .unpadEmpty) ∨
    (d ≠ [] ∧ ((d.getD (d.length - 1) 0).val = 0 ∨ d.length < (d.getD (d.length - 1) 0).val) ∧
      unpad d = .error .unpadInvalidPadding) ∨
    (d ≠ [] ∧ ¬ ((d.getD (d.length - 1) 0).val = 0 ∨ d.length < (d.getD (d.length - 1) 0).val) ∧
      (∃ i, i < (d.getD (d.length - 1) 0).val ∧
        (d.getD (d.length - 1 - i) 0).val ≠ (d.getD (d.length - 1) 0).val) ∧
      unpad d = .error .unpadInvalidPaddingBytes) ∨
    (d ≠ [] ∧ ¬ ((d.getD (d.length - 1) 0).val = 0 ∨ d.length < (d.getD (d.length - 1) 0).val) ∧
      (¬ ∃ i, i < (d.getD (d.length - 1) 0).val ∧
        (d.getD (d.length - 1 - i) 0).val ≠ (d.getD (d.length - 1) 0).val) ∧
      unpad d = .ok (d.take (d.length - (d.getD (d.length - 1) 0).val))) := by
  by_cases h0 : d = []
  · left
    subst h0
    exact ⟨rfl, rfl⟩
  · right
    have hlen : d.length ≠ 0 := fun h => h0 (List.length_eq_zero.mp h)
    by_cases h1 : (d.getD (d.length - 1) 0).val = 0 ∨ d.length < (d.getD (d.length - 1) 0).val
    · left
      refine ⟨h0, h1, ?_⟩
      unfold unpad
      simp only [hlen, if_false]
      rw [if_pos]
      exact h1
    · right
      have hloop := unpad_loop_iff d (d.getD (d.length - 1) 0).val (d.getD (d.length - 1) 0).isLt
      by_cases h2 : ∃ i, i < (d.getD (d.length - 1) 0).val ∧
          (d.getD (d.length - 1 - i) 0).val ≠ (d.getD (d.length - 1) 0).val
      · left
        refine ⟨h0, h1, h2, ?_⟩
        unfold unpad
        simp only [hlen, if_false]
        rw [if_neg (by exact h1), if_pos (hloop.mpr h2)]
      · right
        refine ⟨h0, h1, h2, ?_⟩
        unfold unpad
        simp only [hlen, if_false]
        rw [if_neg (by exact h1), if_neg (fun h => h2 (hloop.mp h))]


/-- Removing the padding undoes adding it. -/
theorem unpad_pad_ok (x : Bytes) : unpad (pad x) = .ok x := by
  have hk : 0 < 16 - x.length % 16 := by omega
  have hk16 : 16 - x.length % 16 ≤ 16 := by omega
  have hlen := pad_length x
  have hget : ∀ i, i < 16 - x.length % 16 →
      (pad x).getD ((pad x).length - 1 - i) 0 = Fin.ofNat (16 - x.length % 16) := by
    intro i hi
    rw [List.getD_eq_getElem _ _ (by omega)]
    simp only [pad]
    rw [List.getElem_append_right (by simp [pad] at hlen ⊢; omega)]
    simp
  have hlast : ((pad x).getD ((pad x).length - 1) 0).val = 16 - x.length % 16 := by
    have := hget 0 hk
    simp only [Nat.sub_zero] at this
    rw [this, padByte_val _ (by omega)]
  rcases unpad_cases (pad x) with ⟨h, _⟩ | ⟨_, h, _⟩ | ⟨_, _, ⟨i, hi, hne⟩, _⟩ | ⟨_, _, _, h⟩
  · have : (pad x).length = 0 := by rw [h]; rfl
    omega
  · rw [hlast] at h
    omega
  · rw [hlast] at hi hne
    rw [hget i hi, padByte_val _ (by omega)] at hne
    exact absurd rfl hne
  · rw [h, hlast, hlen]
    simp [pad]

end extractor

namespace util

/-! ### The match search -/

theorem max_swap (a b : Int) : util.max a b = util.max b a := by
  unfold util.max
  split_ifs <;> omega

theorem min_swap (a b : Int) : util.min a b = util.min b a := by
  unfold util.min
  split_ifs <;> omega

theorem Compat.symm {s1 s2 : Bytes} {d : Int} {i j : Nat} (h : Compat s1 s2 d i j) :
    Compat s2 s1 d j i := by
  obtain ⟨h1, h2, h3, h4, h5⟩ := h
  exact ⟨h2, h1, h3.symm, by omega, by omega⟩

/-- The inner loop never reads outside the slices, and stops at the first
free position of the window that holds the byte `s1[i]`. -/
theorem matchScan_spec (s1 s2 : Bytes) (s2m : List Bool) (i : Nat) (hi : i < s1.length)
    (hlen : s2m.length = s2.length) :
    ∀ fuel j, (0 < fuel → j + fuel ≤ s2.length) →
      ∃ r, matchScan s1 s2 s2m i j fuel = some r ∧
        (r = none → ∀ j', j ≤ j' → j' < j + fuel →
          s2m.getD j' false = true ∨ s1[i]? ≠ s2[j']?) ∧
        (∀ j0, r = some j0 → j ≤ j0 ∧ j0 < j + fuel ∧ s2m.getD j0 false = false ∧
          s1[i]? = s2[j0]? ∧
          ∀ j', j ≤ j' → j' < j0 → s2m.getD j' false = true ∨ s1[i]? ≠ s2[j']?) := by
  intro fuel
  induction fuel with
  | zero =>
    intro j _
    refine ⟨none, rfl, ?_, ?_⟩
    · intro _ j' h1 h2
      omega
    · intro j0 h
      cases h
  | succ fuel ih =>
    intro j hj
    have hjn : j < s2.length := by omega
    have hjm : j < s2m.length := by omega
    obtain ⟨r, hr, hnone, hsome⟩ := ih (j + 1) (by intro _; omega)
    have hget2 : s2m[j]? = some s2m[j] := List.getElem?_eq_getElem hjm
    have hgetD : s2m.getD j false = s2m[j] := List.getD_eq_getElem _ _ hjm
    have hs1 : s1[i]? = some s1[i] := List.getElem?_eq_getElem hi
    have hs2 : s2[j]? = some s2[j] := List.getElem?_eq_getElem hjn
    by_cases hf : s2m[j] = true
    · -- position already matched: continue
      refine ⟨r, ?_, ?_, ?_⟩
      · rw [matchScan, hget2, hf]
        exact hr
      · intro hrn j' h1 h2
        rcases Nat.eq_or_lt_of_le h1 with h | h
        · subst h
          left
          rw [hgetD, hf]
        · exact hnone hrn j' (by omega) (by omega)
      · intro j0 hj0
        obtain ⟨a1, a2, a3, a4, a5⟩ := hsome j0 hj0
        refine ⟨by omega, by omega, a3, a4, ?_⟩
        intro j' h1 h2
        rcases Nat.eq_or_lt_of_le h1 with h | h
        · subst h
          left
          rw [hgetD, hf]
        · exact a5 j' (by omega) h2
    · have hf' : s2m[j] = false := by simpa using hf
      by_cases hc : s1[i] = s2[j]
      · refine ⟨some j, ?_, ?_, ?_⟩
        · rw [matchScan, hget2, hf']
          simp only [hs1, hs2]
          rw [if_neg (by simpa using hc)]
        · intro h
          cases h
        · intro j0 hj0
          cases hj0
          refine ⟨le_refl _, by omega, by rw [hgetD, hf'], by rw [hs1, hs2, hc], ?_⟩
          intro j' h1 h2
          omega
      · refine ⟨r, ?_, ?_, ?_⟩
        · rw [matchScan, hget2, hf']
          simp only [hs1, hs2]
          rw [if_pos (by simpa using hc)]
          exact hr
        · intro hrn j' h1 h2
          rcases Nat.eq_or_lt_of_le h1 with h | h
          · subst h
            right
            rw [hs1, hs2]
            simpa using hc
          · exact hnone hrn j' (by omega) (by omega)
        · intro j0 hj0
          obtain ⟨a1, a2, a3, a4, a5⟩ := hsome j0 hj0
          refine ⟨by omega, by omega, a3, a4, ?_⟩
          intro j' h1 h2
          rcases Nat.eq_or_lt_of_le h1 with h | h
          · subst h
            right
            rw [hs1, hs2]
            simpa using hc
          · exact a5 j' (by omega) h2

theorem window_iff (n i : Nat) (d : Int) (j : Nat) :
    ((util.max 0 ((i : Int) - d)).toNat ≤ j ∧
      j < (util.max 0 ((i : Int) - d)).toNat +
        (util.min ((n : Int) - 1) ((i : Int) + d) + 1 - util.max 0 ((i : Int) - d)).toNat) ↔
    ((i : Int) - d ≤ j ∧ (j : Int) ≤ i + d ∧ j < n) := by
  unfold util.max util.min
  split_ifs <;> omega

theorem window_bound (n i : Nat) (d : Int) :
    0 < (util.min ((n : Int) - 1) ((i : Int) + d) + 1 - util.max 0 ((i : Int) - d)).toNat →
    (util.max 0 ((i : Int) - d)).toNat +
      (util.min ((n : Int) - 1) ((i : Int) + d) + 1 - util.max 0 ((i : Int) - d)).toNat ≤ n := by
  unfold util.max util.min
  split_ifs <;> omega

theorem getD_set_true (l : List Bool) (i a : Nat) (hi : i < l.length) :
    (l.set i true).getD a false = true ↔ (a = i ∨ l.getD a false = true) := by
  simp only [List.getD_eq_getElem?_getD, List.getElem?_set, hi, if_true]
  by_cases h : i = a
  · subst h
    simp
  · simp only [h, if_false]
    constructor
    · intro h1
      exact Or.inr h1
    · rintro (h1 | h1)
      · exact absurd h1.symm h
      · exact h1

theorem count_set_true (l : List Bool) (i : Nat) (hi : i < l.length)
    (hf : l.getD i false = false) : (l.set i true).count true = l.count true + 1 := by
  rw [List.count_set true true l i hi]
  rw [List.getD_eq_getElem _ _ hi] at hf
  simp [hf]

/-- The invariant holds at the start of the match search. -/
theorem MatchInv.init (s1 s2 : Bytes) (d : Int) :
    MatchInv s1 s2 d 0
      ⟨List.replicate s1.length false, List.replicate s2.length false, 0⟩
      (fun _ _ => False) where
  len1 := by simp
  len2 := by simp
  flag1 := by
    intro a
    simp only [List.getD_eq_getElem?_getD, List.getElem?_replicate]
    split_ifs <;> simp
  flag2 := by
    intro a
    simp only [List.getD_eq_getElem?_getD, List.getElem?_replicate]
    split_ifs <;> simp
  functional := by
    intro a b b' h
    exact absurd h id
  injective := by
    intro a a' b h
    exact absurd h id
  compat := by
    intro a b h
    exact absurd h id
  left1 := by
    intro a b b' h
    exact absurd h id
  left2 := by
    intro a a' b h
    exact absurd h id
  max1 := by
    intro a b h
    omega
  max2 := by
    intro a b h
    omega
  count1 := by
    show 0 = List.count true (List.replicate s1.length false)
    rw [List.count_replicate]
    simp
  count2 := by
    show 0 = List.count true (List.replicate s2.length false)
    rw [List.count_replicate]
    simp

/-- The invariant is kept by an iteration that finds no partner. -/
theorem MatchInv.skip {s1 s2 : Bytes} {d : Int} {i : Nat} {st : MatchState}
    {P : Nat → Nat → Prop} (inv : MatchInv s1 s2 d i st P)
    (hnone : ∀ j, Compat s1 s2 d i j → st.s2Matches.getD j false = true) :
    MatchInv s1 s2 d (i + 1) st P where
  len1 := inv.len1
  len2 := inv.len2
  flag1 := inv.flag1
  flag2 := inv.flag2
  functional := inv.functional
  injective := inv.injective
  compat := by
    intro a b h
    obtain ⟨h1, h2⟩ := inv.compat a b h
    exact ⟨by omega, h2⟩
  left1 := inv.left1
  left2 := inv.left2
  max1 := by
    intro a b ha hc hno
    rcases Nat.lt_succ_iff_lt_or_eq.mp ha with h | h
    · exact inv.max1 a b h hc hno
    · subst h
      obtain ⟨a', ha'⟩ := (inv.flag2 b).mp (hnone b hc)
      exact ⟨a', (inv.compat a' b ha').1, ha'⟩
  max2 := by
    intro a b ha hc hno
    rcases Nat.lt_succ_iff_lt_or_eq.mp ha with h | h
    · exact inv.max2 a b h hc hno
    · subst h
      exact absurd ((inv.flag2 b).mp (hnone b hc)) hno
  count1 := inv.count1
  count2 := inv.count2

/-- The invariant is kept by an iteration that matches `i` with the first
free candidate `j0` of its window. -/
theorem MatchInv.add {s1 s2 : Bytes} {d : Int} {i j0 : Nat} {st : MatchState}
    {P : Nat → Nat → Prop} (inv : MatchInv s1 s2 d i st P)
    (hc0 : Compat s1 s2 d i j0) (hfree : st.s2Matches.getD j0 false = false)
    (hfirst : ∀ j, j < j0 → Compat s1 s2 d i j → st.s2Matches.getD j false = true) :
    MatchInv s1 s2 d (i + 1)
      ⟨st.s1Matches.set i true, st.s2Matches.set j0 true, st.matchCount + 1⟩
      (fun a b => P a b ∨ (a = i ∧ b = j0)) := by
  have hi1 : i < st.s1Matches.length := by rw [inv.len1]; exact hc0.1
  have hj2 : j0 < st.s2Matches.length := by rw [inv.len2]; exact hc0.2.1
  have hnoi : ∀ b, ¬ P i b := fun b h => absurd (inv.compat i b h).1 (lt_irrefl _)
  have hnoj : ∀ a, ¬ P a j0 := by
    intro a h
    have := (inv.flag2 j0).mpr ⟨a, h⟩
    rw [hfree] at this
    cases this
  have hflag_i : st.s1Matches.getD i false = false := by
    cases hb : st.s1Matches.getD i false
    · rfl
    · obtain ⟨b, hb'⟩ := (inv.flag1 i).mp hb
      exact absurd hb' (hnoi b)
  refine
    { len1 := by simp [inv.len1]
      len2 := by simp [inv.len2]
      flag1 := ?_
      flag2 := ?_
      functional := ?_
      injective := ?_
      compat := ?_
      left1 := ?_
      left2 := ?_
      max1 := ?_
      max2 := ?_
      count1 := ?_
      count2 := ?_ }
  · intro a
    show (st.s1Matches.set i true).getD a false = true ↔ _
    rw [getD_set_true _ _ _ hi1, inv.flag1 a]
    constructor
    · rintro (h | ⟨b, hb⟩)
      · exact ⟨j0, Or.inr ⟨h, rfl⟩⟩
      · exact ⟨b, Or.inl hb⟩
    · rintro ⟨b, hb | ⟨h, _⟩⟩
      · exact Or.inr ⟨b, hb⟩
      · exact Or.inl h
  · intro b
    show (st.s2Matches.set j0 true).getD b false = true ↔ _
    rw [getD_set_true _ _ _ hj2, inv.flag2 b]
    constructor
    · rintro (h | ⟨a, ha⟩)
      · exact ⟨i, Or.inr ⟨rfl, h⟩⟩
      · exact ⟨a, Or.inl ha⟩
    · rintro ⟨a, ha | ⟨_, h⟩⟩
      · exact Or.inr ⟨a, ha⟩
      · exact Or.inl h
  · rintro a b b' (h | ⟨h1, h2⟩) (h' | ⟨h1', h2'⟩)
    · exact inv.functional a b b' h h'
    · subst h1'
      exact absurd h (hnoi b)
    · subst h1
      exact absurd h' (hnoi b')
    · rw [h2, h2']
  · rintro a a' b (h | ⟨h1, h2⟩) (h' | ⟨h1', h2'⟩)
    · exact inv.injective a a' b h h'
    · subst h2'
      exact absurd h (hnoj a)
    · subst h2
      exact absurd h' (hnoj a')
    · rw [h1, h1']
  · rintro a b (h | ⟨h1, h2⟩)
    · obtain ⟨h1, h2⟩ := inv.compat a b h
      exact ⟨by omega, h2⟩
    · subst h1 h2
      exact ⟨by omega, hc0⟩
  · rintro a b b' (h | ⟨h1, h2⟩) hlt hc
    · obtain ⟨a', h1, h2⟩ := inv.left1 a b b' h hlt hc
      exact ⟨a', h1, Or.inl h2⟩
    · subst h1 h2
      obtain ⟨a', ha'⟩ := (inv.flag2 b').mp (hfirst b' hlt hc)
      exact ⟨a', (inv.compat a' b' ha').1, Or.inl ha'⟩
  · rintro a a' b (h | ⟨h1, h2⟩) hlt hc
    · obtain ⟨b', h1, h2⟩ := inv.left2 a a' b h hlt hc
      exact ⟨b', h1, Or.inl h2⟩
    · subst h1 h2
      obtain ⟨b', h1, h2⟩ := inv.max2 a' b hlt hc (fun ⟨x, hx⟩ => hnoj x hx)
      exact ⟨b', h1, Or.inl h2⟩
  · intro a b ha hc hno
    rcases Nat.lt_succ_iff_lt_or_eq.mp ha with h | h
    · obtain ⟨a', h1, h2⟩ := inv.max1 a b h hc (fun ⟨x, hx⟩ => hno ⟨x, Or.inl hx⟩)
      exact ⟨a', h1, Or.inl h2⟩
    · subst h
      exact absurd ⟨j0, Or.inr ⟨rfl, rfl⟩⟩ hno
  · intro a b ha hc hno
    rcases Nat.lt_succ_iff_lt_or_eq.mp ha with h | h
    · obtain ⟨b', h1, h2⟩ := inv.max2 a b h hc (fun ⟨x, hx⟩ => hno ⟨x, Or.inl hx⟩)
      exact ⟨b', h1, Or.inl h2⟩
    · subst h
      have hbne : b ≠ j0 := fun hb => hno ⟨a, Or.inr ⟨rfl, hb⟩⟩
      have hbfree : ¬ st.s2Matches.getD b false = true := by
        intro hb
        obtain ⟨x, hx⟩ := (inv.flag2 b).mp hb
        exact hno ⟨x, Or.inl hx⟩
      have hge : ¬ b < j0 := fun hlt => hbfree (hfirst b hlt hc)
      exact ⟨j0, by omega, Or.inr ⟨rfl, rfl⟩⟩
  · show st.matchCount + 1 = (st.s1Matches.set i true).count true
    rw [count_set_true _ _ hi1 hflag_i, inv.count1]
  · show st.matchCount + 1 = (st.s2Matches.set j0 true).count true
    rw [count_set_true _ _ hj2 hfree, inv.count2]

/-- The match search never reads or writes outside its slices, and its
final state satisfies the invariant for some matching. -/
theorem matchLoop_inv (s1 s2 : Bytes) (d : Int) :
    ∀ fuel i st P, i + fuel = s1.length → MatchInv s1 s2 d i st P →
      ∃ st' P', matchLoop s1 s2 d i fuel st = some st' ∧
        MatchInv s1 s2 d s1.length st' P' := by
  intro fuel
  induction fuel with
  | zero =>
    intro i st P hi inv
    have : i = s1.length := by omega
    subst this
    exact ⟨st, P, rfl, inv⟩
  | succ fuel ih =>
    intro i st P hi inv
    have him : i < s1.length := by omega
    obtain ⟨r, hr, hnone, hsome⟩ := matchScan_spec s1 s2 st.s2Matches i him inv.len2
      (util.min ((s2.length : Int) - 1) ((i : Int) + d) + 1 - util.max 0 ((i : Int) - d)).toNat
      (util.max 0 ((i : Int) - d)).toNat (window_bound s2.length i d)
    cases r with
    | none =>
      have hskip : ∀ j, Compat s1 s2 d i j → st.s2Matches.getD j false = true := by
        intro j hc
        have hw := (window_iff s2.length i d j).mpr ⟨hc.2.2.2.1, hc.2.2.2.2, hc.2.1⟩
        rcases hnone rfl j hw.1 hw.2 with h | h
        · exact h
        · exact absurd hc.2.2.1 h
      obtain ⟨st', P', h1, h2⟩ := ih (i + 1) st P (by omega) (inv.skip hskip)
      refine ⟨st', P', ?_, h2⟩
      simp only [matchLoop, hr]
      exact h1
    | some j0 =>
      obtain ⟨a1, a2, a3, a4, a5⟩ := hsome j0 rfl
      have hw := (window_iff s2.length i d j0).mp ⟨a1, a2⟩
      have hc0 : Compat s1 s2 d i j0 := ⟨him, hw.2.2, a4, hw.1, hw.2.1⟩
      have hfirst : ∀ j, j < j0 → Compat s1 s2 d i j → st.s2Matches.getD j false = true := by
        intro j hlt hc
        have hwj := (window_iff s2.length i d j).mpr ⟨hc.2.2.2.1, hc.2.2.2.2, hc.2.1⟩
        rcases a5 j hwj.1 hlt with h | h
        · exact h
        · exact absurd hc.2.2.1 h
      obtain ⟨st', P', h1, h2⟩ := ih (i + 1) _ _ (by omega) (inv.add hc0 a3 hfirst)
      refine ⟨st', P', ?_, h2⟩
      have hcond : i < st.s1Matches.length ∧ j0 < st.s2Matches.length := by
        rw [inv.len1, inv.len2]
        exact ⟨him, hw.2.2⟩
      simp only [matchLoop, hr, hcond, and_self, if_true]
      exact h1

/-- At the end of the match search the matching is greedy from both sides. -/
theorem MatchInv.greedy {s1 s2 : Bytes} {d : Int} {st : MatchState}
    {P : Nat → Nat → Prop} (inv : MatchInv s1 s2 d s1.length st P) :
    Greedy s1 s2 d P where
  functional := inv.functional
  injective := inv.injective
  compat := fun a b h => (inv.compat a b h).2
  left1 := inv.left1
  left2 := inv.left2
  max1 := fun a b hc => inv.max1 a b hc.1 hc
  max2 := fun a b hc => inv.max2 a b hc.1 hc

theorem Greedy.swap {s1 s2 : Bytes} {d : Int} {P : Nat → Nat → Prop}
    (g : Greedy s1 s2 d P) : Greedy s2 s1 d (fun a b => P b a) where
  functional := fun a b b' h h' => g.injective b b' a h h'
  injective := fun a a' b h h' => g.functional b a a' h h'
  compat := fun a b h => (g.compat b a h).symm
  left1 := fun a b b' h hlt hc => g.left2 b b' a h hlt hc.symm
  left2 := fun a a' b h hlt hc => g.left1 b a a' h hlt hc.symm
  max1 := fun a b hc hno => g.max2 b a hc.symm hno
  max2 := fun a b hc hno => g.max1 b a hc.symm hno

/-- One half of uniqueness: a pair of one greedy matching belongs to every
other, by induction on the sum of the two positions. -/
theorem Greedy.sub_aux {s1 s2 : Bytes} {d : Int} {P Q : Nat → Nat → Prop}
    (gP : Greedy s1 s2 d P) (gQ : Greedy s1 s2 d Q) :
    ∀ k a b, a + b = k → ((P a b → Q a b) ∧ (Q a b → P a b)) := by
  intro k
  induction k using Nat.strong_induction_on with
  | _ k ih =>
    have key : ∀ (P Q : Nat → Nat → Prop), Greedy s1 s2 d P → Greedy s1 s2 d Q →
        (∀ a b, a + b < k → Q a b → P a b) → ∀ a b, a + b = k → P a b → Q a b := by
      intro P Q gP gQ hsm a b hk hP
      have hc := gP.compat a b hP
      by_cases hex : ∃ b', Q a b'
      · obtain ⟨b', hb'⟩ := hex
        rcases Nat.lt_trichotomy b' b with h | h | h
        · have := hsm a b' (by omega) hb'
          have := gP.functional a b b' hP this
          omega
        · rw [← h]
          exact hb'
        · obtain ⟨a', ha', hq⟩ := gQ.left1 a b' b hb' h hc
          have := hsm a' b (by omega) hq
          have := gP.injective a a' b hP this
          omega
      · obtain ⟨a', ha', hq⟩ := gQ.max1 a b hc hex
        have := hsm a' b (by omega) hq
        have := gP.injective a a' b hP this
        omega
    intro a b hk
    constructor
    · exact key P Q gP gQ (fun a' b' hlt => (ih (a' + b') hlt a' b' rfl).2) a b hk
    · exact key Q P gQ gP (fun a' b' hlt => (ih (a' + b') hlt a' b' rfl).1) a b hk

/-- Two matchings that are greedy from both sides are equal. -/
theorem Greedy.unique {s1 s2 : Bytes} {d : Int} {P Q : Nat → Nat → Prop}
    (gP : Greedy s1 s2 d P) (gQ : Greedy s1 s2 d Q) (a b : Nat) : P a b ↔ Q a b :=
  ⟨(gP.sub_aux gQ (a + b) a b rfl).1, (gP.sub_aux gQ (a + b) a b rfl).2⟩

/-! ### The transposition count -/

theorem matchedChars_length : ∀ (cs : Bytes) (fs : List Bool), cs.length = fs.length →
    (matchedChars cs fs).length = fs.count true
  | [], [], _ => rfl
  | [], _ :: _, h => by simp at h
  | _ :: _, [], h => by simp at h
  | c :: cs, true :: fs, h => by
    have := matchedChars_length cs fs (by simpa using h)
    simp [matchedChars, this]
  | c :: cs, false :: fs, h => by
    have := matchedChars_length cs fs (by simpa using h)
    simp [matchedChars, this]

theorem mismatches_comm : ∀ (as bs : Bytes), mismatches as bs = mismatches bs as
  | [], [] => rfl
  | [], _ :: _ => rfl
  | _ :: _, [] => rfl
  | a :: as, b :: bs => by
    simp only [mismatches, mismatches_comm as bs, ne_eq]
    by_cases h : a = b
    · simp [h]
    · have h' : ¬ b = a := fun e => h e.symm
      simp [h, h']

theorem mismatches_le : ∀ (as bs : Bytes), mismatches as bs ≤ as.length
  | [], [] => by simp [mismatches]
  | [], _ :: _ => by simp [mismatches]
  | _ :: _, [] => by simp [mismatches]
  | a :: as, b :: bs => by
    have := mismatches_le as bs
    simp only [mismatches, List.length_cons]
    split_ifs <;> omega

/-- The scan for the next flag stays inside the slice when a flag is left,
and stops at the first one. -/
theorem skipUnmatched_spec : ∀ (fs : List Bool) (cs : Bytes) (k : Nat),
    cs.length = fs.length → 0 < fs.count true →
    ∃ r c, skipUnmatched fs k = some (k + r) ∧ cs[r]? = some c ∧
      matchedChars cs fs = c :: matchedChars (cs.drop (r + 1)) (fs.drop (r + 1)) ∧
      fs.count true = (fs.drop (r + 1)).count true + 1
  | [], _, _, _, h => by simp at h
  | _ :: _, [], _, h, _ => by simp at h
  | true :: fs, c :: cs, k, _, _ => by
    refine ⟨0, c, ?_, ?_, ?_, ?_⟩
    · simp [skipUnmatched]
    · simp
    · simp [matchedChars]
    · simp
  | false :: fs, c0 :: cs, k, hlen, hpos => by
    obtain ⟨r, c, h1, h2, h3, h4⟩ := skipUnmatched_spec fs cs (k + 1)
      (by simpa using hlen) (by simpa using hpos)
    refine ⟨r + 1, c, ?_, ?_, ?_, ?_⟩
    · rw [skipUnmatched, h1]
      congr 1
      omega
    · simpa using h2
    · simpa [matchedChars] using h3
    · simpa using h4

/-- The transposition loop never reads outside its slices when the two flag
slices hold equally many flags, and counts the positions at which the matched
bytes of `s1` and of `s2`, both taken in order, differ. -/
theorem transLoop_spec (s1 s2 : Bytes) (s1m s2m : List Bool)
    (hl1 : s1m.length = s1.length) (hl2 : s2m.length = s2.length) :
    ∀ fuel i k t, i + fuel = s1.length →
      (s1m.drop i).count true ≤ (s2m.drop k).count true →
      transLoop s1 s2 s1m s2m i fuel k t =
        some (t + mismatches (matchedChars (s1.drop i) (s1m.drop i))
          (matchedChars (s2.drop k) (s2m.drop k))) := by
  intro fuel
  induction fuel with
  | zero =>
    intro i k t hi _
    have h1 : s1.drop i = [] := List.drop_eq_nil_of_le (by omega)
    simp [transLoop, h1, matchedChars, mismatches]
  | succ fuel ih =>
    intro i k t hi hcount
    have him : i < s1.length := by omega
    have him' : i < s1m.length := by omega
    have hd1 : s1.drop i = s1[i] :: s1.drop (i + 1) := List.drop_eq_getElem_cons him
    have hd2 : s1m.drop i = s1m[i] :: s1m.drop (i + 1) := List.drop_eq_getElem_cons him'
    have hg : s1m[i]? = some s1m[i] := List.getElem?_eq_getElem him'
    have hs1 : s1[i]? = some s1[i] := List.getElem?_eq_getElem him
    by_cases hf : s1m[i] = true
    · rw [hd2, hf] at hcount
      have hpos : 0 < (s2m.drop k).count true := by
        simp at hcount
        omega
      obtain ⟨r, c, h1, h2, h3, h4⟩ := skipUnmatched_spec (s2m.drop k) (s2.drop k) k
        (by simp [hl2]) hpos
      rw [List.getElem?_drop] at h2
      rw [List.drop_drop, List.drop_drop] at h3
      rw [List.drop_drop] at h4
      have hnext := ih (i + 1) (k + r + 1) (if s1[i] ≠ c then t + 1 else t) (by omega)
        (by
          simp at hcount
          rw [Nat.add_assoc]
          omega)
      rw [transLoop, hg, hf]
      simp only [h1, hs1, h2]
      rw [hnext, hd1, hd2, hf, h3]
      simp only [matchedChars, mismatches, Nat.add_assoc]
      congr 1
      split_ifs <;> omega
    · have hf' : s1m[i] = false := by simpa using hf
      rw [hd2, hf'] at hcount
      have hnext := ih (i + 1) k t (by omega) (by simpa using hcount)
      rw [transLoop, hg, hf']
      simp only
      rw [hnext, hd1, hd2, hf']
      simp [matchedChars]

/-! ### The prefix loop -/

theorem prefixLoop_comm (s1 s2 : Bytes) : ∀ fuel i p,
    prefixLoop s1 s2 i fuel p = prefixLoop s2 s1 i fuel p := by
  intro fuel
  induction fuel with
  | zero =>
    intro i p
    rfl
  | succ fuel ih =>
    intro i p
    rw [prefixLoop, prefixLoop]
    cases h1 : s1[i]? <;> cases h2 : s2[i]? <;> simp only
    rename_i a b
    by_cases hab : a = b
    · rw [if_pos hab, if_pos hab.symm]
      exact ih (i + 1) (p + 1)
    · rw [if_neg hab, if_neg (fun e => hab e.symm)]

/-- The prefix loop never reads outside the strings and adds at most one
per iteration. -/
theorem prefixLoop_spec (s1 s2 : Bytes) : ∀ fuel i p,
    i + fuel ≤ s1.length → i + fuel ≤ s2.length →
    ∃ r, prefixLoop s1 s2 i fuel p = some r ∧ p ≤ r ∧ r ≤ p + fuel := by
  intro fuel
  induction fuel with
  | zero =>
    intro i p _ _
    exact ⟨p, rfl, le_refl _, le_refl _⟩
  | succ fuel ih =>
    intro i p h1 h2
    have hs1 : s1[i]? = some s1[i] := List.getElem?_eq_getElem (by omega)
    have hs2 : s2[i]? = some s2[i] := List.getElem?_eq_getElem (by omega)
    rw [prefixLoop, hs1, hs2]
    simp only
    by_cases hab : s1[i] = s2[i]
    · rw [if_pos hab]
      obtain ⟨r, hr, h3, h4⟩ := ih (i + 1) (p + 1) (by omega) (by omega)
      exact ⟨r, hr, by omega, by omega⟩
    · rw [if_neg hab]
      exact ⟨p, rfl, le_refl _, by omega⟩

/-! ### The whole function -/

theorem prefixFuel_le (m n : Nat) :
    (util.min 4 (util.min (m : Int) (n : Int))).toNat ≤ m ∧
    (util.min 4 (util.min (m : Int) (n : Int))).toNat ≤ n ∧
    (util.min 4 (util.min (m : Int) (n : Int))).toNat ≤ 4 := by
  unfold util.min
  split_ifs <;> omega

/-- On two non-empty lower-cased strings `JaroWinkler` does not panic: the
match search ends in a state that satisfies the invariant, and the result is
0 when nothing matched and the score of the counts otherwise. -/
theorem JaroWinkler_nonempty (toLower : Bytes → Bytes) (a b : Bytes)
    (ha : toLower a ≠ []) (hb : toLower b ≠ []) :
    ∃ st P p,
      MatchInv (toLower a) (toLower b)
        (util.max (toLower a).length (toLower b).length / 2 - 1) (toLower a).length st P ∧
      prefixLoop (toLower a) (toLower b) 0
        (util.min 4 (util.min (toLower a).length (toLower b).length)).toNat 0 = some p ∧
      p ≤ 4 ∧
      JaroWinkler toLower a b =
        some (if st.matchCount = 0 then 0
          else score (toLower a).length (toLower b).length st.matchCount
            (mismatches (matchedChars (toLower a) st.s1Matches)
              (matchedChars (toLower b) st.s2Matches) / 2) p) := by
  have hm : (toLower a).length ≠ 0 := fun h => ha (List.length_eq_zero.mp h)
  have hn : (toLower b).length ≠ 0 := fun h => hb (List.length_eq_zero.mp h)
  obtain ⟨st, P, hloop, inv⟩ := matchLoop_inv (toLower a) (toLower b)
    (util.max (toLower a).length (toLower b).length / 2 - 1) (toLower a).length 0 _ _
    (by omega) (MatchInv.init _ _ _)
  obtain ⟨f1, f2, f3⟩ := prefixFuel_le (toLower a).length (toLower b).length
  obtain ⟨p, hp, _, hp4⟩ := prefixLoop_spec (toLower a) (toLower b)
    (util.min 4 (util.min (toLower a).length (toLower b).length)).toNat 0 0
    (by omega) (by omega)
  have htrans := transLoop_spec (toLower a) (toLower b) st.s1Matches st.s2Matches
    inv.len1 inv.len2 (toLower a).length 0 0 0 (by omega)
    (by rw [List.drop_zero, List.drop_zero, ← inv.count1, ← inv.count2])
  simp only [List.drop_zero, Nat.zero_add] at htrans
  refine ⟨st, P, p, inv, hp, by omega, ?_⟩
  unfold JaroWinkler
  simp only [hm, hn, false_and, false_or, if_false, hloop]
  by_cases hz : st.matchCount = 0
  · simp only [hz, if_true]
  · simp only [hz, if_false, htrans, hp, score]

theorem toLowerASCII_eq_nil (s : Bytes) : toLowerASCII s = [] ↔ s = [] := by
  simp [toLowerASCII]

theorem score_bounds (m n k t p : Nat) (hk : 0 < k) (hkm : k ≤ m) (hkn : k ≤ n)
    (ht : t ≤ k) (hp : p ≤ 4) : 0 ≤ score m n k t p ∧ score m n k t p ≤ 1 := by
  have hkq : (0 : ℚ) < k := by exact_mod_cast hk
  have hmq : (0 : ℚ) < m := by exact_mod_cast (lt_of_lt_of_le hk hkm)
  have hnq : (0 : ℚ) < n := by exact_mod_cast (lt_of_lt_of_le hk hkn)
  have hx0 : (0 : ℚ) ≤ (k : ℚ) / m := div_nonneg hkq.le hmq.le
  have hx1 : (k : ℚ) / m ≤ 1 := by
    rw [div_le_one hmq]
    exact_mod_cast hkm
  have hy0 : (0 : ℚ) ≤ (k : ℚ) / n := div_nonneg hkq.le hnq.le
  have hy1 : (k : ℚ) / n ≤ 1 := by
    rw [div_le_one hnq]
    exact_mod_cast hkn
  have hcast : ((((k : Int) - (t : Int) : Int)) : ℚ) = (k : ℚ) - (t : ℚ) := by push_cast; ring
  have htq : (t : ℚ) ≤ k := by exact_mod_cast ht
  have ht0 : (0 : ℚ) ≤ t := by exact_mod_cast Nat.zero_le t
  have hz0 : (0 : ℚ) ≤ ((((k : Int) - (t : Int) : Int)) : ℚ) / k := by
    rw [hcast]
    exact div_nonneg (by linarith) hkq.le
  have hz1 : ((((k : Int) - (t : Int) : Int)) : ℚ) / k ≤ 1 := by
    rw [hcast, div_le_one hkq]
    linarith
  have hp0 : (0 : ℚ) ≤ p := by exact_mod_cast Nat.zero_le p
  have hp4 : (p : ℚ) ≤ 4 := by exact_mod_cast hp
  unfold score
  generalize (k : ℚ) / m = x at hx0 hx1
  generalize (k : ℚ) / n = y at hy0 hy1
  generalize ((((k : Int) - (t : Int) : Int)) : ℚ) / k = z at hz0 hz1
  constructor
  · have h1 : 0 ≤ (x + y + z) / 3 := by linarith
    have h2 : 0 ≤ 1 - (x + y + z) / 3 := by linarith
    have h3 : 0 ≤ (p : ℚ) * (1 / 10) * (1 - (x + y + z) / 3) :=
      mul_nonneg (mul_nonneg hp0 (by norm_num)) h2
    linarith
  · have h2 : 0 ≤ 1 - (x + y + z) / 3 := by linarith
    have h3 : (p : ℚ) * (1 / 10) * (1 - (x + y + z) / 3) ≤ 1 * (1 - (x + y + z) / 3) :=
      mul_le_mul_of_nonneg_right (by linarith) h2
    linarith

theorem score_comm (m n k t p : Nat) : score m n k t p = score n m k t p := by
  unfold score
  ring

/-- The function `JaroWinkler` returns a value: it does not panic. -/
theorem JaroWinkler_total (toLower : Bytes → Bytes) (a b : Bytes) :
    ∃ r, JaroWinkler toLower a b = some r := by
  by_cases ha : toLower a = []
  · by_cases hb : toLower b = []
    · exact ⟨1, by simp [JaroWinkler, ha, hb]⟩
    · have hn : (toLower b).length ≠ 0 := fun h => hb (List.length_eq_zero.mp h)
      exact ⟨0, by simp [JaroWinkler, ha, hn]⟩
  · by_cases hb : toLower b = []
    · have hm : (toLower a).length ≠ 0 := fun h => ha (List.length_eq_zero.mp h)
      exact ⟨0, by simp [JaroWinkler, hb, hm]⟩
    · obtain ⟨st, P, p, _, _, _, hjw⟩ := JaroWinkler_nonempty toLower a b ha hb
      exact ⟨_, hjw⟩

theorem flags_ext (l1 l2 : List Bool) (hlen : l1.length = l2.length)
    (h : ∀ a, l1.getD a false = true ↔ l2.getD a false = true) : l1 = l2 := by
  apply List.ext_getElem hlen
  intro n h1 h2
  have := h n
  rw [List.getD_eq_getElem _ _ h1, List.getD_eq_getElem _ _ h2] at this
  cases hx : l1[n] <;> cases hy : l2[n] <;> simp_all

/-- The loop of `FindBestMatch` keeps the first of the candidates with the
highest score seen so far. -/
theorem bestLoop_spec (toLower : Bytes → Bytes) (q : Bytes) :
    ∀ (rest pre : List Bytes) (bi : Nat) (hi : ℚ), bi < pre.length →
      JaroWinkler toLower q (pre.getD bi []) = some hi →
      (∀ j, j < pre.length → ∃ rj, JaroWinkler toLower q (pre.getD j []) = some rj ∧ rj ≤ hi) →
      (∀ j, j < bi → ∃ rj, JaroWinkler toLower q (pre.getD j []) = some rj ∧ rj < hi) →
      ∃ i r, i < (pre ++ rest).length ∧
        bestLoop toLower q rest (pre.getD bi []) hi = some ((pre ++ rest).getD i []) ∧
        JaroWinkler toLower q ((pre ++ rest).getD i []) = some r ∧
        (∀ j, j < (pre ++ rest).length →
          ∃ rj, JaroWinkler toLower q ((pre ++ rest).getD j []) = some rj ∧ rj ≤ r) ∧
        (∀ j, j < i →
          ∃ rj, JaroWinkler toLower q ((pre ++ rest).getD j []) = some rj ∧ rj < r) := by
  intro rest
  induction rest with
  | nil =>
    intro pre bi hi hbi hjw hall hlt
    refine ⟨bi, hi, by simpa using hbi, ?_, ?_, ?_, ?_⟩
    · simp [bestLoop]
    · simpa using hjw
    · simpa using hall
    · simpa using hlt
  | cons t rest ih =>
    intro pre bi hi hbi hjw hall hlt
    obtain ⟨s, hs⟩ := JaroWinkler_total toLower q t
    have happ : pre ++ t :: rest = (pre ++ [t]) ++ rest := by simp
    have hold : ∀ j, j < pre.length → (pre ++ [t]).getD j [] = pre.getD j [] := by
      intro j hj
      rw [List.getD_eq_getElem _ _ (by simp; omega), List.getD_eq_getElem _ _ hj,
        List.getElem_append_left hj]
    have hnew : (pre ++ [t]).getD pre.length [] = t := by
      rw [List.getD_eq_getElem _ _ (by simp)]
      simp
    rw [bestLoop, hs, happ]
    simp only
    by_cases hgt : s > hi
    · rw [if_pos hgt]
      have h := ih (pre ++ [t]) pre.length s (by simp) (by rw [hnew]; exact hs)
        (by
          intro j hj
          rcases Nat.lt_or_ge j pre.length with h | h
          · obtain ⟨rj, h1, h2⟩ := hall j h
            exact ⟨rj, by rw [hold j h]; exact h1, by linarith⟩
          · have : j = pre.length := by
              simp at hj
              omega
            subst this
            exact ⟨s, by rw [hnew]; exact hs, le_refl _⟩)
        (by
          intro j hj
          obtain ⟨rj, h1, h2⟩ := hall j hj
          exact ⟨rj, by rw [hold j hj]; exact h1, by linarith⟩)
      rw [hnew] at h
      exact h
    · rw [if_neg hgt]
      have h := ih (pre ++ [t]) bi hi (by simp; omega) (by rw [hold bi hbi]; exact hjw)
        (by
          intro j hj
          rcases Nat.lt_or_ge j pre.length with h | h
          · obtain ⟨rj, h1, h2⟩ := hall j h
            exact ⟨rj, by rw [hold j h]; exact h1, h2⟩
          · have : j = pre.length := by
              simp at hj
              omega
            subst this
            exact ⟨s, by rw [hnew]; exact hs, by linarith⟩)
        (by
          intro j hj
          obtain ⟨rj, h1, h2⟩ := hlt j hj
          exact ⟨rj, by rw [hold j (by omega)]; exact h1, h2⟩)
      rw [hold bi hbi] at h
      exact h

end util

namespace aes

/-! ### Bytes under exclusive or -/

theorem bxor_val (a b : Byte) : (a ^^^ b).val = a.val ^^^ b.val := by
  show (a.val ^^^ b.val) % 256 = a.val ^^^ b.val
  apply Nat.mod_eq_of_lt
  exact Nat.xor_lt_two_pow (n := 8) a.isLt b.isLt

theorem bxor_comm (a b : Byte) : a ^^^ b = b ^^^ a := by
  apply Fin.ext
  rw [bxor_val, bxor_val, Nat.xor_comm]

theorem bxor_assoc (a b c : Byte) : a ^^^ b ^^^ c = a ^^^ (b ^^^ c) := by
  apply Fin.ext
  simp only [bxor_val, Nat.xor_assoc]

theorem bxor_self (a : Byte) : a ^^^ a = 0 := by
  apply Fin.ext
  rw [bxor_val, Nat.xor_self]
  rfl

theorem bxor_zero (a : Byte) : a ^^^ 0 = a := by
  apply Fin.ext
  rw [bxor_val]
  simp

theorem bxor_cancel_right (a b : Byte) : a ^^^ b ^^^ b = a := by
  rw [bxor_assoc, bxor_self, bxor_zero]

/-! ### The S-box and the doubling -/

set_option maxRecDepth 1000000 in
theorem invSbox_sbox : ∀ b : Byte, invSbox (sbox b) = b := by decide!

set_option maxRecDepth 1000000 in
theorem sbox_invSbox : ∀ b : Byte, sbox (invSbox b) = b := by decide!

set_option maxRecDepth 1000000 in
/-- Every byte is the exclusive or of its high and its low nibble. -/
theorem nibbles : ∀ b : Byte, ∃ h l : Fin 16,
    b = (Fin.ofNat (16 * h.val) : Byte) ^^^ (Fin.ofNat l.val : Byte) := by
  decide!

set_option maxRecDepth 1000000 in
theorem xtime_xor_lo : ∀ (a : Byte) (l : Fin 16),
    xtime (a ^^^ (Fin.ofNat l.val : Byte)) = xtime a ^^^ xtime (Fin.ofNat l.val : Byte) := by
  decide!

set_option maxRecDepth 1000000 in
theorem xtime_xor_hi : ∀ (a : Byte) (h : Fin 16),
    xtime (a ^^^ (Fin.ofNat (16 * h.val) : Byte)) =
      xtime a ^^^ xtime (Fin.ofNat (16 * h.val) : Byte) := by
  decide!

/-- The doubling in GF(2^8) is linear. -/
theorem xtime_xor (a b : Byte) : xtime (a ^^^ b) = xtime a ^^^ xtime b := by
  obtain ⟨h, l, rfl⟩ := nibbles b
  rw [← bxor_assoc, xtime_xor_lo, xtime_xor_hi, xtime_xor_lo, bxor_assoc]

/-! ### The column transformations are inverse to each other -/

section generic

variable {α : Type} (op : α → α → α) (z : α) (T : α → α)

set_option maxHeartbeats 1000000 in
theorem gInvMix_gMix (hcomm : ∀ a b, op a b = op b a)
    (hassoc : ∀ a b c, op (op a b) c = op a (op b c))
    (hself : ∀ a, op a a = z) (hzero : ∀ a, op a z = a)
    (hT : ∀ a b, T (op a b) = op (T a) (T b)) (a b c d : α) :
    gInvMixColumn op T
      (op (op (op (T a) (op (T b) b)) c) d)
      (op (op (op a (T b)) (op (T c) c)) d)
      (op (op (op a b) (T c)) (op (T d) d))
      (op (op (op (op (T a) a) b) c) (T d)) = [a, b, c, d] := by
  have hlc : ∀ a b c, op a (op b c) = op b (op a c) := by
    intro a b c
    rw [← hassoc, hcomm a b, hassoc]
  have hcl : ∀ a b, op a (op a b) = b := by
    intro a b
    rw [← hassoc, hself, hcomm, hzero]
  have hz : ∀ a, op z a = a := by
    intro a
    rw [hcomm, hzero]
  unfold gInvMixColumn
  simp only [List.cons.injEq, and_true]
  refine ⟨?_, ?_, ?_, ?_⟩
  all_goals
    simp only [hT]
    simp only [hassoc, hcomm, hlc, hself, hzero, hz, hcl]

set_option maxHeartbeats 1000000 in
theorem gMix_gInvMix (hcomm : ∀ a b, op a b = op b a)
    (hassoc : ∀ a b c, op (op a b) c = op a (op b c))
    (hself : ∀ a, op a a = z) (hzero : ∀ a, op a z = a)
    (hT : ∀ a b, T (op a b) = op (T a) (T b)) (a b c d : α) :
    gMixColumn op T
      (op (op (op (op (op (T (T (T a))) (T (T a))) (T a)) (op (op (T (T (T b))) (T b)) b))
        (op (op (T (T (T c))) (T (T c))) c)) (op (T (T (T d))) d))
      (op (op (op (op (T (T (T a))) a) (op (op (T (T (T b))) (T (T b))) (T b)))
        (op (op (T (T (T c))) (T c)) c)) (op (op (T (T (T d))) (T (T d))) d))
      (op (op (op (op (op (T (T (T a))) (T (T a))) a) (op (T (T (T b))) b))
        (op (op (T (T (T c))) (T (T c))) (T c))) (op (op (T (T (T d))) (T d)) d))
      (op (op (op (op (op (T (T (T a))) (T a)) a) (op (op (T (T (T b))) (T (T b))) b))
        (op (T (T (T c))) c)) (op (op (T (T (T d))) (T (T d))) (T d))) = [a, b, c, d] := by
  have hlc : ∀ a b c, op a (op b c) = op b (op a c) := by
    intro a b c
    rw [← hassoc, hcomm a b, hassoc]
  have hcl : ∀ a b, op a (op a b) = b := by
    intro a b
    rw [← hassoc, hself, hcomm, hzero]
  have hz : ∀ a, op z a = a := by
    intro a
    rw [hcomm, hzero]
  unfold gMixColumn
  simp only [List.cons.injEq, and_true]
  refine ⟨?_, ?_, ?_, ?_⟩
  all_goals
    simp only [hT]
    simp only [hassoc, hcomm, hlc, hself, hzero, hz, hcl]

end generic

theorem mixColumn_eq (a b c d : Byte) :
    mixColumn a b c d = gMixColumn (fun x y => x ^^^ y) xtime a b c d := rfl

theorem invMixColumn_eq (a b c d : Byte) :
    invMixColumn a b c d = gInvMixColumn (fun x y => x ^^^ y) xtime a b c d := rfl

theorem invMixColumn_mixColumn (a b c d : Byte) :
    invMixColumn (xtime a ^^^ mul3 b ^^^ c ^^^ d) (a ^^^ xtime b ^^^ mul3 c ^^^ d)
      (a ^^^ b ^^^ xtime c ^^^ mul3 d) (mul3 a ^^^ b ^^^ c ^^^ xtime d) = [a, b, c, d] := by
  rw [invMixColumn_eq]
  exact gInvMix_gMix (fun x y => x ^^^ y) 0 xtime bxor_comm bxor_assoc bxor_self bxor_zero
    xtime_xor a b c d

theorem mixColumn_invMixColumn (a b c d : Byte) :
    mixColumn (mul14 a ^^^ mul11 b ^^^ mul13 c ^^^ mul9 d)
      (mul9 a ^^^ mul14 b ^^^ mul11 c ^^^ mul13 d)
      (mul13 a ^^^ mul9 b ^^^ mul14 c ^^^ mul11 d)
      (mul11 a ^^^ mul13 b ^^^ mul9 c ^^^ mul14 d) = [a, b, c, d] := by
  rw [mixColumn_eq]
  exact gMix_gInvMix (fun x y => x ^^^ y) 0 xtime bxor_comm bxor_assoc bxor_self bxor_zero
    xtime_xor a b c d

end aes

namespace aes

/-! ### The state transformations are inverse to each other -/

theorem exists_cons_of_length {α : Type} {n : Nat} (s : List α) (h : s.length = n + 1) :
    ∃ a t, s = a :: t ∧ t.length = n := by
  cases s with
  | nil => simp at h
  | cons a t => exact ⟨a, t, rfl, by simpa using h⟩

/-- A block is a list of sixteen bytes. -/
theorem block_cases (s : Bytes) (h : s.length = 16) :
    ∃ s0 s1 s2 s3 s4 s5 s6 s7 s8 s9 s10 s11 s12 s13 s14 s15 : Byte, s = [s0, s1, s2, s3, s4, s5, s6, s7, s8, s9, s10, s11, s12, s13, s14, s15] := by
  obtain ⟨s0, t0, rfl, h0⟩ := exists_cons_of_length s h
  obtain ⟨s1, t1, rfl, h1⟩ := exists_cons_of_length t0 h0
  obtain ⟨s2, t2, rfl, h2⟩ := exists_cons_of_length t1 h1
  obtain ⟨s3, t3, rfl, h3⟩ := exists_cons_of_length t2 h2
  obtain ⟨s4, t4, rfl, h4⟩ := exists_cons_of_length t3 h3
  obtain ⟨s5, t5, rfl, h5⟩ := exists_cons_of_length t4 h4
  obtain ⟨s6, t6, rfl, h6⟩ := exists_cons_of_length t5 h5
  obtain ⟨s7, t7, rfl, h7⟩ := exists_cons_of_length t6 h6
  obtain ⟨s8, t8, rfl, h8⟩ := exists_cons_of_length t7 h7
  obtain ⟨s9, t9, rfl, h9⟩ := exists_cons_of_length t8 h8
  obtain ⟨s10, t10, rfl, h10⟩ := exists_cons_of_length t9 h9
  obtain ⟨s11, t11, rfl, h11⟩ := exists_cons_of_length t10 h10
  obtain ⟨s12, t12, rfl, h12⟩ := exists_cons_of_length t11 h11
  obtain ⟨s13, t13, rfl, h13⟩ := exists_cons_of_length t12 h12
  obtain ⟨s14, t14, rfl, h14⟩ := exists_cons_of_length t13 h13
  obtain ⟨s15, t15, rfl, h15⟩ := exists_cons_of_length t14 h14
  have : t15 = [] := List.length_eq_zero.mp h15
  subst this
  exact ⟨s0, s1, s2, s3, s4, s5, s6, s7, s8, s9, s10, s11, s12, s13, s14, s15, rfl⟩

theorem subBytes_length (s : Bytes) : (subBytes s).length = s.length := by
  simp [subBytes]

theorem invSubBytes_length (s : Bytes) : (invSubBytes s).length = s.length := by
  simp [invSubBytes]

theorem invSubBytes_subBytes (s : Bytes) : invSubBytes (subBytes s) = s := by
  unfold invSubBytes subBytes
  rw [List.map_map]
  conv_rhs => rw [← List.map_id s]
  apply List.map_congr_left
  intro b _
  exact invSbox_sbox b

theorem subBytes_invSubBytes (s : Bytes) : subBytes (invSubBytes s) = s := by
  unfold invSubBytes subBytes
  rw [List.map_map]
  conv_rhs => rw [← List.map_id s]
  apply List.map_congr_left
  intro b _
  exact sbox_invSbox b

theorem shiftRows_length (s : Bytes) (h : s.length = 16) : (shiftRows s).length = 16 := by
  obtain ⟨s0, s1, s2, s3, s4, s5, s6, s7, s8, s9, s10, s11, s12, s13, s14, s15, rfl⟩ := block_cases s h
  rfl

theorem invShiftRows_length (s : Bytes) (h : s.length = 16) : (invShiftRows s).length = 16 := by
  obtain ⟨s0, s1, s2, s3, s4, s5, s6, s7, s8, s9, s10, s11, s12, s13, s14, s15, rfl⟩ := block_cases s h
  rfl

theorem invShiftRows_shiftRows (s : Bytes) (h : s.length = 16) :
    invShiftRows (shiftRows s) = s := by
  obtain ⟨s0, s1, s2, s3, s4, s5, s6, s7, s8, s9, s10, s11, s12, s13, s14, s15, rfl⟩ := block_cases s h
  rfl

theorem shiftRows_invShiftRows (s : Bytes) (h : s.length = 16) :
    shiftRows (invShiftRows s) = s := by
  obtain ⟨s0, s1, s2, s3, s4, s5, s6, s7, s8, s9, s10, s11, s12, s13, s14, s15, rfl⟩ := block_cases s h
  rfl

theorem mixColumns_length (s : Bytes) (h : s.length = 16) : (mixColumns s).length = 16 := by
  obtain ⟨s0, s1, s2, s3, s4, s5, s6, s7, s8, s9, s10, s11, s12, s13, s14, s15, rfl⟩ := block_cases s h
  rfl

theorem invMixColumns_length (s : Bytes) (h : s.length = 16) :
    (invMixColumns s).length = 16 := by
  obtain ⟨s0, s1, s2, s3, s4, s5, s6, s7, s8, s9, s10, s11, s12, s13, s14, s15, rfl⟩ := block_cases s h
  rfl

theorem invMixColumns_mixColumns (s : Bytes) (h : s.length = 16) :
    invMixColumns (mixColumns s) = s := by
  obtain ⟨s0, s1, s2, s3, s4, s5, s6, s7, s8, s9, s10, s11, s12, s13, s14, s15, rfl⟩ := block_cases s h
  show invMixColumn _ _ _ _ ++ invMixColumn _ _ _ _ ++ invMixColumn _ _ _ _ ++
    invMixColumn _ _ _ _ = _
  rw [invMixColumn_mixColumn, invMixColumn_mixColumn, invMixColumn_mixColumn,
    invMixColumn_mixColumn]
  rfl

theorem mixColumns_invMixColumns (s : Bytes) (h : s.length = 16) :
    mixColumns (invMixColumns s) = s := by
  obtain ⟨s0, s1, s2, s3, s4, s5, s6, s7, s8, s9, s10, s11, s12, s13, s14, s15, rfl⟩ := block_cases s h
  show mixColumn _ _ _ _ ++ mixColumn _ _ _ _ ++ mixColumn _ _ _ _ ++
    mixColumn _ _ _ _ = _
  rw [mixColumn_invMixColumn, mixColumn_invMixColumn, mixColumn_invMixColumn,
    mixColumn_invMixColumn]
  rfl

theorem addRoundKey_length (s k : Bytes) (hs : s.length = 16) (hk : k.length = 16) :
    (addRoundKey s k).length = 16 := by
  simp [addRoundKey, hs, hk]

theorem addRoundKey_cancel : ∀ (s k : Bytes), s.length = k.length →
    addRoundKey (addRoundKey s k) k = s
  | [], [], _ => rfl
  | [], _ :: _, h => by simp at h
  | _ :: _, [], h => by simp at h
  | a :: s, b :: k, h => by
    have ih := addRoundKey_cancel s k (by simpa using h)
    unfold addRoundKey at ih ⊢
    simp only [List.zipWith_cons_cons, bxor_cancel_right, ih]

end aes

namespace aes

/-! ### Encryption and decryption of a block are inverse to each other -/

theorem encRounds_length : ∀ (ks : List Bytes), (∀ k ∈ ks, k.length = 16) →
    ∀ s : Bytes, s.length = 16 → (encRounds ks s).length = 16
  | [], _, s, hs => hs
  | [k], hk, s, hs => by
    have hk16 := hk k (by simp)
    rw [encRounds]
    exact addRoundKey_length _ _ (shiftRows_length _ (by rw [subBytes_length, hs])) hk16
  | k :: k1 :: ks, hk, s, hs => by
    have hk16 := hk k (by simp)
    rw [encRounds]
    apply encRounds_length (k1 :: ks) (fun x hx => hk x (by simp [hx]))
    exact addRoundKey_length _ _
      (mixColumns_length _ (shiftRows_length _ (by rw [subBytes_length, hs]))) hk16

theorem decRounds_length : ∀ (ks : List Bytes), (∀ k ∈ ks, k.length = 16) →
    ∀ s : Bytes, s.length = 16 → (decRounds ks s).length = 16
  | [], _, s, hs => hs
  | [k], hk, s, hs => by
    have hk16 := hk k (by simp)
    rw [decRounds, invSubBytes_length]
    exact invShiftRows_length _ (addRoundKey_length _ _ hs hk16)
  | k :: k1 :: ks, hk, s, hs => by
    have hk16 := hk k (by simp)
    have ih := decRounds_length (k1 :: ks) (fun x hx => hk x (by simp [hx])) s hs
    rw [decRounds, invSubBytes_length]
    exact invShiftRows_length _ (invMixColumns_length _ (addRoundKey_length _ _ ih hk16))

theorem decRounds_encRounds : ∀ (ks : List Bytes), (∀ k ∈ ks, k.length = 16) →
    ∀ s : Bytes, s.length = 16 → decRounds ks (encRounds ks s) = s
  | [], _, s, _ => rfl
  | [k], hk, s, hs => by
    have hk16 := hk k (by simp)
    have h1 : (shiftRows (subBytes s)).length = 16 :=
      shiftRows_length _ (by rw [subBytes_length, hs])
    rw [encRounds, decRounds, addRoundKey_cancel _ _ (by rw [h1, hk16]),
      invShiftRows_shiftRows _ (by rw [subBytes_length, hs]), invSubBytes_subBytes]
  | k :: k1 :: ks, hk, s, hs => by
    have hk16 := hk k (by simp)
    have h1 : (shiftRows (subBytes s)).length = 16 :=
      shiftRows_length _ (by rw [subBytes_length, hs])
    have h2 : (mixColumns (shiftRows (subBytes s))).length = 16 := mixColumns_length _ h1
    have ih := decRounds_encRounds (k1 :: ks) (fun x hx => hk x (by simp [hx]))
      (addRoundKey (mixColumns (shiftRows (subBytes s))) k) (addRoundKey_length _ _ h2 hk16)
    rw [encRounds, decRounds, ih, addRoundKey_cancel _ _ (by rw [h2, hk16]),
      invMixColumns_mixColumns _ h1,
      invShiftRows_shiftRows _ (by rw [subBytes_length, hs]), invSubBytes_subBytes]

theorem encRounds_decRounds : ∀ (ks : List Bytes), (∀ k ∈ ks, k.length = 16) →
    ∀ s : Bytes, s.length = 16 → encRounds ks (decRounds ks s) = s
  | [], _, s, _ => rfl
  | [k], hk, s, hs => by
    have hk16 := hk k (by simp)
    have h1 : (addRoundKey s k).length = 16 := addRoundKey_length _ _ hs hk16
    rw [decRounds, encRounds, subBytes_invSubBytes, shiftRows_invShiftRows _ h1,
      addRoundKey_cancel _ _ (by rw [hs, hk16])]
  | k :: k1 :: ks, hk, s, hs => by
    have hk16 := hk k (by simp)
    have hks : ∀ x ∈ k1 :: ks, x.length = 16 := fun x hx => hk x (by simp [hx])
    have hd := decRounds_length (k1 :: ks) hks s hs
    have h1 : (addRoundKey (decRounds (k1 :: ks) s) k).length = 16 :=
      addRoundKey_length _ _ hd hk16
    have ih := encRounds_decRounds (k1 :: ks) hks s hs
    rw [decRounds, encRounds, subBytes_invSubBytes,
      shiftRows_invShiftRows _ (invMixColumns_length _ h1), mixColumns_invMixColumns _ h1,
      addRoundKey_cancel _ _ (by rw [hd, hk16]), ih]

theorem NewCipher_wellFormed (key : Bytes) (c : Block) (h : NewCipher key = .ok c) :
    c.WellFormed := by
  unfold NewCipher at h
  split_ifs at h
  cases h
  intro k hk
  simp only [List.mem_map] at hk
  obtain ⟨r, _, rfl⟩ := hk
  rfl

theorem NewCipher_ok (key : Bytes) (h : key.length = 16 ∨ key.length = 24 ∨ key.length = 32) :
    ∃ c, NewCipher key = .ok c ∧ c.WellFormed := by
  have : NewCipher key =
      .ok ⟨(List.range (key.length / 4 + 7)).map (roundKey (expandKey key))⟩ := by
    unfold NewCipher
    rw [if_pos h]
  exact ⟨_, this, NewCipher_wellFormed key _ this⟩

theorem Block.Encrypt_length (c : Block) (wf : c.WellFormed) (s : Bytes) (hs : s.length = 16) :
    (c.Encrypt s).length = 16 := by
  unfold Block.Encrypt
  unfold Block.WellFormed at wf
  cases hk : c.roundKeys with
  | nil => exact hs
  | cons k0 ks =>
    rw [hk] at wf
    exact encRounds_length ks (fun x hx => wf x (by simp [hx])) _
      (addRoundKey_length _ _ hs (wf k0 (by simp)))

theorem Block.Decrypt_length (c : Block) (wf : c.WellFormed) (s : Bytes) (hs : s.length = 16) :
    (c.Decrypt s).length = 16 := by
  unfold Block.Decrypt
  unfold Block.WellFormed at wf
  cases hk : c.roundKeys with
  | nil => exact hs
  | cons k0 ks =>
    rw [hk] at wf
    exact addRoundKey_length _ _
      (decRounds_length ks (fun x hx => wf x (by simp [hx])) _ hs) (wf k0 (by simp))

/-- Decryption undoes encryption on every block. -/
theorem Block.Decrypt_Encrypt (c : Block) (wf : c.WellFormed) (s : Bytes)
    (hs : s.length = 16) : c.Decrypt (c.Encrypt s) = s := by
  unfold Block.Decrypt Block.Encrypt
  unfold Block.WellFormed at wf
  cases hk : c.roundKeys with
  | nil => rfl
  | cons k0 ks =>
    rw [hk] at wf
    have hks : ∀ x ∈ ks, x.length = 16 := fun x hx => wf x (by simp [hx])
    have h0 := wf k0 (by simp)
    simp only
    rw [decRounds_encRounds ks hks _ (addRoundKey_length _ _ hs h0),
      addRoundKey_cancel _ _ (by rw [hs, h0])]

/-- Encryption undoes decryption on every block. -/
theorem Block.Encrypt_Decrypt (c : Block) (wf : c.WellFormed) (s : Bytes)
    (hs : s.length = 16) : c.Encrypt (c.Decrypt s) = s := by
  unfold Block.Decrypt Block.Encrypt
  unfold Block.WellFormed at wf
  cases hk : c.roundKeys with
  | nil => rfl
  | cons k0 ks =>
    rw [hk] at wf
    have hks : ∀ x ∈ ks, x.length = 16 := fun x hx => wf x (by simp [hx])
    have h0 := wf k0 (by simp)
    simp only
    rw [addRoundKey_cancel _ _ (by rw [decRounds_length ks hks s hs, h0]),
      encRounds_decRounds ks hks s hs]

end aes

namespace cipher

/-! ### CBC mode -/

theorem encryptBlocks_length (c : aes.Block) (wf : c.WellFormed) :
    ∀ (n : Nat) (prev src : Bytes), prev.length = 16 → src.length = 16 * n →
      (encryptBlocks c n prev src).length = 16 * n := by
  intro n
  induction n with
  | zero =>
    intro prev src _ _
    rfl
  | succ n ih =>
    intro prev src hp hs
    have ht : (src.take 16).length = 16 := by
      rw [List.length_take]
      omega
    have hc : (c.Encrypt (aes.addRoundKey (src.take 16) prev)).length = 16 :=
      aes.Block.Encrypt_length c wf _ (aes.addRoundKey_length _ _ ht hp)
    rw [encryptBlocks, List.length_append, hc,
      ih _ (src.drop 16) hc (by rw [List.length_drop]; omega)]
    omega

theorem decryptBlocks_length (c : aes.Block) (wf : c.WellFormed) :
    ∀ (n : Nat) (prev src : Bytes), prev.length = 16 → src.length = 16 * n →
      (decryptBlocks c n prev src).length = 16 * n := by
  intro n
  induction n with
  | zero =>
    intro prev src _ _
    rfl
  | succ n ih =>
    intro prev src hp hs
    have ht : (src.take 16).length = 16 := by
      rw [List.length_take]
      omega
    have hd : (aes.addRoundKey (c.Decrypt (src.take 16)) prev).length = 16 :=
      aes.addRoundKey_length _ _ (aes.Block.Decrypt_length c wf _ ht) hp
    rw [decryptBlocks, List.length_append, hd,
      ih _ (src.drop 16) ht (by rw [List.length_drop]; omega)]
    omega

/-- CBC decryption undoes CBC encryption. -/
theorem decryptBlocks_encryptBlocks (c : aes.Block) (wf : c.WellFormed) :
    ∀ (n : Nat) (prev src : Bytes), prev.length = 16 → src.length = 16 * n →
      decryptBlocks c n prev (encryptBlocks c n prev src) = src := by
  intro n
  induction n with
  | zero =>
    intro prev src _ hs
    have : src = [] := List.length_eq_zero.mp (by omega)
    subst this
    rfl
  | succ n ih =>
    intro prev src hp hs
    have ht : (src.take 16).length = 16 := by
      rw [List.length_take]
      omega
    have hx : (aes.addRoundKey (src.take 16) prev).length = 16 :=
      aes.addRoundKey_length _ _ ht hp
    have hc : (c.Encrypt (aes.addRoundKey (src.take 16) prev)).length = 16 :=
      aes.Block.Encrypt_length c wf _ hx
    rw [encryptBlocks, decryptBlocks]
    rw [List.take_left' hc, List.drop_left' hc, aes.Block.Decrypt_Encrypt c wf _ hx,
      aes.addRoundKey_cancel _ _ (by rw [ht, hp]),
      ih _ (src.drop 16) hc (by rw [List.length_drop]; omega), List.take_append_drop]

/-- CBC encryption undoes CBC decryption. -/
theorem encryptBlocks_decryptBlocks (c : aes.Block) (wf : c.WellFormed) :
    ∀ (n : Nat) (prev src : Bytes), prev.length = 16 → src.length = 16 * n →
      encryptBlocks c n prev (decryptBlocks c n prev src) = src := by
  intro n
  induction n with
  | zero =>
    intro prev src _ hs
    have : src = [] := List.length_eq_zero.mp (by omega)
    subst this
    rfl
  | succ n ih =>
    intro prev src hp hs
    have ht : (src.take 16).length = 16 := by
      rw [List.length_take]
      omega
    have hd : (c.Decrypt (src.take 16)).length = 16 := aes.Block.Decrypt_length c wf _ ht
    have hx : (aes.addRoundKey (c.Decrypt (src.take 16)) prev).length = 16 :=
      aes.addRoundKey_length _ _ hd hp
    rw [decryptBlocks, encryptBlocks]
    rw [List.take_left' hx, List.drop_left' hx,
      aes.addRoundKey_cancel _ _ (by rw [hd, hp]), aes.Block.Encrypt_Decrypt c wf _ ht,
      ih _ (src.drop 16) ht (by rw [List.length_drop]; omega), List.take_append_drop]

end cipher

namespace base64

/-! ### Base64 -/

set_option maxRecDepth 100000 in
/-- An alphabet byte decodes to the value it encodes, and is neither the
padding character nor a line break. -/
theorem encodeChar_spec : ∀ v : Fin 64,
    decodeMap (encodeChar v.val) = some v.val ∧ encodeChar v.val ≠ padChar ∧
      encodeChar v.val ≠ 10 ∧ encodeChar v.val ≠ 13 := by
  decide

theorem encodeChar_mod (v : Nat) :
    decodeMap (encodeChar (v % 64)) = some (v % 64) ∧ encodeChar (v % 64) ≠ padChar ∧
      encodeChar (v % 64) ≠ 10 ∧ encodeChar (v % 64) ≠ 13 :=
  encodeChar_spec ⟨v % 64, Nat.mod_lt _ (by norm_num)⟩

/-- The encoder writes no line breaks. -/
theorem filter_EncodeToString : ∀ x : Bytes,
    (EncodeToString x).filter (fun c => c ≠ 10 ∧ c ≠ 13) = EncodeToString x
  | [] => rfl
  | [a] => by
    rw [List.filter_eq_self]
    intro c hc
    simp only [EncodeToString, List.mem_cons, List.mem_singleton, List.not_mem_nil,
      or_false] at hc
    rcases hc with h | h | h | h
    · rw [h]
      simpa using (encodeChar_mod _).2.2
    · rw [h]
      simpa using (encodeChar_mod _).2.2
    · rw [h]
      decide
    · rw [h]
      decide
  | [a, b] => by
    rw [List.filter_eq_self]
    intro c hc
    simp only [EncodeToString, List.mem_cons, List.mem_singleton, List.not_mem_nil,
      or_false] at hc
    rcases hc with h | h | h | h
    · rw [h]
      simpa using (encodeChar_mod _).2.2
    · rw [h]
      simpa using (encodeChar_mod _).2.2
    · rw [h]
      simpa using (encodeChar_mod _).2.2
    · rw [h]
      decide
  | a :: b :: c :: rest => by
    have ih := filter_EncodeToString rest
    have h0 := (encodeChar_mod ((a.val * 65536 + b.val * 256 + c.val) / 262144)).2.2
    have h1 := (encodeChar_mod ((a.val * 65536 + b.val * 256 + c.val) / 4096)).2.2
    have h2 := (encodeChar_mod ((a.val * 65536 + b.val * 256 + c.val) / 64)).2.2
    have h3 := (encodeChar_mod (a.val * 65536 + b.val * 256 + c.val)).2.2
    simp only [EncodeToString]
    rw [List.filter_cons_of_pos (by simpa using h0), List.filter_cons_of_pos (by simpa using h1),
      List.filter_cons_of_pos (by simpa using h2), List.filter_cons_of_pos (by simpa using h3), ih]

theorem ofNat_eq (b : Byte) (n : Nat) (h : n % 256 = b.val) : (Fin.ofNat n : Byte) = b := by
  apply Fin.ext
  simpa [Fin.ofNat] using h

/-- The quanta of the decoder undo the encoder. -/
theorem decodeQuanta_EncodeToString : ∀ x : Bytes, decodeQuanta (EncodeToString x) = .ok x
  | [] => rfl
  | [a] => by
    obtain ⟨d0, _⟩ := encodeChar_mod (a.val * 65536 / 262144)
    obtain ⟨d1, _⟩ := encodeChar_mod (a.val * 65536 / 4096)
    simp only [EncodeToString, decodeQuanta, d0, d1, and_self, if_true]
    congr 2
    apply ofNat_eq
    have := a.isLt
    omega
  | [a, b] => by
    obtain ⟨d0, _⟩ := encodeChar_mod ((a.val * 65536 + b.val * 256) / 262144)
    obtain ⟨d1, _⟩ := encodeChar_mod ((a.val * 65536 + b.val * 256) / 4096)
    obtain ⟨d2, p2, _⟩ := encodeChar_mod ((a.val * 65536 + b.val * 256) / 64)
    simp only [EncodeToString, decodeQuanta, d0, d1, d2, p2, if_false, if_true]
    have ha := a.isLt
    have hb := b.isLt
    congr 2
    · apply ofNat_eq
      omega
    · congr 1
      apply ofNat_eq
      omega
  | a :: b :: c :: rest => by
    have ih := decodeQuanta_EncodeToString rest
    obtain ⟨d0, _⟩ := encodeChar_mod ((a.val * 65536 + b.val * 256 + c.val) / 262144)
    obtain ⟨d1, _⟩ := encodeChar_mod ((a.val * 65536 + b.val * 256 + c.val) / 4096)
    obtain ⟨d2, p2, _⟩ := encodeChar_mod ((a.val * 65536 + b.val * 256 + c.val) / 64)
    obtain ⟨d3, p3, _⟩ := encodeChar_mod (a.val * 65536 + b.val * 256 + c.val)
    simp only [EncodeToString, decodeQuanta, d0, d1, d2, d3, p2, p3, if_false, ih]
    have ha := a.isLt
    have hb := b.isLt
    have hc := c.isLt
    congr 2
    · apply ofNat_eq
      omega
    · congr 1
      · apply ofNat_eq
        omega
      · congr 1
        apply ofNat_eq
        omega

/-- Function `DecodeString` undoes `EncodeToString`. -/
theorem DecodeString_EncodeToString (x : Bytes) : DecodeString (EncodeToString x) = .ok x := by
  unfold DecodeString
  rw [filter_EncodeToString, decodeQuanta_EncodeToString]

end base64

namespace extractor

/-! ### The two codec functions in terms of CBC and padding -/

theorem aesEncrypt_eq (p key iv : Bytes) (c : aes.Block) (hc : aes.NewCipher key = .ok c)
    (hiv : iv.length = 16) :
    aesEncrypt p key iv =
      .ok (base64.EncodeToString (cipher.encryptBlocks c ((pad p).length / 16) iv (pad p))) := by
  have hmod : (pad p).length % 16 = 0 := by
    rw [pad_length]
    omega
  simp [aesEncrypt, hc, cipher.NewCBC, hiv, cipher.CBC.EncryptBlocks, hmod]

theorem aesDecrypt_eq (raw key iv : Bytes) (c : aes.Block) (hc : aes.NewCipher key = .ok c)
    (hiv : iv.length = 16) (hraw : raw.length % 16 = 0) :
    aesDecrypt (base64.EncodeToString raw) key iv =
      unpad (cipher.decryptBlocks c (raw.length / 16) iv raw) := by
  simp [aesDecrypt, base64.DecodeString_EncodeToString, hc, cipher.NewCBC, hiv,
    cipher.CBC.DecryptBlocks, hraw]

/-- A successful `unpad` has removed `n` bytes of value `n`. -/
theorem unpad_ok (d q : Bytes) (h : unpad d = .ok q) :
    ∃ n, 0 < n ∧ n < 256 ∧ n ≤ d.length ∧ d = q ++ List.replicate n (Fin.ofNat n) := by
  rcases unpad_cases d with ⟨_, h'⟩ | ⟨_, _, h'⟩ | ⟨_, _, _, h'⟩ | ⟨_, h1, h2, h'⟩
  · rw [h'] at h
    cases h
  · rw [h'] at h
    cases h
  · rw [h'] at h
    cases h
  · rw [h'] at h
    have hq : q = d.take (d.length - (d.getD (d.length - 1) 0).val) := by
      cases h
      rfl
    have hn0 : 0 < (d.getD (d.length - 1) 0).val := by
      rcases Nat.eq_zero_or_pos (d.getD (d.length - 1) 0).val with h0 | h0
      · exact absurd (Or.inl h0) h1
      · exact h0
    have hnl : (d.getD (d.length - 1) 0).val ≤ d.length := by
      rcases Nat.lt_or_ge d.length (d.getD (d.length - 1) 0).val with h0 | h0
      · exact absurd (Or.inr h0) h1
      · exact h0
    refine ⟨(d.getD (d.length - 1) 0).val, hn0, (d.getD (d.length - 1) 0).isLt, hnl, ?_⟩
    have hdrop : d.drop (d.length - (d.getD (d.length - 1) 0).val) =
        List.replicate (d.getD (d.length - 1) 0).val
          (Fin.ofNat (d.getD (d.length - 1) 0).val) := by
      rw [List.eq_replicate_iff]
      refine ⟨by rw [List.length_drop]; omega, ?_⟩
      intro b hb
      obtain ⟨j, hj, rfl⟩ := List.getElem_of_mem hb
      rw [List.length_drop] at hj
      rw [List.getElem_drop]
      have hall : (d.getD (d.length - 1 - ((d.getD (d.length - 1) 0).val - 1 - j)) 0).val =
          (d.getD (d.length - 1) 0).val := by
        by_contra hne
        exact h2 ⟨(d.getD (d.length - 1) 0).val - 1 - j, by omega, hne⟩
      have hidx : d.length - 1 - ((d.getD (d.length - 1) 0).val - 1 - j) =
          d.length - (d.getD (d.length - 1) 0).val + j := by omega
      rw [hidx, List.getD_eq_getElem _ _ (by omega)] at hall
      apply Fin.ext
      rw [padByte_val _ (d.getD (d.length - 1) 0).isLt]
      exact hall
    rw [hq, ← hdrop, List.take_append_drop]

/-- A successful `unpad` of a list as long as the padded result has undone
`pad`. -/
theorem unpad_ok_eq_pad (d q : Bytes) (h : unpad d = .ok q)
    (hlen : d.length = (pad q).length) : d = pad q := by
  obtain ⟨n, _, _, _, hd⟩ := unpad_ok d q h
  have : n = 16 - q.length % 16 := by
    rw [pad_length, hd] at hlen
    simp at hlen
    omega
  rw [hd, this]
  rfl

theorem dropLast_concat_ne (raw : Bytes) (v : Byte) (hv : raw.getLast? ≠ some v) :
    raw.dropLast ++ [v] ≠ raw := by
  intro h
  apply hv
  rw [← h]
  simp

end extractor

namespace util

/-! ### Identical strings of two or more bytes -/

theorem matchedChars_all : ∀ (cs : Bytes), matchedChars cs (List.replicate cs.length true) = cs
  | [] => rfl
  | c :: cs => by
    simp only [List.length_cons, List.replicate_succ, matchedChars, matchedChars_all cs]

theorem mismatches_self : ∀ (cs : Bytes), mismatches cs cs = 0
  | [] => rfl
  | c :: cs => by
    simp [mismatches, mismatches_self cs]

/-- The diagonal is a matching of a string with itself that is greedy from
both sides, as soon as the window is not empty. -/
theorem Greedy.diagonal (s : Bytes) (d : Int) (hd : 0 ≤ d) :
    Greedy s s d (fun a b => a = b ∧ a < s.length) where
  functional := by
    rintro a b b' ⟨h1, _⟩ ⟨h2, _⟩
    omega
  injective := by
    rintro a a' b ⟨h1, _⟩ ⟨h2, _⟩
    omega
  compat := by
    rintro a b ⟨h1, h2⟩
    subst h1
    exact ⟨h2, h2, rfl, by omega, by omega⟩
  left1 := by
    rintro a b b' ⟨h1, h2⟩ hlt _
    exact ⟨b', by omega, rfl, by omega⟩
  left2 := by
    rintro a a' b ⟨h1, h2⟩ hlt _
    exact ⟨a', by omega, rfl, by omega⟩
  max1 := by
    intro a b hc hno
    exact absurd ⟨a, rfl, hc.1⟩ hno
  max2 := by
    intro a b hc hno
    exact absurd ⟨b, rfl, hc.2.1⟩ hno

/-- A string whose lower-cased form has two bytes or more is at distance 1
from itself. -/
theorem JaroWinkler_self (toLower : Bytes → Bytes) (a : Bytes)
    (h : 2 ≤ (toLower a).length) : JaroWinkler toLower a a = some 1 := by
  have hne : toLower a ≠ [] := by
    intro h0
    rw [h0] at h
    simp at h
  obtain ⟨st, P, p, inv, hp, _, hjw⟩ := JaroWinkler_nonempty toLower a a hne hne
  have hd : 0 ≤ util.max ((toLower a).length : Int) ((toLower a).length : Int) / 2 - 1 := by
    unfold util.max
    split_ifs <;> omega
  have hPQ := Greedy.unique inv.greedy (Greedy.diagonal (toLower a) _ hd)
  have h1 : st.s1Matches = List.replicate (toLower a).length true := by
    apply flags_ext _ _ (by rw [inv.len1, List.length_replicate])
    intro x
    rw [inv.flag1, List.getD_eq_getElem?_getD, List.getElem?_replicate]
    constructor
    · rintro ⟨y, hy⟩
      have := (hPQ x y).mp hy
      simp [this.2]
    · intro hx
      have hlt : x < (toLower a).length := by
        by_contra hge
        simp [hge] at hx
      exact ⟨x, (hPQ x x).mpr ⟨rfl, hlt⟩⟩
  have h2 : st.s2Matches = List.replicate (toLower a).length true := by
    apply flags_ext _ _ (by rw [inv.len2, List.length_replicate])
    intro x
    rw [inv.flag2, List.getD_eq_getElem?_getD, List.getElem?_replicate]
    constructor
    · rintro ⟨y, hy⟩
      have := (hPQ y x).mp hy
      have hlt : x < (toLower a).length := by omega
      simp [hlt]
    · intro hx
      have hlt : x < (toLower a).length := by
        by_contra hge
        simp [hge] at hx
      exact ⟨x, (hPQ x x).mpr ⟨rfl, hlt⟩⟩
  have hk : st.matchCount = (toLower a).length := by
    rw [inv.count1, h1, List.count_replicate_self]
  have hmq : ((toLower a).length : ℚ) ≠ 0 := by
    have : 0 < (toLower a).length := by omega
    exact_mod_cast this.ne'
  rw [hjw, if_neg (by omega), h1, h2, matchedChars_all, mismatches_self, hk]
  congr 1
  unfold score
  simp only [Nat.zero_div, Int.Nat.cast_ofNat_Int, sub_zero, Int.cast_natCast]
  rw [div_self hmq]
  norm_num

end util

namespace aes

/-! ### The example vectors of FIPS 197, appendix C -/

set_option maxRecDepth 1000000 in
/-- Appendix C.1: AES-128. -/
theorem fips197_C1 :
    (NewCipher [0, 1, 2, 3, 4, 5, 6, 7, 8, 9, 10, 11, 12, 13, 14, 15]).map
      (fun c => c.Encrypt [0, 17, 34, 51, 68, 85, 102, 119, 136, 153, 170, 187, 204, 221, 238, 255]) =
    .ok [105, 196, 224, 216, 106, 123, 4, 48, 216, 205, 183, 128, 112, 180, 197, 90] := by
  decide!

set_option maxRecDepth 1000000 in
/-- Appendix C.2: AES-192. -/
theorem fips197_C2 :
    (NewCipher [0, 1, 2, 3, 4, 5, 6, 7, 8, 9, 10, 11, 12, 13, 14, 15, 16, 17, 18, 19, 20, 21, 22, 23]).map
      (fun c => c.Encrypt [0, 17, 34, 51, 68, 85, 102, 119, 136, 153, 170, 187, 204, 221, 238, 255]) =
    .ok [221, 169, 124, 164, 134, 76, 223, 224, 110, 175, 112, 160, 236, 13, 113, 145] := by
  decide!

set_option maxRecDepth 1000000 in
/-- Appendix C.3: AES-256. -/
theorem fips197_C3 :
    (NewCipher [0, 1, 2, 3, 4, 5, 6, 7, 8, 9, 10, 11, 12, 13, 14, 15, 16, 17, 18, 19, 20, 21, 22, 23, 24, 25, 26, 27, 28, 29, 30, 31]).map
      (fun c => c.Encrypt [0, 17, 34, 51, 68, 85, 102, 119, 136, 153, 170, 187, 204, 221, 238, 255]) =
    .ok [142, 162, 183, 202, 81, 103, 69, 191, 234, 252, 73, 144, 75, 73, 96, 137] := by
  decide!

end aes

/-! ### Go maps -/

theorem mapGet_mapSet {κ ν : Type} [DecidableEq κ] (m : List (κ × ν)) (k k' : κ) (v : ν) :
    mapGet (mapSet m k v) k' = if k = k' then some v else mapGet m k' := by
  induction m with
  | nil =>
    simp only [mapSet, mapGet]
  | cons kv rest ih =>
    obtain ⟨k0, v0⟩ := kv
    simp only [mapSet]
    by_cases h0 : k0 = k
    · rw [if_pos h0]
      simp only [mapGet]
      by_cases h1 : k = k'
      · rw [if_pos h1, if_pos h1]
      · rw [if_neg h1, if_neg h1, if_neg (by rw [h0]; exact h1)]
    · rw [if_neg h0]
      simp only [mapGet]
      by_cases h2 : k0 = k'
      · rw [if_pos h2, if_pos h2, if_neg (by rw [← h2]; exact fun h => h0 h.symm)]
      · rw [if_neg h2, if_neg h2, ih]

theorem mem_keys_mapSet {κ ν : Type} [DecidableEq κ] (m : List (κ × ν)) (k k' : κ) (v : ν) :
    k' ∈ (mapSet m k v).map Prod.fst ↔ k' = k ∨ k' ∈ m.map Prod.fst := by
  induction m with
  | nil => simp [mapSet]
  | cons kv rest ih =>
    obtain ⟨k0, v0⟩ := kv
    simp only [mapSet]
    by_cases h0 : k0 = k
    · rw [if_pos h0]
      simp only [List.map_cons, List.mem_cons]
      subst h0
      tauto
    · rw [if_neg h0]
      simp only [List.map_cons, List.mem_cons, ih]
      tauto

theorem nodup_keys_mapSet {κ ν : Type} [DecidableEq κ] (m : List (κ × ν)) (k : κ) (v : ν)
    (h : (m.map Prod.fst).Nodup) : ((mapSet m k v).map Prod.fst).Nodup := by
  induction m with
  | nil => simp [mapSet]
  | cons kv rest ih =>
    obtain ⟨k0, v0⟩ := kv
    simp only [List.map_cons, List.nodup_cons] at h
    simp only [mapSet]
    by_cases h0 : k0 = k
    · rw [if_pos h0]
      subst h0
      simpa using h
    · rw [if_neg h0]
      simp only [List.map_cons, List.nodup_cons]
      refine ⟨?_, ih h.2⟩
      intro hmem
      rcases (mem_keys_mapSet rest k k0 v).mp hmem with h1 | h1
      · exact h0 h1
      · exact h.1 h1

theorem mem_mapSet {κ ν : Type} [DecidableEq κ] (m : List (κ × ν)) (k : κ) (v : ν)
    (kv : κ × ν) (h : kv ∈ mapSet m k v) : kv = (k, v) ∨ kv ∈ m := by
  induction m with
  | nil =>
    simp only [mapSet, List.mem_singleton] at h
    exact Or.inl h
  | cons kv0 rest ih =>
    obtain ⟨k0, v0⟩ := kv0
    simp only [mapSet] at h
    by_cases h0 : k0 = k
    · rw [if_pos h0] at h
      rcases List.mem_cons.mp h with h1 | h1
      · exact Or.inl h1
      · exact Or.inr (List.mem_cons_of_mem _ h1)
    · rw [if_neg h0] at h
      rcases List.mem_cons.mp h with h1 | h1
      · exact Or.inr (by rw [h1]; exact List.mem_cons_self _ _)
      · rcases ih h1 with h2 | h2
        · exact Or.inl h2
        · exact Or.inr (List.mem_cons_of_mem _ h2)

theorem mapGet_eq_none_iff {κ ν : Type} [DecidableEq κ] (m : List (κ × ν)) (k : κ) :
    mapGet m k = none ↔ k ∉ m.map Prod.fst := by
  induction m with
  | nil => simp [mapGet]
  | cons kv rest ih =>
    obtain ⟨k0, v0⟩ := kv
    simp only [mapGet, List.map_cons, List.mem_cons, not_or]
    by_cases h0 : k0 = k
    · rw [if_pos h0]
      simp [h0]
    · rw [if_neg h0, ih]
      constructor
      · intro h
        exact ⟨fun e => h0 e.symm, h⟩
      · intro h
        exact h.2

theorem mem_of_mapGet {κ ν : Type} [DecidableEq κ] (m : List (κ × ν)) (k : κ) (v : ν)
    (h : mapGet m k = some v) : (k, v) ∈ m := by
  induction m with
  | nil => simp [mapGet] at h
  | cons kv rest ih =>
    obtain ⟨k0, v0⟩ := kv
    simp only [mapGet] at h
    by_cases h0 : k0 = k
    · rw [if_pos h0] at h
      cases h
      rw [h0]
      exact List.mem_cons_self _ _
    · rw [if_neg h0] at h
      exact List.mem_cons_of_mem _ (ih h)

theorem mapGet_of_mem {κ ν : Type} [DecidableEq κ] (m : List (κ × ν)) (k : κ) (v : ν)
    (hnd : (m.map Prod.fst).Nodup) (h : (k, v) ∈ m) : mapGet m k = some v := by
  induction m with
  | nil => simp at h
  | cons kv rest ih =>
    obtain ⟨k0, v0⟩ := kv
    simp only [List.map_cons, List.nodup_cons] at hnd
    simp only [mapGet]
    rcases List.mem_cons.mp h with h1 | h1
    · cases h1
      rw [if_pos rfl]
    · have hk : k ∈ rest.map Prod.fst := List.mem_map.mpr ⟨(k, v), h1, rfl⟩
      rw [if_neg (by intro e; rw [e] at hnd; exact hnd.1 hk)]
      exact ih hnd.2 h1

namespace mapping

open types

/-! ### The merge step, key by key -/

theorem subRecord_number (mal : Int → Option Bytes) (e : Episode) :
    (subRecord mal e).Number = e.Number := by
  unfold subRecord
  cases mal e.Number <;> rfl

theorem dubRecord_number (mal : Int → Option Bytes) (e : Episode) :
    (dubRecord mal e).Number = e.Number := by
  unfold dubRecord
  cases mal e.Number <;> rfl

theorem subRecord_hasDub (mal : Int → Option Bytes) (e : Episode) :
    (subRecord mal e).HasDub = false := by
  unfold subRecord
  cases mal e.Number <;> rfl

theorem dubRecord_hasDub (mal : Int → Option Bytes) (e : Episode) :
    (dubRecord mal e).HasDub = true := by
  unfold dubRecord
  cases mal e.Number <;> rfl

theorem subRecord_title (mal : Int → Option Bytes) (e : Episode) :
    (subRecord mal e).EpisodeTitle = (mal e.Number).getD e.EpisodeTitle := by
  unfold subRecord
  cases mal e.Number <;> rfl

theorem dubRecord_title (mal : Int → Option Bytes) (e : Episode) :
    (dubRecord mal e).EpisodeTitle = (mal e.Number).getD e.EpisodeTitle := by
  unfold dubRecord
  cases mal e.Number <;> rfl

theorem subRecord_fields (mal : Int → Option Bytes) (e : Episode) :
    (subRecord mal e).ID = e.ID ∧ (subRecord mal e).IsFiller = e.IsFiller ∧
    (subRecord mal e).Img = e.Img ∧ (subRecord mal e).Source = e.Source ∧
    (subRecord mal e).Anime = Title.zero ∧ (subRecord mal e).Description = none ∧
    (subRecord mal e).Rating = none := by
  unfold subRecord
  cases mal e.Number <;> exact ⟨rfl, rfl, rfl, rfl, rfl, rfl, rfl⟩

theorem dubRecord_fields (mal : Int → Option Bytes) (e : Episode) :
    (dubRecord mal e).ID = e.ID ∧ (dubRecord mal e).IsFiller = e.IsFiller ∧
    (dubRecord mal e).Img = e.Img ∧ (dubRecord mal e).Source = e.Source ∧
    (dubRecord mal e).Anime = Title.zero ∧ (dubRecord mal e).Description = none ∧
    (dubRecord mal e).Rating = none := by
  unfold dubRecord
  cases mal e.Number <;> exact ⟨rfl, rfl, rfl, rfl, rfl, rfl, rfl⟩

theorem SameFields.refl (a : Episode) : SameFields a a :=
  ⟨rfl, rfl, rfl, rfl, rfl, rfl, rfl, rfl⟩

theorem SameFields.trans {a b c : Episode} (h1 : SameFields a b) (h2 : SameFields b c) :
    SameFields a c := by
  obtain ⟨a1, a2, a3, a4, a5, a6, a7, a8⟩ := h1
  obtain ⟨b1, b2, b3, b4, b5, b6, b7, b8⟩ := h2
  exact ⟨a1.trans b1, a2.trans b2, a3.trans b3, a4.trans b4, a5.trans b5, a6.trans b6,
    a7.trans b7, a8.trans b8⟩

theorem mergeRecord_sameFields (ep dubEp : Episode) : SameFields (mergeRecord ep dubEp) ep :=
  ⟨rfl, rfl, rfl, rfl, rfl, rfl, rfl, rfl⟩

theorem keyDub_cons (mal : Int → Option Bytes) (n : Int) (acc : Option Episode)
    (dubEp : Episode) (rest : List Episode) :
    keyDub mal n acc (dubEp :: rest) =
      keyDub mal n
        (if dubEp.Number = n then
          some (match acc with
            | some ep => mergeRecord ep dubEp
            | none => dubRecord mal dubEp)
        else acc) rest := rfl

/-- The sub loop, seen from the key `n`. -/
theorem mapGet_subLoop (mal : Int → Option Bytes) (n : Int) :
    ∀ (subs : List Episode) (m : List (Int × Episode)),
      mapGet (subLoop mal subs m) n = keySub mal n (mapGet m n) subs := by
  intro subs
  induction subs with
  | nil =>
    intro m
    rfl
  | cons e rest ih =>
    intro m
    rw [subLoop, ih, mapGet_mapSet, keySub]

/-- The dub loop, seen from the key `n`. -/
theorem mapGet_dubLoop (mal : Int → Option Bytes) (n : Int) :
    ∀ (dubs : List Episode) (m : List (Int × Episode)),
      mapGet (dubLoop mal dubs m) n = keyDub mal n (mapGet m n) dubs := by
  intro dubs
  induction dubs with
  | nil =>
    intro m
    rfl
  | cons e rest ih =>
    intro m
    rw [dubLoop, keyDub_cons]
    by_cases hn : e.Number = n
    · rw [if_pos hn]
      cases hg : mapGet m e.Number with
      | none =>
        simp only
        rw [ih, mapGet_mapSet, if_pos hn, ← hn, hg]
      | some ep =>
        simp only
        rw [ih, mapGet_mapSet, if_pos hn, ← hn, hg]
    · rw [if_neg hn]
      cases hg : mapGet m e.Number with
      | none =>
        simp only
        rw [ih, mapGet_mapSet, if_neg hn]
      | some ep =>
        simp only
        rw [ih, mapGet_mapSet, if_neg hn]

/-- The merged map, seen from the key `n`. -/
theorem mapGet_mergeEpisodes (sub dub : List Episode) (mal : Int → Option Bytes) (n : Int) :
    mapGet (mergeEpisodes sub dub mal) n = keyDub mal n (keySub mal n none sub) dub := by
  unfold mergeEpisodes
  rw [mapGet_dubLoop, mapGet_subLoop]
  rfl

theorem keySub_filter (mal : Int → Option Bytes) (n : Int) :
    ∀ (subs : List Episode) (acc : Option Episode),
      keySub mal n acc subs = keySub mal n acc (subs.filter (fun e => e.Number = n)) := by
  intro subs
  induction subs with
  | nil =>
    intro acc
    rfl
  | cons e rest ih =>
    intro acc
    by_cases hn : e.Number = n
    · rw [List.filter_cons_of_pos (by simpa using hn), keySub, keySub, ih]
    · rw [List.filter_cons_of_neg (by simpa using hn), keySub, if_neg hn, ih]

theorem keyDub_filter (mal : Int → Option Bytes) (n : Int) :
    ∀ (dubs : List Episode) (acc : Option Episode),
      keyDub mal n acc dubs = keyDub mal n acc (dubs.filter (fun e => e.Number = n)) := by
  intro dubs
  induction dubs with
  | nil =>
    intro acc
    rfl
  | cons e rest ih =>
    intro acc
    by_cases hn : e.Number = n
    · rw [List.filter_cons_of_pos (by simpa using hn), keyDub_cons, keyDub_cons, ih]
    · rw [List.filter_cons_of_neg (by simpa using hn), keyDub_cons, if_neg hn, ih]

/-- Without a sub episode numbered `n` the sub loop leaves the key alone;
otherwise it leaves the record of one of them. -/
theorem keySub_spec (mal : Int → Option Bytes) (n : Int) :
    ∀ (subs : List Episode) (acc : Option Episode),
      ((∀ e ∈ subs, e.Number ≠ n) → keySub mal n acc subs = acc) ∧
      ((∃ e ∈ subs, e.Number = n) →
        ∃ e ∈ subs, e.Number = n ∧ keySub mal n acc subs = some (subRecord mal e)) := by
  intro subs
  induction subs with
  | nil =>
    intro acc
    refine ⟨fun _ => rfl, ?_⟩
    rintro ⟨e, he, _⟩
    simp at he
  | cons e0 rest ih =>
    intro acc
    constructor
    · intro hall
      rw [keySub, if_neg (hall e0 (List.mem_cons_self _ _))]
      exact (ih acc).1 (fun e he => hall e (List.mem_cons_of_mem _ he))
    · intro _
      rw [keySub]
      by_cases hrest : ∃ e ∈ rest, e.Number = n
      · obtain ⟨e, he, hn, hk⟩ := (ih _).2 hrest
        exact ⟨e, List.mem_cons_of_mem _ he, hn, hk⟩
      · have hall : ∀ e ∈ rest, e.Number ≠ n := fun e he hn => hrest ⟨e, he, hn⟩
        rw [(ih _).1 hall]
        have h0 : e0.Number = n := by
          rename_i hex
          obtain ⟨e, he, hn⟩ := hex
          rcases List.mem_cons.mp he with h | h
          · rw [← h]
            exact hn
          · exact absurd hn (hall e h)
        rw [if_pos h0]
        exact ⟨e0, List.mem_cons_self _ _, h0, rfl⟩

/-- Without a dub episode numbered `n` the dub loop leaves the key alone;
otherwise it leaves a record marked as dubbed, which agrees with the record
that was there, or with the record of one of the dub episodes, on every field
but `HasDub` and `Source`. -/
theorem keyDub_spec (mal : Int → Option Bytes) (n : Int) :
    ∀ (dubs : List Episode) (acc : Option Episode),
      ((∀ e ∈ dubs, e.Number ≠ n) → keyDub mal n acc dubs = acc) ∧
      ((∃ e ∈ dubs, e.Number = n) →
        ∃ r, keyDub mal n acc dubs = some r ∧ r.HasDub = true ∧
          (∀ ep, acc = some ep → SameFields r ep) ∧
          (acc = none → ∃ e ∈ dubs, e.Number = n ∧ SameFields r (dubRecord mal e))) := by
  intro dubs
  induction dubs with
  | nil =>
    intro acc
    refine ⟨fun _ => rfl, ?_⟩
    rintro ⟨e, he, _⟩
    simp at he
  | cons e0 rest ih =>
    intro acc
    constructor
    · intro hall
      rw [keyDub_cons, if_neg (hall e0 (List.mem_cons_self _ _))]
      exact (ih acc).1 (fun e he => hall e (List.mem_cons_of_mem _ he))
    · intro hex
      rw [keyDub_cons]
      by_cases h0 : e0.Number = n
      · rw [if_pos h0]
        -- the record after `e0`
        have hrec : ∃ r0, (match acc with
              | some ep => mergeRecord ep e0
              | none => dubRecord mal e0) = r0 ∧ r0.HasDub = true ∧
            (∀ ep, acc = some ep → SameFields r0 ep) ∧
            (acc = none → SameFields r0 (dubRecord mal e0)) := by
          cases acc with
          | none =>
            refine ⟨_, rfl, dubRecord_hasDub mal e0, ?_, fun _ => SameFields.refl _⟩
            intro ep h
            cases h
          | some ep =>
            refine ⟨_, rfl, rfl, ?_, ?_⟩
            · intro ep' h
              cases h
              exact mergeRecord_sameFields ep e0
            · intro h
              cases h
        obtain ⟨r0, hr0, hd0, hs0, hn0⟩ := hrec
        rw [hr0]
        by_cases hrest : ∃ e ∈ rest, e.Number = n
        · obtain ⟨r, hr, hd, hs, _⟩ := (ih (some r0)).2 hrest
          refine ⟨r, hr, hd, ?_, ?_⟩
          · intro ep hep
            exact (hs r0 rfl).trans (hs0 ep hep)
          · intro hnone
            exact ⟨e0, List.mem_cons_self _ _, h0, (hs r0 rfl).trans (hn0 hnone)⟩
        · have hall : ∀ e ∈ rest, e.Number ≠ n := fun e he hn => hrest ⟨e, he, hn⟩
          rw [(ih (some r0)).1 hall]
          exact ⟨r0, rfl, hd0, hs0, fun hnone => ⟨e0, List.mem_cons_self _ _, h0, hn0 hnone⟩⟩
      · rw [if_neg h0]
        have hrest : ∃ e ∈ rest, e.Number = n := by
          obtain ⟨e, he, hn⟩ := hex
          rcases List.mem_cons.mp he with h | h
          · rw [h] at hn
            exact absurd hn h0
          · exact ⟨e, h, hn⟩
        obtain ⟨r, hr, hd, hs, hnn⟩ := (ih acc).2 hrest
        refine ⟨r, hr, hd, hs, ?_⟩
        intro hnone
        obtain ⟨e, he, hn, hsf⟩ := hnn hnone
        exact ⟨e, List.mem_cons_of_mem _ he, hn, hsf⟩

/-! ### The merged map as a whole -/

theorem keysOK_mapSet (m : List (Int × Episode)) (k : Int) (v : Episode) (h : KeysOK m)
    (hv : v.Number = k) : KeysOK (mapSet m k v) := by
  intro kv hkv
  rcases mem_mapSet m k v kv hkv with h1 | h1
  · rw [h1]
    exact hv
  · exact h kv h1

theorem subLoop_inv (mal : Int → Option Bytes) :
    ∀ (subs : List Episode) (m : List (Int × Episode)),
      (m.map Prod.fst).Nodup → KeysOK m →
      ((subLoop mal subs m).map Prod.fst).Nodup ∧ KeysOK (subLoop mal subs m) := by
  intro subs
  induction subs with
  | nil =>
    intro m h1 h2
    exact ⟨h1, h2⟩
  | cons e rest ih =>
    intro m h1 h2
    rw [subLoop]
    exact ih _ (nodup_keys_mapSet m _ _ h1) (keysOK_mapSet m _ _ h2 (subRecord_number mal e))

theorem dubLoop_inv (mal : Int → Option Bytes) :
    ∀ (dubs : List Episode) (m : List (Int × Episode)),
      (m.map Prod.fst).Nodup → KeysOK m →
      ((dubLoop mal dubs m).map Prod.fst).Nodup ∧ KeysOK (dubLoop mal dubs m) := by
  intro dubs
  induction dubs with
  | nil =>
    intro m h1 h2
    exact ⟨h1, h2⟩
  | cons e rest ih =>
    intro m h1 h2
    rw [dubLoop]
    cases hg : mapGet m e.Number with
    | none =>
      exact ih _ (nodup_keys_mapSet m _ _ h1) (keysOK_mapSet m _ _ h2 (dubRecord_number mal e))
    | some ep =>
      exact ih _ (nodup_keys_mapSet m _ _ h1)
        (keysOK_mapSet m _ _ h2 (h2 _ (mem_of_mapGet m _ _ hg)))

/-- The keys of the merged map are distinct and every record carries its
key as its number. -/
theorem mergeEpisodes_inv (sub dub : List Episode) (mal : Int → Option Bytes) :
    ((mergeEpisodes sub dub mal).map Prod.fst).Nodup ∧ KeysOK (mergeEpisodes sub dub mal) := by
  unfold mergeEpisodes
  obtain ⟨h1, h2⟩ := subLoop_inv mal sub [] (by simp) (by intro kv h; simp at h)
  exact dubLoop_inv mal dub _ h1 h2

/-- A record of the merged result is the entry of the map under its number. -/
theorem mem_combinedEpisodes (sub dub : List Episode) (mal : Int → Option Bytes)
    (r : Episode) :
    r ∈ combinedEpisodes sub dub mal ↔ mapGet (mergeEpisodes sub dub mal) r.Number = some r := by
  obtain ⟨hnd, hk⟩ := mergeEpisodes_inv sub dub mal
  unfold combinedEpisodes
  constructor
  · intro h
    obtain ⟨kv, hkv, rfl⟩ := List.mem_map.mp h
    have := hk kv hkv
    apply mapGet_of_mem _ _ _ hnd
    rw [this]
    exact hkv
  · intro h
    exact List.mem_map.mpr ⟨_, mem_of_mapGet _ _ _ h, rfl⟩

theorem combinedEpisodes_numbers (sub dub : List Episode) (mal : Int → Option Bytes) :
    (combinedEpisodes sub dub mal).map (fun r => r.Number) =
      (mergeEpisodes sub dub mal).map Prod.fst := by
  obtain ⟨_, hk⟩ := mergeEpisodes_inv sub dub mal
  unfold combinedEpisodes
  rw [List.map_map]
  apply List.map_congr_left
  intro kv hkv
  exact hk kv hkv

/-! ### Records of the merged result -/

/-- A record whose number occurs in the sub list stems from a sub episode
of that number; it is marked as dubbed exactly when the number occurs in the
dub list, and is the plain record of the sub episode when it does not. -/
theorem record_of_sub (sub dub : List Episode) (mal : Int → Option Bytes) (r : Episode)
    (hr : r ∈ combinedEpisodes sub dub mal) (hs : ∃ e ∈ sub, e.Number = r.Number) :
    ∃ e ∈ sub, e.Number = r.Number ∧ SameFields r (subRecord mal e) ∧
      (r.HasDub = true ↔ ∃ d ∈ dub, d.Number = r.Number) ∧
      ((∀ d ∈ dub, d.Number ≠ r.Number) → r = subRecord mal e) := by
  rw [mem_combinedEpisodes, mapGet_mergeEpisodes] at hr
  obtain ⟨e, he, hn, hk⟩ := (keySub_spec mal r.Number sub none).2 hs
  rw [hk] at hr
  refine ⟨e, he, hn, ?_⟩
  by_cases hd : ∃ d ∈ dub, d.Number = r.Number
  · obtain ⟨r', hr', hdub, hsame, _⟩ := (keyDub_spec mal r.Number dub (some (subRecord mal e))).2 hd
    rw [hr'] at hr
    cases hr
    refine ⟨hsame _ rfl, ⟨fun _ => hd, fun _ => hdub⟩, ?_⟩
    intro hall
    obtain ⟨d, hd1, hd2⟩ := hd
    exact absurd hd2 (hall d hd1)
  · have hall : ∀ d ∈ dub, d.Number ≠ r.Number := fun d h1 h2 => hd ⟨d, h1, h2⟩
    rw [(keyDub_spec mal r.Number dub (some (subRecord mal e))).1 hall] at hr
    cases hr
    refine ⟨SameFields.refl _, ⟨fun h => ?_, fun h => absurd h hd⟩, fun _ => rfl⟩
    rw [subRecord_hasDub] at h
    cases h

/-- A record whose number does not occur in the sub list stems from a dub
episode of that number and is marked as dubbed. -/
theorem record_of_dub (sub dub : List Episode) (mal : Int → Option Bytes) (r : Episode)
    (hr : r ∈ combinedEpisodes sub dub mal) (hs : ¬ ∃ e ∈ sub, e.Number = r.Number) :
    ∃ e ∈ dub, e.Number = r.Number ∧ SameFields r (dubRecord mal e) ∧ r.HasDub = true := by
  rw [mem_combinedEpisodes, mapGet_mergeEpisodes] at hr
  have hall : ∀ e ∈ sub, e.Number ≠ r.Number := fun e h1 h2 => hs ⟨e, h1, h2⟩
  rw [(keySub_spec mal r.Number sub none).1 hall] at hr
  by_cases hd : ∃ d ∈ dub, d.Number = r.Number
  · obtain ⟨r', hr', hdub, _, hnone⟩ := (keyDub_spec mal r.Number dub none).2 hd
    rw [hr'] at hr
    cases hr
    obtain ⟨e, he, hn, hsf⟩ := hnone rfl
    exact ⟨e, he, hn, hsf, hdub⟩
  · have hall' : ∀ d ∈ dub, d.Number ≠ r.Number := fun d h1 h2 => hd ⟨d, h1, h2⟩
    rw [(keyDub_spec mal r.Number dub none).1 hall'] at hr
    cases hr

/-- The numbers of the merged result are those of the two lists. -/
theorem mem_numbers (sub dub : List Episode) (mal : Int → Option Bytes) (n : Int) :
    n ∈ (combinedEpisodes sub dub mal).map (fun r => r.Number) ↔
      (∃ e ∈ sub, e.Number = n) ∨ (∃ e ∈ dub, e.Number = n) := by
  rw [combinedEpisodes_numbers]
  have hiff : n ∈ (mergeEpisodes sub dub mal).map Prod.fst ↔
      mapGet (mergeEpisodes sub dub mal) n ≠ none := by
    rw [Ne, mapGet_eq_none_iff, not_not]
  rw [hiff, mapGet_mergeEpisodes]
  constructor
  · intro h
    by_contra hno
    rw [not_or] at hno
    have h1 : ∀ e ∈ sub, e.Number ≠ n := fun e a b => hno.1 ⟨e, a, b⟩
    have h2 : ∀ e ∈ dub, e.Number ≠ n := fun e a b => hno.2 ⟨e, a, b⟩
    rw [(keySub_spec mal n sub none).1 h1, (keyDub_spec mal n dub none).1 h2] at h
    exact h rfl
  · intro h
    by_cases hd : ∃ d ∈ dub, d.Number = n
    · obtain ⟨r', hr', _⟩ := (keyDub_spec mal n dub (keySub mal n none sub)).2 hd
      rw [hr']
      simp
    · have h2 : ∀ e ∈ dub, e.Number ≠ n := fun e a b => hd ⟨e, a, b⟩
      rw [(keyDub_spec mal n dub _).1 h2]
      rcases h with h | h
      · obtain ⟨e, _, _, hk⟩ := (keySub_spec mal n sub none).2 h
        rw [hk]
        simp
      · exact absurd h hd

/-- The merged map under a key that occurs once on either side. -/
theorem mapGet_merge_filter (sub dub : List Episode) (mal : Int → Option Bytes) (n : Int) :
    mapGet (mergeEpisodes sub dub mal) n =
      keyDub mal n (keySub mal n none (sub.filter (fun e => e.Number = n)))
        (dub.filter (fun e => e.Number = n)) := by
  rw [mapGet_mergeEpisodes, keySub_filter, keyDub_filter]

/-! ### The quality lists -/

theorem mergeDubURL_fields (subSource : Quality) :
    ∀ (dubs : List Quality) (entry : Quality),
      (mergeDubURL subSource dubs entry).Name = entry.Name ∧
      (mergeDubURL subSource dubs entry).Bandwidth = entry.Bandwidth ∧
      (mergeDubURL subSource dubs entry).Resolution = entry.Resolution ∧
      (mergeDubURL subSource dubs entry).SubURL = entry.SubURL := by
  intro dubs
  induction dubs with
  | nil =>
    intro entry
    exact ⟨rfl, rfl, rfl, rfl⟩
  | cons d rest ih =>
    intro entry
    rw [mergeDubURL]
    split_ifs
    · exact ih _
    · exact ih _

theorem mergeDubURL_dubURL (subSource : Quality) :
    ∀ (dubs : List Quality) (entry : Quality),
      ((∀ d ∈ dubs, d.Name ≠ subSource.Name) →
        (mergeDubURL subSource dubs entry).DubURL = entry.DubURL) ∧
      ((∃ d ∈ dubs, d.Name = subSource.Name) →
        ∃ d ∈ dubs, d.Name = subSource.Name ∧
          (mergeDubURL subSource dubs entry).DubURL = d.SubURL) := by
  intro dubs
  induction dubs with
  | nil =>
    intro entry
    refine ⟨fun _ => rfl, ?_⟩
    rintro ⟨d, hd, _⟩
    simp at hd
  | cons d0 rest ih =>
    intro entry
    constructor
    · intro hall
      rw [mergeDubURL, if_neg (fun h => hall d0 (List.mem_cons_self _ _) h.symm)]
      exact (ih entry).1 (fun d hd => hall d (List.mem_cons_of_mem _ hd))
    · intro hex
      rw [mergeDubURL]
      by_cases hrest : ∃ d ∈ rest, d.Name = subSource.Name
      · split_ifs
        · obtain ⟨d, hd, hn, hu⟩ := (ih _).2 hrest
          exact ⟨d, List.mem_cons_of_mem _ hd, hn, hu⟩
        · obtain ⟨d, hd, hn, hu⟩ := (ih _).2 hrest
          exact ⟨d, List.mem_cons_of_mem _ hd, hn, hu⟩
      · have hall : ∀ d ∈ rest, d.Name ≠ subSource.Name := fun d a b => hrest ⟨d, a, b⟩
        have h0 : d0.Name = subSource.Name := by
          obtain ⟨d, hd, hn⟩ := hex
          rcases List.mem_cons.mp hd with h | h
          · rw [← h]
            exact hn
          · exact absurd hn (hall d h)
        rw [if_pos h0.symm, (ih _).1 hall]
        exact ⟨d0, List.mem_cons_self _ _, h0, rfl⟩

theorem mergeSources_length (dubs : List Quality) :
    ∀ subs : List Quality, (mergeSources dubs subs).length = subs.length := by
  intro subs
  induction subs with
  | nil => rfl
  | cons q rest ih => simp [mergeSources, ih]

theorem mergeSources_getD (dubs : List Quality) :
    ∀ (subs : List Quality) (i : Nat), i < subs.length →
      (mergeSources dubs subs).getD i Quality.zero =
        mergeDubURL (subs.getD i Quality.zero) dubs (subs.getD i Quality.zero) := by
  intro subs
  induction subs with
  | nil =>
    intro i hi
    simp at hi
  | cons q rest ih =>
    intro i hi
    cases i with
    | zero => simp [mergeSources]
    | succ j =>
      simp only [mergeSources, List.getD_cons_succ]
      exact ih j (by simpa using hi)

end mapping

namespace mapping

open types

/-! ### Reordering the lists -/

theorem filter_length_le_one (l : List Episode) (n : Int)
    (hnd : (l.map (fun e => e.Number)).Nodup) :
    (l.filter (fun e => e.Number = n)).length ≤ 1 := by
  induction l with
  | nil => simp
  | cons e rest ih =>
    simp only [List.map_cons, List.nodup_cons] at hnd
    by_cases hn : e.Number = n
    · rw [List.filter_cons_of_pos (by simpa using hn)]
      have : rest.filter (fun e => e.Number = n) = [] := by
        rw [List.filter_eq_nil_iff]
        intro x hx hxn
        apply hnd.1
        rw [hn]
        exact List.mem_map.mpr ⟨x, hx, by simpa using hxn⟩
      rw [this]
      simp
    · rw [List.filter_cons_of_neg (by simpa using hn)]
      exact ih hnd.2

theorem perm_eq_of_length_le_one {α : Type} (l l' : List α) (h : l.Perm l')
    (hl : l.length ≤ 1) : l = l' := by
  match l, hl with
  | [], _ => exact (List.perm_nil.mp h.symm).symm
  | [a], _ => exact (List.perm_singleton.mp h.symm).symm

theorem filter_eq_singleton (l : List Episode) (e : Episode) (he : e ∈ l)
    (hnd : (l.map (fun e => e.Number)).Nodup) :
    l.filter (fun x => x.Number = e.Number) = [e] := by
  have hlen := filter_length_le_one l e.Number hnd
  have hin : e ∈ l.filter (fun x => x.Number = e.Number) :=
    List.mem_filter.mpr ⟨he, by simp⟩
  generalize l.filter (fun x => x.Number = e.Number) = f at hlen hin
  cases f with
  | nil => simp at hin
  | cons a rest =>
    cases rest with
    | nil =>
      rw [List.mem_singleton] at hin
      rw [hin]
    | cons b rest' =>
      simp at hlen

/-- Reordering a list with distinct numbers does not change the episodes
found under a number. -/
theorem filter_perm (l l' : List Episode) (n : Int) (h : l.Perm l')
    (hnd : (l.map (fun e => e.Number)).Nodup) :
    l.filter (fun e => e.Number = n) = l'.filter (fun e => e.Number = n) :=
  perm_eq_of_length_le_one _ _ (h.filter _) (filter_length_le_one l n hnd)

end mapping

namespace util

open types

/-! ### `FindBestMatch` and `FindOriginalTitle` -/

/-- When no later candidate scores above the best so far, the loop of
`FindBestMatch` keeps the best so far. -/
theorem bestLoop_keep (toLower : Bytes → Bytes) (q : Bytes) :
    ∀ (rest : List Bytes) (best : Bytes) (hi : ℚ),
      (∀ t ∈ rest, ∃ s, JaroWinkler toLower q t = some s ∧ s ≤ hi) →
      bestLoop toLower q rest best hi = some best := by
  intro rest
  induction rest with
  | nil =>
    intro best hi _
    rfl
  | cons t rest ih =>
    intro best hi h
    obtain ⟨s, hs, hle⟩ := h t (List.mem_cons_self _ _)
    rw [bestLoop, hs]
    simp only
    rw [if_neg (not_lt.mpr hle)]
    exact ih best hi (fun x hx => h x (List.mem_cons_of_mem _ hx))

/-- The function `FindBestMatch` returns a value: the empty string for no
candidates, one of the candidates otherwise. -/
theorem FindBestMatch_total (toLower : Bytes → Bytes) (q : Bytes) (ts : List Bytes) :
    ∃ r, FindBestMatch toLower q ts = some r ∧ (ts = [] → r = []) ∧ (ts ≠ [] → r ∈ ts) := by
  cases ts with
  | nil => exact ⟨[], rfl, fun _ => rfl, fun h => absurd rfl h⟩
  | cons t rest =>
    obtain ⟨s, hs⟩ := JaroWinkler_total toLower q t
    obtain ⟨i, _, hi, hb, _⟩ := bestLoop_spec toLower q rest [t] 0 s (by simp)
      (by simpa using hs)
      (by
        intro j hj
        have : j = 0 := by
          simp at hj
          omega
        subst this
        exact ⟨s, by simpa using hs, le_refl _⟩)
      (by
        intro j hj
        omega)
    simp only [List.singleton_append] at hi hb
    refine ⟨(t :: rest).getD i [], ?_, fun h => (by cases h), fun _ => ?_⟩
    · simp only [FindBestMatch, hs]
      exact hb
    · rw [List.getD_eq_getElem _ _ hi]
      exact List.getElem_mem _

/-! ### `Sanitize` -/

/-- Replacing a pattern that holds a byte absent from the string changes
nothing. -/
theorem replaceAllLoop_absent (old new : Bytes) (b : Byte) (hb : b ∈ old) :
    ∀ (fuel : Nat) (s : Bytes), b ∉ s → replaceAllLoop old new fuel s = s := by
  intro fuel
  induction fuel with
  | zero =>
    intro s _
    rfl
  | succ fuel ih =>
    intro s hs
    cases s with
    | nil => rfl
    | cons c cs =>
      have hpre : old.isPrefixOf (c :: cs) = false := by
        cases hp : old.isPrefixOf (c :: cs)
        · rfl
        · exact absurd ((List.isPrefixOf_iff_prefix.mp hp).subset hb) hs
      rw [replaceAllLoop, hpre]
      simp only [Bool.false_eq_true, if_false]
      rw [ih cs (fun h => hs (List.mem_cons_of_mem _ h))]

theorem removeLoop_wordsToRemove (word : Bytes) :
    removeLoop word wordsToRemove =
      decide (word = [115, 101, 97, 115, 111, 110] ∨ word = [99, 111, 117, 114] ∨
        word = [112, 97, 114, 116]) := by
  simp only [wordsToRemove, removeLoop]
  by_cases h1 : word = [115, 101, 97, 115, 111, 110]
  · simp [h1]
  · by_cases h2 : word = [99, 111, 117, 114]
    · simp [h2]
    · by_cases h3 : word = [112, 97, 114, 116]
      · simp [h3]
      · simp [h1, h2, h3]

theorem sanitizeLoop_eq : ∀ (words acc : List Bytes),
    sanitizeLoop words acc =
      acc ++ words.filter (fun w => decide (w ≠ [115, 101, 97, 115, 111, 110] ∧
        w ≠ [99, 111, 117, 114] ∧ w ≠ [112, 97, 114, 116])) := by
  intro words
  induction words with
  | nil =>
    intro acc
    simp [sanitizeLoop]
  | cons w rest ih =>
    intro acc
    rw [sanitizeLoop, removeLoop_wordsToRemove]
    by_cases h : w = [115, 101, 97, 115, 111, 110] ∨ w = [99, 111, 117, 114] ∨
        w = [112, 97, 114, 116]
    · rw [if_pos (by simpa using h), ih,
        List.filter_cons_of_neg (by simp only [decide_eq_true_eq]; tauto)]
    · rw [if_neg (by simpa using h), ih,
        List.filter_cons_of_pos (by simp only [decide_eq_true_eq]; tauto)]
      simp

theorem Join_eq_intercalate : ∀ (ws : List Bytes) (sep : Bytes),
    Join ws sep = sep.intercalate ws
  | [], _ => rfl
  | [w], _ => by simp [Join, List.intercalate]
  | w :: w1 :: ws, sep => by
    have ih := Join_eq_intercalate (w1 :: ws) sep
    rw [Join, ih]
    simp [List.intercalate, List.intersperse]

set_option maxRecDepth 100000 in
theorem toLowerASCII_no_upper (s : Bytes) : (76 : Byte) ∉ toLowerASCII s := by
  have hall : ∀ c : Byte, (if 65 ≤ c.val ∧ c.val ≤ 90 then c + 32 else c) ≠ 76 := by decide
  unfold toLowerASCII
  intro h
  obtain ⟨c, _, hc⟩ := List.mem_map.mp h
  exact hall c hc

end util

/-! ## The episode list of `FetchEpisodes` -/

namespace gogoanime

open types

theorem episodeOfItem_none (trimSpace : Bytes → Bytes) (id : Bytes) (item : EpisodeItem)
    (h : item.href = none) : episodeOfItem trimSpace id item = none := by
  unfold episodeOfItem
  rw [h]

theorem episodeOfItem_some (trimSpace : Bytes → Bytes) (id : Bytes) (item : EpisodeItem)
    (epID : Bytes) (h : item.href = some epID) :
    ∃ e, episodeOfItem trimSpace id item = some e ∧ e.ID = trimSpace epID ∧
      e.Number = (match strconv.Atoi (strings.TrimPrefix (trimSpace item.name) [69, 80, 32]) with
        | some n => n
        | none => 0) ∧
      e.HasDub = strings.Contains id [45, 100, 117, 98] := by
  unfold episodeOfItem
  rw [h]
  exact ⟨_, rfl, rfl, rfl, rfl⟩

theorem filterMap_episodeOfItem_length (trimSpace : Bytes → Bytes) (id : Bytes)
    (items : List EpisodeItem) :
    (items.filterMap (episodeOfItem trimSpace id)).length =
      (items.filter (fun item => item.href.isSome)).length := by
  induction items with
  | nil => rfl
  | cons item rest ih =>
    cases hh : item.href with
    | none =>
      rw [List.filterMap_cons_none (episodeOfItem_none trimSpace id item hh),
        List.filter_cons_of_neg (by rw [hh]; simp)]
      exact ih
    | some epID =>
      obtain ⟨e, he, _⟩ := episodeOfItem_some trimSpace id item epID hh
      rw [List.filterMap_cons_some he, List.filter_cons_of_pos (by rw [hh]; simp),
        List.length_cons, List.length_cons, ih]

theorem FetchEpisodes_length (trimSpace : Bytes → Bytes) (id : Bytes) (items : List EpisodeItem) :
    (FetchEpisodes trimSpace id items).length =
      (items.filter (fun item => item.href.isSome)).length := by
  unfold FetchEpisodes
  simp only [List.length_reverse]
  exact filterMap_episodeOfItem_length trimSpace _ items

theorem mem_FetchEpisodes (trimSpace : Bytes → Bytes) (id : Bytes) (items : List EpisodeItem)
    (item : EpisodeItem) (hitem : item ∈ items) (epID : Bytes) (h : item.href = some epID) :
    ∃ e ∈ FetchEpisodes trimSpace id items, e.ID = trimSpace epID ∧
      e.Number = (match strconv.Atoi (strings.TrimPrefix (trimSpace item.name) [69, 80, 32]) with
        | some n => n
        | none => 0) := by
  unfold FetchEpisodes
  obtain ⟨e, he, hid, hnum, _⟩ := episodeOfItem_some trimSpace
    (if ¬ strings.HasPrefix id [47] then [47, 99, 97, 116, 101, 103, 111, 114, 121, 47] ++ id
      else id) item epID h
  refine ⟨e, ?_, hid, hnum⟩
  simp only [List.mem_reverse, List.mem_filterMap]
  exact ⟨item, hitem, he⟩

end gogoanime

/-! ## Cutting a text at a separator -/

namespace strings

theorem splitFirstLoop_cut (sep : Byte) (k v : Bytes) (hk : sep ∉ k) (b : Bytes) :
    splitFirstLoop sep (k ++ sep :: v) b = [b ++ k, v] := by
  induction k generalizing b with
  | nil => simp [splitFirstLoop]
  | cons c cs ih =>
    have hc : c ≠ sep := fun h => hk (by rw [h]; exact List.mem_cons_self _ _)
    have hcs : sep ∉ cs := fun h => hk (List.mem_cons_of_mem _ h)
    rw [List.cons_append, splitFirstLoop, if_neg hc, ih hcs]
    simp

theorem SplitN2_cut (sep : Byte) (k v : Bytes) (hk : sep ∉ k) :
    SplitN2 (k ++ sep :: v) sep = [k, v] := by
  unfold SplitN2
  rw [splitFirstLoop_cut sep k v hk]
  rfl

theorem splitLoop_last (sep : Byte) (p : Bytes) (hp : sep ∉ p) (b : Bytes) :
    splitLoop sep p b = [b ++ p] := by
  induction p generalizing b with
  | nil => simp [splitLoop]
  | cons c cs ih =>
    have hc : c ≠ sep := fun h => hp (by rw [h]; exact List.mem_cons_self _ _)
    have hcs : sep ∉ cs := fun h => hp (List.mem_cons_of_mem _ h)
    rw [splitLoop, if_neg hc, ih hcs]
    simp

theorem splitLoop_piece (sep : Byte) (p rest : Bytes) (hp : sep ∉ p) (b : Bytes) :
    splitLoop sep (p ++ sep :: rest) b = (b ++ p) :: splitLoop sep rest [] := by
  induction p generalizing b with
  | nil => simp [splitLoop]
  | cons c cs ih =>
    have hc : c ≠ sep := fun h => hp (by rw [h]; exact List.mem_cons_self _ _)
    have hcs : sep ∉ cs := fun h => hp (List.mem_cons_of_mem _ h)
    rw [List.cons_append, splitLoop, if_neg hc, ih hcs]
    simp

/-- Cutting at the separator undoes joining with it, for pieces that do not
hold the separator. -/
theorem Split_intercalate (sep : Byte) (p : Bytes) (ps : List Bytes)
    (hp : ∀ q ∈ p :: ps, sep ∉ q) :
    Split (List.intercalate [sep] (p :: ps)) sep = p :: ps := by
  unfold Split
  induction ps generalizing p with
  | nil =>
    have hone : List.intercalate [sep] [p] = p := by simp [List.intercalate]
    rw [hone]
    exact splitLoop_last sep p (hp p (List.mem_cons_self _ _)) []
  | cons q qs ih =>
    have hcut : List.intercalate [sep] (p :: q :: qs) = p ++ sep :: List.intercalate [sep] (q :: qs) := by
      simp [List.intercalate, List.intersperse]
    rw [hcut, splitLoop_piece sep p _ (hp p (List.mem_cons_self _ _)) [],
      ih q (fun r hr => hp r (List.mem_cons_of_mem _ hr))]
    rfl

end strings

/-! ## The master playlist -/

namespace extractor

open types

theorem mapIndex_mapSet (m : List (Bytes × Bytes)) (k k' v : Bytes) :
    mapIndex (mapSet m k v) k' = if k = k' then v else mapIndex m k' := by
  unfold mapIndex
  rw [mapGet_mapSet]
  by_cases h : k = k'
  · rw [if_pos h, if_pos h]
  · rw [if_neg h, if_neg h]

/-- The loop of `parseAttributes` on pieces `k=v` whose `k` holds no `=`. -/
theorem attrsLoop_pairs (trimSpace : Bytes → Bytes) (kvs : List (Bytes × Bytes))
    (hk : ∀ kv ∈ kvs, (61 : Byte) ∉ kv.1) (m : List (Bytes × Bytes)) :
    attrsLoop trimSpace (kvs.map (fun kv => kv.1 ++ 61 :: kv.2)) m =
      kvs.foldl (fun acc kv => mapSet acc (trimSpace kv.1) (strings.Trim (trimSpace kv.2) 34)) m := by
  induction kvs generalizing m with
  | nil => rfl
  | cons kv rest ih =>
    rw [List.map_cons, attrsLoop,
      strings.SplitN2_cut 61 kv.1 kv.2 (hk kv (List.mem_cons_self _ _))]
    simp only [List.foldl_cons]
    exact ih (fun x hx => hk x (List.mem_cons_of_mem _ hx)) _

theorem mapIndex_foldl_other (trimSpace : Bytes → Bytes) (key : Bytes) (kvs : List (Bytes × Bytes))
    (hk : ∀ kv ∈ kvs, trimSpace kv.1 ≠ key) (m : List (Bytes × Bytes)) :
    mapIndex (kvs.foldl (fun acc kv => mapSet acc (trimSpace kv.1)
      (strings.Trim (trimSpace kv.2) 34)) m) key = mapIndex m key := by
  induction kvs generalizing m with
  | nil => rfl
  | cons kv rest ih =>
    rw [List.foldl_cons, ih (fun x hx => hk x (List.mem_cons_of_mem _ hx)), mapIndex_mapSet,
      if_neg (hk kv (List.mem_cons_self _ _))]

/-- The value read for a key is that of the last pair with this key. -/
theorem mapIndex_foldl_last (trimSpace : Bytes → Bytes) (k v : Bytes)
    (before after : List (Bytes × Bytes))
    (hafter : ∀ kv ∈ after, trimSpace kv.1 ≠ trimSpace k) (m : List (Bytes × Bytes)) :
    mapIndex ((before ++ (k, v) :: after).foldl (fun acc kv => mapSet acc (trimSpace kv.1)
      (strings.Trim (trimSpace kv.2) 34)) m) (trimSpace k) = strings.Trim (trimSpace v) 34 := by
  rw [List.foldl_append, List.foldl_cons, mapIndex_foldl_other trimSpace _ after hafter,
    mapIndex_mapSet, if_pos rfl]

/-- A key that no pair has reads as the empty string. -/
theorem mapIndex_foldl_absent (trimSpace : Bytes → Bytes) (key : Bytes)
    (kvs : List (Bytes × Bytes)) (hk : ∀ kv ∈ kvs, trimSpace kv.1 ≠ key) :
    mapIndex (kvs.foldl (fun acc kv => mapSet acc (trimSpace kv.1)
      (strings.Trim (trimSpace kv.2) 34)) []) key = [] := by
  rw [mapIndex_foldl_other trimSpace key kvs hk]
  rfl

/-- Function `parseAttributes` on a line `TAG:K1=V1,...,Kn=Vn`. -/
theorem parseAttributes_line (trimSpace : Bytes → Bytes) (tag : Bytes)
    (kv : Bytes × Bytes) (kvs : List (Bytes × Bytes))
    (htag : (58 : Byte) ∉ tag)
    (hkv : ∀ x ∈ kv :: kvs, (61 : Byte) ∉ x.1 ∧ (44 : Byte) ∉ x.1 ∧ (44 : Byte) ∉ x.2) :
    parseAttributes trimSpace
      (tag ++ 58 :: List.intercalate [44] ((kv :: kvs).map (fun x => x.1 ++ 61 :: x.2))) =
      (kv :: kvs).foldl (fun acc x => mapSet acc (trimSpace x.1)
        (strings.Trim (trimSpace x.2) 34)) [] := by
  unfold parseAttributes
  rw [strings.SplitN2_cut 58 tag _ htag]
  simp only
  rw [List.map_cons, strings.Split_intercalate]
  · exact attrsLoop_pairs trimSpace (kv :: kvs) (fun x hx => (hkv x hx).1) []
  intro q hq
  have hq2 : q ∈ (kv :: kvs).map (fun x => x.1 ++ 61 :: x.2) := hq
  rw [List.mem_map] at hq2
  obtain ⟨x, hx, rfl⟩ := hq2
  intro hmem
  rw [List.mem_append, List.mem_cons] at hmem
  rcases hmem with h | h | h
  · exact (hkv x hx).2.1 h
  · exact absurd h (by decide)
  · exact (hkv x hx).2.2 h

theorem scanLoop_acc (trimSpace : Bytes → Bytes) (resolveURL : Bytes → Bytes → Bytes)
    (masterURL : Bytes) (lines : List Bytes) (acc qualities : List Quality) (cur : Quality) :
    scanLoop trimSpace resolveURL masterURL lines (acc ++ qualities) cur =
      (scanLoop trimSpace resolveURL masterURL lines qualities cur).map
        (fun s => (acc ++ s.1, s.2)) := by
  induction lines generalizing qualities cur with
  | nil => rfl
  | cons text rest ih =>
    unfold scanLoop
    simp only
    split
    · split
      · rfl
      · exact ih _ _
    · split
      · rw [List.append_assoc]
        exact ih _ _
      · exact ih _ _

theorem scanLoop_append (trimSpace : Bytes → Bytes) (resolveURL : Bytes → Bytes → Bytes)
    (masterURL : Bytes) (l1 l2 : List Bytes) (qualities : List Quality) (cur : Quality) :
    scanLoop trimSpace resolveURL masterURL (l1 ++ l2) qualities cur =
      (scanLoop trimSpace resolveURL masterURL l1 qualities cur).bind
        (fun s => scanLoop trimSpace resolveURL masterURL l2 s.1 s.2) := by
  induction l1 generalizing qualities cur with
  | nil => rfl
  | cons text rest ih =>
    rw [List.cons_append, scanLoop, scanLoop]
    simp only
    split
    · split
      · rfl
      · exact ih _ _
    · split
      · exact ih _ _
      · exact ih _ _

/-- Lines that are neither attribute lines nor end in `.m3u8` change
nothing. -/
theorem scanLoop_skip (trimSpace : Bytes → Bytes) (resolveURL : Bytes → Bytes → Bytes)
    (masterURL : Bytes) (mid : List Bytes)
    (hmid : ∀ text ∈ mid, strings.HasPrefix (trimSpace text) streamInfTag = false ∧
      strings.HasSuffix (trimSpace text) m3u8Suffix = false)
    (qualities : List Quality) (cur : Quality) :
    scanLoop trimSpace resolveURL masterURL mid qualities cur = .ok (qualities, cur) := by
  induction mid with
  | nil => rfl
  | cons text rest ih =>
    obtain ⟨h1, h2⟩ := hmid text (List.mem_cons_self _ _)
    unfold scanLoop
    simp only [h1, h2, Bool.false_eq_true, if_false, false_and]
    exact ih (fun t ht => hmid t (List.mem_cons_of_mem _ ht))

/-- An attribute line with an integer `BANDWIDTH` replaces the current
quality. -/
theorem scanLoop_attr (trimSpace : Bytes → Bytes) (resolveURL : Bytes → Bytes → Bytes)
    (masterURL : Bytes) (attr : Bytes) (rest : List Bytes) (bandwidth : Int)
    (hattr : strings.HasPrefix (trimSpace attr) streamInfTag = true)
    (hbw : strconv.Atoi (mapIndex (parseAttributes trimSpace (trimSpace attr)) keyBandwidth) =
      some bandwidth)
    (qualities : List Quality) (cur : Quality) :
    scanLoop trimSpace resolveURL masterURL (attr :: rest) qualities cur =
      scanLoop trimSpace resolveURL masterURL rest qualities
        { Name := mapIndex (parseAttributes trimSpace (trimSpace attr)) keyName
          Bandwidth := bandwidth
          Resolution := mapIndex (parseAttributes trimSpace (trimSpace attr)) keyResolution
          SubURL := []
          DubURL := [] } := by
  rw [scanLoop]
  simp only [hattr, if_true, hbw]

/-- A line ending in `.m3u8` closes a current quality that has a name. -/
theorem scanLoop_url (trimSpace : Bytes → Bytes) (resolveURL : Bytes → Bytes → Bytes)
    (masterURL : Bytes) (url : Bytes) (rest : List Bytes)
    (hpre : strings.HasPrefix (trimSpace url) streamInfTag = false)
    (hsuf : strings.HasSuffix (trimSpace url) m3u8Suffix = true)
    (qualities : List Quality) (cur : Quality) (hname : cur.Name ≠ []) :
    scanLoop trimSpace resolveURL masterURL (url :: rest) qualities cur =
      scanLoop trimSpace resolveURL masterURL rest
        (qualities ++ [{ cur with SubURL := resolveURL masterURL (trimSpace url) }])
        Quality.zero := by
  rw [scanLoop]
  simp only [hpre, hsuf, Bool.false_eq_true, if_false, true_and]
  rw [if_pos hname]

/-- A line ending in `.m3u8` changes nothing while the current quality has no
name. -/
theorem scanLoop_url_unnamed (trimSpace : Bytes → Bytes) (resolveURL : Bytes → Bytes → Bytes)
    (masterURL : Bytes) (url : Bytes) (rest : List Bytes)
    (hpre : strings.HasPrefix (trimSpace url) streamInfTag = false)
    (qualities : List Quality) (cur : Quality) (hname : cur.Name = []) :
    scanLoop trimSpace resolveURL masterURL (url :: rest) qualities cur =
      scanLoop trimSpace resolveURL masterURL rest qualities cur := by
  rw [scanLoop]
  simp only [hpre, Bool.false_eq_true, if_false]
  rw [if_neg (fun h => h.2 hname)]

end extractor

namespace extractor

open types

/-- An attribute line with a name and an integer `BANDWIDTH`, lines that
change nothing, and a line ending in `.m3u8`: one quality between those of
the lines before and those of the lines after. -/
theorem scanLoop_variant (trimSpace : Bytes → Bytes) (resolveURL : Bytes → Bytes → Bytes)
    (masterURL : Bytes) (pre mid post : List Bytes) (attr url : Bytes) (bandwidth : Int)
    (hattr : strings.HasPrefix (trimSpace attr) streamInfTag = true)
    (hbw : strconv.Atoi (mapIndex (parseAttributes trimSpace (trimSpace attr)) keyBandwidth) =
      some bandwidth)
    (hname : mapIndex (parseAttributes trimSpace (trimSpace attr)) keyName ≠ [])
    (hmid : ∀ text ∈ mid, strings.HasPrefix (trimSpace text) streamInfTag = false ∧
      strings.HasSuffix (trimSpace text) m3u8Suffix = false)
    (hurl : strings.HasPrefix (trimSpace url) streamInfTag = false ∧
      strings.HasSuffix (trimSpace url) m3u8Suffix = true) :
    scanLoop trimSpace resolveURL masterURL (pre ++ attr :: (mid ++ url :: post)) [] Quality.zero =
      (scanLoop trimSpace resolveURL masterURL pre [] Quality.zero).bind (fun s1 =>
        (scanLoop trimSpace resolveURL masterURL post [] Quality.zero).map (fun s2 =>
          (s1.1 ++
            { Name := mapIndex (parseAttributes trimSpace (trimSpace attr)) keyName
              Bandwidth := bandwidth
              Resolution := mapIndex (parseAttributes trimSpace (trimSpace attr)) keyResolution
              SubURL := resolveURL masterURL (trimSpace url)
              DubURL := [] } :: s2.1, s2.2))) := by
  rw [scanLoop_append]
  congr 1
  funext s1
  rw [scanLoop_attr trimSpace resolveURL masterURL attr _ bandwidth hattr hbw, scanLoop_append,
    scanLoop_skip trimSpace resolveURL masterURL mid hmid]
  show scanLoop trimSpace resolveURL masterURL (url :: post) s1.1 _ = _
  rw [scanLoop_url trimSpace resolveURL masterURL url post hurl.1 hurl.2 _ _ hname]
  have hacc := scanLoop_acc trimSpace resolveURL masterURL post
    (s1.1 ++ [{ Name := mapIndex (parseAttributes trimSpace (trimSpace attr)) keyName
                Bandwidth := bandwidth
                Resolution := mapIndex (parseAttributes trimSpace (trimSpace attr)) keyResolution
                SubURL := resolveURL masterURL (trimSpace url)
                DubURL := [] }]) [] Quality.zero
  rw [List.append_nil] at hacc
  rw [hacc]
  congr 1
  funext s2
  rw [List.append_assoc, List.singleton_append]

/-- An attribute line without a name: the line ending in `.m3u8` after it
might as well not be there. -/
theorem scanLoop_unnamed (trimSpace : Bytes → Bytes) (resolveURL : Bytes → Bytes → Bytes)
    (masterURL : Bytes) (pre mid post : List Bytes) (attr url : Bytes)
    (hattr : strings.HasPrefix (trimSpace attr) streamInfTag = true)
    (hname : mapIndex (parseAttributes trimSpace (trimSpace attr)) keyName = [])
    (hmid : ∀ text ∈ mid, strings.HasPrefix (trimSpace text) streamInfTag = false ∧
      strings.HasSuffix (trimSpace text) m3u8Suffix = false)
    (hurl : strings.HasPrefix (trimSpace url) streamInfTag = false) :
    scanLoop trimSpace resolveURL masterURL (pre ++ attr :: (mid ++ url :: post)) [] Quality.zero =
      scanLoop trimSpace resolveURL masterURL (pre ++ attr :: (mid ++ post)) [] Quality.zero := by
  rw [scanLoop_append, scanLoop_append trimSpace resolveURL masterURL pre]
  congr 1
  funext s1
  rw [scanLoop, scanLoop]
  simp only [hattr, if_true]
  cases strconv.Atoi (mapIndex (parseAttributes trimSpace (trimSpace attr)) keyBandwidth) with
  | none => rfl
  | some bandwidth =>
    simp only
    rw [scanLoop_append, scanLoop_append trimSpace resolveURL masterURL mid,
      scanLoop_skip trimSpace resolveURL masterURL mid hmid]
    show scanLoop trimSpace resolveURL masterURL (url :: post) s1.1 _ =
      scanLoop trimSpace resolveURL masterURL post s1.1 _
    exact scanLoop_url_unnamed trimSpace resolveURL masterURL url post hurl _ _ hname

/-- Function `parseMasterM3U8` when the scan loop ends without an error. -/
theorem parseMasterM3U8_of_scanLoop (trimSpace : Bytes → Bytes)
    (resolveURL : Bytes → Bytes → Bytes) (masterURL : Bytes) (lines : List Bytes)
    (qualities : List Quality) (cur : Quality)
    (h : scanLoop trimSpace resolveURL masterURL lines [] Quality.zero = .ok (qualities, cur))
    (hne : qualities ≠ []) :
    parseMasterM3U8 trimSpace resolveURL masterURL lines false = .ok qualities := by
  unfold parseMasterM3U8
  rw [h]
  simp only [Bool.false_eq_true, if_false]
  rw [if_neg]
  intro hlen
  exact hne (List.length_eq_zero.mp hlen)

end extractor

/-! ## The master playlist: failures and counts -/

namespace strconv

theorem Atoi_nil : Atoi [] = none := rfl

/-- A number `Atoi` returns lies in the range of `int64`. -/
theorem Atoi_range (s : Bytes) (v : Int) (h : Atoi s = some v) :
    -9223372036854775808 ≤ v ∧ v < 9223372036854775808 := by
  unfold Atoi at h
  split at h
  · cases h
  · split_ifs at h
    · split at h
      · cases h
      · split_ifs at h
        cases h
        constructor <;> omega
      · cases h
    · split at h
      · cases h
      · split_ifs at h
        cases h
        constructor <;> omega
      · cases h
    · split at h
      · split_ifs at h
        cases h
        constructor <;> omega
      · cases h

end strconv

namespace extractor

open types

/-- An attribute line whose `BANDWIDTH` is no integer makes the scan loop
fail, wherever it stands. -/
theorem scanLoop_invalidBandwidth (trimSpace : Bytes → Bytes)
    (resolveURL : Bytes → Bytes → Bytes) (masterURL : Bytes) (lines : List Bytes)
    (attr : Bytes) (hmem : attr ∈ lines)
    (hattr : strings.HasPrefix (trimSpace attr) streamInfTag = true)
    (hbw : strconv.Atoi (mapIndex (parseAttributes trimSpace (trimSpace attr)) keyBandwidth) =
      none)
    (qualities : List Quality) (cur : Quality) :
    scanLoop trimSpace resolveURL masterURL lines qualities cur = .error .invalidBandwidth := by
  induction lines generalizing qualities cur with
  | nil => cases hmem
  | cons text rest ih =>
    rw [scanLoop]
    simp only
    by_cases hhead : text = attr
    · rw [hhead, if_pos hattr, hbw]
    · have hrest : attr ∈ rest := by
        rcases List.mem_cons.mp hmem with h | h
        · exact absurd h.symm hhead
        · exact h
      split
      · split
        · rfl
        · exact ih hrest _ _
      · split
        · exact ih hrest _ _
        · exact ih hrest _ _

/-- Every bandwidth in the result of the scan loop was read from an
attribute line, or was there before. -/
theorem scanLoop_bandwidths (trimSpace : Bytes → Bytes) (resolveURL : Bytes → Bytes → Bytes)
    (masterURL : Bytes) (Q : Int → Prop) (lines : List Bytes)
    (hQ : ∀ attr ∈ lines, strings.HasPrefix (trimSpace attr) streamInfTag = true →
      ∀ b, strconv.Atoi (mapIndex (parseAttributes trimSpace (trimSpace attr)) keyBandwidth) =
        some b → Q b)
    (qualities : List Quality) (cur : Quality) (out : List Quality) (cur' : Quality)
    (hacc : ∀ q ∈ qualities, Q q.Bandwidth) (hcur : cur.Name ≠ [] → Q cur.Bandwidth)
    (h : scanLoop trimSpace resolveURL masterURL lines qualities cur = .ok (out, cur')) :
    ∀ q ∈ out, Q q.Bandwidth := by
  induction lines generalizing qualities cur with
  | nil =>
    rw [scanLoop] at h
    cases h
    exact hacc
  | cons text rest ih =>
    have hQrest : ∀ attr ∈ rest, strings.HasPrefix (trimSpace attr) streamInfTag = true →
        ∀ b, strconv.Atoi (mapIndex (parseAttributes trimSpace (trimSpace attr))
          keyBandwidth) = some b → Q b :=
      fun a ha => hQ a (List.mem_cons_of_mem _ ha)
    rw [scanLoop] at h
    simp only at h
    split at h
    · rename_i hpre
      split at h
      · cases h
      · rename_i b hb
        exact ih hQrest _ _ hacc (fun _ => hQ text (List.mem_cons_self _ _) hpre b hb) h
    · split at h
      · rename_i hurl
        refine ih hQrest _ _ ?_ (fun hn => absurd rfl hn) h
        intro q hq
        rcases List.mem_append.mp hq with hq | hq
        · exact hacc q hq
        · rw [List.mem_singleton.mp hq]
          exact hcur hurl.2
      · exact ih hQrest _ _ hacc hcur h

/-- The scan loop from an attribute line on does not depend on the current
quality. -/
theorem scanLoop_attr_cur (trimSpace : Bytes → Bytes) (resolveURL : Bytes → Bytes → Bytes)
    (masterURL : Bytes) (attr : Bytes) (rest : List Bytes)
    (hattr : strings.HasPrefix (trimSpace attr) streamInfTag = true)
    (qualities : List Quality) (cur cur' : Quality) :
    scanLoop trimSpace resolveURL masterURL (attr :: rest) qualities cur =
      scanLoop trimSpace resolveURL masterURL (attr :: rest) qualities cur' := by
  rw [scanLoop, scanLoop]
  simp only [hattr, if_true]

/-- A pending quality that no line ending in `.m3u8` follows before the next
attribute line or the end adds nothing to the result. -/
theorem scanLoop_pending (trimSpace : Bytes → Bytes) (resolveURL : Bytes → Bytes → Bytes)
    (masterURL : Bytes) (pre mid post : List Bytes) (attr : Bytes) (bandwidth : Int)
    (hattr : strings.HasPrefix (trimSpace attr) streamInfTag = true)
    (hbw : strconv.Atoi (mapIndex (parseAttributes trimSpace (trimSpace attr)) keyBandwidth) =
      some bandwidth)
    (hmid : ∀ text ∈ mid, strings.HasPrefix (trimSpace text) streamInfTag = false ∧
      strings.HasSuffix (trimSpace text) m3u8Suffix = false)
    (hpost : ∀ text ∈ post.head?, strings.HasPrefix (trimSpace text) streamInfTag = true) :
    (scanLoop trimSpace resolveURL masterURL (pre ++ attr :: (mid ++ post)) []
        Quality.zero).map Prod.fst =
      (scanLoop trimSpace resolveURL masterURL pre [] Quality.zero).bind (fun s1 =>
        (scanLoop trimSpace resolveURL masterURL post [] Quality.zero).map (fun s2 =>
          s1.1 ++ s2.1)) := by
  rw [scanLoop_append]
  cases hp : scanLoop trimSpace resolveURL masterURL pre [] Quality.zero with
  | error e => rfl
  | ok s1 =>
    show (scanLoop trimSpace resolveURL masterURL (attr :: (mid ++ post)) s1.1 s1.2).map
      Prod.fst = _
    rw [scanLoop_attr trimSpace resolveURL masterURL attr _ bandwidth hattr hbw, scanLoop_append,
      scanLoop_skip trimSpace resolveURL masterURL mid hmid]
    show (scanLoop trimSpace resolveURL masterURL post s1.1 _).map Prod.fst =
      (scanLoop trimSpace resolveURL masterURL post [] Quality.zero).map (fun s2 => s1.1 ++ s2.1)
    cases post with
    | nil =>
      show Except.ok s1.1 = Except.ok (s1.1 ++ [])
      rw [List.append_nil]
    | cons a rest =>
      have ha := hpost a (by simp)
      rw [scanLoop_attr_cur trimSpace resolveURL masterURL a rest ha s1.1 _ Quality.zero]
      have hacc := scanLoop_acc trimSpace resolveURL masterURL (a :: rest) s1.1 [] Quality.zero
      rw [List.append_nil] at hacc
      rw [hacc]
      cases scanLoop trimSpace resolveURL masterURL (a :: rest) [] Quality.zero <;> rfl

/-- The result of the scan loop grows by at most one quality for each
attribute line, the pending one counted, and by at most one for each line
ending in `.m3u8` that is no attribute line. -/
theorem scanLoop_length (trimSpace : Bytes → Bytes) (resolveURL : Bytes → Bytes → Bytes)
    (masterURL : Bytes) (lines : List Bytes) (qualities : List Quality) (cur : Quality)
    (out : List Quality) (cur' : Quality)
    (h : scanLoop trimSpace resolveURL masterURL lines qualities cur = .ok (out, cur')) :
    out.length + (if cur'.Name ≠ [] then 1 else 0) ≤
        qualities.length + (if cur.Name ≠ [] then 1 else 0) +
          (lines.filter (fun text => strings.HasPrefix (trimSpace text) streamInfTag)).length ∧
      out.length ≤ qualities.length +
        (lines.filter (fun text => ! strings.HasPrefix (trimSpace text) streamInfTag &&
          strings.HasSuffix (trimSpace text) m3u8Suffix)).length ∧
      qualities.length ≤ out.length := by
  induction lines generalizing qualities cur with
  | nil =>
    rw [scanLoop] at h
    cases h
    simp
  | cons text rest ih =>
    rw [scanLoop] at h
    simp only at h
    split at h
    · rename_i hpre
      have e1 : (text :: rest).filter
          (fun text => strings.HasPrefix (trimSpace text) streamInfTag) =
          text :: rest.filter (fun text => strings.HasPrefix (trimSpace text) streamInfTag) :=
        List.filter_cons_of_pos hpre
      have e2 : (text :: rest).filter
          (fun text => ! strings.HasPrefix (trimSpace text) streamInfTag &&
            strings.HasSuffix (trimSpace text) m3u8Suffix) =
          rest.filter (fun text => ! strings.HasPrefix (trimSpace text) streamInfTag &&
            strings.HasSuffix (trimSpace text) m3u8Suffix) :=
        List.filter_cons_of_neg (by simp [hpre])
      split at h
      · cases h
      · obtain ⟨h1, h2, h3⟩ := ih _ _ h
        rw [e1, e2]
        refine ⟨?_, h2, h3⟩
        rw [List.length_cons]
        split_ifs at h1 ⊢ <;> omega
    · rename_i hpre
      have hpre' : strings.HasPrefix (trimSpace text) streamInfTag = false := by
        simpa using hpre
      have e1 : (text :: rest).filter
          (fun text => strings.HasPrefix (trimSpace text) streamInfTag) =
          rest.filter (fun text => strings.HasPrefix (trimSpace text) streamInfTag) :=
        List.filter_cons_of_neg (by simp [hpre'])
      rw [e1]
      split at h
      · rename_i hurl
        have e2 : (text :: rest).filter
            (fun text => ! strings.HasPrefix (trimSpace text) streamInfTag &&
              strings.HasSuffix (trimSpace text) m3u8Suffix) =
            text :: rest.filter (fun text => ! strings.HasPrefix (trimSpace text) streamInfTag &&
              strings.HasSuffix (trimSpace text) m3u8Suffix) :=
          List.filter_cons_of_pos (by simp [hpre', hurl.1])
        obtain ⟨h1, h2, h3⟩ := ih _ _ h
        rw [e2]
        rw [List.length_append, List.length_singleton] at h1 h2 h3
        rw [List.length_cons]
        have hz : (if Quality.zero.Name ≠ [] then (1 : Nat) else 0) = 0 :=
          if_neg (fun hn => hn rfl)
        rw [hz] at h1
        rw [if_pos hurl.2]
        refine ⟨?_, ?_, ?_⟩ <;> omega
      · rename_i hurl
        obtain ⟨h1, h2, h3⟩ := ih _ _ h
        refine ⟨h1, ?_, h3⟩
        by_cases hs : strings.HasSuffix (trimSpace text) m3u8Suffix = true
        · have e2 : (text :: rest).filter
              (fun text => ! strings.HasPrefix (trimSpace text) streamInfTag &&
                strings.HasSuffix (trimSpace text) m3u8Suffix) =
              text :: rest.filter (fun text =>
                ! strings.HasPrefix (trimSpace text) streamInfTag &&
                strings.HasSuffix (trimSpace text) m3u8Suffix) :=
            List.filter_cons_of_pos (by simp [hpre', hs])
          rw [e2, List.length_cons]
          omega
        · have e2 : (text :: rest).filter
              (fun text => ! strings.HasPrefix (trimSpace text) streamInfTag &&
                strings.HasSuffix (trimSpace text) m3u8Suffix) =
              rest.filter (fun text => ! strings.HasPrefix (trimSpace text) streamInfTag &&
                strings.HasSuffix (trimSpace text) m3u8Suffix) :=
            List.filter_cons_of_neg (by simp [hpre', hs])
          rw [e2]
          exact h2

/-- Function `parseMasterM3U8` by the result of the scan loop. -/
theorem parseMasterM3U8_ok_iff (trimSpace : Bytes → Bytes) (resolveURL : Bytes → Bytes → Bytes)
    (masterURL : Bytes) (lines : List Bytes) (scanErr : Bool) (qs : List Quality) :
    parseMasterM3U8 trimSpace resolveURL masterURL lines scanErr = .ok qs ↔
      (∃ cur, scanLoop trimSpace resolveURL masterURL lines [] Quality.zero = .ok (qs, cur)) ∧
        scanErr = false ∧ qs ≠ [] := by
  unfold parseMasterM3U8
  cases hs : scanLoop trimSpace resolveURL masterURL lines [] Quality.zero with
  | error e => simp
  | ok s =>
    obtain ⟨out, cur⟩ := s
    simp only
    cases scanErr with
    | true => simp
    | false =>
      simp only [Bool.false_eq_true, if_false, Except.ok.injEq, Prod.mk.injEq, true_and]
      by_cases hlen : out.length = 0
      · rw [if_pos hlen]
        have hnil : out = [] := List.length_eq_zero.mp hlen
        constructor
        · intro h
          cases h
        · intro h
          obtain ⟨⟨_, h1, _⟩, h2⟩ := h
          exact absurd (h1 ▸ hnil) h2
      · rw [if_neg hlen]
        constructor
        · intro h
          cases h
          exact ⟨⟨cur, rfl, rfl⟩, fun hnil => hlen (by rw [hnil]; rfl)⟩
        · intro h
          obtain ⟨⟨_, h1, _⟩, _⟩ := h
          rw [h1]

/-- The parse fails when the scan loop ends with no quality. -/
theorem parseMasterM3U8_error_of_nil (trimSpace : Bytes → Bytes)
    (resolveURL : Bytes → Bytes → Bytes) (masterURL : Bytes) (lines : List Bytes)
    (scanErr : Bool)
    (h : ∀ out cur, scanLoop trimSpace resolveURL masterURL lines [] Quality.zero =
      .ok (out, cur) → out = []) :
    ∃ e, parseMasterM3U8 trimSpace resolveURL masterURL lines scanErr = .error e := by
  cases hp : parseMasterM3U8 trimSpace resolveURL masterURL lines scanErr with
  | error e => exact ⟨e, rfl⟩
  | ok qs =>
    obtain ⟨⟨cur, hs⟩, _, hne⟩ :=
      (parseMasterM3U8_ok_iff trimSpace resolveURL masterURL lines scanErr qs).mp hp
    exact absurd (h qs cur hs) hne

end extractor

namespace extractor

open types

/-- Without an attribute line, and with no name in the current quality,
the scan loop changes nothing. -/
theorem scanLoop_no_attr (trimSpace : Bytes → Bytes) (resolveURL : Bytes → Bytes → Bytes)
    (masterURL : Bytes) (lines : List Bytes)
    (hlines : ∀ text ∈ lines, strings.HasPrefix (trimSpace text) streamInfTag = false)
    (qualities : List Quality) (cur : Quality) (hname : cur.Name = []) :
    scanLoop trimSpace resolveURL masterURL lines qualities cur = .ok (qualities, cur) := by
  induction lines with
  | nil => rfl
  | cons text rest ih =>
    rw [scanLoop_url_unnamed trimSpace resolveURL masterURL text rest
      (hlines text (List.mem_cons_self _ _)) qualities cur hname]
    exact ih (fun t ht => hlines t (List.mem_cons_of_mem _ ht))

theorem parseMasterM3U8_of_scanLoop_error (trimSpace : Bytes → Bytes)
    (resolveURL : Bytes → Bytes → Bytes) (masterURL : Bytes) (lines : List Bytes)
    (scanErr : Bool) (e : ManifestError)
    (h : scanLoop trimSpace resolveURL masterURL lines [] Quality.zero = .error e) :
    parseMasterM3U8 trimSpace resolveURL masterURL lines scanErr = .error e := by
  unfold parseMasterM3U8
  rw [h]

theorem parseMasterM3U8_of_scanLoop_nil (trimSpace : Bytes → Bytes)
    (resolveURL : Bytes → Bytes → Bytes) (masterURL : Bytes) (lines : List Bytes)
    (scanErr : Bool) (cur : Quality)
    (h : scanLoop trimSpace resolveURL masterURL lines [] Quality.zero = .ok ([], cur)) :
    parseMasterM3U8 trimSpace resolveURL masterURL lines scanErr =
      .error (if scanErr then .readError else .noQualities) := by
  unfold parseMasterM3U8
  rw [h]
  cases scanErr <;> rfl

end extractor

/-! ## The windows of `calculateIntroOutro` -/

namespace extractor

open types

/-- The scan loop of `calculateIntroOutro` adds up the durations of the
`#EXTINF` lines when each of them parses. -/
theorem durationLoop_sum (trimSpace : Bytes → Bytes) (parseFloat : Bytes → Option ℚ)
    (lines : List Bytes) (ds : List ℚ) (total : ℚ)
    (h : ((lines.map trimSpace).filter (fun line => strings.HasPrefix line extinfTag)).map
        (fun line => parseFloat (strings.TrimRight (strings.TrimPrefix line extinfTag) 44)) =
      ds.map some) :
    durationLoop trimSpace parseFloat lines total = .ok (total + ds.sum) := by
  induction lines generalizing ds total with
  | nil =>
    cases ds with
    | nil => simp [durationLoop]
    | cons d rest => simp at h
  | cons text rest ih =>
    rw [durationLoop]
    simp only
    by_cases hp : strings.HasPrefix (trimSpace text) extinfTag = true
    · rw [if_pos hp]
      have e : (trimSpace text :: rest.map trimSpace).filter
          (fun line => strings.HasPrefix line extinfTag) =
          trimSpace text :: (rest.map trimSpace).filter
            (fun line => strings.HasPrefix line extinfTag) :=
        List.filter_cons_of_pos hp
      rw [List.map_cons, e, List.map_cons] at h
      cases ds with
      | nil => simp at h
      | cons d ds' =>
        rw [List.map_cons] at h
        have hd := (List.cons.inj h).1
        have htail := (List.cons.inj h).2
        rw [hd]
        simp only
        rw [ih ds' (total + d) htail, List.sum_cons, add_assoc]
    · rw [if_neg hp]
      have e : (trimSpace text :: rest.map trimSpace).filter
          (fun line => strings.HasPrefix line extinfTag) =
          (rest.map trimSpace).filter (fun line => strings.HasPrefix line extinfTag) :=
        List.filter_cons_of_neg hp
      rw [List.map_cons, e] at h
      exact ih ds total h

end extractor

/-! ## `path.Dir` and `resolveURL` -/

namespace path

theorem dropWhile_ne_append (c : Byte) (l r : Bytes) (hl : c ∉ l) :
    (l ++ c :: r).dropWhile (fun x => x ≠ c) = c :: r := by
  induction l with
  | nil => simp [List.dropWhile]
  | cons a as ih =>
    have ha : a ≠ c := fun h => hl (by rw [h]; exact List.mem_cons_self _ _)
    have has : c ∉ as := fun h => hl (List.mem_cons_of_mem _ h)
    rw [List.cons_append, List.dropWhile_cons_of_pos (by simpa using ha)]
    exact ih has

/-- The text up to the last slash. -/
theorem dirPart_append (d file : Bytes) (hfile : (47 : Byte) ∉ file) :
    dirPart (d ++ 47 :: file) = d ++ [47] := by
  unfold dirPart
  rw [List.reverse_append, List.reverse_cons, List.append_assoc, List.singleton_append,
    dropWhile_ne_append 47 file.reverse d.reverse (fun h => hfile (List.mem_reverse.mp h)),
    List.reverse_cons, List.reverse_reverse]

theorem cleanLoop_skip (rooted : Bool) (e : Bytes) (rest kept : List Bytes)
    (he : e = [] ∨ e = [46]) : cleanLoop rooted (e :: rest) kept = cleanLoop rooted rest kept := by
  rw [cleanLoop.eq_def]
  simp only
  rw [if_pos he]

theorem cleanLoop_push (rooted : Bool) (e : Bytes) (rest kept : List Bytes)
    (h1 : e ≠ []) (h2 : e ≠ [46]) (h3 : e ≠ [46, 46]) :
    cleanLoop rooted (e :: rest) kept = cleanLoop rooted rest (e :: kept) := by
  rw [cleanLoop.eq_def]
  simp only
  rw [if_neg (fun h => h.elim h1 h2), if_neg h3]

/-- Elements that are not empty, not `.` and not `..` are kept as they
are. -/
theorem cleanLoop_plain (rooted : Bool) (segs tail kept : List Bytes)
    (hsegs : ∀ s ∈ segs, s ≠ [] ∧ s ≠ [46] ∧ s ≠ [46, 46]) :
    cleanLoop rooted (segs ++ tail) kept = cleanLoop rooted tail (segs.reverse ++ kept) := by
  induction segs generalizing kept with
  | nil => rfl
  | cons s rest ih =>
    obtain ⟨h1, h2, h3⟩ := hsegs s (List.mem_cons_self _ _)
    rw [List.cons_append, cleanLoop_push rooted s _ kept h1 h2 h3,
      ih (s :: kept) (fun x hx => hsegs x (List.mem_cons_of_mem _ hx)), List.reverse_cons,
      List.append_assoc, List.singleton_append]

theorem intercalate_cons_cons (sep a b : Bytes) (l : List Bytes) :
    List.intercalate sep (a :: b :: l) = a ++ sep ++ List.intercalate sep (b :: l) := by
  simp [List.intercalate, List.intersperse]

theorem intercalate_concat_nil (sep a : Bytes) (l : List Bytes) :
    List.intercalate sep ((a :: l) ++ [[]]) = List.intercalate sep (a :: l) ++ sep := by
  induction l generalizing a with
  | nil => simp [List.intercalate, List.intersperse]
  | cons b rest ih =>
    rw [List.cons_append, List.cons_append, intercalate_cons_cons, ← List.cons_append, ih b,
      intercalate_cons_cons]
    simp only [List.append_assoc]

/-- A rooted path of plain elements with a slash at its end is cleaned to
the path without that slash. -/
theorem Clean_rooted (seg : Bytes) (segs : List Bytes)
    (hsegs : ∀ s ∈ seg :: segs, s ≠ [] ∧ s ≠ [46] ∧ s ≠ [46, 46] ∧ (47 : Byte) ∉ s) :
    Clean (47 :: List.intercalate [47] (seg :: segs) ++ [47]) =
      47 :: List.intercalate [47] (seg :: segs) := by
  have hform : (47 : Byte) :: List.intercalate [47] (seg :: segs) ++ [47] =
      List.intercalate [47] ([] :: ((seg :: segs) ++ [[]])) := by
    rw [List.cons_append seg, intercalate_cons_cons, ← List.cons_append, intercalate_concat_nil]
    rfl
  have hsplit : strings.Split ((47 : Byte) :: List.intercalate [47] (seg :: segs) ++ [47]) 47 =
      [] :: ((seg :: segs) ++ [[]]) := by
    rw [hform]
    apply strings.Split_intercalate
    intro q hq
    rcases List.mem_cons.mp hq with h | h
    · rw [h]
      exact List.not_mem_nil _
    · rcases List.mem_append.mp h with h | h
      · exact (hsegs q h).2.2.2
      · rw [List.mem_singleton.mp h]
        exact List.not_mem_nil _
  have hloop : cleanLoop true ([] :: ((seg :: segs) ++ [[]])) [] = (seg :: segs).reverse := by
    rw [cleanLoop_skip true [] _ [] (Or.inl rfl),
      cleanLoop_plain true (seg :: segs) [[]] [] (fun s hs => ⟨(hsegs s hs).1, (hsegs s hs).2.1,
        (hsegs s hs).2.2.1⟩),
      cleanLoop_skip true [] _ _ (Or.inl rfl), List.append_nil]
    rfl
  rw [List.cons_append] at hsplit ⊢
  simp only [Clean]
  rw [hsplit]
  simp only [decide_True, if_true]
  rw [hloop, List.reverse_reverse]

/-- The directory of `/dir/file` is `/dir`, for plain elements. -/
theorem Dir_rooted (seg : Bytes) (segs : List Bytes) (file : Bytes)
    (hsegs : ∀ s ∈ seg :: segs, s ≠ [] ∧ s ≠ [46] ∧ s ≠ [46, 46] ∧ (47 : Byte) ∉ s)
    (hfile : (47 : Byte) ∉ file) :
    Dir (47 :: List.intercalate [47] (seg :: segs) ++ 47 :: file) =
      47 :: List.intercalate [47] (seg :: segs) := by
  unfold Dir
  rw [dirPart_append _ file hfile]
  exact Clean_rooted seg segs hsegs

end path

namespace extractor

/-- Function `resolveURL` when both texts parse. -/
theorem resolveURL_parsed (urlParse : Bytes → Option url.URL) (masterURL relativeURL : Bytes)
    (u t : url.URL) (hu : urlParse masterURL = some u) (ht : urlParse relativeURL = some t) :
    resolveURL urlParse masterURL relativeURL =
      u.Scheme ++ [58, 47, 47] ++ u.Host ++ path.Dir u.Path ++ [47] ++ t.Path := by
  unfold resolveURL
  rw [hu]
  simp only
  rw [ht]

end extractor

/-! ## The source lists of `Extract` -/

namespace extractor

open types

theorem primaryLoop_skip {ε₁ ε₂ : Type}
    (timing : Bytes → Except ε₁ (EpisodeTiming × EpisodeTiming))
    (parse : Bytes → Except ε₂ (List Quality)) (s : SourceEntry) (rest : List SourceEntry)
    (sources : Source) (hs : s.File = []) :
    primaryLoop timing parse (s :: rest) sources = primaryLoop timing parse rest sources := by
  rw [primaryLoop, if_pos hs]

theorem primaryLoop_step {ε₁ ε₂ : Type}
    (timing : Bytes → Except ε₁ (EpisodeTiming × EpisodeTiming))
    (parse : Bytes → Except ε₂ (List Quality)) (s : SourceEntry) (rest : List SourceEntry)
    (sources : Source) (hs : s.File ≠ []) (intro outro : EpisodeTiming)
    (qualities : List Quality) (hc : timing s.File = .ok (intro, outro))
    (hp : parse s.File = .ok qualities) :
    primaryLoop timing parse (s :: rest) sources =
      primaryLoop timing parse rest
        { sources with
          Sources := sources.Sources ++ qualities
          IsM3U8 := true
          Intro := intro
          Outro := outro } := by
  rw [primaryLoop, if_neg hs, hc]
  simp only
  rw [hp]

/-- A successful step of the loop over the primary sources. -/
theorem primaryLoop_cons_ok {ε₁ ε₂ : Type}
    (timing : Bytes → Except ε₁ (EpisodeTiming × EpisodeTiming))
    (parse : Bytes → Except ε₂ (List Quality)) (s : SourceEntry) (rest : List SourceEntry)
    (sources result : Source) (hs : s.File ≠ [])
    (h : primaryLoop timing parse (s :: rest) sources = .ok result) :
    ∃ intro outro qualities, timing s.File = .ok (intro, outro) ∧ parse s.File = .ok qualities ∧
      primaryLoop timing parse rest
        { sources with
          Sources := sources.Sources ++ qualities
          IsM3U8 := true
          Intro := intro
          Outro := outro } = .ok result := by
  rw [primaryLoop, if_neg hs] at h
  cases hc : timing s.File with
  | error e =>
    rw [hc] at h
    cases h
  | ok io =>
    obtain ⟨intro, outro⟩ := io
    rw [hc] at h
    simp only at h
    cases hp : parse s.File with
    | error e =>
      rw [hp] at h
      cases h
    | ok qualities =>
      rw [hp] at h
      exact ⟨intro, outro, qualities, rfl, rfl, h⟩

/-- Entries without a file change nothing. -/
theorem primaryLoop_no_file {ε₁ ε₂ : Type}
    (timing : Bytes → Except ε₁ (EpisodeTiming × EpisodeTiming))
    (parse : Bytes → Except ε₂ (List Quality)) (entries : List SourceEntry) (sources : Source)
    (h : ∀ s ∈ entries, s.File = []) :
    primaryLoop timing parse entries sources = .ok sources := by
  induction entries with
  | nil => rfl
  | cons s rest ih =>
    rw [primaryLoop_skip timing parse s rest sources (h s (List.mem_cons_self _ _))]
    exact ih (fun x hx => h x (List.mem_cons_of_mem _ hx))

/-- The qualities of a variant list of a file, none for a failed parse. -/
theorem primaryLoop_result {ε₁ ε₂ : Type}
    (timing : Bytes → Except ε₁ (EpisodeTiming × EpisodeTiming))
    (parse : Bytes → Except ε₂ (List Quality)) (entries : List SourceEntry)
    (sources result : Source) (h : primaryLoop timing parse entries sources = .ok result) :
    (∀ s ∈ entries, s.File ≠ [] →
      (∃ io, timing s.File = .ok io) ∧ ∃ qualities, parse s.File = .ok qualities) ∧
    result.Sources = sources.Sources ++
      ((entries.filter (fun s => s.File ≠ [])).map (fun s =>
        match parse s.File with
        | .ok qualities => qualities
        | .error _ => [])).flatten ∧
    result.Subtitles = sources.Subtitles ∧ result.Audio = sources.Audio ∧
    ((∀ s ∈ entries, s.File = []) → result = sources) ∧
    (∀ pre s post, entries = pre ++ s :: post → s.File ≠ [] → (∀ x ∈ post, x.File = []) →
      timing s.File = .ok (result.Intro, result.Outro)) := by
  induction entries generalizing sources with
  | nil =>
    rw [primaryLoop] at h
    cases h
    refine ⟨fun s hs => absurd hs (List.not_mem_nil _), by simp, rfl, rfl, fun _ => rfl, ?_⟩
    intro pre s post hsplit
    cases pre <;> cases hsplit
  | cons s rest ih =>
    by_cases hs : s.File = []
    · rw [primaryLoop_skip timing parse s rest sources hs] at h
      obtain ⟨h1, h2, h3, h4, h5, h6⟩ := ih sources h
      refine ⟨?_, ?_, h3, h4, ?_, ?_⟩
      · intro x hx hxf
        rcases List.mem_cons.mp hx with hx | hx
        · rw [hx] at hxf
          exact absurd hs hxf
        · exact h1 x hx hxf
      · rw [List.filter_cons_of_neg (by simp [hs])]
        exact h2
      · intro hall
        exact h5 (fun x hx => hall x (List.mem_cons_of_mem _ hx))
      · intro pre x post hsplit hx hpost
        cases pre with
        | nil =>
          rw [List.nil_append] at hsplit
          rw [(List.cons.inj hsplit).1] at hs
          exact absurd hs hx
        | cons p pre' =>
          rw [List.cons_append] at hsplit
          exact h6 pre' x post (List.cons.inj hsplit).2 hx hpost
    · obtain ⟨intro, outro, qualities, hc, hp, hrest⟩ :=
        primaryLoop_cons_ok timing parse s rest sources result hs h
      obtain ⟨h1, h2, h3, h4, h5, h6⟩ := ih _ hrest
      refine ⟨?_, ?_, h3, h4, ?_, ?_⟩
      · intro x hx hxf
        rcases List.mem_cons.mp hx with hx | hx
        · rw [hx]
          exact ⟨⟨_, hc⟩, ⟨_, hp⟩⟩
        · exact h1 x hx hxf
      · rw [List.filter_cons_of_pos (by simp [hs]), List.map_cons, List.flatten_cons, hp, h2]
        simp only [List.append_assoc]
      · intro hall
        exact absurd (hall s (List.mem_cons_self _ _)) hs
      · intro pre x post hsplit hx hpost
        cases pre with
        | nil =>
          rw [List.nil_append] at hsplit
          obtain ⟨hsx, hrp⟩ := List.cons.inj hsplit
          rw [← hrp] at hpost
          have hres := h5 hpost
          rw [← hsx, hc, hres]
        | cons p pre' =>
          rw [List.cons_append] at hsplit
          exact h6 pre' x post (List.cons.inj hsplit).2 hx hpost

/-- The loop over the backup sources: the two lists it fills, and the
fields it leaves alone. -/
theorem backupLoop_spec (toLower : Bytes → Bytes) (entries : List SourceEntry)
    (sources : Source) :
    (backupLoop toLower entries sources).Subtitles = sources.Subtitles ++
      (entries.filter (fun s => s.File ≠ [] ∧
        strings.Contains (toLower s.Kind) [115, 117, 98, 116, 105, 116, 108, 101] = true)).map
        (fun s => s.File) ∧
    (backupLoop toLower entries sources).Audio = sources.Audio ++
      (entries.filter (fun s => s.File ≠ [] ∧
        strings.Contains (toLower s.Kind) [115, 117, 98, 116, 105, 116, 108, 101] = false ∧
        strings.Contains (toLower s.Kind) [97, 117, 100, 105, 111] = true)).map
        (fun s => s.File) ∧
    (backupLoop toLower entries sources).Sources = sources.Sources ∧
    (backupLoop toLower entries sources).Intro = sources.Intro ∧
    (backupLoop toLower entries sources).Outro = sources.Outro := by
  induction entries generalizing sources with
  | nil => simp [backupLoop]
  | cons s rest ih =>
    rw [backupLoop]
    by_cases hf : s.File = []
    · rw [if_pos hf, List.filter_cons_of_neg (by simp [hf]),
        List.filter_cons_of_neg (by simp [hf])]
      exact ih sources
    · rw [if_neg hf]
      by_cases hsub : strings.Contains (toLower s.Kind)
          [115, 117, 98, 116, 105, 116, 108, 101] = true
      · rw [if_pos hsub, List.filter_cons_of_pos (by simp [hf, hsub]),
          List.filter_cons_of_neg (by simp [hsub])]
        obtain ⟨h1, h2, h3, h4, h5⟩ := ih { sources with Subtitles := sources.Subtitles ++ [s.File] }
        refine ⟨?_, h2, h3, h4, h5⟩
        rw [h1, List.map_cons]
        simp only [List.append_assoc, List.singleton_append]
      · rw [if_neg hsub]
        have hsub' : strings.Contains (toLower s.Kind)
            [115, 117, 98, 116, 105, 116, 108, 101] = false := by simpa using hsub
        by_cases haud : strings.Contains (toLower s.Kind) [97, 117, 100, 105, 111] = true
        · rw [if_pos haud, List.filter_cons_of_neg (by simp [hsub']),
            List.filter_cons_of_pos (by simp [hf, hsub', haud])]
          obtain ⟨h1, h2, h3, h4, h5⟩ := ih { sources with Audio := sources.Audio ++ [s.File] }
          refine ⟨h1, ?_, h3, h4, h5⟩
          rw [h2, List.map_cons]
          simp only [List.append_assoc, List.singleton_append]
        · rw [if_neg haud, List.filter_cons_of_neg (by simp [hsub']),
            List.filter_cons_of_neg (by simp [haud])]
          exact ih sources

/-- Function `Extract` by its two loops. -/
theorem Extract_ok_iff {ε₁ ε₂ : Type} (toLower : Bytes → Bytes)
    (timing : Bytes → Except ε₁ (EpisodeTiming × EpisodeTiming))
    (parse : Bytes → Except ε₂ (List Quality)) (dataFile : gogoCdn) (result : Source) :
    Extract toLower timing parse dataFile = .ok result ↔
      ∃ sources, primaryLoop timing parse dataFile.Source Source.zero = .ok sources ∧
        result = backupLoop toLower dataFile.Bkp sources := by
  have hz : Source.zero = ⟨[], [], [], false, ⟨0, 0⟩, ⟨0, 0⟩, [], [], []⟩ := rfl
  rw [hz]
  unfold Extract
  simp only
  generalize primaryLoop timing parse dataFile.Source
    ⟨[], [], [], false, ⟨0, 0⟩, ⟨0, 0⟩, [], [], []⟩ = r
  cases r with
  | error e => simp
  | ok sources =>
    simp only [Except.ok.injEq, exists_eq_left']
    exact eq_comm

end extractor

/-! ## The two forms of `strconv.Atoi` -/

namespace strconv

theorem digitsValue_bound : ∀ (ds : Bytes) (n v : Nat), digitsValue ds n = some v →
    n ≤ v ∧ v < (n + 1) * 10 ^ ds.length := by
  intro ds
  induction ds with
  | nil =>
    intro n v h
    rw [digitsValue] at h
    cases h
    simp
  | cons c cs ih =>
    intro n v h
    rw [digitsValue] at h
    split_ifs at h with hd
    obtain ⟨h1, h2⟩ := ih _ v h
    have h3 : (n * 10 + (c.val - 48) + 1) * 10 ^ cs.length ≤ (n + 1) * 10 * 10 ^ cs.length :=
      Nat.mul_le_mul_right _ (by omega)
    rw [List.length_cons, pow_succ, mul_comm (10 ^ cs.length) 10, ← mul_assoc]
    constructor
    · omega
    · omega

theorem atoiFastLoop_eq : ∀ (ds : Bytes) (n : Nat),
    atoiFastLoop ds (n : Int) = Option.map (fun v : Nat => (v : Int)) (digitsValue ds n) := by
  intro ds
  induction ds with
  | nil =>
    intro n
    rfl
  | cons c cs ih =>
    intro n
    rw [atoiFastLoop, digitsValue]
    by_cases hd : 48 ≤ c.val ∧ c.val ≤ 57
    · rw [if_pos hd, if_pos hd, ← ih]
      congr 1
      have : ((c.val - 48 : Nat) : Int) = (c.val : Int) - 48 := by omega
      push_cast
      rw [this]
    · rw [if_neg hd, if_neg hd]
      rfl

theorem parseUintLoop_of_some : ∀ (ds : Bytes) (n v : Nat), digitsValue ds n = some v →
    n ≤ 18446744073709551615 →
    parseUintLoop ds n =
      if v ≤ 18446744073709551615 then (v, none) else (18446744073709551615, some .ErrRange) := by
  intro ds
  induction ds with
  | nil =>
    intro n v h hn
    rw [digitsValue] at h
    cases h
    rw [parseUintLoop, if_pos hn]
  | cons c cs ih =>
    intro n v h hn
    rw [digitsValue] at h
    split_ifs at h with hd
    obtain ⟨hb, _⟩ := digitsValue_bound cs _ v h
    rw [parseUintLoop, if_pos hd]
    by_cases hc : n ≥ 1844674407370955162
    · rw [if_pos hc, if_neg (by omega)]
    · rw [if_neg hc]
      simp only
      by_cases h1 : n * 10 + (c.val - 48) > 18446744073709551615
      · rw [if_pos h1, if_neg (by omega)]
      · rw [if_neg h1]
        exact ih _ v h (by omega)

theorem parseUintLoop_of_none : ∀ (ds : Bytes) (n : Nat), digitsValue ds n = none →
    parseUintLoop ds n = (0, some .ErrSyntax) ∨
      parseUintLoop ds n = (18446744073709551615, some .ErrRange) := by
  intro ds
  induction ds with
  | nil =>
    intro n h
    rw [digitsValue] at h
    cases h
  | cons c cs ih =>
    intro n h
    rw [digitsValue] at h
    rw [parseUintLoop]
    by_cases hd : 48 ≤ c.val ∧ c.val ≤ 57
    · rw [if_pos hd] at h
      rw [if_pos hd]
      by_cases hc : n ≥ 1844674407370955162
      · rw [if_pos hc]
        exact Or.inr rfl
      · rw [if_neg hc]
        simp only
        by_cases h1 : n * 10 + (c.val - 48) > 18446744073709551615
        · rw [if_pos h1]
          exact Or.inr rfl
        · rw [if_neg h1]
          exact ih _ h
    · rw [if_neg hd]
      exact Or.inl rfl

/-- Function `ParseUint` on a string that is not empty, by the value of its
digits. -/
theorem ParseUint_cases (ds : Bytes) (hne : ds ≠ []) :
    (digitsValue ds 0 = none ∧ (ParseUint ds = (0, some .ErrSyntax) ∨
      ParseUint ds = (18446744073709551615, some .ErrRange))) ∨
    (∃ v, digitsValue ds 0 = some v ∧ v ≤ 18446744073709551615 ∧ ParseUint ds = (v, none)) ∨
    (∃ v, digitsValue ds 0 = some v ∧ 18446744073709551615 < v ∧
      ParseUint ds = (18446744073709551615, some .ErrRange)) := by
  unfold ParseUint
  rw [if_neg hne]
  cases hv : digitsValue ds 0 with
  | none => exact Or.inl ⟨rfl, parseUintLoop_of_none ds 0 hv⟩
  | some v =>
    have h := parseUintLoop_of_some ds 0 v hv (by omega)
    by_cases hle : v ≤ 18446744073709551615
    · rw [if_pos hle] at h
      exact Or.inr (Or.inl ⟨v, rfl, hle, h⟩)
    · rw [if_neg hle] at h
      exact Or.inr (Or.inr ⟨v, rfl, by omega, h⟩)

end strconv

namespace strconv

/-- The function `Atoi` of this file is `ParseInt` without the number that
comes with an error. -/
theorem Atoi_eq_ParseInt (s : Bytes) :
    Atoi s = if (ParseInt s).2 = none then some (ParseInt s).1 else none := by
  cases s with
  | nil => rfl
  | cons c cs =>
    by_cases h45 : c = 45
    · subst h45
      cases cs with
      | nil => rfl
      | cons d ds =>
        have hne : (d :: ds) ≠ [] := List.cons_ne_nil _ _
        simp only [Atoi, ParseInt, if_true, decide_True, or_true]
        rcases ParseUint_cases (d :: ds) hne with ⟨hv, hp | hp⟩ | ⟨v, hv, hle, hp⟩ | ⟨v, hv, hlt, hp⟩
        · rw [hv, hp]
          rfl
        · rw [hv, hp]
          rfl
        · rw [hv, hp]
          simp only
          by_cases hb : v ≤ 9223372036854775808
          · have hb2 : ¬ 9223372036854775808 < v := by omega
            simp [hb, hb2]
          · have hb2 : 9223372036854775808 < v := by omega
            simp [hb, hb2]
        · rw [hv, hp]
          simp only
          rw [if_neg (by omega)]
          rfl
    · by_cases h43 : c = 43
      · subst h43
        cases cs with
        | nil => rfl
        | cons d ds =>
          have hne : (d :: ds) ≠ [] := List.cons_ne_nil _ _
          have hn45 : ¬ ((43 : Byte) = 45) := by decide
          simp only [Atoi, ParseInt, if_true, hn45, if_false, decide_False, true_or]
          rcases ParseUint_cases (d :: ds) hne with
            ⟨hv, hp | hp⟩ | ⟨v, hv, hle, hp⟩ | ⟨v, hv, hlt, hp⟩
          · rw [hv, hp]
            rfl
          · rw [hv, hp]
            rfl
          · rw [hv, hp]
            simp only
            by_cases hb : v < 9223372036854775808
            · have hb2 : ¬ 9223372036854775808 ≤ v := by omega
              simp [hb, hb2]
            · have hb2 : 9223372036854775808 ≤ v := by omega
              simp [hb, hb2]
          · rw [hv, hp]
            simp only
            rw [if_neg (by omega)]
            rfl
      · have hne : (c :: cs) ≠ [] := List.cons_ne_nil _ _
        simp only [Atoi, ParseInt, h45, h43, if_false, decide_False, or_self]
        rcases ParseUint_cases (c :: cs) hne with
          ⟨hv, hp | hp⟩ | ⟨v, hv, hle, hp⟩ | ⟨v, hv, hlt, hp⟩
        · rw [hv, hp]
          rfl
        · rw [hv, hp]
          rfl
        · rw [hv, hp]
          simp only
          by_cases hb : v < 9223372036854775808
          · have hb2 : ¬ 9223372036854775808 ≤ v := by omega
            simp [hb, hb2]
          · have hb2 : 9223372036854775808 ≤ v := by omega
            simp [hb, hb2]
        · rw [hv, hp]
          simp only
          rw [if_neg (by omega)]
          rfl

end strconv

namespace strconv

theorem digitsValue_short (ds : Bytes) (v : Nat) (h : digitsValue ds 0 = some v)
    (hlen : ds.length < 19) : v < 9223372036854775808 := by
  obtain ⟨_, hb⟩ := digitsValue_bound ds 0 v h
  have hpow : 10 ^ ds.length ≤ 10 ^ 18 := Nat.pow_le_pow_right (by omega) (by omega)
  have h18 : (10 : Nat) ^ 18 = 1000000000000000000 := by norm_num
  omega

/-- The function `Atoi` of this file is `strconv.Atoi` without the number
that comes with an error: the two forms agree on whether there is an error
and on the number when there is none. -/
theorem Atoi_eq_AtoiResult (s : Bytes) :
    Atoi s = if (AtoiResult s).2 = none then some (AtoiResult s).1 else none := by
  unfold AtoiResult
  by_cases hfast : 0 < s.length ∧ s.length < 19
  · rw [if_pos hfast]
    cases s with
    | nil => exact absurd hfast.1 (by simp)
    | cons c cs =>
      have hlen : cs.length < 18 := by
        have := hfast.2
        rw [List.length_cons] at this
        omega
      by_cases h45 : c = 45
      · subst h45
        cases cs with
        | nil => rfl
        | cons d ds =>
          have hz : atoiFastLoop (d :: ds) 0 =
              Option.map (fun v : Nat => (v : Int)) (digitsValue (d :: ds) 0) :=
            atoiFastLoop_eq (d :: ds) 0
          have hl : ¬ (d :: ds).length < 1 := by simp
          simp only [true_or, if_true, hl, if_false, hz, Atoi]
          cases hv : digitsValue (d :: ds) 0 with
          | none => rfl
          | some v =>
            have hb := digitsValue_short (d :: ds) v hv (by omega)
            have hb2 : v ≤ 9223372036854775808 := by omega
            simp [hb2]
      · by_cases h43 : c = 43
        · subst h43
          cases cs with
          | nil => rfl
          | cons d ds =>
            have hz : atoiFastLoop (d :: ds) 0 =
                Option.map (fun v : Nat => (v : Int)) (digitsValue (d :: ds) 0) :=
              atoiFastLoop_eq (d :: ds) 0
            have hn45 : ¬ ((43 : Byte) = 45) := by decide
            have hl : ¬ (d :: ds).length < 1 := by simp
            simp only [or_true, if_true, hn45, if_false, hl, hz, Atoi]
            cases hv : digitsValue (d :: ds) 0 with
            | none => rfl
            | some v =>
              have hb := digitsValue_short (d :: ds) v hv (by omega)
              simp [hb]
        · have hz : atoiFastLoop (c :: cs) 0 =
              Option.map (fun v : Nat => (v : Int)) (digitsValue (c :: cs) 0) :=
            atoiFastLoop_eq (c :: cs) 0
          have hl : ¬ (c :: cs).length < 1 := by simp
          simp only [h45, h43, or_self, if_false, hl, hz, Atoi]
          cases hv : digitsValue (c :: cs) 0 with
          | none => rfl
          | some v =>
            have hb := digitsValue_short (c :: cs) v hv (by rw [List.length_cons]; omega)
            simp [hb]
  · rw [if_neg hfast]
    exact Atoi_eq_ParseInt s

/-- The error of `strconv.Atoi` is `nil` exactly when `Atoi` has a value,
the number it returns then. -/
theorem AtoiResult_ok_iff (s : Bytes) (v : Int) :
    AtoiResult s = (v, none) ↔ Atoi s = some v := by
  rw [Atoi_eq_AtoiResult]
  cases hr : AtoiResult s with
  | mk n e =>
    cases e with
    | none => simp
    | some e => simp

end strconv
namespace util

namespace scored

open types

/-! ### `FindBestMatch` over a score function -/

/-- The loop of `FindBestMatch` keeps the first of the candidates with the
highest score seen so far: started from the candidate at index `bi` of the
candidates `pre` already seen, it ends on the first candidate of highest
score of `pre ++ rest`. -/
theorem bestLoop_first_max {F : Type} [LinearOrder F] (score : Bytes → Bytes → F)
    (q : Bytes) :
    ∀ (rest pre : List Bytes) (bi : Nat), bi < pre.length →
      (∀ j, j < pre.length → score q (pre.getD j []) ≤ score q (pre.getD bi [])) →
      (∀ j, j < bi → score q (pre.getD j []) < score q (pre.getD bi [])) →
      ∃ i, i < (pre ++ rest).length ∧
        bestLoop score q rest (pre.getD bi []) (score q (pre.getD bi [])) =
          (pre ++ rest).getD i [] ∧
        (∀ j, j < (pre ++ rest).length →
          score q ((pre ++ rest).getD j []) ≤ score q ((pre ++ rest).getD i [])) ∧
        (∀ j, j < i → score q ((pre ++ rest).getD j []) < score q ((pre ++ rest).getD i [])) := by
  intro rest
  induction rest with
  | nil =>
    intro pre bi hbi hall hlt
    refine ⟨bi, by simpa using hbi, ?_, ?_, ?_⟩
    · simp [bestLoop]
    · simpa using hall
    · simpa using hlt
  | cons t rest ih =>
    intro pre bi hbi hall hlt
    have happ : pre ++ t :: rest = (pre ++ [t]) ++ rest := by simp
    have hold : ∀ j, j < pre.length → (pre ++ [t]).getD j [] = pre.getD j [] := by
      intro j hj
      rw [List.getD_eq_getElem _ _ (by simp; omega), List.getD_eq_getElem _ _ hj,
        List.getElem_append_left hj]
    have hnew : (pre ++ [t]).getD pre.length [] = t := by
      rw [List.getD_eq_getElem _ _ (by simp)]
      simp
    rw [bestLoop, happ]
    by_cases hgt : score q t > score q (pre.getD bi [])
    · rw [if_pos hgt]
      have h := ih (pre ++ [t]) pre.length (by simp)
        (by
          intro j hj
          rw [hnew]
          rcases Nat.lt_or_ge j pre.length with h | h
          · rw [hold j h]
            exact le_trans (hall j h) (le_of_lt hgt)
          · have : j = pre.length := by
              simp at hj
              omega
            subst this
            rw [hnew])
        (by
          intro j hj
          rw [hnew, hold j hj]
          exact lt_of_le_of_lt (hall j hj) hgt)
      rw [hnew] at h
      exact h
    · rw [if_neg hgt]
      have h := ih (pre ++ [t]) bi (by simp; omega)
        (by
          intro j hj
          rw [hold bi hbi]
          rcases Nat.lt_or_ge j pre.length with h | h
          · rw [hold j h]
            exact hall j h
          · have : j = pre.length := by
              simp at hj
              omega
            subst this
            rw [hnew]
            exact not_lt.mp hgt)
        (by
          intro j hj
          rw [hold bi hbi, hold j (by omega)]
          exact hlt j hj)
      rw [hold bi hbi] at h
      exact h

/-- The loop of `FindBestMatch` on rational scores is the loop on the score
`exactScore`. -/
theorem bestLoop_exactScore (toLower : Bytes → Bytes) (q : Bytes) :
    ∀ (rest : List Bytes) (best : Bytes) (hi : ℚ),
      util.bestLoop toLower q rest best hi = some (bestLoop (exactScore toLower) q rest best hi) := by
  intro rest
  induction rest with
  | nil =>
    intro best hi
    rfl
  | cons t rest ih =>
    intro best hi
    obtain ⟨s, hs⟩ := JaroWinkler_total toLower q t
    have he : exactScore toLower q t = s := by simp [exactScore, hs]
    rw [util.bestLoop, bestLoop, hs, he]
    simp only
    by_cases hgt : s > hi
    · rw [if_pos hgt, if_pos hgt]
      exact ih t s
    · rw [if_neg hgt, if_neg hgt]
      exact ih best hi

/-- With exact scores, `FindBestMatch` is the function of this section at
the score `exactScore`. -/
theorem FindBestMatch_exactScore (toLower : Bytes → Bytes) (q : Bytes) (ts : List Bytes) :
    util.FindBestMatch toLower q ts = some (FindBestMatch (exactScore toLower) q ts) := by
  cases ts with
  | nil => rfl
  | cons t rest =>
    obtain ⟨s, hs⟩ := JaroWinkler_total toLower q t
    have he : exactScore toLower q t = s := by simp [exactScore, hs]
    simp only [util.FindBestMatch, FindBestMatch, hs, he]
    exact bestLoop_exactScore toLower q rest t s

end scored

end util

namespace mapping

namespace heap

open types

/-! ### The writes of the merge to the memory -/

/-- The value loop over the sub qualities is a map. -/
theorem mergeSources_eq_map (dubs : List Quality) :
    ∀ subs : List Quality,
      mapping.mergeSources dubs subs = subs.map (fun q => mergeDubURL q dubs q) := by
  intro subs
  induction subs with
  | nil => rfl
  | cons q rest ih =>
    rw [mapping.mergeSources, ih]
    rfl

theorem writeDubURL_same (m : heap.Memory) (addr : Nat) (url : Bytes) :
    writeDubURL m addr url addr = { m addr with DubURL := url } := by
  simp [writeDubURL]

theorem writeDubURL_other (m : heap.Memory) (addr x : Nat) (url : Bytes) (h : x ≠ addr) :
    writeDubURL m addr url x = m x := by
  simp [writeDubURL, h]

/-- The inner loop writes to the address of the sub quality only. -/
theorem dubSourcesLoop_frame (subSource : Quality) (addr : Nat) (b : heap.Slice) (x : Nat)
    (hx : x ≠ addr) :
    ∀ (fuel j : Nat) (m : heap.Memory), dubSourcesLoop subSource addr b j fuel m x = m x := by
  intro fuel
  induction fuel with
  | zero =>
    intro j m
    rfl
  | succ fuel ih =>
    intro j m
    rw [dubSourcesLoop]
    split
    · rw [ih, writeDubURL_other m addr x _ hx]
    · rw [ih]

/-- The inner loop, when the dub slice does not hold the address of the sub
quality: the element at that address is rewritten as by the value loop over
the elements of the dub slice. -/
theorem dubSourcesLoop_spec (subSource : Quality) (addr : Nat) (b : heap.Slice) :
    ∀ (fuel j : Nat) (m : heap.Memory), (∀ k, k < fuel → b.ptr + (j + k) ≠ addr) →
      dubSourcesLoop subSource addr b j fuel m addr =
        mergeDubURL subSource ((List.range fuel).map (fun k => m (b.ptr + (j + k)))) (m addr) := by
  intro fuel
  induction fuel with
  | zero =>
    intro j m _
    rfl
  | succ fuel ih =>
    intro j m h
    have h0 : b.ptr + j ≠ addr := by simpa using h 0 (Nat.succ_pos _)
    have hshift : ∀ k, k < fuel → b.ptr + (j + 1 + k) ≠ addr := by
      intro k hk
      have := h (k + 1) (by omega)
      rwa [show j + (k + 1) = j + 1 + k by omega] at this
    rw [dubSourcesLoop, List.range_succ_eq_map, List.map_cons, List.map_map]
    rw [mergeDubURL]
    have hmap : ∀ m1 : heap.Memory, (∀ x, x ≠ addr → m1 x = m x) →
        (List.range fuel).map (fun k => m1 (b.ptr + (j + 1 + k))) =
          List.map ((fun k => m (b.ptr + (j + k))) ∘ Nat.succ) (List.range fuel) := by
      intro m1 hm1
      apply List.map_congr_left
      intro k hk
      rw [List.mem_range] at hk
      rw [hm1 _ (hshift k hk)]
      simp only [Function.comp]
      rw [show j + 1 + k = j + k.succ by omega]
    simp only [Nat.add_zero]
    by_cases hn : subSource.Name = (m (b.ptr + j)).Name
    · simp only [if_pos hn]
      rw [ih (j + 1) _ hshift, writeDubURL_same,
        hmap _ (fun x hx => writeDubURL_other m addr x _ hx)]
    · simp only [if_neg hn]
      rw [ih (j + 1) _ hshift, hmap m (fun _ _ => rfl)]

/-- The outer loop writes to the addresses of the sub slice it still has to
visit, and to no other. -/
theorem sourcesLoop_frame (a b : heap.Slice) (x : Nat) :
    ∀ (fuel i : Nat) (m : heap.Memory), ¬ (a.ptr + i ≤ x ∧ x < a.ptr + i + fuel) →
      sourcesLoop a b i fuel m x = m x := by
  intro fuel
  induction fuel with
  | zero =>
    intro i m _
    rfl
  | succ fuel ih =>
    intro i m h
    rw [sourcesLoop]
    rw [ih (i + 1) _ (by omega), dubSourcesLoop_frame _ _ _ _ (by omega)]

/-- The outer loop, when the two slices have no element in common: every
element of the sub slice it visits is rewritten as by the value loop over the
elements of the dub slice. -/
theorem sourcesLoop_spec (a b : heap.Slice)
    (hab : ∀ i k, i < a.len → k < b.len → b.ptr + k ≠ a.ptr + i) :
    ∀ (fuel i : Nat) (m : heap.Memory) (x : Nat), i + fuel ≤ a.len →
      a.ptr + i ≤ x → x < a.ptr + i + fuel →
      sourcesLoop a b i fuel m x = mergeDubURL (m x) (heap.readSlice m b) (m x) := by
  intro fuel
  induction fuel with
  | zero =>
    intro i m x _ h1 h2
    omega
  | succ fuel ih =>
    intro i m x hlen h1 h2
    rw [sourcesLoop]
    have hread : ∀ k, k < b.len →
        dubSourcesLoop (m (a.ptr + i)) (a.ptr + i) b 0 b.len m (b.ptr + k) = m (b.ptr + k) :=
      fun k hk => dubSourcesLoop_frame _ _ _ _ (hab i k (by omega) hk) _ _ _
    have hslice : heap.readSlice
        (dubSourcesLoop (m (a.ptr + i)) (a.ptr + i) b 0 b.len m) b = heap.readSlice m b := by
      apply List.map_congr_left
      intro k hk
      rw [List.mem_range] at hk
      exact hread k hk
    by_cases hx : x = a.ptr + i
    · subst hx
      rw [sourcesLoop_frame a b _ fuel (i + 1) _ (by omega),
        dubSourcesLoop_spec _ _ _ _ _ _ (by
          intro k hk
          rw [Nat.zero_add]
          exact hab i k (by omega) hk)]
      simp only [Nat.zero_add]
      rfl
    · rw [ih (i + 1) _ x (by omega) (by omega) (by omega), hslice,
        dubSourcesLoop_frame _ _ _ _ hx]

/-- Two disjoint slices have no address in common. -/
theorem disjoint_ne {a b : heap.Slice} (h : heap.Slice.Disjoint a b) :
    ∀ i k, i < a.len → k < b.len → b.ptr + k ≠ a.ptr + i := by
  intro i k hi hk
  unfold heap.Slice.Disjoint at h
  omega

theorem disjoint_symm {a b : heap.Slice} (h : heap.Slice.Disjoint a b) :
    heap.Slice.Disjoint b a := by
  unfold heap.Slice.Disjoint at h ⊢
  omega

/-- The merge of the qualities writes to the sub slice only. -/
theorem mergeSources_frame (m : heap.Memory) (a b : heap.Slice) (x : Nat)
    (hx : ¬ (a.ptr ≤ x ∧ x < a.ptr + a.len)) : mergeSources m a b x = m x :=
  sourcesLoop_frame a b x a.len 0 m (by simpa using hx)

/-- The merge of the qualities leaves a slice disjoint from the sub slice as
it was. -/
theorem readSlice_mergeSources_disjoint (m : heap.Memory) (a b s : heap.Slice)
    (h : heap.Slice.Disjoint a s) :
    heap.readSlice (mergeSources m a b) s = heap.readSlice m s := by
  apply List.map_congr_left
  intro k hk
  rw [List.mem_range] at hk
  apply mergeSources_frame
  have := disjoint_ne h
  intro hx
  have hlt : s.ptr + k - a.ptr < a.len := by omega
  exact this (s.ptr + k - a.ptr) k hlt hk (by omega)

/-- The merge of the qualities of two disjoint slices leaves in the sub
slice what the value loops compute from the elements of the two slices. -/
theorem readSlice_mergeSources (m : heap.Memory) (a b : heap.Slice)
    (h : heap.Slice.Disjoint a b) :
    heap.readSlice (mergeSources m a b) a =
      mapping.mergeSources (heap.readSlice m b) (heap.readSlice m a) := by
  rw [mergeSources_eq_map]
  unfold heap.readSlice
  rw [List.map_map]
  apply List.map_congr_left
  intro i hi
  rw [List.mem_range] at hi
  simp only [Function.comp]
  exact sourcesLoop_spec a b (disjoint_ne h) a.len 0 m (a.ptr + i) (by omega) (by omega)
    (by omega)

end heap

end mapping

namespace mapping

namespace heap

open types

/-! ### The merge in memory against the merge on values -/

theorem load_subRecord (m : heap.Memory) (mal : Int → Option Bytes) (e : heap.Episode) :
    (subRecord mal e).load m = mapping.subRecord mal (e.load m) := by
  unfold subRecord mapping.subRecord
  simp only [heap.Episode.load]
  cases mal e.Number <;> rfl

theorem load_dubRecord (m : heap.Memory) (mal : Int → Option Bytes) (e : heap.Episode) :
    (dubRecord mal e).load m = mapping.dubRecord mal (e.load m) := by
  unfold dubRecord mapping.dubRecord
  simp only [heap.Episode.load]
  cases mal e.Number <;> rfl

theorem subRecord_source (mal : Int → Option Bytes) (e : heap.Episode) :
    (subRecord mal e).Source = e.Source := by
  unfold subRecord
  cases mal e.Number <;> rfl

theorem dubRecord_source (mal : Int → Option Bytes) (e : heap.Episode) :
    (dubRecord mal e).Source = e.Source := by
  unfold dubRecord
  cases mal e.Number <;> rfl

theorem loadMap_mapSet (m : heap.Memory) (k : Int) (v : heap.Episode) :
    ∀ M : List (Int × heap.Episode),
      loadMap m (mapSet M k v) = mapSet (loadMap m M) k (v.load m) := by
  intro M
  induction M with
  | nil => rfl
  | cons kv rest ih =>
    obtain ⟨k0, v0⟩ := kv
    simp only [mapSet, loadMap, List.map_cons]
    by_cases h0 : k0 = k
    · rw [if_pos h0, if_pos h0]
      rfl
    · rw [if_neg h0, if_neg h0]
      simp only [List.map_cons]
      exact congrArg (fun l => (k0, v0.load m) :: l) ih

theorem mapGet_loadMap (m : heap.Memory) (k : Int) :
    ∀ M : List (Int × heap.Episode),
      mapGet (loadMap m M) k = (mapGet M k).map (fun e => e.load m) := by
  intro M
  induction M with
  | nil => rfl
  | cons kv rest ih =>
    obtain ⟨k0, v0⟩ := kv
    simp only [mapGet, loadMap, List.map_cons]
    by_cases h0 : k0 = k
    · rw [if_pos h0, if_pos h0]
      rfl
    · rw [if_neg h0, if_neg h0]
      exact ih

/-- The sub loop in memory is the sub loop on values, read from the
memory. -/
theorem subLoop_load (m : heap.Memory) (mal : Int → Option Bytes) :
    ∀ (sub : List heap.Episode) (M : List (Int × heap.Episode)),
      loadMap m (subLoop mal sub M) =
        mapping.subLoop mal (sub.map (fun e => e.load m)) (loadMap m M) := by
  intro sub
  induction sub with
  | nil =>
    intro M
    rfl
  | cons s rest ih =>
    intro M
    rw [subLoop, ih, loadMap_mapSet, load_subRecord]
    rfl

/-- After a write to the map its slices are the new one and some of the old
ones. -/
theorem slices_mapSet (k : Int) (v : heap.Episode) :
    ∀ M : List (Int × heap.Episode),
      ∃ L, (slices (mapSet M k v)).Perm (v.Source.Sources :: L) ∧ L.Sublist (slices M) := by
  intro M
  induction M with
  | nil => exact ⟨[], List.Perm.refl _, List.Sublist.refl _⟩
  | cons kv rest ih =>
    obtain ⟨k0, v0⟩ := kv
    simp only [mapSet]
    by_cases h0 : k0 = k
    · rw [if_pos h0]
      exact ⟨slices rest, List.Perm.refl _, List.sublist_cons_self _ _⟩
    · rw [if_neg h0]
      obtain ⟨L, hp, hs⟩ := ih
      refine ⟨v0.Source.Sources :: L, ?_, List.Sublist.cons₂ _ hs⟩
      exact (List.Perm.cons _ hp).trans (List.Perm.swap _ _ _)

/-- A write to the map of a record holding the slice of the next episode
keeps the slices apart. -/
theorem separate_mapSet (M : List (Int × heap.Episode)) (k : Int) (v e : heap.Episode)
    (rest : List heap.Episode) (hv : v.Source.Sources = e.Source.Sources)
    (h : Separate M (e :: rest)) : Separate (mapSet M k v) rest := by
  unfold Separate at h ⊢
  obtain ⟨L, hp, hs⟩ := slices_mapSet k v M
  have hsymm : ∀ {x y : heap.Slice}, heap.Slice.Disjoint x y → heap.Slice.Disjoint y x :=
    fun h => disjoint_symm h
  rw [List.map_cons] at h
  have h1 : (e.Source.Sources :: (slices M ++ rest.map (fun e => e.Source.Sources))).Pairwise
      heap.Slice.Disjoint :=
    (List.Perm.pairwise_iff hsymm List.perm_middle).mp h
  have h2 : (v.Source.Sources :: (L ++ rest.map (fun e => e.Source.Sources))).Pairwise
      heap.Slice.Disjoint := by
    rw [hv]
    exact h1.sublist (List.Sublist.cons₂ _ (List.Sublist.append_right hs _))
  exact (List.Perm.pairwise_iff hsymm (List.Perm.append_right _ hp)).mpr h2

/-- The sub loop keeps the slices apart. -/
theorem subLoop_separate (mal : Int → Option Bytes) (dub : List heap.Episode) :
    ∀ (sub : List heap.Episode) (M : List (Int × heap.Episode)),
      Separate M (sub ++ dub) → Separate (subLoop mal sub M) dub := by
  intro sub
  induction sub with
  | nil =>
    intro M h
    exact h
  | cons s rest ih =>
    intro M h
    rw [subLoop]
    exact ih _ (separate_mapSet M _ _ s _ (by rw [subRecord_source]) h)

/-- Marking a record of the map as dubbed leaves the slices of the map as
they are. -/
theorem slices_mapSet_hasDub (k : Int) (ep : heap.Episode) :
    ∀ M : List (Int × heap.Episode), mapGet M k = some ep →
      slices (mapSet M k { ep with HasDub := true }) = slices M := by
  intro M
  induction M with
  | nil =>
    intro h
    simp [mapGet] at h
  | cons kv rest ih =>
    intro h
    obtain ⟨k0, v0⟩ := kv
    simp only [mapGet] at h
    simp only [mapSet]
    by_cases h0 : k0 = k
    · rw [if_pos h0] at h
      rw [if_pos h0]
      cases h
      rfl
    · rw [if_neg h0] at h
      rw [if_neg h0]
      simp only [slices, List.map_cons]
      congr 1
      exact ih h

theorem mem_slices_of_mapGet (k : Int) (ep : heap.Episode) (M : List (Int × heap.Episode))
    (h : mapGet M k = some ep) : ep.Source.Sources ∈ slices M :=
  List.mem_map.mpr ⟨(k, ep), mem_of_mapGet M k ep h, rfl⟩

/-- A record whose slice is disjoint from the sub slice reads the same
before and after the merge of the qualities. -/
theorem load_mergeSources_disjoint (m : heap.Memory) (a b : heap.Slice) (e : heap.Episode)
    (h : heap.Slice.Disjoint a e.Source.Sources) :
    e.load (mergeSources m a b) = e.load m := by
  simp only [heap.Episode.load, heap.Source.load, readSlice_mergeSources_disjoint m a b _ h]

/-- The record into which the qualities of a dub episode were merged reads
as the merged record on values. -/
theorem load_mergeSources (m : heap.Memory) (ep d : heap.Episode)
    (h : heap.Slice.Disjoint ep.Source.Sources d.Source.Sources) :
    ({ ep with HasDub := true } : heap.Episode).load
        (mergeSources m ep.Source.Sources d.Source.Sources) =
      mergeRecord (ep.load m) (d.load m) := by
  simp only [heap.Episode.load, heap.Source.load, mergeRecord, readSlice_mergeSources m _ _ h]

/-- The step of the dub loop on a number of the map, read from the
memory. -/
theorem loadMap_merge (m : heap.Memory) (k : Int) (ep d : heap.Episode)
    (hd : heap.Slice.Disjoint ep.Source.Sources d.Source.Sources) :
    ∀ M : List (Int × heap.Episode), (slices M).Pairwise heap.Slice.Disjoint →
      mapGet M k = some ep →
      loadMap (mergeSources m ep.Source.Sources d.Source.Sources)
          (mapSet M k { ep with HasDub := true }) =
        mapSet (loadMap m M) k (mergeRecord (ep.load m) (d.load m)) := by
  intro M
  induction M with
  | nil =>
    intro _ h
    simp [mapGet] at h
  | cons kv rest ih =>
    intro hp h
    obtain ⟨k0, v0⟩ := kv
    simp only [slices, List.map_cons, List.pairwise_cons] at hp
    simp only [mapGet] at h
    simp only [mapSet, loadMap, List.map_cons]
    by_cases h0 : k0 = k
    · rw [if_pos h0] at h
      rw [if_pos h0, if_pos h0]
      cases h
      simp only [List.map_cons]
      rw [load_mergeSources m ep d hd]
      congr 1
      apply List.map_congr_left
      intro kv hkv
      rw [load_mergeSources_disjoint m _ _ kv.2
        (hp.1 _ (List.mem_map.mpr ⟨kv, hkv, rfl⟩))]
    · rw [if_neg h0] at h
      rw [if_neg h0, if_neg h0]
      simp only [List.map_cons]
      have hmem := mem_slices_of_mapGet k ep rest h
      rw [load_mergeSources_disjoint m _ _ v0 (disjoint_symm (hp.1 _ hmem))]
      congr 1
      exact ih hp.2 h

/-- The dub loop in memory, on slices that share no element, is the dub loop
on values, read from the memory. -/
theorem dubLoop_load (mal : Int → Option Bytes) :
    ∀ (dub : List heap.Episode) (M : List (Int × heap.Episode)) (m : heap.Memory),
      Separate M dub →
      loadMap (dubLoop mal dub M m).2 (dubLoop mal dub M m).1 =
        mapping.dubLoop mal (dub.map (fun e => e.load m)) (loadMap m M) := by
  intro dub
  induction dub with
  | nil =>
    intro M m _
    rfl
  | cons d rest ih =>
    intro M m hsep
    have hsep' := hsep
    unfold Separate at hsep'
    rw [List.map_cons, List.pairwise_append] at hsep'
    obtain ⟨hM, hdub, hcross⟩ := hsep'
    rw [List.pairwise_cons] at hdub
    rw [dubLoop, List.map_cons, mapping.dubLoop, mapGet_loadMap]
    have hnum : (d.load m).Number = d.Number := rfl
    rw [hnum]
    cases hget : mapGet M d.Number with
    | none =>
      simp only [Option.map_none']
      rw [ih _ m (separate_mapSet M _ _ d _ (by rw [dubRecord_source]) hsep),
        loadMap_mapSet, load_dubRecord]
    | some ep =>
      simp only [Option.map_some']
      have hmem := mem_slices_of_mapGet d.Number ep M hget
      have hd : heap.Slice.Disjoint ep.Source.Sources d.Source.Sources :=
        hcross _ hmem _ (List.mem_cons_self _ _)
      have hsep1 : Separate (mapSet M d.Number { ep with HasDub := true }) rest := by
        unfold Separate
        rw [slices_mapSet_hasDub d.Number ep M hget, List.pairwise_append]
        exact ⟨hM, hdub.2, fun a ha b hb => hcross a ha b (List.mem_cons_of_mem _ hb)⟩
      rw [ih _ _ hsep1, loadMap_merge m d.Number ep d hd M hM hget]
      congr 1
      apply List.map_congr_left
      intro e he
      exact load_mergeSources_disjoint m _ _ e
        (hcross _ hmem _ (List.mem_cons_of_mem _ (List.mem_map.mpr ⟨e, he, rfl⟩)))

/-- When no two episodes share an element of their quality slices, the
records of the merge in memory are those of the merge on values, of the
episodes as they read before the merge. -/
theorem mergedRecords_eq (m : heap.Memory) (sub dub : List heap.Episode)
    (mal : Int → Option Bytes) (h : heap.NoSharing (sub ++ dub)) :
    mergedRecords m sub dub mal =
      mapping.mergeEpisodes (sub.map (fun e => e.load m)) (dub.map (fun e => e.load m)) mal := by
  unfold mergedRecords mergeEpisodes mapping.mergeEpisodes
  rw [dubLoop_load mal dub _ m, subLoop_load]
  · rfl
  · apply subLoop_separate
    unfold Separate heap.NoSharing at *
    simpa [slices] using h

/-- The property `NoSharing` does not depend on the order of the list. -/
theorem noSharing_perm {l l' : List heap.Episode} (hp : l.Perm l') (h : heap.NoSharing l) :
    heap.NoSharing l' := by
  unfold heap.NoSharing at h ⊢
  exact (List.Perm.pairwise_iff (fun h => disjoint_symm h) (hp.map _)).mp h

end heap

end mapping

/-- A pair of a map after a write, on distinct keys: the pair written or a
pair of the map under another key. -/
theorem mem_mapSet_nodup {κ ν : Type} [DecidableEq κ] (m : List (κ × ν)) (k : κ) (v : ν)
    (kv : κ × ν) (hnd : (m.map Prod.fst).Nodup) (h : kv ∈ mapSet m k v) :
    kv = (k, v) ∨ (kv ∈ m ∧ kv.1 ≠ k) := by
  by_cases hk : kv.1 = k
  · left
    have h1 := mapGet_of_mem (mapSet m k v) kv.1 kv.2 (nodup_keys_mapSet m k v hnd) h
    rw [mapGet_mapSet, if_pos hk.symm] at h1
    obtain ⟨a, b⟩ := kv
    simp only at hk h1
    cases h1
    rw [hk]
  · rcases mem_mapSet m k v kv h with h1 | h1
    · rw [h1] at hk
      exact absurd rfl hk
    · exact Or.inr ⟨h1, hk⟩

namespace mapping

namespace heap

open types

/-! ### The records of the merge in memory -/

/-- The fields of the record built from a sub episode. -/
theorem subRecord_heapFields (mal : Int → Option Bytes) (e : heap.Episode) :
    (subRecord mal e).Number = e.Number ∧ (subRecord mal e).Anime = Title.zero ∧
    (subRecord mal e).Description = none ∧ (subRecord mal e).Rating = none ∧
    (subRecord mal e).HasDub = false ∧ (subRecord mal e).ID = e.ID ∧
    (subRecord mal e).EpisodeTitle = (mal e.Number).getD e.EpisodeTitle ∧
    (subRecord mal e).IsFiller = e.IsFiller ∧ (subRecord mal e).Img = e.Img ∧
    (subRecord mal e).Source = e.Source := by
  unfold subRecord
  cases mal e.Number <;> simp

/-- The fields of the record built from a dub episode. -/
theorem dubRecord_heapFields (mal : Int → Option Bytes) (e : heap.Episode) :
    (dubRecord mal e).Number = e.Number ∧ (dubRecord mal e).Anime = Title.zero ∧
    (dubRecord mal e).Description = none ∧ (dubRecord mal e).Rating = none ∧
    (dubRecord mal e).HasDub = true ∧ (dubRecord mal e).ID = e.ID ∧
    (dubRecord mal e).EpisodeTitle = (mal e.Number).getD e.EpisodeTitle ∧
    (dubRecord mal e).IsFiller = e.IsFiller ∧ (dubRecord mal e).Img = e.Img ∧
    (dubRecord mal e).Source = e.Source := by
  unfold dubRecord
  cases mal e.Number <;> simp

/-- The sub loop keeps the map as `MapOf` says. -/
theorem subLoop_mapOf (mal : Int → Option Bytes) :
    ∀ (rest subs : List heap.Episode) (M : List (Int × heap.Episode)),
      MapOf mal subs [] M → MapOf mal (subs ++ rest) [] (subLoop mal rest M) := by
  intro rest
  induction rest with
  | nil =>
    intro subs M h
    simpa using h
  | cons s rest ih =>
    intro subs M h
    rw [subLoop, show subs ++ s :: rest = (subs ++ [s]) ++ rest by simp]
    apply ih
    obtain ⟨hnd, hkeys, hrec⟩ := h
    refine ⟨nodup_keys_mapSet M _ _ hnd, ?_, ?_⟩
    · intro k
      rw [mem_keys_mapSet, hkeys]
      simp only [List.append_nil, List.mem_append, List.mem_singleton]
      constructor
      · rintro (h1 | ⟨e, he, hn⟩)
        · exact ⟨s, Or.inr rfl, h1.symm⟩
        · exact ⟨e, Or.inl he, hn⟩
      · rintro ⟨e, he | he, hn⟩
        · exact Or.inr ⟨e, he, hn⟩
        · subst he
          exact Or.inl hn.symm
    · intro kv hkv
      obtain ⟨f1, f2, f3, f4, f5, f6, f7, f8, f9, f10⟩ := subRecord_heapFields mal s
      rcases mem_mapSet_nodup M _ _ kv hnd hkv with h1 | ⟨h1, _⟩
      · subst h1
        refine ⟨f1, f2, f3, f4, ?_, s, Or.inl (by simp), rfl, f6, f7, f8, f9, f10⟩
        simp [f5]
      · obtain ⟨g1, g2, g3, g4, g5, e, he, g6⟩ := hrec kv h1
        refine ⟨g1, g2, g3, g4, g5, e, ?_, g6⟩
        rcases he with he | ⟨_, he⟩
        · exact Or.inl (by simp [he])
        · simp at he

/-- The dub loop keeps the map as `MapOf` says. -/
theorem dubLoop_mapOf (mal : Int → Option Bytes) (subs : List heap.Episode) :
    ∀ (rest dubs : List heap.Episode) (M : List (Int × heap.Episode)) (m : heap.Memory),
      MapOf mal subs dubs M → MapOf mal subs (dubs ++ rest) (dubLoop mal rest M m).1 := by
  intro rest
  induction rest with
  | nil =>
    intro dubs M m h
    simpa [dubLoop] using h
  | cons d rest ih =>
    intro dubs M m h
    rw [show dubs ++ d :: rest = (dubs ++ [d]) ++ rest by simp]
    obtain ⟨hnd, hkeys, hrec⟩ := h
    have hkeys1 : ∀ v k, k ∈ (mapSet M d.Number v).map Prod.fst ↔
        ∃ e ∈ subs ++ (dubs ++ [d]), e.Number = k := by
      intro v k
      rw [mem_keys_mapSet, hkeys]
      simp only [List.mem_append, List.mem_singleton]
      constructor
      · rintro (h1 | ⟨e, he, hn⟩)
        · exact ⟨d, Or.inr (Or.inr rfl), h1.symm⟩
        · exact ⟨e, he.imp id Or.inl, hn⟩
      · rintro ⟨e, he | he | he, hn⟩
        · exact Or.inr ⟨e, Or.inl he, hn⟩
        · exact Or.inr ⟨e, Or.inr he, hn⟩
        · subst he
          exact Or.inl hn.symm
    have hold : ∀ kv ∈ M, kv.1 ≠ d.Number →
        RecordOf mal subs (dubs ++ [d]) kv.1 kv.2 := by
      intro kv hkv hne
      obtain ⟨g1, g2, g3, g4, g5, e, he, g6⟩ := hrec kv hkv
      refine ⟨g1, g2, g3, g4, ?_, e, ?_, g6⟩
      · rw [g5]
        simp only [List.mem_append, List.mem_singleton]
        constructor
        · rintro ⟨x, hx, hn⟩
          exact ⟨x, Or.inl hx, hn⟩
        · rintro ⟨x, hx | hx, hn⟩
          · exact ⟨x, hx, hn⟩
          · subst hx
            exact absurd hn.symm hne
      · rcases he with he | ⟨hs, he⟩
        · exact Or.inl he
        · exact Or.inr ⟨hs, by simp [he]⟩
    rw [dubLoop]
    cases hget : mapGet M d.Number with
    | some ep =>
      simp only
      apply ih
      refine ⟨nodup_keys_mapSet M _ _ hnd, hkeys1 _, ?_⟩
      intro kv hkv
      rcases mem_mapSet_nodup M _ _ kv hnd hkv with h1 | ⟨h1, hne⟩
      · subst h1
        obtain ⟨g1, g2, g3, g4, _, e, he, g6⟩ := hrec _ (mem_of_mapGet M _ _ hget)
        refine ⟨g1, g2, g3, g4, ?_, e, ?_, g6⟩
        · simp only [true_iff]
          exact ⟨d, by simp, rfl⟩
        · rcases he with he | ⟨hs, he⟩
          · exact Or.inl he
          · exact Or.inr ⟨hs, by simp [he]⟩
      · exact hold kv h1 hne
    | none =>
      simp only
      apply ih
      refine ⟨nodup_keys_mapSet M _ _ hnd, hkeys1 _, ?_⟩
      intro kv hkv
      rcases mem_mapSet_nodup M _ _ kv hnd hkv with h1 | ⟨h1, hne⟩
      · subst h1
        obtain ⟨f1, f2, f3, f4, f5, f6, f7, f8, f9, f10⟩ := dubRecord_heapFields mal d
        have hno : ∀ e ∈ subs ++ dubs, e.Number ≠ d.Number := by
          intro e he hn
          exact (mapGet_eq_none_iff M d.Number).mp hget ((hkeys _).mpr ⟨e, he, hn⟩)
        refine ⟨f1, f2, f3, f4, ?_, d, Or.inr ⟨?_, by simp⟩, rfl, f6, f7, f8, f9, f10⟩
        · simp only [f5, true_iff]
          exact ⟨d, by simp, rfl⟩
        · intro s hs
          exact hno s (List.mem_append_left _ hs)
      · exact hold kv h1 hne

/-- The map of the merge in memory holds one record for each number of the
two lists, built as `RecordOf` says. -/
theorem mergeEpisodes_mapOf (m : heap.Memory) (sub dub : List heap.Episode)
    (mal : Int → Option Bytes) : MapOf mal sub dub (mergeEpisodes m sub dub mal).1 := by
  have h0 : MapOf mal [] [] ([] : List (Int × heap.Episode)) :=
    ⟨List.nodup_nil, by simp, by simp⟩
  have h1 := subLoop_mapOf mal sub [] [] h0
  have h2 := dubLoop_mapOf mal ([] ++ sub) dub [] _ m h1
  simpa [mergeEpisodes] using h2

end heap

end mapping

namespace mapping

open types

/-! ### The merge on values: qualities and order -/

/-- On values: when one sub episode and one dub episode bear the number `n`,
the quality list of the merged record has the length, order, names,
bandwidths, resolutions and sub URLs of the quality list of the sub episode; a
sub quality whose name is borne by a dub quality gets the `SubURL` of a dub
quality of that name as its `DubURL`; a sub quality whose name no dub quality
bears keeps its `DubURL`. -/
theorem mergeEpisodes_sources (sub dub : List Episode) (mal : Int → Option Bytes) (n : Int)
    (s d : Episode) (hs : sub.filter (fun e => e.Number = n) = [s])
    (hd : dub.filter (fun e => e.Number = n) = [d]) :
    ∃ r, mapGet (mergeEpisodes sub dub mal) n = some r ∧
      r.Source.Sources.length = s.Source.Sources.length ∧
      ∀ i, i < s.Source.Sources.length →
        (r.Source.Sources.getD i Quality.zero).Name =
          (s.Source.Sources.getD i Quality.zero).Name ∧
        (r.Source.Sources.getD i Quality.zero).Bandwidth =
          (s.Source.Sources.getD i Quality.zero).Bandwidth ∧
        (r.Source.Sources.getD i Quality.zero).Resolution =
          (s.Source.Sources.getD i Quality.zero).Resolution ∧
        (r.Source.Sources.getD i Quality.zero).SubURL =
          (s.Source.Sources.getD i Quality.zero).SubURL ∧
        ((∃ q ∈ d.Source.Sources, q.Name = (s.Source.Sources.getD i Quality.zero).Name) →
          ∃ q ∈ d.Source.Sources, q.Name = (s.Source.Sources.getD i Quality.zero).Name ∧
            (r.Source.Sources.getD i Quality.zero).DubURL = q.SubURL) ∧
        ((∀ q ∈ d.Source.Sources, q.Name ≠ (s.Source.Sources.getD i Quality.zero).Name) →
          (r.Source.Sources.getD i Quality.zero).DubURL =
            (s.Source.Sources.getD i Quality.zero).DubURL) := by
  have hsn : s.Number = n := by
    have : s ∈ sub.filter (fun e => e.Number = n) := by
      rw [hs]
      exact List.mem_singleton_self s
    simpa using (List.mem_filter.mp this).2
  have hdn : d.Number = n := by
    have : d ∈ dub.filter (fun e => e.Number = n) := by
      rw [hd]
      exact List.mem_singleton_self d
    simpa using (List.mem_filter.mp this).2
  have hget : mapGet (mergeEpisodes sub dub mal) n = some (mergeRecord (subRecord mal s) d) := by
    rw [mapGet_merge_filter, hs, hd]
    simp only [keySub, keyDub_cons, hsn, hdn, if_true, keyDub]
  have hsrc : (mergeRecord (subRecord mal s) d).Source.Sources =
      mergeSources d.Source.Sources s.Source.Sources := by
    show mergeSources d.Source.Sources (subRecord mal s).Source.Sources = _
    rw [(subRecord_fields mal s).2.2.2.1]
  refine ⟨_, hget, ?_, ?_⟩
  · rw [hsrc, mergeSources_length]
  · intro i hi
    rw [hsrc, mergeSources_getD _ _ i hi]
    obtain ⟨f1, f2, f3, f4⟩ := mergeDubURL_fields (s.Source.Sources.getD i Quality.zero)
      d.Source.Sources (s.Source.Sources.getD i Quality.zero)
    obtain ⟨g1, g2⟩ := mergeDubURL_dubURL (s.Source.Sources.getD i Quality.zero)
      d.Source.Sources (s.Source.Sources.getD i Quality.zero)
    exact ⟨f1, f2, f3, f4, g2, g1⟩

/-- On values: for a sub list and a dub list, each with distinct numbers,
reordering either list does not change the record stored under any number. -/
theorem mergeEpisodes_perm (sub sub' dub dub' : List Episode)
    (mal : Int → Option Bytes) (hs : sub.Perm sub') (hd : dub.Perm dub')
    (hsn : (sub.map (fun e => e.Number)).Nodup) (hdn : (dub.map (fun e => e.Number)).Nodup) :
    ∀ n, mapGet (mergeEpisodes sub' dub' mal) n = mapGet (mergeEpisodes sub dub mal) n := by
  intro n
  rw [mapGet_merge_filter, mapGet_merge_filter, filter_perm sub sub' n hs hsn,
    filter_perm dub dub' n hd hdn]

end mapping

namespace mapping

namespace heap

open types

/-- The episodes of a number, read from the memory. -/
theorem filter_load (m : heap.Memory) (n : Int) (l : List heap.Episode) (e : heap.Episode)
    (h : l.filter (fun x => x.Number = n) = [e]) :
    (l.map (fun x => x.load m)).filter (fun x => x.Number = n) = [e.load m] := by
  rw [List.filter_map]
  have : ((fun x : Episode => decide (x.Number = n)) ∘ fun x : heap.Episode => x.load m) =
      fun x => decide (x.Number = n) := rfl
  rw [this, h]
  rfl

/-- The numbers of the episodes read from the memory. -/
theorem numbers_load (m : heap.Memory) (l : List heap.Episode) :
    (l.map (fun x => x.load m)).map (fun e => e.Number) = l.map (fun e => e.Number) := by
  rw [List.map_map]
  rfl

theorem readSlice_length (m : heap.Memory) (s : heap.Slice) :
    (heap.readSlice m s).length = s.len := by
  simp [heap.readSlice]

end heap

end mapping

namespace strings

/-! ### `url.ParsePlain` on plain texts -/

theorem splitFirstLoop_absent (sep : Byte) (s : Bytes) (hs : sep ∉ s) (b : Bytes) :
    splitFirstLoop sep s b = [b ++ s] := by
  induction s generalizing b with
  | nil => simp [splitFirstLoop]
  | cons c cs ih =>
    have hc : c ≠ sep := fun h => hs (by rw [h]; exact List.mem_cons_self _ _)
    have hcs : sep ∉ cs := fun h => hs (List.mem_cons_of_mem _ h)
    rw [splitFirstLoop, if_neg hc, ih hcs]
    simp

/-- A text without the separator is not cut. -/
theorem SplitN2_absent (sep : Byte) (s : Bytes) (hs : sep ∉ s) : SplitN2 s sep = [s] := by
  unfold SplitN2
  rw [splitFirstLoop_absent sep s hs]
  rfl

theorem splitFirstLoop_head (sep : Byte) (s b : Bytes) :
    (splitFirstLoop sep s b).headD [] = b ++ s.takeWhile (fun c => c ≠ sep) := by
  induction s generalizing b with
  | nil => simp [splitFirstLoop]
  | cons c cs ih =>
    rw [splitFirstLoop]
    by_cases hc : c = sep
    · rw [if_pos hc]
      simp [hc]
    · rw [if_neg hc, ih, List.takeWhile_cons_of_pos (by simpa using hc)]
      simp

/-- The first piece of a cut: the text before the first separator. -/
theorem SplitN2_head (sep : Byte) (s : Bytes) :
    (SplitN2 s sep).headD [] = s.takeWhile (fun c => c ≠ sep) := by
  unfold SplitN2
  rw [splitFirstLoop_head]
  rfl

theorem Contains_singleton (c : Byte) (s : Bytes) (hs : c ∉ s) : Contains s [c] = false := by
  induction s with
  | nil => simp [Contains]
  | cons x xs ih =>
    have hx : c ≠ x := fun h => hs (by rw [h]; exact List.mem_cons_self _ _)
    have hxs : c ∉ xs := fun h => hs (List.mem_cons_of_mem _ h)
    rw [Contains, ih hxs]
    simp [List.isPrefixOf, hx]

end strings

namespace url

theorem letterByte_scheme : ∀ c : Byte, letterByte c = true → schemeByte c = true := by
  decide!

theorem schemeByte_plain : ∀ c : Byte, schemeByte c = true →
    plainByte c = true ∧ c ≠ 58 ∧ c ≠ 47 ∧ c ≠ 42 := by
  decide!

theorem hostByte_plain : ∀ c : Byte, hostByte c = true →
    plainByte c = true ∧ c ≠ 58 ∧ c ≠ 47 := by
  decide!

theorem plainByte_ok : ∀ c : Byte, plainByte c = true →
    ¬ (c.val < 32 ∨ c = 127 ∨ c = 37) ∧ c ≠ 35 ∧ c ≠ 63 := by
  decide!

theorem plainByte_sep : plainByte 58 = true ∧ plainByte 47 = true := by
  decide

/-- A text of plain bytes passes the first test of `ParsePlain` and is cut
neither at `#` nor at `?`. -/
theorem plain_text (s : Bytes) (hs : ∀ c ∈ s, plainByte c = true) :
    s.any (fun c => c.val < 32 ∨ c = 127 ∨ c = 37) = false ∧ (35 : Byte) ∉ s ∧
      (63 : Byte) ∉ s := by
  refine ⟨?_, ?_, ?_⟩
  · rw [List.any_eq_false]
    intro c hc
    simpa using (plainByte_ok c (hs c hc)).1
  · intro h
    exact (plainByte_ok _ (hs _ h)).2.1 rfl
  · intro h
    exact (plainByte_ok _ (hs _ h)).2.2 rfl

/-- The function `getScheme` on a scheme followed by a colon. -/
theorem getScheme_scheme (rest : Bytes) :
    ∀ (s seen : Bytes), (∀ c ∈ s, schemeByte c = true) →
      (seen ≠ [] ∨ ∃ c cs, s = c :: cs ∧ letterByte c = true) →
      getScheme (s ++ 58 :: rest) seen = some (seen ++ s, rest) := by
  intro s
  induction s with
  | nil =>
    intro seen _ h
    have hseen : seen ≠ [] := by
      rcases h with h | ⟨c, cs, h, _⟩
      · exact h
      · cases h
    rw [List.nil_append, getScheme, if_neg (by decide), if_neg (by decide), if_pos rfl,
      if_neg hseen, List.append_nil]
  | cons c cs ih =>
    intro seen hs h
    have hc := hs c (List.mem_cons_self _ _)
    have hcs : ∀ x ∈ cs, schemeByte x = true := fun x hx => hs x (List.mem_cons_of_mem _ hx)
    rw [List.cons_append, getScheme]
    by_cases hl : (97 ≤ c.val ∧ c.val ≤ 122) ∨ (65 ≤ c.val ∧ c.val ≤ 90)
    · rw [if_pos hl, ih (seen ++ [c]) hcs (Or.inl (by simp))]
      simp
    · have hseen : seen ≠ [] := by
        rcases h with h | ⟨c', cs', h, hl'⟩
        · exact h
        · cases h
          exact absurd (by simpa [letterByte] using hl') hl
      have hd : (48 ≤ c.val ∧ c.val ≤ 57) ∨ c = 43 ∨ c = 45 ∨ c = 46 := by
        have := hc
        simp only [schemeByte, Bool.decide_or, Bool.or_eq_true, decide_eq_true_eq] at this
        rcases this with h1 | h1 | h1
        · exact absurd (Or.inl h1) hl
        · exact absurd (Or.inr h1) hl
        · exact h1
      rw [if_neg hl, if_pos hd, if_neg hseen, ih (seen ++ [c]) hcs (Or.inl (by simp))]
      simp

/-- The function `getScheme` on a text without a colon before its first
slash: no scheme. -/
theorem getScheme_none (s : Bytes) :
    ∀ seen : Bytes, (58 : Byte) ∉ s.takeWhile (fun c => c ≠ 47) →
      getScheme s seen = some ([], seen ++ s) := by
  induction s with
  | nil =>
    intro seen _
    simp [getScheme]
  | cons c cs ih =>
    intro seen h
    rw [getScheme]
    by_cases h47 : c = 47
    · subst h47
      rw [if_neg (by decide), if_neg (by decide), if_neg (by decide)]
    · rw [List.takeWhile_cons_of_pos (by simpa using h47)] at h
      have h58 : c ≠ 58 := fun e => h (by rw [e]; exact List.mem_cons_self _ _)
      have hcs : (58 : Byte) ∉ cs.takeWhile (fun c => c ≠ 47) :=
        fun e => h (List.mem_cons_of_mem _ e)
      by_cases hl : (97 ≤ c.val ∧ c.val ≤ 122) ∨ (65 ≤ c.val ∧ c.val ≤ 90)
      · rw [if_pos hl, ih _ hcs]
        simp
      · rw [if_neg hl]
        by_cases hd : (48 ≤ c.val ∧ c.val ≤ 57) ∨ c = 43 ∨ c = 45 ∨ c = 46
        · rw [if_pos hd]
          by_cases hseen : seen = []
          · rw [if_pos hseen, hseen]
            rfl
          · rw [if_neg hseen, ih _ hcs]
            simp
        · rw [if_neg hd, if_neg h58]

/-- A host name of host bytes is a plain host. -/
theorem plainHost_of_hostBytes (host : Bytes) (h : ∀ c ∈ host, hostByte c = true) :
    plainHost host = true := by
  have h58 : (58 : Byte) ∉ host := fun e => (hostByte_plain _ (h _ e)).2.1 rfl
  unfold plainHost
  rw [strings.SplitN2_absent 58 host h58]
  simp only
  rw [List.all_eq_true]
  intro c hc
  have := h c hc
  simpa [hostByte] using this

/-- The function `ParsePlain` on a scheme, `://`, a plain host name and a
rooted path of plain bytes. -/
theorem ParsePlain_absolute (scheme host p : Bytes) (hscheme : plainScheme scheme = true)
    (hhost : ∀ c ∈ host, hostByte c = true) (hp : ∀ c ∈ p, plainByte c = true) :
    ParsePlain (scheme ++ [58, 47, 47] ++ host ++ 47 :: p) =
      some ⟨util.toLowerASCII scheme, host, 47 :: p, []⟩ := by
  obtain ⟨c0, cs0, rfl, hc0, hcs0⟩ : ∃ c cs, scheme = c :: cs ∧ letterByte c = true ∧
      ∀ x ∈ cs, schemeByte x = true := by
    cases scheme with
    | nil => simp [plainScheme] at hscheme
    | cons c cs =>
      simp only [plainScheme, Bool.and_eq_true, List.all_eq_true] at hscheme
      exact ⟨c, cs, rfl, hscheme.1, hscheme.2⟩
  have hsch : ∀ c ∈ c0 :: cs0, schemeByte c = true := by
    intro c hc
    rcases List.mem_cons.mp hc with h | h
    · rw [h]
      exact letterByte_scheme c0 hc0
    · exact hcs0 c h
  have hall : ∀ c ∈ (c0 :: cs0) ++ [58, 47, 47] ++ host ++ 47 :: p, plainByte c = true := by
    intro c hc
    simp only [List.mem_append, List.mem_cons, List.mem_singleton, List.not_mem_nil,
      or_false] at hc
    rcases hc with ((hc | hc) | hc) | hc
    · exact (schemeByte_plain c (hsch c (by simpa using hc))).1
    · rcases hc with hc | hc | hc <;> rw [hc] <;> decide
    · exact (hostByte_plain c (hhost c hc)).1
    · rcases hc with hc | hc
      · rw [hc]
        decide
      · exact hp c hc
  obtain ⟨hany, h35, h63⟩ := plain_text _ hall
  have hrest : ∀ c ∈ [47, 47] ++ host ++ 47 :: p, plainByte c = true := by
    intro c hc
    apply hall
    simp only [List.mem_append, List.mem_cons, List.mem_singleton, List.not_mem_nil,
      or_false] at hc ⊢
    tauto
  have h63r : (63 : Byte) ∉ [47, 47] ++ host ++ 47 :: p := (plain_text _ hrest).2.2
  have hsplit : (c0 :: cs0) ++ [58, 47, 47] ++ host ++ 47 :: p =
      (c0 :: cs0) ++ 58 :: ([47, 47] ++ host ++ 47 :: p) := by simp
  have hne : (c0 :: cs0) ++ [58, 47, 47] ++ host ++ 47 :: p ≠ [42] := by
    intro e
    simp only [List.cons_append, List.cons.injEq] at e
    exact (schemeByte_plain c0 (letterByte_scheme c0 hc0)).2.2.2 e.1
  have h47 : (47 : Byte) ∉ host := fun e => (hostByte_plain _ (hhost _ e)).2.2 rfl
  have hlow : util.toLowerASCII (c0 :: cs0) ≠ [] := by simp [util.toLowerASCII]
  unfold ParsePlain
  rw [if_neg (by rw [hany]; simp), strings.SplitN2_absent 35 _ h35]
  simp only [List.headD_cons]
  rw [if_neg hne, hsplit, getScheme_scheme _ (c0 :: cs0) [] hsch (Or.inr ⟨c0, cs0, rfl, hc0⟩)]
  simp only [List.nil_append]
  rw [strings.SplitN2_absent 63 _ h63r]
  simp only [List.headD_cons, List.drop_succ_cons, List.drop_zero, List.headD_nil]
  have hpre1 : strings.HasPrefix ([47, 47] ++ host ++ 47 :: p) [47] = true := by
    simp [strings.HasPrefix]
  have hpre2 : strings.HasPrefix ([47, 47] ++ host ++ 47 :: p) [47, 47] = true := by
    simp [strings.HasPrefix]
  have hdrop : ([47, 47] ++ host ++ 47 :: p).drop 2 = host ++ 47 :: p := by simp
  rw [if_neg (by rw [hpre1]; simp), if_neg (by rw [hpre1]; simp),
    if_pos ⟨Or.inl hlow, hpre2⟩]
  rw [hdrop, strings.SplitN2_cut 47 host p h47]
  simp only [List.headD_cons, List.drop_left]
  rw [if_pos (plainHost_of_hostBytes host hhost)]

/-- The function `ParsePlain` on a plain relative path: the path is the
text. -/
theorem ParsePlain_relative (r : Bytes) (hr : plainRelative r = true) :
    ParsePlain r = some ⟨[], [], r, []⟩ := by
  simp only [plainRelative, Bool.and_eq_true, Bool.not_eq_true', List.all_eq_true] at hr
  obtain ⟨⟨hplain, hslash⟩, hcolon⟩ := hr
  have hcolon' : (58 : Byte) ∉ r.takeWhile (fun c => c ≠ 47) := by
    intro e
    have h := hcolon
    simp only [List.contains_eq_any_beq, List.any_eq_false, beq_iff_eq] at h
    exact h 58 e rfl
  obtain ⟨hany, h35, h63⟩ := plain_text r hplain
  unfold ParsePlain
  rw [if_neg (by rw [hany]; simp), strings.SplitN2_absent 35 _ h35]
  simp only [List.headD_cons]
  by_cases hstar : r = [42]
  · rw [if_pos hstar, hstar]
  · rw [if_neg hstar, getScheme_none r [] hcolon']
    simp only [List.nil_append]
    rw [strings.SplitN2_absent 63 _ h63]
    simp only [List.headD_cons, List.drop_succ_cons, List.drop_zero, List.headD_nil]
    have hlow : util.toLowerASCII [] = ([] : Bytes) := rfl
    have hpre2 : strings.HasPrefix r [47, 47] = false := by
      cases r with
      | nil => rfl
      | cons c cs =>
        have : c ≠ 47 := by
          intro e
          rw [e] at hslash
          simp [strings.HasPrefix] at hslash
        simp [strings.HasPrefix, List.isPrefixOf, Ne.symm this]
    have hcont : strings.Contains ((strings.SplitN2 r 47).headD []) [58] = false := by
      rw [strings.SplitN2_head]
      exact strings.Contains_singleton 58 _ hcolon'
    rw [hlow, if_neg (by simp), if_neg (by rw [hcont]; simp), if_neg (by rw [hpre2]; simp)]

end url

namespace url

/-- A byte of a joined list is a byte of the separator or of a piece. -/
theorem mem_intercalate (sep : Bytes) (c : Byte) :
    ∀ l : List Bytes, c ∈ List.intercalate sep l → c ∈ sep ∨ ∃ s ∈ l, c ∈ s := by
  intro l
  induction l with
  | nil =>
    intro h
    simp [List.intercalate] at h
  | cons a l ih =>
    cases l with
    | nil =>
      intro h
      have : List.intercalate sep [a] = a := by simp [List.intercalate]
      rw [this] at h
      exact Or.inr ⟨a, List.mem_singleton_self a, h⟩
    | cons b l =>
      intro h
      rw [path.intercalate_cons_cons, List.mem_append, List.mem_append] at h
      rcases h with (h | h) | h
      · exact Or.inr ⟨a, List.mem_cons_self _ _, h⟩
      · exact Or.inl h
      · rcases ih h with h1 | ⟨s, hs, h1⟩
        · exact Or.inl h1
        · exact Or.inr ⟨s, List.mem_cons_of_mem _ hs, h1⟩

/-- What `plainElement` says of a path element. -/
theorem plainElement_spec (s : Bytes) (h : plainElement s = true) :
    (s ≠ [] ∧ s ≠ [46] ∧ s ≠ [46, 46] ∧ (47 : Byte) ∉ s) ∧ ∀ c ∈ s, plainByte c = true := by
  simp only [plainElement, Bool.decide_and, Bool.and_eq_true, decide_eq_true_eq,
    List.all_eq_true] at h
  obtain ⟨h1, h2, h3, h4⟩ := h
  refine ⟨⟨h1, h2, h3, fun e => (h4 _ e).2 rfl⟩, fun c hc => (h4 c hc).1⟩

end url


/-! ## Claims on padding -/

open extractor util

/-- C2: for every byte string `x`, also the empty one and those whose length
is a multiple of 16, `unpad (pad x)` succeeds and returns `x`. -/
theorem unpad_pad (x : Bytes) : unpad (pad x) = .ok x :=
  unpad_pad_ok x

/-- C3: `pad x` is `x` followed by exactly `n` bytes of value `n`, with
`n = 16 - len(x) mod 16`; so `0 < n ≤ 16`, `n = 16` when `len(x)` is a
multiple of 16, and the padded length is a positive multiple of 16. -/
theorem pad_spec (x : Bytes) :
    (pad x).take x.length = x ∧
    (pad x).length = x.length + (16 - x.length % 16) ∧
    (∀ i, x.length ≤ i → i < (pad x).length →
      ((pad x).getD i 0).val = 16 - x.length % 16) ∧
    0 < 16 - x.length % 16 ∧ 16 - x.length % 16 ≤ 16 ∧
    (x.length % 16 = 0 → 16 - x.length % 16 = 16) ∧
    0 < (pad x).length ∧ (pad x).length % 16 = 0 := by
  have hlen := pad_length x
  refine ⟨by simp [pad], hlen, ?_, by omega, by omega, by omega, by omega, by omega⟩
  intro i h1 h2
  rw [List.getD_eq_getElem _ _ h2]
  simp only [pad]
  rw [List.getElem_append_right h1]
  simp only [List.getElem_replicate]
  exact padByte_val _ (by omega)

/-- C4: `unpad d` fails if and only if `d` is empty, or its last byte `n` is 0,
or `n` exceeds `len(d)`, or one of the last `n` bytes of `d` differs from `n`;
in every other case it returns the first `len(d) - n` bytes of `d`. -/
theorem unpad_spec (d : Bytes) :
    ((∃ e, unpad d = .error e) ↔
      (d = [] ∨ (d.getD (d.length - 1) 0).val = 0 ∨
        d.length < (d.getD (d.length - 1) 0).val ∨
        ∃ i, i < (d.getD (d.length - 1) 0).val ∧
          (d.getD (d.length - 1 - i) 0).val ≠ (d.getD (d.length - 1) 0).val)) ∧
    ((∀ e, unpad d ≠ .error e) →
      unpad d = .ok (d.take (d.length - (d.getD (d.length - 1) 0).val))) := by
  rcases unpad_cases d with ⟨h0, h⟩ | ⟨_, h1, h⟩ | ⟨_, _, h2, h⟩ | ⟨h0, h1, h2, h⟩
  · exact ⟨⟨fun _ => Or.inl h0, fun _ => ⟨_, h⟩⟩, fun hne => absurd h (hne _)⟩
  · refine ⟨⟨fun _ => ?_, fun _ => ⟨_, h⟩⟩, fun hne => absurd h (hne _)⟩
    rcases h1 with h1 | h1
    · exact Or.inr (Or.inl h1)
    · exact Or.inr (Or.inr (Or.inl h1))
  · exact ⟨⟨fun _ => Or.inr (Or.inr (Or.inr h2)), fun _ => ⟨_, h⟩⟩, fun hne => absurd h (hne _)⟩
  · refine ⟨⟨?_, ?_⟩, fun _ => h⟩
    · rintro ⟨e, he⟩
      rw [h] at he
      cases he
    · rintro (h | h | h | h)
      · exact absurd h h0
      · exact absurd (Or.inl h) h1
      · exact absurd (Or.inr h) h1
      · exact absurd h h2

/-! ## Claims on the title resolver -/

/-- C6 (evaluation of the code where the claim fails): on a string whose
lower-cased form has length 1 the match window is empty, `matchDistance`
being `1/2 - 1 = -1`, so `JaroWinkler a a` is `0` and not `1`. -/
theorem JaroWinkler_self_length_one (toLower : Bytes → Bytes) (a : Bytes)
    (h : (toLower a).length = 1) : JaroWinkler toLower a a = some 0 := by
  obtain ⟨c, hc⟩ := List.length_eq_one.mp h
  have hd : util.max ((1 : Nat) : Int) ((1 : Nat) : Int) / 2 - 1 = -1 := by decide
  have hloop : ∀ st, matchLoop [c] [c] (-1) 0 1 st = some st := by
    intro st
    have h1 : (util.min ((((1 : Nat)) : Int) - 1) (((0 : Nat) : Int) + -1) + 1
        - util.max 0 (((0 : Nat) : Int) - -1)).toNat = 0 := by decide
    simp only [matchLoop, List.length_singleton, h1, matchScan]
  simp only [JaroWinkler, hc, List.length_singleton, hd, hloop]
  simp

/-- Witness of `JaroWinkler_self_length_one`: the string `a`. -/
theorem JaroWinkler_self_length_one_witness :
    (toLowerASCII [97]).length = 1 ∧ JaroWinkler toLowerASCII [97] [97] = some 0 :=
  ⟨by decide, JaroWinkler_self_length_one toLowerASCII [97] (by decide)⟩

/-- C7: for all strings `a` and `b`, `JaroWinkler a b = JaroWinkler b a`:
the matchings found from either side are greedy from both sides, hence equal,
so the two runs count the same matches and the same transpositions. -/
theorem JaroWinkler_symmetric (toLower : Bytes → Bytes) (a b : Bytes) :
    JaroWinkler toLower a b = JaroWinkler toLower b a := by
  by_cases ha : toLower a = []
  · by_cases hb : toLower b = []
    · simp [JaroWinkler, ha, hb]
    · have hn : (toLower b).length ≠ 0 := fun h => hb (List.length_eq_zero.mp h)
      simp [JaroWinkler, ha, hn]
  · by_cases hb : toLower b = []
    · have hm : (toLower a).length ≠ 0 := fun h => ha (List.length_eq_zero.mp h)
      simp [JaroWinkler, hb, hm]
    · obtain ⟨st, P, p, inv, hp, _, hjw⟩ := JaroWinkler_nonempty toLower a b ha hb
      obtain ⟨st', P', p', inv', hp', _, hjw'⟩ := JaroWinkler_nonempty toLower b a hb ha
      rw [max_swap] at inv'
      rw [min_swap ((toLower b).length : Int), ← prefixLoop_comm, hp] at hp'
      have hpp : p = p' := Option.some.inj hp'
      have hPQ := Greedy.unique inv.greedy inv'.greedy.swap
      have h1 : st.s1Matches = st'.s2Matches := by
        apply flags_ext _ _ (by rw [inv.len1, inv'.len2])
        intro x
        rw [inv.flag1, inv'.flag2]
        exact exists_congr (fun y => hPQ x y)
      have h2 : st.s2Matches = st'.s1Matches := by
        apply flags_ext _ _ (by rw [inv.len2, inv'.len1])
        intro x
        rw [inv.flag2, inv'.flag1]
        exact exists_congr (fun y => hPQ y x)
      have hk : st.matchCount = st'.matchCount := by
        rw [inv.count1, inv'.count2, h1]
      rw [hjw, hjw', ← hk, ← h1, ← h2, ← hpp, score_comm,
        mismatches_comm (matchedChars (toLower a) st.s1Matches)]

/-- C8: for all strings `a` and `b`, `JaroWinkler a b` returns a value `r`
with `0 ≤ r ≤ 1`: the match count is at most either length, the halved
transposition count at most the match count, the prefix length at most 4. -/
theorem JaroWinkler_bounds (toLower : Bytes → Bytes) (a b : Bytes) :
    ∃ r, JaroWinkler toLower a b = some r ∧ 0 ≤ r ∧ r ≤ 1 := by
  by_cases ha : toLower a = []
  · by_cases hb : toLower b = []
    · exact ⟨1, by simp [JaroWinkler, ha, hb], by norm_num, le_refl _⟩
    · have hn : (toLower b).length ≠ 0 := fun h => hb (List.length_eq_zero.mp h)
      exact ⟨0, by simp [JaroWinkler, ha, hn], le_refl _, by norm_num⟩
  · by_cases hb : toLower b = []
    · have hm : (toLower a).length ≠ 0 := fun h => ha (List.length_eq_zero.mp h)
      exact ⟨0, by simp [JaroWinkler, hb, hm], le_refl _, by norm_num⟩
    · obtain ⟨st, P, p, inv, _, hp4, hjw⟩ := JaroWinkler_nonempty toLower a b ha hb
      by_cases hz : st.matchCount = 0
      · rw [if_pos hz] at hjw
        exact ⟨0, hjw, le_refl _, by norm_num⟩
      · rw [if_neg hz] at hjw
        have hkm : st.matchCount ≤ (toLower a).length := by
          rw [inv.count1, ← inv.len1]
          exact List.count_le_length _ _
        have hkn : st.matchCount ≤ (toLower b).length := by
          rw [inv.count2, ← inv.len2]
          exact List.count_le_length _ _
        have ht : mismatches (matchedChars (toLower a) st.s1Matches)
            (matchedChars (toLower b) st.s2Matches) / 2 ≤ st.matchCount := by
          have h1 := mismatches_le (matchedChars (toLower a) st.s1Matches)
            (matchedChars (toLower b) st.s2Matches)
          rw [matchedChars_length _ _ inv.len1.symm, ← inv.count1] at h1
          omega
        obtain ⟨h0, h1⟩ := score_bounds (toLower a).length (toLower b).length st.matchCount _ p
          (by omega) hkm hkn ht hp4
        exact ⟨_, hjw, h0, h1⟩

/-- C9: `JaroWinkler "" ""` is 1, and for every non-empty `b` both
`JaroWinkler "" b` and `JaroWinkler b ""` are 0, for a `toLower` that like
`strings.ToLower` keeps the empty string empty and a non-empty one non-empty. -/
theorem JaroWinkler_degenerate (toLower : Bytes → Bytes)
    (h0 : toLower [] = []) (hne : ∀ s, s ≠ [] → toLower s ≠ []) :
    JaroWinkler toLower [] [] = some 1 ∧
    ∀ b, b ≠ [] → JaroWinkler toLower [] b = some 0 ∧ JaroWinkler toLower b [] = some 0 := by
  refine ⟨by simp [JaroWinkler, h0], fun b hb => ?_⟩
  have hl : (toLower b).length ≠ 0 := fun h => hne b hb (List.length_eq_zero.mp h)
  constructor
  · simp [JaroWinkler, h0, hl]
  · simp [JaroWinkler, h0, hl]

/-- Witness of `JaroWinkler_degenerate`: the ASCII lower-casing. -/
theorem JaroWinkler_degenerate_witness :
    toLowerASCII [] = [] ∧ (∀ s, s ≠ [] → toLowerASCII s ≠ []) ∧
    JaroWinkler toLowerASCII [] [] = some 1 ∧
    ∀ b, b ≠ [] → JaroWinkler toLowerASCII [] b = some 0 ∧
      JaroWinkler toLowerASCII b [] = some 0 :=
  ⟨rfl, fun s hs h => hs ((toLowerASCII_eq_nil s).mp h),
    JaroWinkler_degenerate toLowerASCII rfl
      (fun s hs h => hs ((toLowerASCII_eq_nil s).mp h))⟩

/-- C10: for every score function, every query `q` and every non-empty
candidate list `ts`, `FindBestMatch q ts` returns `ts[i]` for the smallest
index `i` whose score against `q` is at least the score of every candidate:
every score is at most that of `ts[i]`, and every earlier candidate scores
strictly less. The result is a function of `q` and `ts` alone. -/
theorem FindBestMatch_first_max {F : Type} [LinearOrder F] (score : Bytes → Bytes → F)
    (q : Bytes) (ts : List Bytes) (hne : ts ≠ []) :
    ∃ i, i < ts.length ∧
      scored.FindBestMatch score q ts = ts.getD i [] ∧
      (∀ j, j < ts.length → score q (ts.getD j []) ≤ score q (ts.getD i [])) ∧
      (∀ j, j < i → score q (ts.getD j []) < score q (ts.getD i [])) := by
  cases ts with
  | nil => exact absurd rfl hne
  | cons t rest =>
    have h := scored.bestLoop_first_max score q rest [t] 0 (by simp)
      (by
        intro j hj
        have : j = 0 := by
          simp at hj
          omega
        subst this
        exact le_refl _)
      (by
        intro j hj
        omega)
    simp only [List.singleton_append] at h
    simp only [scored.FindBestMatch]
    simpa using h

/-- Witness of `FindBestMatch_first_max`: the query `ab` against the
candidates `zz`, `abx`, `aby`, scored by the rational `JaroWinkler`. The
candidates `abx` and `aby` have the same score, the highest one, and `abx`,
the earlier of the two, is returned. -/
theorem FindBestMatch_first_max_witness :
    ([[122, 122], [97, 98, 120], [97, 98, 121]] : List Bytes) ≠ [] ∧
    (∃ i, i < ([[122, 122], [97, 98, 120], [97, 98, 121]] : List Bytes).length ∧
      scored.FindBestMatch (scored.exactScore toLowerASCII) [97, 98]
          [[122, 122], [97, 98, 120], [97, 98, 121]] =
        ([[122, 122], [97, 98, 120], [97, 98, 121]] : List Bytes).getD i [] ∧
      (∀ j, j < ([[122, 122], [97, 98, 120], [97, 98, 121]] : List Bytes).length →
        scored.exactScore toLowerASCII [97, 98]
            (([[122, 122], [97, 98, 120], [97, 98, 121]] : List Bytes).getD j []) ≤
          scored.exactScore toLowerASCII [97, 98]
            (([[122, 122], [97, 98, 120], [97, 98, 121]] : List Bytes).getD i [])) ∧
      (∀ j, j < i →
        scored.exactScore toLowerASCII [97, 98]
            (([[122, 122], [97, 98, 120], [97, 98, 121]] : List Bytes).getD j []) <
          scored.exactScore toLowerASCII [97, 98]
            (([[122, 122], [97, 98, 120], [97, 98, 121]] : List Bytes).getD i []))) ∧
    scored.exactScore toLowerASCII [97, 98] [97, 98, 120] =
      scored.exactScore toLowerASCII [97, 98] [97, 98, 121] ∧
    scored.exactScore toLowerASCII [97, 98] [122, 122] <
      scored.exactScore toLowerASCII [97, 98] [97, 98, 120] ∧
    scored.FindBestMatch (scored.exactScore toLowerASCII) [97, 98]
      [[122, 122], [97, 98, 120], [97, 98, 121]] = [97, 98, 120] :=
  ⟨by decide,
    FindBestMatch_first_max (scored.exactScore toLowerASCII) [97, 98]
      [[122, 122], [97, 98, 120], [97, 98, 121]] (by decide),
    by decide!, by decide!, by decide!⟩


/-! ## Claims on the cipher codec -/

/-- C1: for every byte string `p`, every key of 16, 24 or 32 bytes and every
16-byte `iv`, `aesEncrypt p key iv` succeeds and `aesDecrypt` of its result,
under the same key and `iv`, succeeds and returns exactly `p`. -/
theorem aesDecrypt_aesEncrypt (p key iv : Bytes)
    (hk : key.length = 16 ∨ key.length = 24 ∨ key.length = 32) (hiv : iv.length = 16) :
    ∃ c, aesEncrypt p key iv = .ok c ∧ aesDecrypt c key iv = .ok p := by
  obtain ⟨blk, hblk, wf⟩ := aes.NewCipher_ok key hk
  have hmod : (pad p).length % 16 = 0 := by
    rw [pad_length]
    omega
  have hlen : (pad p).length = 16 * ((pad p).length / 16) := by omega
  have hclen := cipher.encryptBlocks_length blk wf ((pad p).length / 16) iv (pad p) hiv hlen
  refine ⟨_, aesEncrypt_eq p key iv blk hblk hiv, ?_⟩
  rw [aesDecrypt_eq _ key iv blk hblk hiv (by rw [hclen]; omega), hclen,
    Nat.mul_div_cancel_left _ (by norm_num : 0 < 16),
    cipher.decryptBlocks_encryptBlocks blk wf _ iv (pad p) hiv hlen, unpad_pad_ok]

set_option maxRecDepth 1000000 in
/-- Witness of `aesDecrypt_aesEncrypt`: the empty plaintext under the key and
the IV of the repository. -/
theorem aesDecrypt_aesEncrypt_witness :
    (encryptionKey.length = 16 ∨ encryptionKey.length = 24 ∨ encryptionKey.length = 32) ∧
    initializationVector.length = 16 ∧
    ∃ c, aesEncrypt [] encryptionKey initializationVector = .ok c ∧
      aesDecrypt c encryptionKey initializationVector = .ok [] :=
  ⟨by decide, by decide,
    aesDecrypt_aesEncrypt [] encryptionKey initializationVector (by decide) (by decide)⟩

set_option maxRecDepth 1000000 in
/-- C5 (counterexample): under the key and the IV of the repository the empty
plaintext encrypts to `Tsgk6amRhRdFvqvsWrGVAQ==`, whose raw form ends in
byte 1; with that byte changed to 61 (`Tsgk6amRhRdFvqvsWrGVPQ==`)
`aesDecrypt` returns no error but a plaintext of 15 bytes. -/
theorem aesDecrypt_tampered_counterexample :
    aesEncrypt [] encryptionKey initializationVector =
      .ok [84, 115, 103, 107, 54, 97, 109, 82, 104, 82, 100, 70, 118, 113, 118, 115,
        87, 114, 71, 86, 65, 81, 61, 61] ∧
    base64.DecodeString [84, 115, 103, 107, 54, 97, 109, 82, 104, 82, 100, 70, 118, 113,
        118, 115, 87, 114, 71, 86, 65, 81, 61, 61] =
      .ok [78, 200, 36, 233, 169, 145, 133, 23, 69, 190, 171, 236, 90, 177, 149, 1] ∧
    aesDecrypt (base64.EncodeToString
        (([78, 200, 36, 233, 169, 145, 133, 23, 69, 190, 171, 236, 90, 177, 149, 1] :
          Bytes).dropLast ++ [61])) encryptionKey initializationVector =
      .ok [191, 153, 128, 150, 236, 100, 177, 26, 68, 40, 55, 189, 244, 180, 216] ∧
    ([191, 153, 128, 150, 236, 100, 177, 26, 68, 40, 55, 189, 244, 180, 216] :
      Bytes).length ≠ ([] : Bytes).length := by
  decide!

/-- C5 (amended): when the final byte of the raw ciphertext of `aesEncrypt p`
is changed to another value, `aesDecrypt` never returns `p`: it returns one
of the two padding errors of `unpad`, or a plaintext different from `p`. -/
theorem aesDecrypt_tampered (p key iv : Bytes)
    (hk : key.length = 16 ∨ key.length = 24 ∨ key.length = 32) (hiv : iv.length = 16)
    (c raw : Bytes) (henc : aesEncrypt p key iv = .ok c)
    (hraw : base64.DecodeString c = .ok raw) (v : Byte) (hv : raw.getLast? ≠ some v) :
    aesDecrypt (base64.EncodeToString (raw.dropLast ++ [v])) key iv =
        .error .unpadInvalidPadding ∨
      aesDecrypt (base64.EncodeToString (raw.dropLast ++ [v])) key iv =
        .error .unpadInvalidPaddingBytes ∨
      ∃ q, aesDecrypt (base64.EncodeToString (raw.dropLast ++ [v])) key iv = .ok q ∧
        q ≠ p := by
  obtain ⟨blk, hblk, wf⟩ := aes.NewCipher_ok key hk
  have hmod : (pad p).length % 16 = 0 := by
    rw [pad_length]
    omega
  have hpos : 0 < (pad p).length := by
    rw [pad_length]
    omega
  have hlen : (pad p).length = 16 * ((pad p).length / 16) := by omega
  have hclen := cipher.encryptBlocks_length blk wf ((pad p).length / 16) iv (pad p) hiv hlen
  -- the raw ciphertext
  rw [aesEncrypt_eq p key iv blk hblk hiv] at henc
  have hc : c = base64.EncodeToString
      (cipher.encryptBlocks blk ((pad p).length / 16) iv (pad p)) := by
    cases henc
    rfl
  rw [hc, base64.DecodeString_EncodeToString] at hraw
  have hr : raw = cipher.encryptBlocks blk ((pad p).length / 16) iv (pad p) := by
    cases hraw
    rfl
  have hrlen : raw.length = 16 * ((pad p).length / 16) := by rw [hr, hclen]
  have hrpos : 0 < raw.length := by omega
  have htlen : (raw.dropLast ++ [v]).length = 16 * ((pad p).length / 16) := by
    rw [List.length_append, List.length_dropLast, List.length_singleton]
    omega
  have hne := dropLast_concat_ne raw v hv
  -- decryption of the tampered ciphertext
  rw [aesDecrypt_eq _ key iv blk hblk hiv (by rw [htlen]; omega), htlen,
    Nat.mul_div_cancel_left _ (by norm_num : 0 < 16)]
  have hdlen := cipher.decryptBlocks_length blk wf ((pad p).length / 16) iv
    (raw.dropLast ++ [v]) hiv htlen
  have hdne : cipher.decryptBlocks blk ((pad p).length / 16) iv (raw.dropLast ++ [v]) ≠
      pad p := by
    intro h
    apply hne
    rw [← cipher.encryptBlocks_decryptBlocks blk wf _ iv (raw.dropLast ++ [v]) hiv htlen, h, hr]
  rcases unpad_cases (cipher.decryptBlocks blk ((pad p).length / 16) iv (raw.dropLast ++ [v]))
    with ⟨h0, _⟩ | ⟨_, _, h⟩ | ⟨_, _, _, h⟩ | ⟨_, _, _, h⟩
  · rw [h0] at hdlen
    simp at hdlen
    omega
  · exact Or.inl h
  · exact Or.inr (Or.inl h)
  · refine Or.inr (Or.inr ⟨_, h, ?_⟩)
    intro hq
    rw [hq] at h
    exact hdne (unpad_ok_eq_pad _ p h (by rw [hdlen]; omega))

set_option maxRecDepth 1000000 in
/-- Witness of `aesDecrypt_tampered`: the empty plaintext under the key and
the IV of the repository, the final byte 1 changed to 61. -/
theorem aesDecrypt_tampered_witness :
    (encryptionKey.length = 16 ∨ encryptionKey.length = 24 ∨ encryptionKey.length = 32) ∧
    initializationVector.length = 16 ∧
    aesEncrypt [] encryptionKey initializationVector =
      .ok [84, 115, 103, 107, 54, 97, 109, 82, 104, 82, 100, 70, 118, 113, 118, 115,
        87, 114, 71, 86, 65, 81, 61, 61] ∧
    base64.DecodeString [84, 115, 103, 107, 54, 97, 109, 82, 104, 82, 100, 70, 118, 113,
        118, 115, 87, 114, 71, 86, 65, 81, 61, 61] =
      .ok [78, 200, 36, 233, 169, 145, 133, 23, 69, 190, 171, 236, 90, 177, 149, 1] ∧
    ([78, 200, 36, 233, 169, 145, 133, 23, 69, 190, 171, 236, 90, 177, 149, 1] :
      Bytes).getLast? ≠ some 61 ∧
    (aesDecrypt (base64.EncodeToString
        (([78, 200, 36, 233, 169, 145, 133, 23, 69, 190, 171, 236, 90, 177, 149, 1] :
          Bytes).dropLast ++ [61])) encryptionKey initializationVector =
        .error .unpadInvalidPadding ∨
      aesDecrypt (base64.EncodeToString
        (([78, 200, 36, 233, 169, 145, 133, 23, 69, 190, 171, 236, 90, 177, 149, 1] :
          Bytes).dropLast ++ [61])) encryptionKey initializationVector =
        .error .unpadInvalidPaddingBytes ∨
      ∃ q, aesDecrypt (base64.EncodeToString
        (([78, 200, 36, 233, 169, 145, 133, 23, 69, 190, 171, 236, 90, 177, 149, 1] :
          Bytes).dropLast ++ [61])) encryptionKey initializationVector = .ok q ∧
        q ≠ []) :=
  ⟨by decide, by decide, by decide!, by decide!, by decide,
    aesDecrypt_tampered [] encryptionKey initializationVector (by decide) (by decide)
      [84, 115, 103, 107, 54, 97, 109, 82, 104, 82, 100, 70, 118, 113, 118, 115,
        87, 114, 71, 86, 65, 81, 61, 61]
      [78, 200, 36, 233, 169, 145, 133, 23, 69, 190, 171, 236, 90, 177, 149, 1]
      (by decide!) (by decide!) 61 (by decide)⟩

/-! ## Claims on the episode merger -/

open types mapping

/-- C14 (counterexample): a dub episode without sub counterpart that carries
a description is merged into a record without description, so the record does
not take every field of the dub episode; and a number of both lists for which
MyAnimeList has the title `B` gets a record with the title `B`, not the title
`A` of the sub episode. -/
theorem mergeEpisodes_records_counterexample :
    heap.combinedEpisodes (fun _ => Quality.zero) []
        [{ heap.Episode.zero with Number := 2, Description := some [100] }] (fun _ => none) =
      [{ heap.Episode.zero with Number := 2, HasDub := true, Description := none }] ∧
    (heap.combinedEpisodes (fun _ => Quality.zero)
        [{ heap.Episode.zero with Number := 1, EpisodeTitle := [65] }]
        [{ heap.Episode.zero with Number := 1 }]
        (fun n => if n = 1 then some [66] else none)).map (fun r => (r.Number, r.EpisodeTitle)) =
      [(1, [66])] := by
  decide

/-- C14 (amended): the merged result holds exactly one record for each
episode number of either list and no other; a record is marked as dubbed
exactly when its number occurs in the dub list; its fields `Anime`,
`Description` and `Rating` are zero; a number of the sub list, whether or not
it is in the dub list, has the ID, filler flag, image and source of a sub
episode of that number, and its title unless MyAnimeList has a title for the
number, which is then the title of the record; a number of the dub list alone
has the same from a dub episode of that number. The example: sub `[{1, A}]`
and dub `[{1}, {2}]` without titles of MyAnimeList give `1` with the title `A`
and `2`, both marked as dubbed. -/
theorem mergeEpisodes_records (m : heap.Memory) (sub dub : List heap.Episode)
    (mal : Int → Option Bytes) :
    ((heap.combinedEpisodes m sub dub mal).map (fun r => r.Number)).Nodup ∧
    (∀ n, n ∈ (heap.combinedEpisodes m sub dub mal).map (fun r => r.Number) ↔
      (∃ e ∈ sub, e.Number = n) ∨ (∃ e ∈ dub, e.Number = n)) ∧
    (∀ r ∈ heap.combinedEpisodes m sub dub mal,
      (r.HasDub = true ↔ ∃ e ∈ dub, e.Number = r.Number) ∧
      r.Anime = Title.zero ∧ r.Description = none ∧ r.Rating = none ∧
      ((∃ e ∈ sub, e.Number = r.Number) →
        ∃ e ∈ sub, e.Number = r.Number ∧ r.ID = e.ID ∧
          r.EpisodeTitle = (mal r.Number).getD e.EpisodeTitle ∧
          r.IsFiller = e.IsFiller ∧ r.Img = e.Img ∧ r.Source = e.Source) ∧
      ((¬ ∃ e ∈ sub, e.Number = r.Number) →
        ∃ e ∈ dub, e.Number = r.Number ∧ r.ID = e.ID ∧
          r.EpisodeTitle = (mal r.Number).getD e.EpisodeTitle ∧
          r.IsFiller = e.IsFiller ∧ r.Img = e.Img ∧ r.Source = e.Source)) ∧
    (heap.combinedEpisodes (fun _ => Quality.zero)
        [{ heap.Episode.zero with Number := 1, EpisodeTitle := [65] }]
        [{ heap.Episode.zero with Number := 1 }, { heap.Episode.zero with Number := 2 }]
        (fun _ => none)).map (fun r => (r.Number, r.HasDub, r.EpisodeTitle)) =
      [(1, true, [65]), (2, true, [])] := by
  obtain ⟨hnd, hkeys, hrec⟩ := heap.mergeEpisodes_mapOf m sub dub mal
  have hnum : (heap.combinedEpisodes m sub dub mal).map (fun r => r.Number) =
      (heap.mergeEpisodes m sub dub mal).1.map Prod.fst := by
    unfold heap.combinedEpisodes
    rw [List.map_map]
    apply List.map_congr_left
    intro kv hkv
    exact (hrec kv hkv).1
  refine ⟨by rw [hnum]; exact hnd, ?_, ?_, by decide⟩
  · intro n
    rw [hnum, hkeys]
    simp only [List.mem_append]
    constructor
    · rintro ⟨e, he | he, hn⟩
      · exact Or.inl ⟨e, he, hn⟩
      · exact Or.inr ⟨e, he, hn⟩
    · rintro (⟨e, he, hn⟩ | ⟨e, he, hn⟩)
      · exact ⟨e, Or.inl he, hn⟩
      · exact ⟨e, Or.inr he, hn⟩
  · intro r hr
    obtain ⟨kv, hkv, rfl⟩ := List.mem_map.mp hr
    obtain ⟨g1, g2, g3, g4, g5, e, he, g6, g7, g8, g9, g10, g11⟩ := hrec kv hkv
    rw [g1]
    refine ⟨g5, g2, g3, g4, ?_, ?_⟩
    · intro hs
      rcases he with he | ⟨hno, _⟩
      · exact ⟨e, he, g6, g7, g8, g9, g10, g11⟩
      · obtain ⟨x, hx, hn⟩ := hs
        exact absurd hn (hno x hx)
    · intro hs
      rcases he with he | ⟨_, he⟩
      · exact absurd ⟨e, he, g6⟩ hs
      · exact ⟨e, he, g6, g7, g8, g9, g10, g11⟩

/-- C15 (counterexample): three merges in which a sub episode and a dub
episode share the number 1 and the quality `480p`, and the record of the
number 1 does not end with the sub qualities of that sub episode carrying the
URL of that dub episode. First, the sub episodes 1 and 2 hold the same slice
(one element, at the address 0), the dub episodes 1 and 2 hold the qualities
at the addresses 1 and 2, with the URLs `x` and `y`: the merge of the dub
episode 2 writes through the shared element, and the record of the number 1
ends with `y`, the URL of the dub episode 2. Second, without any sharing, two
dub episodes bear the number 1: the record ends with the URL of the later one.
Third, two sub episodes bear the number 1, the later one with no quality: the
record has no quality, the earlier sub episode has one. -/
theorem mergeSources_spec_counterexample :
    (mapGet (heap.mergedRecords
        (fun a => if a = 0 then ⟨[52, 56, 48, 112], 0, [], [115], []⟩
          else if a = 1 then ⟨[52, 56, 48, 112], 0, [], [120], []⟩
          else ⟨[52, 56, 48, 112], 0, [], [121], []⟩)
        [heap.Episode.ofSlice 1 0 1, heap.Episode.ofSlice 2 0 1]
        [heap.Episode.ofSlice 1 1 1, heap.Episode.ofSlice 2 2 1]
        (fun _ => none)) 1).map (fun r => r.Source.Sources) =
      some [⟨[52, 56, 48, 112], 0, [], [115], [121]⟩] ∧
    (mapGet (heap.mergedRecords
        (fun a => if a = 0 then ⟨[52, 56, 48, 112], 0, [], [115], []⟩
          else if a = 1 then ⟨[52, 56, 48, 112], 0, [], [120], []⟩
          else ⟨[52, 56, 48, 112], 0, [], [121], []⟩)
        [heap.Episode.ofSlice 1 0 1]
        [heap.Episode.ofSlice 1 1 1, heap.Episode.ofSlice 1 2 1]
        (fun _ => none)) 1).map (fun r => r.Source.Sources) =
      some [⟨[52, 56, 48, 112], 0, [], [115], [121]⟩] ∧
    (mapGet (heap.mergedRecords
        (fun a => if a = 0 then ⟨[52, 56, 48, 112], 0, [], [115], []⟩
          else if a = 1 then ⟨[52, 56, 48, 112], 0, [], [120], []⟩
          else ⟨[52, 56, 48, 112], 0, [], [121], []⟩)
        [heap.Episode.ofSlice 1 0 1, heap.Episode.ofSlice 1 0 0]
        [heap.Episode.ofSlice 1 1 1]
        (fun _ => none)) 1).map (fun r => r.Source.Sources) =
      some [] := by
  decide

/-- C15 (amended): when exactly one sub episode and exactly one dub episode
bear a number, and no two episodes of the two lists share an element of their
quality slices, the quality list of the merged record has the length, order,
names, bandwidths, resolutions and sub URLs of the quality list of the sub
episode; a sub quality whose name is borne by a dub quality gets the `SubURL`
of a dub quality of that name as its `DubURL`; a sub quality whose name no dub
quality bears keeps its `DubURL`; no entry is added for any dub quality. The
quality lists of the two episodes are read from the memory before the merge,
that of the record from the memory after it. -/
theorem mergeSources_spec (m : heap.Memory) (sub dub : List heap.Episode)
    (mal : Int → Option Bytes) (n : Int) (s d : heap.Episode)
    (hns : heap.NoSharing (sub ++ dub))
    (hs : sub.filter (fun e => e.Number = n) = [s])
    (hd : dub.filter (fun e => e.Number = n) = [d]) :
    ∃ r, mapGet (heap.mergedRecords m sub dub mal) n = some r ∧
      r.Source.Sources.length = s.Source.Sources.len ∧
      ∀ i, i < s.Source.Sources.len →
        (r.Source.Sources.getD i Quality.zero).Name =
          ((heap.readSlice m s.Source.Sources).getD i Quality.zero).Name ∧
        (r.Source.Sources.getD i Quality.zero).Bandwidth =
          ((heap.readSlice m s.Source.Sources).getD i Quality.zero).Bandwidth ∧
        (r.Source.Sources.getD i Quality.zero).Resolution =
          ((heap.readSlice m s.Source.Sources).getD i Quality.zero).Resolution ∧
        (r.Source.Sources.getD i Quality.zero).SubURL =
          ((heap.readSlice m s.Source.Sources).getD i Quality.zero).SubURL ∧
        ((∃ q ∈ heap.readSlice m d.Source.Sources,
            q.Name = ((heap.readSlice m s.Source.Sources).getD i Quality.zero).Name) →
          ∃ q ∈ heap.readSlice m d.Source.Sources,
            q.Name = ((heap.readSlice m s.Source.Sources).getD i Quality.zero).Name ∧
            (r.Source.Sources.getD i Quality.zero).DubURL = q.SubURL) ∧
        ((∀ q ∈ heap.readSlice m d.Source.Sources,
            q.Name ≠ ((heap.readSlice m s.Source.Sources).getD i Quality.zero).Name) →
          (r.Source.Sources.getD i Quality.zero).DubURL =
            ((heap.readSlice m s.Source.Sources).getD i Quality.zero).DubURL) := by
  rw [heap.mergedRecords_eq m sub dub mal hns]
  obtain ⟨r, h1, h2, h3⟩ := mapping.mergeEpisodes_sources _ _ mal n (s.load m) (d.load m)
    (heap.filter_load m n sub s hs) (heap.filter_load m n dub d hd)
  have hlen : (s.load m).Source.Sources.length = s.Source.Sources.len :=
    heap.readSlice_length m _
  refine ⟨r, h1, h2.trans hlen, ?_⟩
  intro i hi
  exact h3 i (by rw [hlen]; exact hi)

/-- Witness of `mergeSources_spec`: the qualities `480p` and `720p` of the
sub episode 1, at the addresses 0 and 1, against the qualities `720p` and
`1080p` of the dub episode 1, at the addresses 2 and 3. -/
theorem mergeSources_spec_witness :
    heap.NoSharing ([heap.Episode.ofSlice 1 0 2] ++ [heap.Episode.ofSlice 1 2 2]) ∧
    (mapGet (heap.mergedRecords
        (fun a => if a = 0 then ⟨[52, 56, 48, 112], 800000, [], [97], []⟩
          else if a = 1 then ⟨[55, 50, 48, 112], 1400000, [], [98], []⟩
          else if a = 2 then ⟨[55, 50, 48, 112], 1400000, [], [99], []⟩
          else ⟨[49, 48, 56, 48, 112], 2800000, [], [100], []⟩)
        [heap.Episode.ofSlice 1 0 2] [heap.Episode.ofSlice 1 2 2]
        (fun _ => none)) 1).map (fun r => r.Source.Sources) =
      some [⟨[52, 56, 48, 112], 800000, [], [97], []⟩,
        ⟨[55, 50, 48, 112], 1400000, [], [98], [99]⟩] ∧
    ∃ r, mapGet (heap.mergedRecords
        (fun a => if a = 0 then ⟨[52, 56, 48, 112], 800000, [], [97], []⟩
          else if a = 1 then ⟨[55, 50, 48, 112], 1400000, [], [98], []⟩
          else if a = 2 then ⟨[55, 50, 48, 112], 1400000, [], [99], []⟩
          else ⟨[49, 48, 56, 48, 112], 2800000, [], [100], []⟩)
        [heap.Episode.ofSlice 1 0 2] [heap.Episode.ofSlice 1 2 2]
        (fun _ => none)) 1 = some r ∧ r.Source.Sources.length = 2 :=
  ⟨by decide, by decide,
    (mergeSources_spec
      (fun a => if a = 0 then ⟨[52, 56, 48, 112], 800000, [], [97], []⟩
        else if a = 1 then ⟨[55, 50, 48, 112], 1400000, [], [98], []⟩
        else if a = 2 then ⟨[55, 50, 48, 112], 1400000, [], [99], []⟩
        else ⟨[49, 48, 56, 48, 112], 2800000, [], [100], []⟩)
      [heap.Episode.ofSlice 1 0 2] [heap.Episode.ofSlice 1 2 2]
      (fun _ => none) 1 (heap.Episode.ofSlice 1 0 2) (heap.Episode.ofSlice 1 2 2)
      (by decide) (by decide) (by decide)).imp (fun _ h => ⟨h.1, h.2.1⟩)⟩

/-- C16: a record of the merged result whose number has a title in the map
of MyAnimeList carries that title, whether it stems from the sub list, the dub
list or both; a record whose number has none keeps the title of the episode
it was built from, a sub episode of its number, or a dub episode when the
number is in the dub list alone. -/
theorem mergeEpisodes_titles (sub dub : List Episode) (mal : Int → Option Bytes) :
    ∀ r ∈ combinedEpisodes sub dub mal,
      (∀ t, mal r.Number = some t → r.EpisodeTitle = t) ∧
      (mal r.Number = none →
        (∃ e ∈ sub, e.Number = r.Number ∧ r.EpisodeTitle = e.EpisodeTitle) ∨
        ((¬ ∃ e ∈ sub, e.Number = r.Number) ∧
          ∃ e ∈ dub, e.Number = r.Number ∧ r.EpisodeTitle = e.EpisodeTitle)) := by
  intro r hr
  by_cases hs : ∃ e ∈ sub, e.Number = r.Number
  · obtain ⟨e, he, hn, hsf, _, _⟩ := record_of_sub sub dub mal r hr hs
    have ht : r.EpisodeTitle = (mal r.Number).getD e.EpisodeTitle := by
      rw [hsf.2.2.2.1, subRecord_title, hn]
    constructor
    · intro t hm
      rw [ht, hm]
      rfl
    · intro hm
      left
      refine ⟨e, he, hn, ?_⟩
      rw [ht, hm]
      rfl
  · obtain ⟨e, he, hn, hsf, _⟩ := record_of_dub sub dub mal r hr hs
    have ht : r.EpisodeTitle = (mal r.Number).getD e.EpisodeTitle := by
      rw [hsf.2.2.2.1, dubRecord_title, hn]
    constructor
    · intro t hm
      rw [ht, hm]
      rfl
    · intro hm
      right
      refine ⟨hs, e, he, hn, ?_⟩
      rw [ht, hm]
      rfl

/-- Witness of `mergeEpisodes_titles`: the sub episode 1 with the title `A`
and the title `B` of MyAnimeList for the number 1 give a record with the title
`B`. -/
theorem mergeEpisodes_titles_witness :
    ({ Episode.zero with Number := 1, EpisodeTitle := [66] } : Episode) ∈
      combinedEpisodes [{ Episode.zero with Number := 1, EpisodeTitle := [65] }] []
        (fun n => if n = 1 then some [66] else none) ∧
    ({ Episode.zero with Number := 1, EpisodeTitle := [66] } : Episode).EpisodeTitle = [66] :=
  ⟨by decide,
    (mergeEpisodes_titles [{ Episode.zero with Number := 1, EpisodeTitle := [65] }] []
      (fun n => if n = 1 then some [66] else none)
      { Episode.zero with Number := 1, EpisodeTitle := [66] } (by decide)).1 [66] (by decide)⟩

/-- C17 (counterexample): a sub episode that carries a description is merged,
with an empty dub list and no titles of MyAnimeList, into a record without
description: the record differs from the episode in a field other than
`HasDub`. -/
theorem mergeEpisodes_empty_dub_counterexample :
    combinedEpisodes [{ Episode.zero with Number := 1, Description := some [120] }] []
        (fun _ => none) =
      [{ Episode.zero with Number := 1, Description := none }] ∧
    ({ Episode.zero with Number := 1, Description := none } : Episode) ≠
      { ({ Episode.zero with Number := 1, Description := some [120] } : Episode) with
        HasDub := false } := by
  decide

/-- C17 (amended): merging a sub list of distinct numbers with an empty dub
list and no titles of MyAnimeList yields one record for each sub episode and
no other; the record has the ID, number, title, filler flag, image and source
of the episode, `HasDub = false`, and zero `Anime`, `Description` and
`Rating`, so it is the episode itself with `HasDub = false` when these three
are zero in the episode. -/
theorem mergeEpisodes_empty_dub (sub : List Episode)
    (hnd : (sub.map (fun e => e.Number)).Nodup) :
    (combinedEpisodes sub [] (fun _ => none)).length = sub.length ∧
    (∀ r, r ∈ combinedEpisodes sub [] (fun _ => none) ↔
      ∃ e ∈ sub, r =
        { ID := e.ID, Anime := Title.zero, Number := e.Number, EpisodeTitle := e.EpisodeTitle,
          IsFiller := e.IsFiller, Img := e.Img, HasDub := false, Description := none,
          Rating := none, Source := e.Source }) ∧
    (∀ e ∈ sub, e.Anime = Title.zero → e.Description = none → e.Rating = none →
      { e with HasDub := false } ∈ combinedEpisodes sub [] (fun _ => none)) := by
  have hrec : ∀ e : Episode, subRecord (fun _ => none) e =
      { ID := e.ID, Anime := Title.zero, Number := e.Number, EpisodeTitle := e.EpisodeTitle,
        IsFiller := e.IsFiller, Img := e.Img, HasDub := false, Description := none,
        Rating := none, Source := e.Source } := fun _ => rfl
  have hmem : ∀ r, r ∈ combinedEpisodes sub [] (fun _ => none) ↔
      ∃ e ∈ sub, r = subRecord (fun _ => none) e := by
    intro r
    constructor
    · intro hr
      have hs : ∃ e ∈ sub, e.Number = r.Number := by
        have := (mem_numbers sub [] (fun _ => none) r.Number).mp
          (List.mem_map.mpr ⟨r, hr, rfl⟩)
        rcases this with h | ⟨e, he, _⟩
        · exact h
        · simp at he
      obtain ⟨e, he, _, _, _, heq⟩ := record_of_sub sub [] (fun _ => none) r hr hs
      exact ⟨e, he, heq (by simp)⟩
    · rintro ⟨e, he, rfl⟩
      rw [mem_combinedEpisodes, mapGet_merge_filter, subRecord_number]
      have hfil := filter_eq_singleton sub e he hnd
      rw [hfil]
      simp [keySub, keyDub]
  refine ⟨?_, ?_, ?_⟩
  · have h1 : ((combinedEpisodes sub [] (fun _ => none)).map (fun r => r.Number)).Perm
        (sub.map (fun e => e.Number)) := by
      rw [List.perm_ext_iff_of_nodup ?_ hnd]
      · intro n
        rw [mem_numbers]
        simp
      · rw [combinedEpisodes_numbers]
        exact (mergeEpisodes_inv sub [] _).1
    simpa using h1.length_eq
  · intro r
    rw [hmem]
    constructor
    · rintro ⟨e, he, h⟩
      exact ⟨e, he, by rw [h, hrec]⟩
    · rintro ⟨e, he, h⟩
      exact ⟨e, he, by rw [h, hrec]⟩
  · intro e he h1 h2 h3
    rw [hmem]
    refine ⟨e, he, ?_⟩
    rw [hrec]
    cases e
    simp only at h1 h2 h3
    subst h1 h2 h3
    rfl

/-- Witness of `mergeEpisodes_empty_dub`: the episodes 1 and 2. -/
theorem mergeEpisodes_empty_dub_witness :
    (([{ Episode.zero with Number := 1 }, { Episode.zero with Number := 2 }] :
      List Episode).map (fun e => e.Number)).Nodup ∧
    (combinedEpisodes [{ Episode.zero with Number := 1 }, { Episode.zero with Number := 2 }] []
      (fun _ => none)).length =
      ([{ Episode.zero with Number := 1 }, { Episode.zero with Number := 2 }] :
        List Episode).length :=
  ⟨by decide,
    (mergeEpisodes_empty_dub [{ Episode.zero with Number := 1 }, { Episode.zero with Number := 2 }]
      (by decide)).1⟩

/-- C18 (counterexample): the sub episodes 1 and 2 hold the same slice (one
element, at the address 0), the dub episodes 1 and 2 hold the qualities at the
addresses 1 and 2, with the URLs `x` and `y`. The numbers are distinct within
each list. With the dub list in the order 1, 2 the record of the number 1 ends
with the dub URL `y`, with the dub list in the order 2, 1 it ends with `x`. -/
theorem mergeEpisodes_order_independent_counterexample :
    ([heap.Episode.ofSlice 1 1 1, heap.Episode.ofSlice 2 2 1] : List heap.Episode).Perm
      [heap.Episode.ofSlice 2 2 1, heap.Episode.ofSlice 1 1 1] ∧
    (([heap.Episode.ofSlice 1 0 1, heap.Episode.ofSlice 2 0 1] :
      List heap.Episode).map (fun e => e.Number)).Nodup ∧
    (([heap.Episode.ofSlice 1 1 1, heap.Episode.ofSlice 2 2 1] :
      List heap.Episode).map (fun e => e.Number)).Nodup ∧
    (mapGet (heap.mergedRecords
        (fun a => if a = 0 then ⟨[52, 56, 48, 112], 0, [], [115], []⟩
          else if a = 1 then ⟨[52, 56, 48, 112], 0, [], [120], []⟩
          else ⟨[52, 56, 48, 112], 0, [], [121], []⟩)
        [heap.Episode.ofSlice 1 0 1, heap.Episode.ofSlice 2 0 1]
        [heap.Episode.ofSlice 1 1 1, heap.Episode.ofSlice 2 2 1]
        (fun _ => none)) 1).map (fun r => r.Source.Sources) =
      some [⟨[52, 56, 48, 112], 0, [], [115], [121]⟩] ∧
    (mapGet (heap.mergedRecords
        (fun a => if a = 0 then ⟨[52, 56, 48, 112], 0, [], [115], []⟩
          else if a = 1 then ⟨[52, 56, 48, 112], 0, [], [120], []⟩
          else ⟨[52, 56, 48, 112], 0, [], [121], []⟩)
        [heap.Episode.ofSlice 1 0 1, heap.Episode.ofSlice 2 0 1]
        [heap.Episode.ofSlice 2 2 1, heap.Episode.ofSlice 1 1 1]
        (fun _ => none)) 1).map (fun r => r.Source.Sources) =
      some [⟨[52, 56, 48, 112], 0, [], [115], [120]⟩] :=
  ⟨List.Perm.swap _ _ _, by decide, by decide, by decide, by decide⟩

/-- C18 (amended): for a sub list and a dub list, each with distinct
numbers, in which no two episodes share an element of their quality slices,
reordering either list changes neither the record stored under any number nor
the set of records of the merged result, the records being read from the
memory after the merge. -/
theorem mergeEpisodes_order_independent (m : heap.Memory)
    (sub sub' dub dub' : List heap.Episode) (mal : Int → Option Bytes)
    (hs : sub.Perm sub') (hd : dub.Perm dub')
    (hsn : (sub.map (fun e => e.Number)).Nodup) (hdn : (dub.map (fun e => e.Number)).Nodup)
    (hns : heap.NoSharing (sub ++ dub)) :
    (∀ n, mapGet (heap.mergedRecords m sub' dub' mal) n =
      mapGet (heap.mergedRecords m sub dub mal) n) ∧
    (∀ r, r ∈ (heap.mergedRecords m sub' dub' mal).map Prod.snd ↔
      r ∈ (heap.mergedRecords m sub dub mal).map Prod.snd) := by
  have hns' : heap.NoSharing (sub' ++ dub') := heap.noSharing_perm (hs.append hd) hns
  rw [heap.mergedRecords_eq m sub dub mal hns, heap.mergedRecords_eq m sub' dub' mal hns']
  have hget := mapping.mergeEpisodes_perm (sub.map (fun e => e.load m))
    (sub'.map (fun e => e.load m)) (dub.map (fun e => e.load m)) (dub'.map (fun e => e.load m))
    mal (hs.map _) (hd.map _) (by rw [heap.numbers_load]; exact hsn)
    (by rw [heap.numbers_load]; exact hdn)
  refine ⟨hget, ?_⟩
  intro r
  have h1 := mem_combinedEpisodes (sub'.map (fun e => e.load m)) (dub'.map (fun e => e.load m))
    mal r
  have h2 := mem_combinedEpisodes (sub.map (fun e => e.load m)) (dub.map (fun e => e.load m))
    mal r
  unfold combinedEpisodes at h1 h2
  rw [h1, h2, hget]

/-- Witness of `mergeEpisodes_order_independent`: the sub episodes 1 and 2
and the dub episodes 2 and 3, each with one quality of its own at the
addresses 0 to 3, each list in both orders. -/
theorem mergeEpisodes_order_independent_witness :
    heap.NoSharing ([heap.Episode.ofSlice 1 0 1, heap.Episode.ofSlice 2 1 1] ++
      [heap.Episode.ofSlice 2 2 1, heap.Episode.ofSlice 3 3 1]) ∧
    (mapGet (heap.mergedRecords (fun a => ⟨[52, 56, 48, 112], 0, [], [Fin.ofNat a], []⟩)
        [heap.Episode.ofSlice 1 0 1, heap.Episode.ofSlice 2 1 1]
        [heap.Episode.ofSlice 2 2 1, heap.Episode.ofSlice 3 3 1]
        (fun _ => none)) 2).map (fun r => r.Source.Sources) =
      some [⟨[52, 56, 48, 112], 0, [], [1], [2]⟩] ∧
    ∀ n, mapGet (heap.mergedRecords (fun a => ⟨[52, 56, 48, 112], 0, [], [Fin.ofNat a], []⟩)
        [heap.Episode.ofSlice 2 1 1, heap.Episode.ofSlice 1 0 1]
        [heap.Episode.ofSlice 3 3 1, heap.Episode.ofSlice 2 2 1]
        (fun _ => none)) n =
      mapGet (heap.mergedRecords (fun a => ⟨[52, 56, 48, 112], 0, [], [Fin.ofNat a], []⟩)
        [heap.Episode.ofSlice 1 0 1, heap.Episode.ofSlice 2 1 1]
        [heap.Episode.ofSlice 2 2 1, heap.Episode.ofSlice 3 3 1]
        (fun _ => none)) n :=
  ⟨by decide, by decide,
    (mergeEpisodes_order_independent
      (fun a => ⟨[52, 56, 48, 112], 0, [], [Fin.ofNat a], []⟩)
      [heap.Episode.ofSlice 1 0 1, heap.Episode.ofSlice 2 1 1]
      [heap.Episode.ofSlice 2 1 1, heap.Episode.ofSlice 1 0 1]
      [heap.Episode.ofSlice 2 2 1, heap.Episode.ofSlice 3 3 1]
      [heap.Episode.ofSlice 3 3 1, heap.Episode.ofSlice 2 2 1]
      (fun _ => none) (List.Perm.swap _ _ _) (List.Perm.swap _ _ _)
      (by decide) (by decide) (by decide)).1⟩

/-! ## Claims on `FindOriginalTitle` and `Sanitize` -/

/-- C11: for every score function, `FindOriginalTitle` returns the best
match of the field, among romaji, english and native, whose score against its
own best match is the highest of the three; on equal scores romaji comes
before english and english before native. With `rm`, `em`, `nm` the three
results of `FindBestMatch` and `rs`, `es`, `ns` their scores: `rm` is returned
when `rs` is at least `es` and `ns`; otherwise `em` when `es` is at least
`rs` and `ns`, and then `es` is above `rs`; otherwise `nm`, and then
`ns` is above both `rs` and `es`. -/
theorem FindOriginalTitle_spec {F : Type} [LinearOrder F] (score : Bytes → Bytes → F)
    (title : Title) (titles : List Bytes) :
    ∃ rm em nm rs es ns,
      rm = scored.FindBestMatch score title.Romaji titles ∧
      em = scored.FindBestMatch score title.English titles ∧
      nm = scored.FindBestMatch score title.Native titles ∧
      rs = score title.Romaji rm ∧
      es = score title.English em ∧
      ns = score title.Native nm ∧
      ((es ≤ rs ∧ ns ≤ rs) → scored.FindOriginalTitle score title titles = rm) ∧
      (¬ (es ≤ rs ∧ ns ≤ rs) → (rs ≤ es ∧ ns ≤ es) →
        scored.FindOriginalTitle score title titles = em ∧ rs < es) ∧
      (¬ (es ≤ rs ∧ ns ≤ rs) → ¬ (rs ≤ es ∧ ns ≤ es) →
        scored.FindOriginalTitle score title titles = nm ∧ rs < ns ∧ es < ns) := by
  refine ⟨_, _, _, _, _, _, rfl, rfl, rfl, rfl, rfl, rfl, ?_, ?_, ?_⟩
  · intro h
    simp only [scored.FindOriginalTitle]
    rw [if_pos h]
  · intro h1 h2
    refine ⟨?_, ?_⟩
    · simp only [scored.FindOriginalTitle]
      rw [if_neg h1, if_pos h2]
    · by_contra hlt
      rw [not_lt] at hlt
      exact h1 ⟨hlt, le_trans h2.2 hlt⟩
  · intro h1 h2
    refine ⟨?_, ?_, ?_⟩
    · simp only [scored.FindOriginalTitle]
      rw [if_neg h1, if_neg h2]
    · by_contra hlt
      rw [not_lt] at hlt
      rcases le_total (score title.English (scored.FindBestMatch score title.English titles))
        (score title.Romaji (scored.FindBestMatch score title.Romaji titles)) with h | h
      · exact h1 ⟨h, hlt⟩
      · exact h2 ⟨h, le_trans hlt h⟩
    · by_contra hlt
      rw [not_lt] at hlt
      rcases le_total (score title.English (scored.FindBestMatch score title.English titles))
        (score title.Romaji (scored.FindBestMatch score title.Romaji titles)) with h | h
      · exact h1 ⟨h, le_trans hlt h⟩
      · exact h2 ⟨h, hlt⟩

/-- C12 (counterexample): the candidate `cd` scores 0 against `ab`, and yet
`FindBestMatch` and `FindOriginalTitle` return it. -/
theorem FindBestMatch_degenerate_counterexample :
    JaroWinkler toLowerASCII [97, 98] [99, 100] = some 0 ∧
    FindBestMatch toLowerASCII [97, 98] [[99, 100]] = some [99, 100] ∧
    FindOriginalTitle toLowerASCII ⟨[97, 98], [97, 98], [97, 98]⟩ [[99, 100]] =
      some [99, 100] := by
  decide

/-- C12 (amended): for an empty pool `FindBestMatch` and `FindOriginalTitle`
return the empty string; for a pool in which every candidate scores 0 they
return the first candidate of the pool. Neither reports the absence of a
match. -/
theorem FindBestMatch_degenerate (toLower : Bytes → Bytes) (q : Bytes) (title : Title) :
    FindBestMatch toLower q [] = some [] ∧
    FindOriginalTitle toLower title [] = some [] ∧
    (∀ t0 rest, (∀ c ∈ t0 :: rest, JaroWinkler toLower q c = some 0) →
      FindBestMatch toLower q (t0 :: rest) = some t0) ∧
    (∀ t0 rest,
      (∀ c ∈ t0 :: rest, JaroWinkler toLower title.Romaji c = some 0 ∧
        JaroWinkler toLower title.English c = some 0 ∧
        JaroWinkler toLower title.Native c = some 0) →
      FindOriginalTitle toLower title (t0 :: rest) = some t0) := by
  have hbest : ∀ (q : Bytes) (t0 : Bytes) (rest : List Bytes),
      (∀ c ∈ t0 :: rest, JaroWinkler toLower q c = some 0) →
      FindBestMatch toLower q (t0 :: rest) = some t0 := by
    intro q t0 rest h
    simp only [FindBestMatch, h t0 (List.mem_cons_self _ _)]
    exact bestLoop_keep toLower q rest t0 0
      (fun t ht => ⟨0, h t (List.mem_cons_of_mem _ ht), le_refl _⟩)
  refine ⟨rfl, ?_, hbest q, ?_⟩
  · obtain ⟨rs, hrs⟩ := JaroWinkler_total toLower title.Romaji []
    obtain ⟨es, hes⟩ := JaroWinkler_total toLower title.English []
    obtain ⟨ns, hns⟩ := JaroWinkler_total toLower title.Native []
    simp only [FindOriginalTitle, FindBestMatch, hrs, hes, hns]
    split_ifs <;> rfl
  · intro t0 rest h
    have h0 := h t0 (List.mem_cons_self _ _)
    simp only [FindOriginalTitle, hbest title.Romaji t0 rest (fun c hc => (h c hc).1),
      hbest title.English t0 rest (fun c hc => (h c hc).2.1),
      hbest title.Native t0 rest (fun c hc => (h c hc).2.2), h0.1, h0.2.1, h0.2.2]
    split_ifs <;> rfl

/-- C13: `Sanitize t` is the list of the words of the lower-cased `t`, in
order, without the words equal to `season`, `cour` or `part`, joined by single
spaces; the call of `strings.ReplaceAll` changes nothing, its pattern holding
the upper-case letter `L`, which no lower-cased string holds. -/
theorem Sanitize_spec (toLower : Bytes → Bytes) (fields : Bytes → List Bytes) (title : Bytes)
    (hlow : ∀ s, (76 : Byte) ∉ toLower s) :
    Sanitize toLower fields title =
      List.intercalate [32]
        ((fields (toLower title)).filter (fun w =>
          decide (w ≠ [115, 101, 97, 115, 111, 110] ∧ w ≠ [99, 111, 117, 114] ∧
            w ≠ [112, 97, 114, 116]))) := by
  unfold Sanitize ReplaceAll
  simp only
  rw [replaceAllLoop_absent sanitizePattern [] 76 (by decide) _ _ (hlow title),
    sanitizeLoop_eq, Join_eq_intercalate, List.nil_append]

/-- Witness of `Sanitize_spec`: the title `Seasons Partner Part 2 COUR` gives
`seasons partner 2`; the words `seasons` and `partner` are kept. -/
theorem Sanitize_spec_witness :
    (∀ s, (76 : Byte) ∉ toLowerASCII s) ∧
    Sanitize toLowerASCII fieldsASCII
        [83, 101, 97, 115, 111, 110, 115, 32, 80, 97, 114, 116, 110, 101, 114, 32,
          80, 97, 114, 116, 32, 50, 32, 67, 79, 85, 82] =
      [115, 101, 97, 115, 111, 110, 115, 32, 112, 97, 114, 116, 110, 101, 114, 32, 50] :=
  ⟨toLowerASCII_no_upper,
    (Sanitize_spec toLowerASCII fieldsASCII _ toLowerASCII_no_upper).trans (by decide)⟩

open gogoanime

/-! ## Claim C19: an episode number that does not parse -/

/-- Claim C19 as stated fails: of the two list items `/ep-1` with the name
`EP 1` and `/ep-x` with the name `EP x`, whose number does not parse, both
are in the episode list of `FetchEpisodes`, the second with the number 0, and
both have a record in the merged result. -/
theorem FetchEpisodes_unparsable_counterexample :
    strconv.Atoi (strings.TrimPrefix (strings.trimSpaceASCII [69, 80, 32, 120]) [69, 80, 32]) = none ∧
    (FetchEpisodes strings.trimSpaceASCII [97]
      [⟨some [47, 101, 112, 45, 49], [69, 80, 32, 49]⟩,
       ⟨some [47, 101, 112, 45, 120], [69, 80, 32, 120]⟩]).map (fun e => (e.ID, e.Number)) =
      [([47, 101, 112, 45, 120], 0), ([47, 101, 112, 45, 49], 1)] ∧
    (combinedEpisodes
      (FetchEpisodes strings.trimSpaceASCII [97]
        [⟨some [47, 101, 112, 45, 49], [69, 80, 32, 49]⟩,
         ⟨some [47, 101, 112, 45, 120], [69, 80, 32, 120]⟩])
      [] (fun _ => none)).map (fun r => (r.ID, r.Number)) =
      [([47, 101, 112, 45, 120], 0), ([47, 101, 112, 45, 49], 1)] := by
  decide

/-- Claim C19, amended: only a list item without a link is left out of the
episode list of `FetchEpisodes`, so that the list is as long as the items
with a link are many. An item with a link whose episode number is missing or
does not parse yields an episode with the trimmed link as ID and the number
0, an item whose number parses one with that number; in both cases the number
has a record in the merged result, whether the list is handed to the merge
as the sub list or as the dub list. -/
theorem FetchEpisodes_unparsable_kept (trimSpace : Bytes → Bytes) (id : Bytes)
    (input : List EpisodeItem) (sub dub : List Episode) (mal : Int → Option Bytes) :
    (FetchEpisodes trimSpace id input).length =
      (input.filter (fun item => item.href.isSome)).length ∧
    ∀ item ∈ input, ∀ epID, item.href = some epID →
      ∃ e ∈ FetchEpisodes trimSpace id input, e.ID = trimSpace epID ∧
        (strconv.Atoi (strings.TrimPrefix (trimSpace item.name) [69, 80, 32]) = none →
          e.Number = 0) ∧
        (∀ n, strconv.Atoi (strings.TrimPrefix (trimSpace item.name) [69, 80, 32]) = some n →
          e.Number = n) ∧
        e.Number ∈ (combinedEpisodes (FetchEpisodes trimSpace id input) dub mal).map
          (fun r => r.Number) ∧
        e.Number ∈ (combinedEpisodes sub (FetchEpisodes trimSpace id input) mal).map
          (fun r => r.Number) := by
  refine ⟨FetchEpisodes_length trimSpace id input, ?_⟩
  intro item hitem epID hhref
  obtain ⟨e, he, hid, hnum⟩ := mem_FetchEpisodes trimSpace id input item hitem epID hhref
  refine ⟨e, he, hid, ?_, ?_, ?_, ?_⟩
  · intro hnone
    rw [hnum, hnone]
  · intro n hsome
    rw [hnum, hsome]
  · exact (mem_numbers _ _ mal e.Number).2 (Or.inl ⟨e, he, rfl⟩)
  · exact (mem_numbers _ _ mal e.Number).2 (Or.inr ⟨e, he, rfl⟩)

/-! ## Claim C20: the variants of a master playlist -/

/-- Claim C20 as stated fails: the attribute line
`#EXT-X-STREAM-INF:BANDWIDTH=800000,RESOLUTION=854x480`, whose `BANDWIDTH`
is the integer 800000, followed by the line `480p/index.m3u8` yields no
variant, and the parse returns the error `no qualities found`. The line has
no `NAME`. Here `resolveURL` is taken to return the line. -/
theorem parseMasterM3U8_unnamed_counterexample :
    strings.HasPrefix (strings.trimSpaceASCII
      [35, 69, 88, 84, 45, 88, 45, 83, 84, 82, 69, 65, 77, 45, 73, 78, 70, 58, 66, 65, 78, 68,
        87, 73, 68, 84, 72, 61, 56, 48, 48, 48, 48, 48, 44, 82, 69, 83, 79, 76, 85, 84, 73, 79,
        78, 61, 56, 53, 52, 120, 52, 56, 48]) streamInfTag = true ∧
    strconv.Atoi (mapIndex (parseAttributes strings.trimSpaceASCII (strings.trimSpaceASCII
      [35, 69, 88, 84, 45, 88, 45, 83, 84, 82, 69, 65, 77, 45, 73, 78, 70, 58, 66, 65, 78, 68,
        87, 73, 68, 84, 72, 61, 56, 48, 48, 48, 48, 48, 44, 82, 69, 83, 79, 76, 85, 84, 73, 79,
        78, 61, 56, 53, 52, 120, 52, 56, 48])) keyBandwidth) = some 800000 ∧
    strings.HasSuffix (strings.trimSpaceASCII
      [52, 56, 48, 112, 47, 105, 110, 100, 101, 120, 46, 109, 51, 117, 56]) m3u8Suffix = true ∧
    parseMasterM3U8 strings.trimSpaceASCII (fun _ line => line)
      [104, 116, 116, 112, 115, 58, 47, 47, 104, 47, 97, 47, 98, 47, 109, 97, 115, 116, 101, 114,
        46, 109, 51, 117, 56]
      [[35, 69, 88, 84, 45, 88, 45, 83, 84, 82, 69, 65, 77, 45, 73, 78, 70, 58, 66, 65, 78, 68,
        87, 73, 68, 84, 72, 61, 56, 48, 48, 48, 48, 48, 44, 82, 69, 83, 79, 76, 85, 84, 73, 79,
        78, 61, 56, 53, 52, 120, 52, 56, 48],
       [52, 56, 48, 112, 47, 105, 110, 100, 101, 120, 46, 109, 51, 117, 56]] false =
      .error .noQualities := by
  decide

/-- Claim C20, amended: take an attribute line `#EXT-X-STREAM-INF` with an
integer `BANDWIDTH`, followed, after lines that are neither attribute lines
nor end in `.m3u8`, by a line ending in `.m3u8`. When the `NAME` of the
attribute line is not empty, the pair yields one variant, whose name,
bandwidth and resolution are the values of `NAME`, `BANDWIDTH` and
`RESOLUTION` on that line and whose URL is `resolveURL` of the base and the
trimmed line; it stands after the variants of the lines before it and before
those of the lines after it, and when both parts scan without an error the
parse returns these variants in this order. When the `NAME` is empty or
absent the pair yields no variant: the parse returns what it returns without
the line ending in `.m3u8`. On an attribute line `TAG:K1=V1,...,Kn=Vn` the
value of a key is the text after the last `K=` of that key, up to the next
comma, trimmed of white space and of the quotes around it, and the empty
text for a key the line does not have. -/
theorem parseMasterM3U8_variant (trimSpace : Bytes → Bytes) (resolveURL : Bytes → Bytes → Bytes)
    (masterURL : Bytes) (pre mid post : List Bytes) (attr url : Bytes) (bandwidth : Int)
    (hattr : strings.HasPrefix (trimSpace attr) streamInfTag = true)
    (hbw : strconv.Atoi (mapIndex (parseAttributes trimSpace (trimSpace attr)) keyBandwidth) =
      some bandwidth)
    (hmid : ∀ text ∈ mid, strings.HasPrefix (trimSpace text) streamInfTag = false ∧
      strings.HasSuffix (trimSpace text) m3u8Suffix = false)
    (hurl : strings.HasPrefix (trimSpace url) streamInfTag = false ∧
      strings.HasSuffix (trimSpace url) m3u8Suffix = true) :
    (mapIndex (parseAttributes trimSpace (trimSpace attr)) keyName ≠ [] →
      scanLoop trimSpace resolveURL masterURL (pre ++ attr :: (mid ++ url :: post)) []
          Quality.zero =
        (scanLoop trimSpace resolveURL masterURL pre [] Quality.zero).bind (fun s1 =>
          (scanLoop trimSpace resolveURL masterURL post [] Quality.zero).map (fun s2 =>
            (s1.1 ++
              { Name := mapIndex (parseAttributes trimSpace (trimSpace attr)) keyName
                Bandwidth := bandwidth
                Resolution := mapIndex (parseAttributes trimSpace (trimSpace attr)) keyResolution
                SubURL := resolveURL masterURL (trimSpace url)
                DubURL := [] } :: s2.1, s2.2))) ∧
      ∀ qs1 c1 qs2 c2,
        scanLoop trimSpace resolveURL masterURL pre [] Quality.zero = .ok (qs1, c1) →
        scanLoop trimSpace resolveURL masterURL post [] Quality.zero = .ok (qs2, c2) →
        parseMasterM3U8 trimSpace resolveURL masterURL (pre ++ attr :: (mid ++ url :: post))
            false =
          .ok (qs1 ++
            { Name := mapIndex (parseAttributes trimSpace (trimSpace attr)) keyName
              Bandwidth := bandwidth
              Resolution := mapIndex (parseAttributes trimSpace (trimSpace attr)) keyResolution
              SubURL := resolveURL masterURL (trimSpace url)
              DubURL := [] } :: qs2)) ∧
    (mapIndex (parseAttributes trimSpace (trimSpace attr)) keyName = [] →
      ∀ scanErr, parseMasterM3U8 trimSpace resolveURL masterURL
          (pre ++ attr :: (mid ++ url :: post)) scanErr =
        parseMasterM3U8 trimSpace resolveURL masterURL (pre ++ attr :: (mid ++ post)) scanErr) ∧
    (∀ (tag : Bytes) (kv : Bytes × Bytes) (kvs : List (Bytes × Bytes)),
      trimSpace attr =
        tag ++ 58 :: List.intercalate [44] ((kv :: kvs).map (fun x => x.1 ++ 61 :: x.2)) →
      (58 : Byte) ∉ tag →
      (∀ x ∈ kv :: kvs, (61 : Byte) ∉ x.1 ∧ (44 : Byte) ∉ x.1 ∧ (44 : Byte) ∉ x.2) →
      (∀ before k v after, kv :: kvs = before ++ (k, v) :: after →
        (∀ x ∈ after, trimSpace x.1 ≠ trimSpace k) →
        mapIndex (parseAttributes trimSpace (trimSpace attr)) (trimSpace k) =
          strings.Trim (trimSpace v) 34) ∧
      (∀ key, (∀ x ∈ kv :: kvs, trimSpace x.1 ≠ key) →
        mapIndex (parseAttributes trimSpace (trimSpace attr)) key = [])) := by
  refine ⟨?_, ?_, ?_⟩
  · intro hname
    have heq := scanLoop_variant trimSpace resolveURL masterURL pre mid post attr url bandwidth
      hattr hbw hname hmid hurl
    refine ⟨heq, ?_⟩
    intro qs1 c1 qs2 c2 h1 h2
    apply parseMasterM3U8_of_scanLoop trimSpace resolveURL masterURL _ _ c2
    · rw [heq, h1, h2]
      rfl
    · intro hnil
      exact List.cons_ne_nil _ _ (List.append_eq_nil.mp hnil).2
  · intro hname scanErr
    unfold parseMasterM3U8
    rw [scanLoop_unnamed trimSpace resolveURL masterURL pre mid post attr url hattr hname hmid
      hurl.1]
  · intro tag kv kvs hline htag hkv
    rw [hline, parseAttributes_line trimSpace tag kv kvs htag hkv]
    constructor
    · intro before k v after hsplit hafter
      rw [hsplit]
      exact mapIndex_foldl_last trimSpace k v before after hafter []
    · intro key hkey
      exact mapIndex_foldl_absent trimSpace key (kv :: kvs) hkey

/-- Witness of `parseMasterM3U8_variant`: the example of the spec, the line
`#EXT-X-STREAM-INF:BANDWIDTH=800000,NAME="480p",RESOLUTION=854x480` and then
`480p/index.m3u8`, gives the one variant `480p`, 800000, `854x480`. Here
`resolveURL` is taken to return the line. -/
theorem parseMasterM3U8_variant_witness :
    strings.HasPrefix (strings.trimSpaceASCII
      [35, 69, 88, 84, 45, 88, 45, 83, 84, 82, 69, 65, 77, 45, 73, 78, 70, 58, 66, 65, 78, 68,
        87, 73, 68, 84, 72, 61, 56, 48, 48, 48, 48, 48, 44, 78, 65, 77, 69, 61, 34, 52, 56, 48,
        112, 34, 44, 82, 69, 83, 79, 76, 85, 84, 73, 79, 78, 61, 56, 53, 52, 120, 52, 56, 48])
      streamInfTag = true ∧
    parseMasterM3U8 strings.trimSpaceASCII (fun _ line => line)
      [104, 116, 116, 112, 115, 58, 47, 47, 104, 47, 97, 47, 98, 47, 109, 97, 115, 116, 101, 114,
        46, 109, 51, 117, 56]
      [[35, 69, 88, 84, 45, 88, 45, 83, 84, 82, 69, 65, 77, 45, 73, 78, 70, 58, 66, 65, 78, 68,
        87, 73, 68, 84, 72, 61, 56, 48, 48, 48, 48, 48, 44, 78, 65, 77, 69, 61, 34, 52, 56, 48,
        112, 34, 44, 82, 69, 83, 79, 76, 85, 84, 73, 79, 78, 61, 56, 53, 52, 120, 52, 56, 48],
       [52, 56, 48, 112, 47, 105, 110, 100, 101, 120, 46, 109, 51, 117, 56]] false =
      .ok [⟨[52, 56, 48, 112], 800000, [56, 53, 52, 120, 52, 56, 48],
        [52, 56, 48, 112, 47, 105, 110, 100, 101, 120, 46, 109, 51, 117, 56], []⟩] :=
  ⟨by decide,
    (((parseMasterM3U8_variant strings.trimSpaceASCII (fun _ line => line)
      [104, 116, 116, 112, 115, 58, 47, 47, 104, 47, 97, 47, 98, 47, 109, 97, 115, 116, 101, 114,
        46, 109, 51, 117, 56]
      [] [] []
      [35, 69, 88, 84, 45, 88, 45, 83, 84, 82, 69, 65, 77, 45, 73, 78, 70, 58, 66, 65, 78, 68,
        87, 73, 68, 84, 72, 61, 56, 48, 48, 48, 48, 48, 44, 78, 65, 77, 69, 61, 34, 52, 56, 48,
        112, 34, 44, 82, 69, 83, 79, 76, 85, 84, 73, 79, 78, 61, 56, 53, 52, 120, 52, 56, 48]
      [52, 56, 48, 112, 47, 105, 110, 100, 101, 120, 46, 109, 51, 117, 56]
      800000 (by decide) (by decide) (fun _ h => by cases h) (by decide)).1 (by decide)).2
      [] Quality.zero [] Quality.zero rfl rfl).trans (by decide)⟩

/-! ## Claims C21 to C23: failures of the master playlist parse -/

/-- Claim C21 as stated fails: the attribute line
`#EXT-X-STREAM-INF:BANDWIDTH=-800000,NAME="480p"`, whose `BANDWIDTH` is a
negative integer, followed by `480p.m3u8` does not make the parse fail: the
result holds a variant with the bandwidth -800000. Here `resolveURL` is
taken to return the line. -/
theorem parseMasterM3U8_bandwidth_counterexample :
    parseMasterM3U8 strings.trimSpaceASCII (fun _ line => line)
      [104, 116, 116, 112, 115, 58, 47, 47, 104, 47, 97, 47, 98, 47, 109, 97, 115, 116, 101, 114,
        46, 109, 51, 117, 56]
      [[35, 69, 88, 84, 45, 88, 45, 83, 84, 82, 69, 65, 77, 45, 73, 78, 70, 58, 66, 65, 78, 68,
        87, 73, 68, 84, 72, 61, 45, 56, 48, 48, 48, 48, 48, 44, 78, 65, 77, 69, 61, 34, 52, 56,
        48, 112, 34],
       [52, 56, 48, 112, 46, 109, 51, 117, 56]] false =
      .ok [⟨[52, 56, 48, 112], -800000, [], [52, 56, 48, 112, 46, 109, 51, 117, 56], []⟩] ∧
    (-800000 : Int) < 0 := by
  decide

/-- Claim C21, amended: the parse fails as a whole, with the error `invalid
BANDWIDTH value`, whenever the `BANDWIDTH` of an attribute line is no
integer of 64 bits for `strconv.Atoi`, which is so when the value is empty
and when the line has no key `BANDWIDTH`. A negative integer is accepted.
Every variant of a successful result has the bandwidth that `strconv.Atoi`
read on an attribute line, a number from -2^63 up to 2^63 - 1. -/
theorem parseMasterM3U8_bandwidth (trimSpace : Bytes → Bytes)
    (resolveURL : Bytes → Bytes → Bytes) (masterURL : Bytes) (lines : List Bytes)
    (scanErr : Bool) :
    (∀ attr ∈ lines, strings.HasPrefix (trimSpace attr) streamInfTag = true →
      strconv.Atoi (mapIndex (parseAttributes trimSpace (trimSpace attr)) keyBandwidth) = none →
      parseMasterM3U8 trimSpace resolveURL masterURL lines scanErr =
        .error .invalidBandwidth) ∧
    (∀ attr ∈ lines, strings.HasPrefix (trimSpace attr) streamInfTag = true →
      mapIndex (parseAttributes trimSpace (trimSpace attr)) keyBandwidth = [] →
      parseMasterM3U8 trimSpace resolveURL masterURL lines scanErr =
        .error .invalidBandwidth) ∧
    (∀ attr ∈ lines, strings.HasPrefix (trimSpace attr) streamInfTag = true →
      ∀ (tag : Bytes) (kv : Bytes × Bytes) (kvs : List (Bytes × Bytes)),
        trimSpace attr =
          tag ++ 58 :: List.intercalate [44] ((kv :: kvs).map (fun x => x.1 ++ 61 :: x.2)) →
        (58 : Byte) ∉ tag →
        (∀ x ∈ kv :: kvs, (61 : Byte) ∉ x.1 ∧ (44 : Byte) ∉ x.1 ∧ (44 : Byte) ∉ x.2) →
        (∀ x ∈ kv :: kvs, trimSpace x.1 ≠ keyBandwidth) →
        parseMasterM3U8 trimSpace resolveURL masterURL lines scanErr =
          .error .invalidBandwidth) ∧
    (∀ qs, parseMasterM3U8 trimSpace resolveURL masterURL lines scanErr = .ok qs →
      ∀ q ∈ qs,
        (∃ attr ∈ lines, strings.HasPrefix (trimSpace attr) streamInfTag = true ∧
          strconv.Atoi (mapIndex (parseAttributes trimSpace (trimSpace attr)) keyBandwidth) =
            some q.Bandwidth) ∧
        -9223372036854775808 ≤ q.Bandwidth ∧ q.Bandwidth < 9223372036854775808) := by
  have hfail : ∀ attr ∈ lines, strings.HasPrefix (trimSpace attr) streamInfTag = true →
      strconv.Atoi (mapIndex (parseAttributes trimSpace (trimSpace attr)) keyBandwidth) = none →
      parseMasterM3U8 trimSpace resolveURL masterURL lines scanErr =
        .error .invalidBandwidth := by
    intro attr hmem hattr hbw
    exact parseMasterM3U8_of_scanLoop_error trimSpace resolveURL masterURL lines scanErr _
      (scanLoop_invalidBandwidth trimSpace resolveURL masterURL lines attr hmem hattr hbw _ _)
  refine ⟨hfail, ?_, ?_, ?_⟩
  · intro attr hmem hattr hempty
    exact hfail attr hmem hattr (by rw [hempty]; exact strconv.Atoi_nil)
  · intro attr hmem hattr tag kv kvs hline htag hkv habsent
    apply hfail attr hmem hattr
    rw [hline, parseAttributes_line trimSpace tag kv kvs htag hkv,
      mapIndex_foldl_absent trimSpace keyBandwidth (kv :: kvs) habsent]
    exact strconv.Atoi_nil
  · intro qs hok
    obtain ⟨⟨cur, hs⟩, _, _⟩ :=
      (parseMasterM3U8_ok_iff trimSpace resolveURL masterURL lines scanErr qs).mp hok
    have hall := scanLoop_bandwidths trimSpace resolveURL masterURL
      (fun b => ∃ attr ∈ lines, strings.HasPrefix (trimSpace attr) streamInfTag = true ∧
        strconv.Atoi (mapIndex (parseAttributes trimSpace (trimSpace attr)) keyBandwidth) =
          some b)
      lines (fun attr hmem hattr b hb => ⟨attr, hmem, hattr, hb⟩) [] Quality.zero qs cur
      (fun q hq => by cases hq) (fun hn => absurd rfl hn) hs
    intro q hq
    obtain ⟨attr, hmem, hattr, hb⟩ := hall q hq
    exact ⟨⟨attr, hmem, hattr, hb⟩, strconv.Atoi_range _ _ hb⟩

/-- Claim C22: a pending variant, introduced by an attribute line that no
line ending in `.m3u8` follows before the next attribute line or the end of
the text, is never emitted: the variants are those of the lines before it
followed by those of the lines after it. So the number of variants exceeds
neither the number of attribute lines nor the number of lines ending in
`.m3u8` that are no attribute lines. The example: of the attribute lines
`480p` and `720p` and the line `720p.m3u8` after them, the variant `720p`
alone is emitted. -/
theorem parseMasterM3U8_pending (trimSpace : Bytes → Bytes)
    (resolveURL : Bytes → Bytes → Bytes) (masterURL : Bytes) :
    (∀ (pre mid post : List Bytes) (attr : Bytes) (bandwidth : Int),
      strings.HasPrefix (trimSpace attr) streamInfTag = true →
      strconv.Atoi (mapIndex (parseAttributes trimSpace (trimSpace attr)) keyBandwidth) =
        some bandwidth →
      (∀ text ∈ mid, strings.HasPrefix (trimSpace text) streamInfTag = false ∧
        strings.HasSuffix (trimSpace text) m3u8Suffix = false) →
      (∀ text ∈ post.head?, strings.HasPrefix (trimSpace text) streamInfTag = true) →
      (scanLoop trimSpace resolveURL masterURL (pre ++ attr :: (mid ++ post)) []
          Quality.zero).map Prod.fst =
        (scanLoop trimSpace resolveURL masterURL pre [] Quality.zero).bind (fun s1 =>
          (scanLoop trimSpace resolveURL masterURL post [] Quality.zero).map (fun s2 =>
            s1.1 ++ s2.1))) ∧
    (∀ (lines : List Bytes) (scanErr : Bool) (qs : List Quality),
      parseMasterM3U8 trimSpace resolveURL masterURL lines scanErr = .ok qs →
      qs.length ≤
        (lines.filter (fun text => strings.HasPrefix (trimSpace text) streamInfTag)).length ∧
      qs.length ≤
        (lines.filter (fun text => ! strings.HasPrefix (trimSpace text) streamInfTag &&
          strings.HasSuffix (trimSpace text) m3u8Suffix)).length) ∧
    parseMasterM3U8 strings.trimSpaceASCII (fun _ line => line) []
      [[35, 69, 88, 84, 45, 88, 45, 83, 84, 82, 69, 65, 77, 45, 73, 78, 70, 58, 66, 65, 78, 68,
        87, 73, 68, 84, 72, 61, 56, 48, 48, 48, 48, 48, 44, 78, 65, 77, 69, 61, 34, 52, 56, 48,
        112, 34],
       [35, 69, 88, 84, 45, 88, 45, 83, 84, 82, 69, 65, 77, 45, 73, 78, 70, 58, 66, 65, 78, 68,
        87, 73, 68, 84, 72, 61, 49, 52, 48, 48, 48, 48, 48, 44, 78, 65, 77, 69, 61, 34, 55, 50,
        48, 112, 34],
       [55, 50, 48, 112, 46, 109, 51, 117, 56]] false =
      .ok [⟨[55, 50, 48, 112], 1400000, [], [55, 50, 48, 112, 46, 109, 51, 117, 56], []⟩] := by
  refine ⟨?_, ?_, by decide⟩
  · intro pre mid post attr bandwidth hattr hbw hmid hpost
    exact scanLoop_pending trimSpace resolveURL masterURL pre mid post attr bandwidth hattr hbw
      hmid hpost
  · intro lines scanErr qs hok
    obtain ⟨⟨cur, hs⟩, _, _⟩ :=
      (parseMasterM3U8_ok_iff trimSpace resolveURL masterURL lines scanErr qs).mp hok
    obtain ⟨h1, h2, _⟩ := scanLoop_length trimSpace resolveURL masterURL lines [] Quality.zero
      qs cur hs
    have hz : (if Quality.zero.Name ≠ [] then (1 : Nat) else 0) = 0 :=
      if_neg (fun hn => hn rfl)
    rw [hz, List.length_nil] at h1
    rw [List.length_nil] at h2
    constructor
    · omega
    · omega

/-- Claim C23: the parse never succeeds with an empty list of variants. It
returns an error for the empty text, for a text without attribute lines and
for a text in which every line ending in `.m3u8` is an attribute line, so
that no variant is completed; without an attribute line the error is `no
qualities found`, or the read error of the scanner. -/
theorem parseMasterM3U8_nonempty (trimSpace : Bytes → Bytes)
    (resolveURL : Bytes → Bytes → Bytes) (masterURL : Bytes) (lines : List Bytes)
    (scanErr : Bool) :
    (∀ qs, parseMasterM3U8 trimSpace resolveURL masterURL lines scanErr = .ok qs → qs ≠ []) ∧
    parseMasterM3U8 trimSpace resolveURL masterURL [] scanErr =
      .error (if scanErr then .readError else .noQualities) ∧
    ((∀ text ∈ lines, strings.HasPrefix (trimSpace text) streamInfTag = false) →
      parseMasterM3U8 trimSpace resolveURL masterURL lines scanErr =
        .error (if scanErr then .readError else .noQualities)) ∧
    ((∀ text ∈ lines, strings.HasPrefix (trimSpace text) streamInfTag = true ∨
        strings.HasSuffix (trimSpace text) m3u8Suffix = false) →
      ∃ e, parseMasterM3U8 trimSpace resolveURL masterURL lines scanErr = .error e) := by
  refine ⟨?_, ?_, ?_, ?_⟩
  · intro qs hok
    exact ((parseMasterM3U8_ok_iff trimSpace resolveURL masterURL lines scanErr qs).mp hok).2.2
  · exact parseMasterM3U8_of_scanLoop_nil trimSpace resolveURL masterURL [] scanErr
      Quality.zero rfl
  · intro hlines
    exact parseMasterM3U8_of_scanLoop_nil trimSpace resolveURL masterURL lines scanErr
      Quality.zero
      (scanLoop_no_attr trimSpace resolveURL masterURL lines hlines [] Quality.zero rfl)
  · intro hlines
    apply parseMasterM3U8_error_of_nil
    intro out cur hs
    obtain ⟨_, h2, _⟩ := scanLoop_length trimSpace resolveURL masterURL lines [] Quality.zero
      out cur hs
    have hnone : lines.filter (fun text =>
        ! strings.HasPrefix (trimSpace text) streamInfTag &&
          strings.HasSuffix (trimSpace text) m3u8Suffix) = [] := by
      rw [List.filter_eq_nil_iff]
      intro text ht
      rcases hlines text ht with h | h
      · simp [h]
      · simp [h]
    rw [hnone, List.length_nil, List.length_nil] at h2
    exact List.length_eq_zero.mp (Nat.le_zero.mp h2)

/-! ## Claim C24: the intro and outro windows -/

/-- Claim C24: for a media playlist whose `#EXTINF` lines declare the
durations `d1` to `dn`, each of them a number for `strconv.ParseFloat`, read
without an error of the scanner, `calculateIntroOutro` returns the intro
window from 0 to 90 and the outro window from `0.85 * T` to `0.85 * T + 60`,
with `T` the sum of the durations, whatever `T` is. Numbers of type `float64`
are exact rationals here. -/
theorem calculateIntroOutro_windows (trimSpace : Bytes → Bytes)
    (parseFloat : Bytes → Option ℚ) (lines : List Bytes) (ds : List ℚ)
    (h : ((lines.map trimSpace).filter (fun line => strings.HasPrefix line extinfTag)).map
        (fun line => parseFloat (strings.TrimRight (strings.TrimPrefix line extinfTag) 44)) =
      ds.map some) :
    calculateIntroOutro trimSpace parseFloat lines false =
      .ok (⟨0, 90⟩, ⟨85 / 100 * ds.sum, 85 / 100 * ds.sum + 60⟩) := by
  unfold calculateIntroOutro
  simp only
  rw [durationLoop_sum trimSpace parseFloat lines ds 0 h]
  simp only [Bool.false_eq_true, if_false, zero_add]
  rw [mul_comm]

/-- Witness of `calculateIntroOutro_windows`: the playlist with the lines
`#EXTM3U`, `#EXTINF:600,`, `seg0.ts`, `#EXTINF:400.0,` and `seg1.ts`, of 1000
seconds in all, gives the intro window from 0 to 90 and the outro window
from 850 to 910. -/
theorem calculateIntroOutro_windows_witness :
    ([600, 400] : List ℚ).sum = 1000 ∧
    calculateIntroOutro strings.trimSpaceASCII strconv.parseDecimal
      [[35, 69, 88, 84, 77, 51, 85],
       [35, 69, 88, 84, 73, 78, 70, 58, 54, 48, 48, 44],
       [115, 101, 103, 48, 46, 116, 115],
       [35, 69, 88, 84, 73, 78, 70, 58, 52, 48, 48, 46, 48, 44],
       [115, 101, 103, 49, 46, 116, 115]] false =
      .ok (⟨0, 90⟩, ⟨850, 910⟩) :=
  ⟨by norm_num,
    (calculateIntroOutro_windows strings.trimSpaceASCII strconv.parseDecimal
      [[35, 69, 88, 84, 77, 51, 85],
       [35, 69, 88, 84, 73, 78, 70, 58, 54, 48, 48, 44],
       [115, 101, 103, 48, 46, 116, 115],
       [35, 69, 88, 84, 73, 78, 70, 58, 52, 48, 48, 46, 48, 44],
       [115, 101, 103, 49, 46, 116, 115]]
      [600, 400] (by decide!)).trans (by norm_num)⟩

/-! ## Claims C25 and C26: `resolveURL` -/

/-- Claim C25 as stated fails, in three ways. For the base
`https://h/a/b/master.m3u8` and the target `480p.m3u8?tok=1`, `resolveURL`
returns `https://h/a/b/480p.m3u8`: the query of the target is gone. For the
base `https://h/a/../b/master.m3u8` and the target `480p.m3u8` it returns
`https://h/b/480p.m3u8`: the directory of the base is cleaned. For the base
`https://h/master.m3u8`, with no directory, and the target `480p.m3u8` it
returns `https://h//480p.m3u8`, with two slashes. -/
theorem resolveURL_relative_counterexample :
    resolveURL url.ParsePlain
      [104, 116, 116, 112, 115, 58, 47, 47, 104, 47, 97, 47, 98, 47, 109, 97, 115, 116, 101, 114,
        46, 109, 51, 117, 56]
      [52, 56, 48, 112, 46, 109, 51, 117, 56, 63, 116, 111, 107, 61, 49] =
      [104, 116, 116, 112, 115, 58, 47, 47, 104, 47, 97, 47, 98, 47, 52, 56, 48, 112, 46, 109, 51,
        117, 56] ∧
    resolveURL url.ParsePlain
      [104, 116, 116, 112, 115, 58, 47, 47, 104, 47, 97, 47, 46, 46, 47, 98, 47, 109, 97, 115,
        116, 101, 114, 46, 109, 51, 117, 56]
      [52, 56, 48, 112, 46, 109, 51, 117, 56] =
      [104, 116, 116, 112, 115, 58, 47, 47, 104, 47, 98, 47, 52, 56, 48, 112, 46, 109, 51, 117,
        56] ∧
    resolveURL url.ParsePlain
      [104, 116, 116, 112, 115, 58, 47, 47, 104, 47, 109, 97, 115, 116, 101, 114, 46, 109, 51,
        117, 56]
      [52, 56, 48, 112, 46, 109, 51, 117, 56] =
      [104, 116, 116, 112, 115, 58, 47, 47, 104, 47, 47, 52, 56, 48, 112, 46, 109, 51, 117, 56] := by
  decide

/-- Claim C25, amended: for a base URL `scheme://host/dir/file` whose host
is a plain host name, whose `dir` is made of one or more plain path elements
(none of them empty, `.` or `..`) and whose path holds no query, fragment,
percent sign or control byte, and for a relative target `r` of such bytes
that does not begin with a slash and has no colon before its first slash,
`resolveURL` returns the scheme in lower case, `://`, the host, `/dir`, a
slash and `r`. -/
theorem resolveURL_relative (scheme host seg : Bytes) (segs : List Bytes) (file r : Bytes)
    (hscheme : url.plainScheme scheme = true) (hhost : ∀ c ∈ host, url.hostByte c = true)
    (hsegs : ∀ s ∈ seg :: segs, url.plainElement s = true)
    (hfile : ∀ c ∈ file, url.plainByte c = true ∧ c ≠ 47)
    (hr : url.plainRelative r = true) :
    resolveURL url.ParsePlain
        (scheme ++ [58, 47, 47] ++ host ++
          (47 :: List.intercalate [47] (seg :: segs) ++ 47 :: file)) r =
      toLowerASCII scheme ++ [58, 47, 47] ++ host ++
        (47 :: List.intercalate [47] (seg :: segs)) ++ [47] ++ r := by
  have hp : ∀ c ∈ List.intercalate [47] (seg :: segs) ++ 47 :: file, url.plainByte c = true := by
    intro c hc
    rcases List.mem_append.mp hc with h | h
    · rcases url.mem_intercalate [47] c _ h with h1 | ⟨s, hs, h1⟩
      · rw [List.mem_singleton.mp h1]
        decide
      · exact (url.plainElement_spec s (hsegs s hs)).2 c h1
    · rcases List.mem_cons.mp h with h1 | h1
      · rw [h1]
        decide
      · exact (hfile c h1).1
  have hu := url.ParsePlain_absolute scheme host
    (List.intercalate [47] (seg :: segs) ++ 47 :: file) hscheme hhost hp
  have ht := url.ParsePlain_relative r hr
  have hdir := path.Dir_rooted seg segs file
    (fun s hs => (url.plainElement_spec s (hsegs s hs)).1)
    (fun e => (hfile _ e).2 rfl)
  rw [List.cons_append] at hdir
  rw [List.cons_append, resolveURL_parsed url.ParsePlain _ r _ _ hu ht]
  simp only
  rw [hdir]

set_option maxRecDepth 100000 in
/-- Witness of `resolveURL_relative`: the example of the claim, the base
`https://h/a/b/master.m3u8` and the target `480p/index.m3u8`, gives
`https://h/a/b/480p/index.m3u8`. -/
theorem resolveURL_relative_witness :
    url.plainRelative [52, 56, 48, 112, 47, 105, 110, 100, 101, 120, 46, 109, 51, 117, 56] =
      true ∧
    ([104, 116, 116, 112, 115] ++ [58, 47, 47] ++ [104] ++
        (47 :: List.intercalate [47] ([97] :: [[98]]) ++
          47 :: [109, 97, 115, 116, 101, 114, 46, 109, 51, 117, 56]) : Bytes) =
      [104, 116, 116, 112, 115, 58, 47, 47, 104, 47, 97, 47, 98, 47, 109, 97, 115, 116, 101, 114,
        46, 109, 51, 117, 56] ∧
    resolveURL url.ParsePlain
      [104, 116, 116, 112, 115, 58, 47, 47, 104, 47, 97, 47, 98, 47, 109, 97, 115, 116, 101, 114,
        46, 109, 51, 117, 56]
      [52, 56, 48, 112, 47, 105, 110, 100, 101, 120, 46, 109, 51, 117, 56] =
      [104, 116, 116, 112, 115, 58, 47, 47, 104, 47, 97, 47, 98, 47, 52, 56, 48, 112, 47, 105,
        110, 100, 101, 120, 46, 109, 51, 117, 56] :=
  ⟨by decide, by decide,
    resolveURL_relative [104, 116, 116, 112, 115] [104] [97] [[98]]
      [109, 97, 115, 116, 101, 114, 46, 109, 51, 117, 56]
      [52, 56, 48, 112, 47, 105, 110, 100, 101, 120, 46, 109, 51, 117, 56]
      (by decide) (by decide) (by decide) (by decide) (by decide)⟩

/-- Claim C26 as stated fails: for the base `https://h/a/b/master.m3u8` and
the target `https://cdn.x/v/480p.m3u8?tok=1`, an absolute URL, `resolveURL`
returns `https://h/a/b//v/480p.m3u8`, not the target: the host and the query
of the target are gone. -/
theorem resolveURL_absolute_counterexample :
    resolveURL url.ParsePlain
      [104, 116, 116, 112, 115, 58, 47, 47, 104, 47, 97, 47, 98, 47, 109, 97, 115, 116, 101, 114,
        46, 109, 51, 117, 56]
      [104, 116, 116, 112, 115, 58, 47, 47, 99, 100, 110, 46, 120, 47, 118, 47, 52, 56, 48, 112,
        46, 109, 51, 117, 56, 63, 116, 111, 107, 61, 49] =
      [104, 116, 116, 112, 115, 58, 47, 47, 104, 47, 97, 47, 98, 47, 47, 118, 47, 52, 56, 48, 112,
        46, 109, 51, 117, 56] ∧
    resolveURL url.ParsePlain
      [104, 116, 116, 112, 115, 58, 47, 47, 104, 47, 97, 47, 98, 47, 109, 97, 115, 116, 101, 114,
        46, 109, 51, 117, 56]
      [104, 116, 116, 112, 115, 58, 47, 47, 99, 100, 110, 46, 120, 47, 118, 47, 52, 56, 48, 112,
        46, 109, 51, 117, 56, 63, 116, 111, 107, 61, 49] ≠
      [104, 116, 116, 112, 115, 58, 47, 47, 99, 100, 110, 46, 120, 47, 118, 47, 52, 56, 48, 112,
        46, 109, 51, 117, 56, 63, 116, 111, 107, 61, 49] := by
  decide

/-- Claim C26, amended: every target line is resolved against the base,
an absolute one as well. When `url.Parse` takes the base and the target
apart, `resolveURL` returns the scheme, the host and the directory of the
base followed by a slash and the path of the target; the scheme, the host and
the query of the target are not used, so that two targets with the same path
give the same URL. In `parseMasterM3U8` that is the URL of the variant that a
line ending in `.m3u8` closes. A target is returned as it is only when the
base or the target does not parse. -/
theorem resolveURL_absolute (urlParse : Bytes → Option url.URL) (masterURL target : Bytes)
    (u t : url.URL) (hu : urlParse masterURL = some u) (ht : urlParse target = some t) :
    resolveURL urlParse masterURL target =
      u.Scheme ++ [58, 47, 47] ++ u.Host ++ path.Dir u.Path ++ [47] ++ t.Path ∧
    (∀ target' t', urlParse target' = some t' → t'.Path = t.Path →
      resolveURL urlParse masterURL target' = resolveURL urlParse masterURL target) ∧
    (∀ (trimSpace : Bytes → Bytes) (line : Bytes) (rest : List Bytes) (qualities : List Quality)
      (cur : Quality), trimSpace line = target →
      strings.HasPrefix (trimSpace line) streamInfTag = false →
      strings.HasSuffix (trimSpace line) m3u8Suffix = true → cur.Name ≠ [] →
      scanLoop trimSpace (resolveURL urlParse) masterURL (line :: rest) qualities cur =
        scanLoop trimSpace (resolveURL urlParse) masterURL rest
          (qualities ++ [{ cur with
            SubURL := u.Scheme ++ [58, 47, 47] ++ u.Host ++ path.Dir u.Path ++ [47] ++ t.Path }])
          Quality.zero) ∧
    (∀ other, urlParse other = none → resolveURL urlParse masterURL other = other) ∧
    (∀ base, urlParse base = none → resolveURL urlParse base target = target) := by
  have hres := resolveURL_parsed urlParse masterURL target u t hu ht
  refine ⟨hres, ?_, ?_, ?_, ?_⟩
  · intro target' t' ht' hp
    rw [hres, resolveURL_parsed urlParse masterURL target' u t' hu ht', hp]
  · intro trimSpace line rest qualities cur hline hpre hsuf hname
    rw [scanLoop_url trimSpace (resolveURL urlParse) masterURL line rest hpre hsuf qualities cur
      hname, hline, hres]
  · intro other hother
    unfold resolveURL
    rw [hu]
    simp only
    rw [hother]
  · intro base hbase
    unfold resolveURL
    rw [hbase]

/-- Witness of `resolveURL_absolute`: for the base
`https://h/a/b/master.m3u8` the absolute target `http://cdn.x/v/720p.m3u8`
gives `https://h/a/b//v/720p.m3u8`. -/
theorem resolveURL_absolute_witness :
    url.ParsePlain [104, 116, 116, 112, 58, 47, 47, 99, 100, 110, 46, 120, 47, 118, 47, 55, 50,
      48, 112, 46, 109, 51, 117, 56] =
      some ⟨[104, 116, 116, 112], [99, 100, 110, 46, 120],
        [47, 118, 47, 55, 50, 48, 112, 46, 109, 51, 117, 56], []⟩ ∧
    resolveURL url.ParsePlain
      [104, 116, 116, 112, 115, 58, 47, 47, 104, 47, 97, 47, 98, 47, 109, 97, 115, 116, 101, 114,
        46, 109, 51, 117, 56]
      [104, 116, 116, 112, 58, 47, 47, 99, 100, 110, 46, 120, 47, 118, 47, 55, 50, 48, 112, 46,
        109, 51, 117, 56] =
      [104, 116, 116, 112, 115, 58, 47, 47, 104, 47, 97, 47, 98, 47, 47, 118, 47, 55, 50, 48, 112,
        46, 109, 51, 117, 56] :=
  ⟨by decide,
    ((resolveURL_absolute url.ParsePlain
      [104, 116, 116, 112, 115, 58, 47, 47, 104, 47, 97, 47, 98, 47, 109, 97, 115, 116, 101, 114,
        46, 109, 51, 117, 56]
      [104, 116, 116, 112, 58, 47, 47, 99, 100, 110, 46, 120, 47, 118, 47, 55, 50, 48, 112, 46,
        109, 51, 117, 56]
      ⟨[104, 116, 116, 112, 115], [104],
        [47, 97, 47, 98, 47, 109, 97, 115, 116, 101, 114, 46, 109, 51, 117, 56], []⟩
      ⟨[104, 116, 116, 112], [99, 100, 110, 46, 120],
        [47, 118, 47, 55, 50, 48, 112, 46, 109, 51, 117, 56], []⟩
      (by decide) (by decide)).1).trans (by decide)⟩

/-! ## Claims C27 and C28: the source lists of `Extract` -/

/-- Claim C27, the code as it is: when `Extract` succeeds, the intro and
outro windows of the descriptor are those computed from the last primary
entry with a file, not from the first one: every primary entry with a file
writes them anew. The variants of all primary entries with a file are
appended in order to one list. -/
theorem Extract_timing_last {ε₁ ε₂ : Type} (toLower : Bytes → Bytes)
    (timing : Bytes → Except ε₁ (EpisodeTiming × EpisodeTiming))
    (parse : Bytes → Except ε₂ (List Quality)) (dataFile : gogoCdn) (result : Source)
    (h : Extract toLower timing parse dataFile = .ok result)
    (pre : List SourceEntry) (s : SourceEntry) (post : List SourceEntry)
    (hsplit : dataFile.Source = pre ++ s :: post) (hs : s.File ≠ [])
    (hpost : ∀ x ∈ post, x.File = []) :
    timing s.File = .ok (result.Intro, result.Outro) ∧
    result.Sources =
      ((dataFile.Source.filter (fun s => s.File ≠ [])).map (fun s =>
        match parse s.File with
        | .ok qualities => qualities
        | .error _ => [])).flatten := by
  obtain ⟨sources, hprim, hres⟩ := (Extract_ok_iff toLower timing parse dataFile result).mp h
  obtain ⟨_, h2, _, _, _, h6⟩ := primaryLoop_result timing parse dataFile.Source Source.zero
    sources hprim
  obtain ⟨_, _, b3, b4, b5⟩ := backupLoop_spec toLower dataFile.Bkp sources
  rw [hres, b3, b4, b5]
  refine ⟨h6 pre s post hsplit hs hpost, ?_⟩
  rw [h2]
  rfl

/-- Witness of `Extract_timing_last`, the failing input of claim C27: two
primary entries, `https://h/a.m3u8` with a playlist of 1000 seconds and
`https://h/b.m3u8` with one of 2000 seconds. The first entry has the outro
window from 850 to 910; the descriptor has the one of the second entry, from
1700 to 1760. -/
theorem Extract_timing_last_witness :
    calculateIntroOutro strings.trimSpaceASCII strconv.parseDecimal
      [[35, 69, 88, 84, 73, 78, 70, 58, 49, 48, 48, 48, 44]] false =
      .ok (⟨0, 90⟩, ⟨850, 910⟩) ∧
    Extract util.toLowerASCII
      (fun url => calculateIntroOutro strings.trimSpaceASCII strconv.parseDecimal
        (if url = [104, 116, 116, 112, 115, 58, 47, 47, 104, 47, 97, 46, 109, 51, 117, 56]
          then [[35, 69, 88, 84, 73, 78, 70, 58, 49, 48, 48, 48, 44]]
          else [[35, 69, 88, 84, 73, 78, 70, 58, 50, 48, 48, 48, 44]]) false)
      (fun _ => (.ok [⟨[52, 56, 48, 112], 800000, [], [118], []⟩] :
        Except ManifestError (List Quality)))
      ⟨[⟨[104, 116, 116, 112, 115, 58, 47, 47, 104, 47, 97, 46, 109, 51, 117, 56], []⟩,
        ⟨[104, 116, 116, 112, 115, 58, 47, 47, 104, 47, 98, 46, 109, 51, 117, 56], []⟩], []⟩ =
      .ok ⟨[⟨[52, 56, 48, 112], 800000, [], [118], []⟩, ⟨[52, 56, 48, 112], 800000, [], [118], []⟩],
        [], [], true, ⟨0, 90⟩, ⟨1700, 1760⟩, [], [], []⟩ ∧
    calculateIntroOutro strings.trimSpaceASCII strconv.parseDecimal
      [[35, 69, 88, 84, 73, 78, 70, 58, 50, 48, 48, 48, 44]] false =
      .ok (⟨0, 90⟩, ⟨1700, 1760⟩) :=
  ⟨by decide!, by decide!,
    (Extract_timing_last util.toLowerASCII
      (fun url => calculateIntroOutro strings.trimSpaceASCII strconv.parseDecimal
        (if url = [104, 116, 116, 112, 115, 58, 47, 47, 104, 47, 97, 46, 109, 51, 117, 56]
          then [[35, 69, 88, 84, 73, 78, 70, 58, 49, 48, 48, 48, 44]]
          else [[35, 69, 88, 84, 73, 78, 70, 58, 50, 48, 48, 48, 44]]) false)
      (fun _ => (.ok [⟨[52, 56, 48, 112], 800000, [], [118], []⟩] :
        Except ManifestError (List Quality)))
      ⟨[⟨[104, 116, 116, 112, 115, 58, 47, 47, 104, 47, 97, 46, 109, 51, 117, 56], []⟩,
        ⟨[104, 116, 116, 112, 115, 58, 47, 47, 104, 47, 98, 46, 109, 51, 117, 56], []⟩], []⟩
      ⟨[⟨[52, 56, 48, 112], 800000, [], [118], []⟩, ⟨[52, 56, 48, 112], 800000, [], [118], []⟩],
        [], [], true, ⟨0, 90⟩, ⟨1700, 1760⟩, [], [], []⟩
      (by decide!)
      [⟨[104, 116, 116, 112, 115, 58, 47, 47, 104, 47, 97, 46, 109, 51, 117, 56], []⟩]
      ⟨[104, 116, 116, 112, 115, 58, 47, 47, 104, 47, 98, 46, 109, 51, 117, 56], []⟩
      [] rfl (by decide) (fun _ hx => by cases hx)).1⟩

/-- Claim C28: the subtitle list of the descriptor is the list of the files,
in source order, of the backup entries with a file whose kind, lower-cased,
contains `subtitle`; the audio list is the list of the files, in source
order, of the other backup entries with a file whose kind, lower-cased,
contains `audio`; every other entry adds to neither list. `Extract` returns
the descriptor whenever its loop over the primary sources succeeds. The
example: of the entries `s.vtt` of kind `Subtitle`, `a.mp3` of kind `AUDIO`,
one of kind `audio` without a file and `x` of kind `video`, the first is the
one subtitle and the second the one audio. -/
theorem Extract_backups {ε₁ ε₂ : Type} (toLower : Bytes → Bytes)
    (timing : Bytes → Except ε₁ (EpisodeTiming × EpisodeTiming))
    (parse : Bytes → Except ε₂ (List Quality)) (dataFile : gogoCdn) :
    (∀ result, Extract toLower timing parse dataFile = .ok result →
      result.Subtitles =
        (dataFile.Bkp.filter (fun s => s.File ≠ [] ∧
          strings.Contains (toLower s.Kind) [115, 117, 98, 116, 105, 116, 108, 101] = true)).map
          (fun s => s.File) ∧
      result.Audio =
        (dataFile.Bkp.filter (fun s => s.File ≠ [] ∧
          strings.Contains (toLower s.Kind) [115, 117, 98, 116, 105, 116, 108, 101] = false ∧
          strings.Contains (toLower s.Kind) [97, 117, 100, 105, 111] = true)).map
          (fun s => s.File)) ∧
    (∀ sources, primaryLoop timing parse dataFile.Source Source.zero = .ok sources →
      ∃ result, Extract toLower timing parse dataFile = .ok result) ∧
    ((∀ s ∈ dataFile.Source, s.File = []) →
      ∃ result, Extract toLower timing parse dataFile = .ok result) ∧
    (backupLoop util.toLowerASCII
      [⟨[115, 46, 118, 116, 116], [83, 117, 98, 116, 105, 116, 108, 101]⟩,
       ⟨[97, 46, 109, 112, 51], [65, 85, 68, 73, 79]⟩,
       ⟨[], [97, 117, 100, 105, 111]⟩,
       ⟨[120], [118, 105, 100, 101, 111]⟩] Source.zero).Subtitles = [[115, 46, 118, 116, 116]] ∧
    (backupLoop util.toLowerASCII
      [⟨[115, 46, 118, 116, 116], [83, 117, 98, 116, 105, 116, 108, 101]⟩,
       ⟨[97, 46, 109, 112, 51], [65, 85, 68, 73, 79]⟩,
       ⟨[], [97, 117, 100, 105, 111]⟩,
       ⟨[120], [118, 105, 100, 101, 111]⟩] Source.zero).Audio = [[97, 46, 109, 112, 51]] := by
  have hex : ∀ sources, primaryLoop timing parse dataFile.Source Source.zero = .ok sources →
      ∃ result, Extract toLower timing parse dataFile = .ok result := fun sources hprim =>
    ⟨_, (Extract_ok_iff toLower timing parse dataFile _).mpr ⟨sources, hprim, rfl⟩⟩
  refine ⟨?_, hex, ?_, by decide, by decide⟩
  · intro result h
    obtain ⟨sources, hprim, hres⟩ := (Extract_ok_iff toLower timing parse dataFile result).mp h
    obtain ⟨_, _, p3, p4, _, _⟩ := primaryLoop_result timing parse dataFile.Source Source.zero
      sources hprim
    obtain ⟨b1, b2, _, _, _⟩ := backupLoop_spec toLower dataFile.Bkp sources
    rw [hres, b1, b2, p3, p4]
    exact ⟨rfl, rfl⟩
  · intro hall
    exact hex Source.zero (primaryLoop_no_file timing parse dataFile.Source Source.zero hall)

/-! ## Claim C29: `JaroWinkler` is total and index-safe -/

/-- Claim C29: `JaroWinkler` returns a value for all strings, so that no
read of `s1`, `s2`, `s1Matches` or `s2Matches` is out of range and every loop
ends. On two non-empty lower-cased strings the match search ends with flag
slices as long as the strings and with as many flags set in the one as in the
other, which is why the scan `for !s2Matches[k]` of the transposition count
finds a flag before the end of the slice; that count and the prefix count
end too. The match window of a position lies inside the second string. For
two strings of one byte `matchDistance` is -1 and the window is empty. -/
theorem JaroWinkler_index_safe (toLower : Bytes → Bytes) (a b : Bytes) :
    (∃ r, JaroWinkler toLower a b = some r) ∧
    (toLower a ≠ [] → toLower b ≠ [] →
      ∃ st t p,
        matchLoop (toLower a) (toLower b)
          (util.max (toLower a).length (toLower b).length / 2 - 1) 0 (toLower a).length
          ⟨List.replicate (toLower a).length false, List.replicate (toLower b).length false, 0⟩ =
          some st ∧
        st.s1Matches.length = (toLower a).length ∧
        st.s2Matches.length = (toLower b).length ∧
        st.s1Matches.count true = st.s2Matches.count true ∧
        st.matchCount = st.s1Matches.count true ∧
        transLoop (toLower a) (toLower b) st.s1Matches st.s2Matches 0 (toLower a).length 0 0 =
          some t ∧
        prefixLoop (toLower a) (toLower b) 0
          (util.min 4 (util.min (toLower a).length (toLower b).length)).toNat 0 = some p) ∧
    (∀ (n i : Nat) (d : Int) (j : Nat),
      (util.max 0 ((i : Int) - d)).toNat ≤ j →
      j < (util.max 0 ((i : Int) - d)).toNat +
        (util.min ((n : Int) - 1) ((i : Int) + d) + 1 - util.max 0 ((i : Int) - d)).toNat →
      j < n) ∧
    util.max 1 1 / 2 - 1 = -1 ∧
    (util.min ((1 : Int) - 1) ((0 : Int) + (-1)) + 1 - util.max 0 ((0 : Int) - (-1))).toNat =
      0 := by
  refine ⟨JaroWinkler_total toLower a b, ?_, ?_, by decide, by decide⟩
  · intro ha hb
    have hm : (toLower a).length ≠ 0 := fun h => ha (List.length_eq_zero.mp h)
    have hn : (toLower b).length ≠ 0 := fun h => hb (List.length_eq_zero.mp h)
    obtain ⟨st, P, hloop, inv⟩ := matchLoop_inv (toLower a) (toLower b)
      (util.max (toLower a).length (toLower b).length / 2 - 1) (toLower a).length 0 _ _
      (by omega) (MatchInv.init _ _ _)
    obtain ⟨f1, f2, f3⟩ := prefixFuel_le (toLower a).length (toLower b).length
    obtain ⟨p, hp, _, _⟩ := prefixLoop_spec (toLower a) (toLower b)
      (util.min 4 (util.min (toLower a).length (toLower b).length)).toNat 0 0
      (by omega) (by omega)
    have htrans := transLoop_spec (toLower a) (toLower b) st.s1Matches st.s2Matches
      inv.len1 inv.len2 (toLower a).length 0 0 0 (by omega)
      (by rw [List.drop_zero, List.drop_zero, ← inv.count1, ← inv.count2])
    exact ⟨st, _, p, hloop, inv.len1, inv.len2, by rw [← inv.count1, ← inv.count2],
      inv.count1, htrans, hp⟩
  · intro n i d j h1 h2
    exact ((window_iff n i d j).mp ⟨h1, h2⟩).2.2

/-! ## Claim C30: the paging parameters of `Search` -/

/-- Claim C30, the code as it is: for a query that is not empty and no
number, `Search` calls the search of AniList with a page and a number per
page. The number per page is honoured: it is 10 when `per_page` is absent or
does not parse and `pp` when it parses as `pp`. The page is not: it is 1 when
`page` is absent and still 1 when `page` parses as an integer, whatever the
integer, the test of the error being the wrong way round; when `page` does
not parse, the page is the number `strconv.Atoi` returns next to its
error. -/
theorem Search_paging (query pageParam perPageParam : Bytes) (hq : query ≠ [])
    (hid : strconv.Atoi query = none) :
    ∃ page perPage,
      controller.Search query pageParam perPageParam = .search query page perPage ∧
      (pageParam = [] → page = 1) ∧
      (∀ p, strconv.Atoi pageParam = some p → page = 1) ∧
      (∀ v e, pageParam ≠ [] → strconv.AtoiResult pageParam = (v, some e) → page = v) ∧
      (perPageParam = [] → perPage = 10) ∧
      (∀ pp, strconv.Atoi perPageParam = some pp → perPage = pp) ∧
      (strconv.Atoi perPageParam = none → perPage = 10) := by
  have hidr : ∃ v e, strconv.AtoiResult query = (v, some e) := by
    cases hr : strconv.AtoiResult query with
    | mk v e =>
      cases e with
      | none =>
        rw [(strconv.AtoiResult_ok_iff query v).mp hr] at hid
        cases hid
      | some e => exact ⟨v, e, rfl⟩
  obtain ⟨qv, qe, hqr⟩ := hidr
  refine ⟨if pageParam ≠ [] then
      (match strconv.AtoiResult pageParam with
        | (p, some _) => p
        | (_, none) => 1)
      else 1,
    if perPageParam ≠ [] then
      (match strconv.AtoiResult perPageParam with
        | (pp, none) => pp
        | (_, some _) => 10)
      else 10, ?_, ?_, ?_, ?_, ?_, ?_, ?_⟩
  · unfold controller.Search
    rw [if_neg hq]
    simp only [hqr]
  · intro h
    rw [if_neg (fun hn => hn h)]
  · intro p hp
    have hr := (strconv.AtoiResult_ok_iff pageParam p).mpr hp
    rw [hr]
    split_ifs <;> rfl
  · intro v e hne hr
    rw [if_pos hne, hr]
  · intro h
    rw [if_neg (fun hn => hn h)]
  · intro pp hpp
    have hne : perPageParam ≠ [] := by
      intro h
      rw [h] at hpp
      cases hpp
    have hr := (strconv.AtoiResult_ok_iff perPageParam pp).mpr hpp
    rw [if_pos hne, hr]
  · intro hnone
    by_cases hne : perPageParam = []
    · rw [if_neg (fun hn => hn hne)]
    · rw [if_pos hne]
      cases hr : strconv.AtoiResult perPageParam with
      | mk v e =>
        cases e with
        | none =>
          rw [(strconv.AtoiResult_ok_iff perPageParam v).mp hr] at hnone
          cases hnone
        | some e => rfl

/-- Witness of `Search_paging`, the failing input of claim C30: the request
with `q=naruto`, `page=5` and `per_page=20` is searched with the page 1 and
20 per page, though `5` parses as the integer 5; with `page=abc` the page
is 0. -/
theorem Search_paging_witness :
    strconv.Atoi [53] = some 5 ∧
    controller.Search [110, 97, 114, 117, 116, 111] [53] [50, 48] =
      .search [110, 97, 114, 117, 116, 111] 1 20 ∧
    controller.Search [110, 97, 114, 117, 116, 111] [97, 98, 99] [] =
      .search [110, 97, 114, 117, 116, 111] 0 10 ∧
    ∃ page perPage,
      controller.Search [110, 97, 114, 117, 116, 111] [53] [50, 48] =
        .search [110, 97, 114, 117, 116, 111] page perPage ∧ page = 1 :=
  ⟨by decide, by decide, by decide,
    (Search_paging [110, 97, 114, 117, 116, 111] [53] [50, 48] (by decide) (by decide)).imp
      (fun _ h => h.imp (fun _ h2 => ⟨h2.1, h2.2.2.1 5 (by decide)⟩))⟩

end Aniverse
